import Mathlib

/-!
# Mu tables: a verification development

Shallow embedding of the table engine of the Mu runtime
(`src/mu/tbl.c`, the index-size table, with the number encoding of
`src/mu/num.h`; `src/tbl.c`, the older stride table) and of the number codec
of the older implementation (`src/num.c`), and theorems about them.

Conventions of the embedding

* A `mu_t` is a 64-bit tagged word, modelled as a `Nat` (the `MU64` build of
  `src/mu/tbl.c`).  The word `0` is nil.
* `struct mtbl` is the record `mtbl`; its `array` is a list of words.  In
  pairs mode the indices are packed at the start of the same array, `isize`
  bytes each (little endian), exactly as the C code overlays them.
* A table reference is a `Tbl`: the null word, or a tagged pointer (`ro` is
  the read-only tag bit tested by `mu_isrtbl`) to a `mtbl` together with the
  reference stored in its `tail` field.
* Reference counting (`mu_inc`, `mu_dec`, `ref`) is not modelled.
* `mu_checkconst` and `mu_checklen` raise errors; an operation returns a
  `Res`, which carries the state of the table at the point of the error.
* A `num_t` of `src/num.c` is a binary32 floating-point value; a finite one is
  the rational number it denotes, and every arithmetic operation of the C code
  rounds its exact result to binary32 (to nearest, ties to even).  A text is
  the list of its bytes.
* The conversions of `src/mu/num.h` are also given for both widths of
  `mfloat_t` (`Build`: binary32 and binary64).
* Functions of files that are not among the sources (`mu_parsen`,
  `mu_num_add`, `mu_num_cmp`, `mu_num_sub`, the value operations of `var.h`)
  are parameters of the definitions that call them.
-/

namespace MuTbl

/-! ## Constants of the missing headers -/

/-- Modelled from the spec: `types.h` is not among the sources; the tag of a
number in the three low bits of the word ("the tag occupies low bits of a
floating-point bit pattern"), distinct from the nil word `0`. -/
def MTNUM : Nat := 1

/-- Modelled from the spec: `config.h` is not among the sources;
`MU_MINALLOC / sizeof(mu_t)`, the smallest number of words allocated for a
list ("power-of-two capacity"). -/
def MU_MINLIST : Nat := 4

/-- Modelled from the spec: `config.h` is not among the sources;
`MU_MINALLOC / psize`, the smallest number of indices of a pairs table. -/
def MU_MINPAIRS : Nat := 2

/-- Modelled from the spec: `types.h` is not among the sources; `(mlen_t)-1`,
the "maximum representable length" of a table, `mlen_t` being the 32-bit half
word of the 64-bit build. -/
def MU_MAXLEN : Nat := 2 ^ 32 - 1

/-- Conversion of an unsigned value to `mlen_t`. -/
def mlen (n : Nat) : Nat := n % 2 ^ 32

/-- The position of the highest set bit of a word, found by halving. -/
def ulog2_go : Nat → Nat → Nat
  | 0, _ => 0
  | f + 1, n => if n < 2 then 0 else ulog2_go f (n / 2) + 1

/-- The position of the highest set bit of a 64-bit word (`0` for `0`). -/
def ulog2 (n : Nat) : Nat := ulog2_go 64 n

/-- Modelled from the spec: `mu.h` is not among the sources; `mu_npw2(i)` is
the exponent of the "next power of 2", the least `p` with `i ≤ 2 ^ p`. -/
def mu_npw2 (i : Nat) : Nat := if i ≤ 1 then 0 else ulog2 (i - 1) + 1

/-! ## Numbers (`src/mu/num.h`) -/

/-- The IEEE-754 binary64 bit pattern of `(mfloat_t)n` for an unsigned `n`
(round to nearest, ties to even). -/
def float_of_uint (n : Nat) : Nat :=
  if n = 0 then 0
  else
    let e := ulog2 n
    if e ≤ 52 then (e + 1023) * 2 ^ 52 + (n * 2 ^ (52 - e) - 2 ^ 52)
    else
      let s := e - 52
      let q := n / 2 ^ s
      let r := n % 2 ^ s
      let h := 2 ^ (s - 1)
      let q1 := if h < r ∨ (r = h ∧ q % 2 = 1) then q + 1 else q
      (e + 1023) * 2 ^ 52 + (q1 - 2 ^ 52)

/-- The value `(muint_t)x` of the double with bit pattern `u`, truncated
toward zero.  Where C leaves the conversion undefined (negative below `-1`,
not finite, `2^64` or more) the model returns `0`. -/
def uint_of_float (u : Nat) : Nat :=
  let ex := u / 2 ^ 52 % 2 ^ 11
  let fr := u % 2 ^ 52
  if u / 2 ^ 63 % 2 = 1 then 0
  else if ex = 0 ∨ ex = 2047 then 0
  else if ex < 1075 then (2 ^ 52 + fr) / 2 ^ (1075 - ex)
  else if ex < 1087 then (2 ^ 52 + fr) * 2 ^ (ex - 1075)
  else 0

/-- `mu_num_fromuint`: the float bit pattern with the three low bits cleared
(`~7 & u`), plus the tag. -/
def mu_num_fromuint (n : Nat) : Nat :=
  MTNUM + (float_of_uint n - float_of_uint n % 8)

/-- `mu_num_getuint`: the word minus the tag (in 64-bit arithmetic), read as a
float and converted to `muint_t`. -/
def mu_num_getuint (m : Nat) : Nat :=
  uint_of_float ((m + 2 ^ 64 - MTNUM) % 2 ^ 64)

/-- `mu_isnum`: the tag bits of the word are `MTNUM`. -/
def mu_isnum (m : Nat) : Bool := m % 8 == MTNUM

/-! ## The index-size table (`src/mu/tbl.c`) -/

/-- The fields of `struct mtbl` other than `ref` and `tail`. -/
structure mtbl where
  npw2 : Nat
  isize : Nat
  len : Nat
  nils : Nat
  array : List Nat
deriving DecidableEq, Repr

/-- A table reference: null, or a pointer tagged mutable/read-only to a
`struct mtbl` whose `tail` field is again a reference. -/
inductive Tbl where
  | null : Tbl
  | ref (ro : Bool) (t : mtbl) (tail : Tbl) : Tbl
deriving DecidableEq, Repr

/-- The errors raised by `mu_checkconst` and `mu_checklen`. -/
inductive Err where
  | constViolation
  | lengthOverflow
deriving DecidableEq, Repr

/-- Outcome of an operation on a state `σ`: it returns with the new state, it
raises an error (the state is the one at that point), a probe loop never
exits (`hang`), or the recursion budget of the model is used up. -/
inductive Res (σ : Type) where
  | ok (s : σ)
  | error (e : Err) (s : σ)
  | hang
  | nofuel
deriving DecidableEq, Repr

/-- Sequencing: continue with `f` after a normal return. -/
def Res.bind {σ : Type} (r : Res σ) (f : σ → Res σ) : Res σ :=
  match r with
  | .ok s => f s
  | .error e s => .error e s
  | .hang => .hang
  | .nofuel => .nofuel

/-- Transport of the state, on return and on error alike. -/
def Res.map {σ τ : Type} (f : σ → τ) (r : Res σ) : Res τ :=
  match r with
  | .ok s => .ok (f s)
  | .error e s => .error e (f s)
  | .hang => .hang
  | .nofuel => .nofuel

/-- `mu_tbl_isize`. -/
def mu_tbl_isize (len : Nat) : Nat :=
  if len > 3221225472 then 8
  else if len > 57344 then 4
  else if len > 240 then 2
  else 1

/-- `mu_tbl_listnpw2`. -/
def mu_tbl_listnpw2 (len : Nat) : Nat :=
  mu_npw2 (if len < MU_MINLIST then MU_MINLIST else len)

/-- `mu_tbl_pairsnpw2`: the result and the value stored through `pisize`;
`psize = 2*sizeof(mu_t) = 16`. -/
def mu_tbl_pairsnpw2 (len : Nat) : Nat × Nat :=
  let isize := mu_tbl_isize len
  let indices := (16 * len + 15) / (16 - isize)
  (mu_npw2 (if indices < MU_MINPAIRS then MU_MINPAIRS else indices), isize)

/-- `mu_tbl_islist`. -/
def mu_tbl_islist (t : mtbl) : Bool := t.isize == 0

/-- `mu_tbl_count`. -/
def mu_tbl_count (t : mtbl) : Nat := t.len + t.nils

/-- `mu_tbl_size`: `1 << npw2`. -/
def mu_tbl_size (t : mtbl) : Nat := 2 ^ t.npw2

/-- `mu_tbl_off`. -/
def mu_tbl_off (t : mtbl) : Nat := (t.isize * mu_tbl_size t + 15) / 16

/-- `mu_tbl_hash` (the `MU64` branch). -/
def mu_tbl_hash (t : mtbl) (m : Nat) : Nat :=
  (m * 11400714819323198485 % 2 ^ 64) / 2 ^ (64 - t.npw2)

/-- `mu_tbl_getpair`: the index stored for slot `i`, read as `isize` bytes of
the array; the pair pointed to is `array[2*off]`, `array[2*off+1]`, and `0`
stands for the null pointer. -/
def mu_tbl_getpair (t : mtbl) (i : Nat) : Nat :=
  if t.isize = 1 ∨ t.isize = 2 ∨ t.isize = 4 ∨ t.isize = 8 then
    t.array.getD (i / (8 / t.isize)) 0 / 2 ^ (8 * t.isize * (i % (8 / t.isize)))
      % 2 ^ (8 * t.isize)
  else 0

/-- `mu_tbl_setpair`: store the pair index `j` for slot `i`, narrowed to
`isize` bytes. -/
def mu_tbl_setpair (t : mtbl) (i j : Nat) : mtbl :=
  if t.isize = 1 ∨ t.isize = 2 ∨ t.isize = 4 ∨ t.isize = 8 then
    let w := t.array.getD (i / (8 / t.isize)) 0
    let sh := 2 ^ (8 * t.isize * (i % (8 / t.isize)))
    let old := w / sh % 2 ^ (8 * t.isize)
    { t with array := (t.array.set (i / (8 / t.isize))
        (w - old * sh + j % 2 ^ (8 * t.isize) * sh)) }
  else t

/-- `mu_tbl_create`, without the tail (which it sets to 0). -/
def mu_tbl_create (len : Nat) : mtbl :=
  { npw2 := mu_tbl_listnpw2 (mlen len), isize := 0, len := 0, nils := 0,
    array := List.replicate (2 ^ mu_tbl_listnpw2 (mlen len)) 0 }

/-- Result of walking a probe sequence. -/
inductive Probe where
  | hit (p : Nat)
  | miss (slot : Nat)
  | hang
deriving DecidableEq, Repr

/-- The probe loop of `mu_tbl_lookup` and of `mu_tbl_insert`:
`for (i = hash;; i++)`, stopping at the first pair whose key is `k` (`hit`,
with the pair index) or at the first empty slot (`miss`, with the slot).  The
loop has period `size`; after `size` steps without an exit it never exits. -/
def mu_tbl_probe (t : mtbl) (k : Nat) : Nat → Nat → Probe
  | 0, _ => .hang
  | n + 1, i =>
    let p := mu_tbl_getpair t (i &&& (mu_tbl_size t - 1))
    if p ≠ 0 ∧ t.array.getD (2 * p) 0 = k then .hit p
    else if p = 0 then .miss (i &&& (mu_tbl_size t - 1))
    else mu_tbl_probe t k n (i + 1)

/-- The loop of `mu_tbl_lookup` over the tail chain; `none` when a probe loop
never exits. -/
def mu_tbl_lookup_chain : Tbl → Nat → Option Nat
  | .null, _ => some 0
  | .ref _ t tail, k =>
    if mu_tbl_islist t then
      let i := mu_num_getuint k &&& (mu_tbl_size t - 1)
      if k = mu_num_fromuint i then some (t.array.getD i 0)
      else mu_tbl_lookup_chain tail k
    else
      match mu_tbl_probe t k (mu_tbl_size t) (mu_tbl_hash t k) with
      | .hit p => some (t.array.getD (2 * p + 1) 0)
      | .miss _ => mu_tbl_lookup_chain tail k
      | .hang => none

/-- `mu_tbl_lookup`. -/
def mu_tbl_lookup (t : Tbl) (k : Nat) : Option Nat :=
  if k = 0 then some 0 else mu_tbl_lookup_chain t k

/-- `mu_tbl_listexpand`: a zeroed array of the new size with the first
`oldcount` words copied over. -/
def mu_tbl_listexpand (t : mtbl) (len : Nat) : mtbl :=
  { t with
    npw2 := mu_tbl_listnpw2 len
    array := (List.range (2 ^ mu_tbl_listnpw2 len)).map
      (fun i => if i < mu_tbl_count t then t.array.getD i 0 else 0) }

/-- One iteration of the loop of `mu_tbl_pairsexpand`: the entry `i` of the
old array is inserted again, through the function `ins`. -/
def mu_tbl_pairsexpand_step (ins : mtbl → Nat → Nat → Res mtbl) (waslist : Bool)
    (oldarray : List Nat) (oldoff : Nat) (r : Res mtbl) (i : Nat) : Res mtbl :=
  r.bind fun s =>
    if waslist then ins s (mu_num_fromuint i) (oldarray.getD i 0)
    else ins s (oldarray.getD (2 * (i + oldoff)) 0) (oldarray.getD (2 * (i + oldoff) + 1) 0)

/-- `mu_tbl_pairsexpand`, given the function `ins` it calls back
(`mu_tbl_insert` on the same, mutable, reference).  The new array is taken
zeroed; the C code zeroes only its index region. -/
def mu_tbl_pairsexpand (ins : mtbl → Nat → Nat → Res mtbl) (t : mtbl) (len : Nat) :
    Res mtbl :=
  (List.range (mu_tbl_count t)).foldl
    (mu_tbl_pairsexpand_step ins (mu_tbl_islist t) t.array (mu_tbl_off t))
    (.ok { npw2 := (mu_tbl_pairsnpw2 len).1, isize := (mu_tbl_pairsnpw2 len).2, len := 0,
           nils := 0, array := List.replicate (2 * 2 ^ (mu_tbl_pairsnpw2 len).1) 0 })

/-- `mu_tbl_insert` on the reference with tag `ro` to `t`.  `fuel` bounds the
depth of the recursion through `mu_tbl_listexpand` / `mu_tbl_pairsexpand`. -/
def mu_tbl_insert (fuel : Nat) (ro : Bool) (t : mtbl) (k v : Nat) : Res mtbl :=
  if ro then .error .constViolation t
  else if k = 0 then .ok t
  else
    match fuel with
    | 0 => .nofuel
    | fuel + 1 =>
      let mask := mu_tbl_size t - 1
      if mu_tbl_islist t then
        let i := mu_num_getuint k &&& mask
        if k = mu_num_fromuint i ∧ t.array.getD i 0 ≠ 0 then
          .ok { t with
            array := t.array.set i v
            len := mlen (t.len + (if v ≠ 0 then 1 else 0) + 2 ^ 32 - 1)
            nils := mlen (t.nils + (if v = 0 then 1 else 0)) }
        else if v = 0 then .ok t
        else if ¬ (t.len + 1 ≤ MU_MAXLEN) then .error .lengthOverflow t
        else if k ≠ mu_num_fromuint i then
          let i2 := mu_num_getuint k &&& (2 * mask + 1)
          if k = mu_num_fromuint i2 then
            mu_tbl_insert fuel false (mu_tbl_listexpand t (mlen (i2 + 1))) k v
          else
            (mu_tbl_pairsexpand (mu_tbl_insert fuel false) t (mlen (t.len + 1))).bind
              fun s => mu_tbl_insert fuel false s k v
        else
          .ok { t with
            array := t.array.set i v
            len := mlen (t.len + 1)
            nils := mlen (t.nils + i + (2 ^ 32 - (mlen (t.len + 1) - 1))) }
      else
        match mu_tbl_probe t k (mu_tbl_size t) (mu_tbl_hash t k) with
        | .hang => .hang
        | .hit p =>
          let oldv := t.array.getD (2 * p + 1) 0
          .ok { t with
            array := t.array.set (2 * p + 1) v
            len := mlen (t.len + (if v ≠ 0 then 1 else 0) + 2 ^ 32 - (if oldv ≠ 0 then 1 else 0))
            nils := mlen (t.nils + (if v = 0 then 1 else 0) + 2 ^ 32 - (if oldv = 0 then 1 else 0)) }
        | .miss slot =>
          if v = 0 then .ok t
          else if ¬ (t.len + 1 ≤ MU_MAXLEN) then .error .lengthOverflow t
          else
            let j := mu_tbl_off t + mu_tbl_count t
            if j ≥ mu_tbl_size t then
              (mu_tbl_pairsexpand (mu_tbl_insert fuel false) t (mlen (t.len + 1))).bind
                fun s => mu_tbl_insert fuel false s k v
            else
              .ok (mu_tbl_setpair
                { t with
                  array := (t.array.set (2 * j) k).set (2 * j + 1) v
                  len := mlen (t.len + 1) } slot j)

/-- The `do ... while (!v)` loop of `mu_tbl_next`, `n` being `count - i`. -/
def mu_tbl_next_loop (t : mtbl) : Nat → Nat → Option (Nat × Nat × Nat)
  | 0, _ => none
  | n + 1, i =>
    if i ≥ mu_tbl_count t then none
    else
      let k := if mu_tbl_islist t then mu_num_fromuint i
               else t.array.getD (2 * (i + mu_tbl_off t)) 0
      let v := if mu_tbl_islist t then t.array.getD i 0
               else t.array.getD (2 * (i + mu_tbl_off t) + 1) 0
      if v ≠ 0 then some (i + 1, k, v) else mu_tbl_next_loop t n (i + 1)

/-- `mu_tbl_next`: `none` for `false`, otherwise the new position, the key and
the value. -/
def mu_tbl_next (t : mtbl) (i : Nat) : Option (Nat × Nat × Nat) :=
  mu_tbl_next_loop t (mu_tbl_count t - i) i

/-- `memmove(&a[dst], &a[src], n * sizeof(mu_t))` inside the array `a`. -/
def memmove_words (a : List Nat) (dst src n : Nat) : List Nat :=
  (List.range a.length).map
    (fun q => if dst ≤ q ∧ q < dst + n then a.getD (src + (q - dst)) 0 else a.getD q 0)

/-- `memset(a, 0, n)`: the first `n` bytes of the array are cleared. -/
def memset_bytes (a : List Nat) (n : Nat) : List Nat :=
  (List.range a.length).map
    (fun q =>
      if 8 * (q + 1) ≤ n then 0
      else if 8 * q < n then a.getD q 0 / 2 ^ (8 * (n - 8 * q)) * 2 ^ (8 * (n - 8 * q))
      else a.getD q 0)

/-- The index normalisation of `mu_tbl_push` and `mu_tbl_pop`:
`i = (i >= 0) ? i : i + len; i = (i > len) ? len : (i < 0) ? 0 : i`. -/
def mu_tbl_index (t : mtbl) (i : Int) : Nat :=
  (if (if i ≥ 0 then i else i + (t.len : Int)) > (t.len : Int) then (t.len : Int)
   else if (if i ≥ 0 then i else i + (t.len : Int)) < 0 then 0
   else (if i ≥ 0 then i else i + (t.len : Int))).toNat

/-- The first loop of the pairs branch of `mu_tbl_push` and `mu_tbl_pop`:
`for (j = 0; j < i; j++)`, which reinserts the pairs before position `i` and
moves `i` past every nil value; it returns the table and the final `i`.  The
budget `n` bounds the number of iterations. -/
def mu_tbl_reinsert_head (ins : mtbl → Nat → Nat → Res mtbl) (off : Nat) :
    Nat → mtbl → Nat → Nat → Res (mtbl × Nat)
  | 0, _, _, _ => .nofuel
  | n + 1, t, j, i =>
    if j < i then
      if t.array.getD (2 * (j + off) + 1) 0 = 0 then
        mu_tbl_reinsert_head ins off n t (j + 1) (i + 1)
      else
        match ins t (t.array.getD (2 * (j + off)) 0) (t.array.getD (2 * (j + off) + 1) 0) with
        | .ok s => mu_tbl_reinsert_head ins off n s (j + 1) i
        | .error e s => .error e (s, i)
        | .hang => .hang
        | .nofuel => .nofuel
    else .ok (t, i)

/-- `mu_tbl_push` on the reference with tag `ro` to `t`.  `num_add` is
`mu_num_add`, whose definition is not among the sources; it is used by the
pairs branch only. -/
def mu_tbl_push (num_add : Nat → Nat → Nat) (fuel : Nat) (ro : Bool) (t : mtbl) (p : Nat)
    (i : Int) : Res mtbl :=
  if ro then .error .constViolation t
  else
    let i := mu_tbl_index t i
    let r : Res mtbl :=
      if mu_tbl_count t + 1 ≥ mu_tbl_size t then
        if ¬ (t.len + 1 ≤ MU_MAXLEN) then .error .lengthOverflow t
        else if mu_tbl_islist t then .ok (mu_tbl_listexpand t (mlen (mu_tbl_count t + 1)))
        else mu_tbl_pairsexpand (mu_tbl_insert fuel false) t (mlen (mu_tbl_count t + 1))
      else .ok t
    r.bind fun t =>
      if mu_tbl_islist t then
        .ok { t with
          array := (memmove_words t.array (i + 1) i (mu_tbl_size t - (i + 1))).set i p
          len := mlen (t.len + (if p ≠ 0 then 1 else 0)) }
      else
        let off := mu_tbl_off t
        let count := mu_tbl_count t
        match mu_tbl_reinsert_head (mu_tbl_insert fuel false) off (mu_tbl_size t)
            { t with len := 0, nils := 0, array := memset_bytes t.array (mu_tbl_size t) } 0 i with
        | .error e s => .error e s.1
        | .hang => .hang
        | .nofuel => .nofuel
        | .ok (t1, i) =>
          (mu_tbl_insert fuel false
            { t1 with array := memmove_words t1.array (2 * (i + 1 + off)) (2 * (i + off))
                        (2 * (mu_tbl_size t1 - (i + 1 + off))) }
            (mu_num_fromuint i) p).bind fun t2 =>
          (List.range (count - i)).foldl
            (fun r d => r.bind fun s =>
              let k := s.array.getD (2 * (i + d + 1 + off)) 0
              mu_tbl_insert fuel false s (if mu_isnum k then num_add k (mu_num_fromuint 1) else k)
                (s.array.getD (2 * (i + d + 1 + off) + 1) 0))
            (.ok t2)

/-- `mu_tbl_pop` on the reference with tag `ro` to `t`; the state is the table
and the value returned.  `num_sub` is `mu_num_sub`, whose definition is not
among the sources; it is used by the pairs branch only. -/
def mu_tbl_pop (num_sub : Nat → Nat → Nat) (fuel : Nat) (ro : Bool) (t : mtbl) (i : Int) :
    Res (mtbl × Nat) :=
  if ro then .error .constViolation (t, 0)
  else
    let i := mu_tbl_index t i
    if mu_tbl_islist t then
      let p := t.array.getD i 0
      .ok ({ t with
          array := memmove_words t.array i (i + 1) (mu_tbl_size t - (i + 1))
          len := mlen (t.len + 2 ^ 32 - (if p ≠ 0 then 1 else 0)) }, p)
    else
      let off := mu_tbl_off t
      let count := mu_tbl_count t
      match mu_tbl_reinsert_head (mu_tbl_insert fuel false) off (mu_tbl_size t)
          { t with len := 0, nils := 0, array := memset_bytes t.array (mu_tbl_size t) } 0 i with
      | .error e s => .error e (s.1, 0)
      | .hang => .hang
      | .nofuel => .nofuel
      | .ok (t1, i) =>
        let p := t1.array.getD (2 * (i + off) + 1) 0
        ((List.range (count - (i + 1))).foldl
          (fun (r : Res mtbl) d => r.bind fun s =>
            let k := s.array.getD (2 * (i + 1 + d + off)) 0
            mu_tbl_insert fuel false s (if mu_isnum k then num_sub k (mu_num_fromuint 1) else k)
              (s.array.getD (2 * (i + 1 + d + off) + 1) 0))
          (Res.ok t1)).map (fun s => (s, p))

/-! ## Representation invariant and content of a table -/

/-- The invariant of a list-mode table: the array has `1 << npw2` words, the
first `len + nils` of which may be in use. -/
def mu_tbl_wf_list (t : mtbl) : Prop :=
  t.isize = 0 ∧ t.npw2 ≤ 30 ∧ t.array.length = mu_tbl_size t ∧
  mu_tbl_count t ≤ mu_tbl_size t ∧
  ∀ i < mu_tbl_size t, mu_tbl_count t ≤ i → t.array.getD i 0 = 0

/-- The invariant of a pairs-mode table: the pairs `off .. off+count-1` are
in use, every index points to one of them, every pair is reached by the probe
sequence of its key, no key occurs twice, and some slot is empty. -/
def mu_tbl_wf_pairs (t : mtbl) : Prop :=
  (t.isize = 1 ∨ t.isize = 2 ∨ t.isize = 4 ∨ t.isize = 8) ∧
  1 ≤ t.npw2 ∧ t.npw2 ≤ 30 ∧ t.array.length = 2 * mu_tbl_size t ∧
  mu_tbl_off t + mu_tbl_count t ≤ mu_tbl_size t ∧
  (∀ i < mu_tbl_size t, mu_tbl_getpair t i = 0 ∨
    (mu_tbl_off t ≤ mu_tbl_getpair t i ∧ mu_tbl_getpair t i < mu_tbl_off t + mu_tbl_count t)) ∧
  (∃ i < mu_tbl_size t, mu_tbl_getpair t i = 0) ∧
  (∀ j < mu_tbl_count t, t.array.getD (2 * (mu_tbl_off t + j)) 0 ≠ 0 ∧
    ∃ n < mu_tbl_size t,
      mu_tbl_getpair t
        ((mu_tbl_hash t (t.array.getD (2 * (mu_tbl_off t + j)) 0) + n) % mu_tbl_size t)
        = mu_tbl_off t + j ∧
      ∀ m < n, mu_tbl_getpair t
        ((mu_tbl_hash t (t.array.getD (2 * (mu_tbl_off t + j)) 0) + m) % mu_tbl_size t) ≠ 0) ∧
  (∀ j < mu_tbl_count t, ∀ j2 < mu_tbl_count t,
    t.array.getD (2 * (mu_tbl_off t + j)) 0 = t.array.getD (2 * (mu_tbl_off t + j2)) 0 → j = j2)

/-- The representation invariant of a table. -/
def mu_tbl_wf (t : mtbl) : Prop :=
  if t.isize = 0 then mu_tbl_wf_list t else mu_tbl_wf_pairs t

/-- The table `t` itself (not its tail) holds the live entry `k ↦ v`: one of
the entries that `mu_tbl_next` enumerates. -/
def mu_tbl_holds (t : mtbl) (k v : Nat) : Prop :=
  v ≠ 0 ∧
  if t.isize = 0 then
    ∃ i < mu_tbl_count t, k = mu_num_fromuint i ∧ t.array.getD i 0 = v
  else
    ∃ j < mu_tbl_count t, t.array.getD (2 * (mu_tbl_off t + j)) 0 = k ∧
      t.array.getD (2 * (mu_tbl_off t + j) + 1) 0 = v

/-- A dense list: a list-mode table holding exactly the non-nil values `vs`
under the keys `0 .. vs.length-1`. -/
def mu_tbl_dense (t : mtbl) (vs : List Nat) : Prop :=
  t.isize = 0 ∧ 2 ≤ t.npw2 ∧ t.npw2 ≤ 30 ∧ t.len = vs.length ∧ t.nils = 0 ∧
  vs.length ≤ 2 ^ t.npw2 ∧ (∀ v ∈ vs, v ≠ 0) ∧
  t.array = vs ++ List.replicate (2 ^ t.npw2 - vs.length) 0

instance (t : mtbl) : Decidable (mu_tbl_wf_list t) := by
  unfold mu_tbl_wf_list; infer_instance

instance (t : mtbl) : Decidable (mu_tbl_wf_pairs t) := by
  unfold mu_tbl_wf_pairs; infer_instance

instance (t : mtbl) : Decidable (mu_tbl_wf t) := by
  unfold mu_tbl_wf; infer_instance

instance (t : mtbl) (k v : Nat) : Decidable (mu_tbl_holds t k v) := by
  unfold mu_tbl_holds; infer_instance

instance (t : mtbl) (vs : List Nat) : Decidable (mu_tbl_dense t vs) := by
  unfold mu_tbl_dense; infer_instance


/-! ## Example tables -/

/-- The empty table, `mu_tbl_create(0)`. -/
def ex_empty : mtbl := mu_tbl_create 0

/-- The list-mode table holding the one entry `0 ↦ 4099`. -/
def ex_list1 : mtbl := ⟨2, 0, 1, 0, [4099, 0, 0, 0]⟩

/-- The list `[4099, 4107, 4115]` (three non-numeric words). -/
def ex_abc : mtbl := ⟨2, 0, 3, 0, [4099, 4107, 4115, 0]⟩

/-- The pairs-mode table holding the one entry `4123 ↦ 4139`. -/
def ex_pairs1 : mtbl := ⟨1, 1, 1, 0, [1, 0, 4123, 4139]⟩

/-- The pairs-mode table that held the key `4123` and deleted it. -/
def ex_deleted : mtbl := ⟨1, 1, 0, 1, [1, 0, 4123, 0]⟩

/-- The table reached from `mu_tbl_create(0)` by inserting the keys 1 and
3. -/
def ex_holes : mtbl := ⟨2, 0, 2, 3, [0, 4107, 0, 4123]⟩

/-- The loop of `mu_tbl_fromlist` on the table `t`:
`for (i = 0; i < n; i++) mu_tbl_insert(t, mu_num_fromuint(i), list[i])`. -/
def mu_tbl_insert_list (fuel : Nat) (t : mtbl) (list : List Nat) (n : Nat) : Res mtbl :=
  (List.range n).foldl
    (fun r i => r.bind fun s => mu_tbl_insert fuel false s (mu_num_fromuint i) (list.getD i 0))
    (.ok t)

/-- `mu_tbl_fromlist`. -/
def mu_tbl_fromlist (fuel : Nat) (list : List Nat) : Res mtbl :=
  mu_tbl_insert_list fuel (mu_tbl_create list.length) list list.length

/-- The values `v_0 .. v_238` of the dense list `ex_list239`: 239 distinct
non-numeric words. -/
def ex_vals239 : List Nat := (List.range 239).map (fun i => 4099 + 8 * i)

/-- A dense list of 239 values, in an array of 256 words. -/
def ex_list239 : mtbl := ⟨8, 0, 239, 0, ex_vals239 ++ List.replicate 17 0⟩

/-! ## The stride table (`src/tbl.c`) -/

/-- The operations on values that `src/tbl.c` takes from headers that are not
among the sources (`var.h`, `num.h`, `config.h`), as parameters: `ishash`,
`mu_hash`, `getuint`, `muint`, `mu_equals` and the constant `MU_MINALLOC`.
A value is a word; nil is the word `0`, the pattern that `memset(array, 0, ..)`
writes and `isnil` recognises. -/
structure VarEnv where
  ishash : Nat → Bool
  mu_hash : Nat → Nat
  getuint : Nat → Nat
  muint : Nat → Nat
  mu_equals : Nat → Nat → Bool
  minalloc : Nat

/-- The fields of `tbl_t` other than the reference count and `tail`. -/
structure tbl_t where
  npw2 : Nat
  len : Nat
  nils : Nat
  stride : Nat
  offset : Nat
  array : List Nat
deriving DecidableEq, Repr

/-- A reference to a stride table: null, or a pointer (read-only or not, as
`tbl_isro` tests) to a `tbl_t` and the reference in its `tail` field. -/
inductive TblPtr where
  | null : TblPtr
  | ref (ro : Bool) (t : tbl_t) (tail : TblPtr) : TblPtr
deriving DecidableEq, Repr

/-- Arithmetic of `hash_t`, a 32-bit unsigned word. -/
def hash_t (n : Nat) : Nat := n % 2 ^ 32

/-- `tbl_ncap`. -/
def tbl_ncap (s : Nat) : Nat := hash_t (s + s / 2)

/-- `tbl_next`. -/
def tbl_next (i : Nat) : Nat := hash_t (i * 4 + i + 1)

/-- `tbl_npw2`. -/
def tbl_npw2 (E : VarEnv) (i : Nat) : Nat :=
  if i = 0 then mu_npw2 E.minalloc else mu_npw2 i

/-- `tbl_create`, without the tail; no array is allocated. -/
def tbl_create (E : VarEnv) (size : Nat) : tbl_t :=
  { npw2 := tbl_npw2 E (tbl_ncap size), len := 0, nils := 0, stride := 0, offset := 0,
    array := [] }

/-- The probe loop of `tbl_lookup`, `for (i = hash;; i = tbl_next(i))`: `hit`
with the slot of the first pair whose key equals `key` and whose value is not
nil, `miss` at the first slot with a nil key.  The slot visited next is
determined by the slot, so a loop that has not stopped after `1 << npw2`
steps never stops. -/
def tbl_lookup_probe (E : VarEnv) (t : tbl_t) (key : Nat) : Nat → Nat → Probe
  | 0, _ => .hang
  | n + 1, i =>
    let mi := i &&& (2 ^ t.npw2 - 1)
    if t.array.getD (2 * mi) 0 = 0 then .miss mi
    else if E.mu_equals key (t.array.getD (2 * mi) 0) ∧ t.array.getD (2 * mi + 1) 0 ≠ 0 then
      .hit mi
    else tbl_lookup_probe E t key n (tbl_next i)

/-- The loop of `tbl_lookup` over the tail chain; `none` when a probe loop
never stops. -/
def tbl_lookup_chain (E : VarEnv) (key : Nat) : TblPtr → Option Nat
  | .null => some 0
  | .ref _ t tail =>
    if t.stride < 2 then
      if E.ishash key ∧ E.mu_hash key < t.len then
        if t.stride = 0 then some (E.muint (hash_t (E.mu_hash key + t.offset)))
        else some (t.array.getD (E.mu_hash key) 0)
      else tbl_lookup_chain E key tail
    else
      match tbl_lookup_probe E t key (2 ^ t.npw2) (E.mu_hash key) with
      | .hit mi => some (t.array.getD (2 * mi + 1) 0)
      | .miss _ => tbl_lookup_chain E key tail
      | .hang => none

/-- `tbl_lookup`. -/
def tbl_lookup (E : VarEnv) (t : TblPtr) (key : Nat) : Option Nat :=
  if key = 0 then some 0 else tbl_lookup_chain E key t

/-- `tbl_realizevals`; the words of the new array beyond `len` are not
initialised by the C code and are taken to be `0`. -/
def tbl_realizevals (E : VarEnv) (t : tbl_t) : tbl_t :=
  { t with
    array := (List.range (2 ^ t.npw2)).map
      (fun i => if i < t.len then E.muint (hash_t (i + t.offset)) else 0)
    stride := 1 }

/-- `tbl_realizekeys`. -/
def tbl_realizekeys (E : VarEnv) (t : tbl_t) : tbl_t :=
  { t with
    array := (List.range (2 * 2 ^ t.npw2)).map
      (fun q =>
        if q / 2 < t.len then
          if q % 2 = 0 then E.muint (q / 2)
          else if t.stride = 0 then E.muint (hash_t (q / 2 + t.offset))
          else t.array.getD (q / 2) 0
        else 0)
    stride := 2 }

/-- The inner loop of the rehash in `tbl_resize`: the first slot of the new
array with a nil key on the probe sequence from `i`. -/
def tbl_resize_probe (array : List Nat) (mask : Nat) : Nat → Nat → Option Nat
  | 0, _ => none
  | n + 1, i =>
    if array.getD (2 * (i &&& mask)) 0 = 0 then some (i &&& mask)
    else tbl_resize_probe array mask n (tbl_next i)

/-- `tbl_resize`; `none` when a probe loop of the rehash never stops.  The
words of a new list array beyond `len` are not initialised by the C code and
are taken to be `0`. -/
def tbl_resize (E : VarEnv) (t : tbl_t) (len : Nat) : Option tbl_t :=
  let npw2 := tbl_npw2 E (tbl_ncap len)
  if t.stride < 2 then
    if t.stride = 0 then some { t with npw2 := npw2 }
    else
      some { t with
        array := (List.range (2 ^ npw2)).map (fun i => if i < t.len then t.array.getD i 0 else 0)
        npw2 := npw2 }
  else
    ((List.range (2 ^ t.npw2)).foldl
      (fun (r : Option (List Nat)) j => r.bind fun array =>
        if t.array.getD (2 * j) 0 = 0 ∨ t.array.getD (2 * j + 1) 0 = 0 then some array
        else
          (tbl_resize_probe array (2 ^ npw2 - 1) (2 ^ npw2)
              (E.mu_hash (t.array.getD (2 * j) 0))).map
            fun mi => (array.set (2 * mi) (t.array.getD (2 * j) 0)).set (2 * mi + 1)
              (t.array.getD (2 * j + 1) 0))
      (some (List.replicate (2 * 2 ^ npw2) 0))).map
      fun array => { t with array := array, nils := 0, npw2 := npw2 }

/-- The probe loop of `tbl_insertnil` and `tbl_insertval`: `hit` with the slot
of the first pair whose key equals `key`, `miss` at the first slot with a nil
key. -/
def tbl_insert_probe (E : VarEnv) (t : tbl_t) (key : Nat) : Nat → Nat → Probe
  | 0, _ => .hang
  | n + 1, i =>
    let mi := i &&& (2 ^ t.npw2 - 1)
    if t.array.getD (2 * mi) 0 = 0 then .miss mi
    else if E.mu_equals key (t.array.getD (2 * mi) 0) then .hit mi
    else tbl_insert_probe E t key n (tbl_next i)

/-- `tbl_insertnil`; `none` when the probe loop never stops. -/
def tbl_insertnil (E : VarEnv) (t : tbl_t) (key : Nat) : Option tbl_t :=
  let probe := fun (t : tbl_t) =>
    match tbl_insert_probe E t key (2 ^ t.npw2) (E.mu_hash key) with
    | .hang => none
    | .miss _ => some t
    | .hit mi =>
      if t.array.getD (2 * mi + 1) 0 ≠ 0 then
        some { t with array := t.array.set (2 * mi + 1) 0, nils := t.nils + 1, len := t.len - 1 }
      else some t
  if t.stride < 2 then
    if ¬ E.ishash key ∨ E.mu_hash key ≥ t.len then some t
    else if E.mu_hash key = t.len - 1 then some { t with len := t.len - 1 }
    else probe (tbl_realizekeys E t)
  else probe t

/-- `tbl_insertval`; `none` when a probe loop never stops. -/
def tbl_insertval (E : VarEnv) (t : tbl_t) (key val : Nat) : Option tbl_t :=
  let probe := fun (t : tbl_t) =>
    match tbl_insert_probe E t key (2 ^ t.npw2) (E.mu_hash key) with
    | .hang => none
    | .miss mi =>
      some { t with array := (t.array.set (2 * mi) key).set (2 * mi + 1) val, len := t.len + 1 }
    | .hit mi =>
      if t.array.getD (2 * mi + 1) 0 = 0 then
        some { t with array := t.array.set (2 * mi + 1) val, nils := t.nils - 1, len := t.len + 1 }
      else some { t with array := t.array.set (2 * mi + 1) val }
  (if tbl_ncap (t.nils + t.len + 1) > 2 ^ t.npw2 then tbl_resize E t (t.len + 1) else some t).bind
    fun t =>
      if t.stride < 2 then
        if E.ishash key ∧ E.mu_hash key = t.len then
          if t.stride = 0 then
            let t1 := if E.ishash val ∧ t.len = 0 then { t with offset := E.getuint val } else t
            if E.ishash val ∧ E.getuint val = hash_t (E.mu_hash key + t1.offset) then
              some { t1 with len := t1.len + 1 }
            else
              some { tbl_realizevals E t1 with
                array := (tbl_realizevals E t1).array.set (E.mu_hash key) val
                len := t1.len + 1 }
          else some { t with array := t.array.set (E.mu_hash key) val, len := t.len + 1 }
        else if E.ishash key ∧ E.mu_hash key < t.len then
          if t.stride = 0 then
            if E.ishash val ∧ E.getuint val = hash_t (E.mu_hash key + t.offset) then some t
            else
              some { tbl_realizevals E t with
                array := (tbl_realizevals E t).array.set (E.mu_hash key) val }
          else some { t with array := t.array.set (E.mu_hash key) val }
        else probe (tbl_realizekeys E t)
      else probe t

/-- `tbl_insert` on the reference with tag `ro` to `t`: `tbl_write` raises the
error for a read-only reference. -/
def tbl_insert (E : VarEnv) (ro : Bool) (t : tbl_t) (key val : Nat) : Res tbl_t :=
  if ro then .error .constViolation t
  else if key = 0 then .ok t
  else
    match (if val = 0 then tbl_insertnil E t key else tbl_insertval E t key val) with
    | some s => .ok s
    | none => .hang

/-- A small instance of the value operations: the number `n` is the odd word
`2n+1`, every other word is not a number. -/
def ex_env : VarEnv :=
  { ishash := fun v => v % 2 == 1 && v / 2 < 2 ^ 32
    mu_hash := fun v => v / 2
    getuint := fun v => v / 2
    muint := fun n => 2 * n + 1
    mu_equals := fun a b => a == b
    minalloc := 4 }

/-! ## Formatting (`mu_tbl_repr`) -/

/-- What `mu_tbl_repr` takes from files that are not among the sources
(`mu.c`, `buf.c`, `str.c`, `types.h`), as parameters: `mu_istbl`, the struct
a table word points to (`mtbl(t)`), the bytes that `mu_buf_pushf` appends for
`"%r"` and for `"%t"`, and the text of `mu_str_format("<tbl 0x%wx>", ..)`. -/
structure ReprEnv where
  istbl : Nat → Bool
  heap : Nat → mtbl
  fmt_r : Nat → List Nat
  fmt_t : Nat → List Nat
  fmt_addr : Nat → List Nat

/-- The loop `for (i = 0; mu_tbl_next(t, &i, &k, &v);)` from position `i`:
the pairs it visits.  Every call of `mu_tbl_next` moves the position forward
and none is made at `count` or beyond, so `n = count + 1` calls suffice. -/
def mu_tbl_entries_from (t : mtbl) : Nat → Nat → List (Nat × Nat)
  | 0, _ => []
  | n + 1, i =>
    match mu_tbl_next t i with
    | none => []
    | some (i1, k, v) => (k, v) :: mu_tbl_entries_from t n i1

/-- The pairs visited by `for (i = 0; mu_tbl_next(t, &i, &k, &v);)`. -/
def mu_tbl_entries (t : mtbl) : List (Nat × Nat) :=
  mu_tbl_entries_from t (mu_tbl_count t + 1) 0

/-- The flag `linear` of `mu_tbl_repr_nested`: list mode and no nil among the
first `len` words. -/
def mu_tbl_linear (t : mtbl) : Bool :=
  mu_tbl_islist t && (List.range t.len).all (fun i => t.array.getD i 0 != 0)

/-- `mu_tbl_repr_nested` for the table word `tw` and a depth that is a natural
number; `buf` is the content `s[0..n)` of the buffer, and the result is its
content on return. -/
def mu_tbl_repr_nested (F : ReprEnv) : Nat → Nat → List Nat → List Nat
  | 0, tw, buf => buf ++ F.fmt_t tw
  | depth + 1, tw, buf =>
    let t := F.heap tw
    let linear := mu_tbl_linear t
    let body := (mu_tbl_entries t).foldl
      (fun (b : List Nat) (kv : Nat × Nat) =>
        let b1 := if linear then b else b ++ F.fmt_r kv.1 ++ [58, 32]
        let b2 := if F.istbl kv.2 then mu_tbl_repr_nested F depth kv.2 b1
                  else b1 ++ F.fmt_r kv.2
        b2 ++ [44, 32])
      (buf ++ [91])
    (if t.len > 0 then body.take (body.length - 2) else body) ++ [93]

/-- `mu_tbl_repr`: `depth` is `none` for a nil depth and `some d` for the
number `d`; the result is the text of the string returned. -/
def mu_tbl_repr (F : ReprEnv) (tw : Nat) (depth : Option Nat) : List Nat :=
  match depth with
  | some 0 => F.fmt_addr tw
  | some d => mu_tbl_repr_nested F d tw []
  | none => mu_tbl_repr_nested F 1 tw []

/-- The table reached from `mu_tbl_fromlist` of four values by deleting the
keys 0 and 1 and inserting key 0 again: three live values, `len + nils = 3`,
and the value `4123` under key 3. -/
def ex_skipped : mtbl := ⟨2, 0, 3, 0, [4099, 0, 4115, 4123]⟩

/-- The table reached from `mu_tbl_create(0)` by inserting the keys 0 and
2. -/
def ex_gap : mtbl := ⟨2, 0, 2, 1, [4099, 0, 4115, 0]⟩

/-- A formatting context in which no value is a table, the table words 8 and
16 point to `ex_skipped` and `ex_gap`, and a value is printed as its word. -/
def ex_repr_env : ReprEnv :=
  { istbl := fun _ => false
    heap := fun w => if w = 8 then ex_skipped else ex_gap
    fmt_r := fun v => [v]
    fmt_t := fun _ => [60, 62]
    fmt_addr := fun _ => [60, 62] }

/-- The round trip claimed of `mu_tbl_parse` after `mu_tbl_repr`, for a
function `parse` from texts to tables: the text of the table word `tw` at
depth `depth` parses to a table with the same `len` in which every key looks
up what it looks up in the table itself. -/
def mu_tbl_roundtrip (F : ReprEnv) (parse : List Nat → Option mtbl) (tw depth : Nat) : Prop :=
  ∃ u, parse (mu_tbl_repr F tw (some depth)) = some u ∧
    (∀ k, mu_tbl_lookup (.ref false u .null) k
      = mu_tbl_lookup (.ref false (F.heap tw) .null) k) ∧
    u.len = (F.heap tw).len

/-- The list `[4099, 4139, 4107, 4115]`, which fills its array of four
words. -/
def ex_avbc : mtbl := ⟨2, 0, 4, 0, [4099, 4139, 4107, 4115]⟩

/-! ## Numbers of the older implementation (`src/num.c`) -/

/-- The position of the highest set bit of a natural number (`0` for `0`). -/
def nlog2 (n : Nat) : Nat := ulog2_go n n

/-- The power `2 ^ e` for an integer exponent `e`, as a rational number. -/
def pow2 (e : Int) : ℚ := if 0 ≤ e then (2 : ℚ) ^ e.toNat else 1 / (2 : ℚ) ^ (-e).toNat

/-- The binary exponent of a non-zero rational number `x`: the integer `e`
with `2 ^ e ≤ |x| < 2 ^ (e + 1)`. -/
def qlog2 (x : ℚ) : Int :=
  if (x.den : ℚ) * pow2 ((nlog2 x.num.natAbs : Int) - (nlog2 x.den : Int)) ≤ (x.num.natAbs : ℚ)
  then (nlog2 x.num.natAbs : Int) - (nlog2 x.den : Int)
  else (nlog2 x.num.natAbs : Int) - (nlog2 x.den : Int) - 1

/-- Rounding to the nearest integer, a tie going to the even one. -/
def round_even (x : ℚ) : Int :=
  if x - ⌊x⌋ < 1 / 2 then ⌊x⌋
  else if 1 / 2 < x - ⌊x⌋ then ⌊x⌋ + 1
  else if ⌊x⌋ % 2 = 0 then ⌊x⌋ else ⌊x⌋ + 1

/-- Rounding of a real result to IEEE-754 binary32, to nearest with ties to
even, before the check for overflow: 24 significant bits, the quantum never
below `2 ^ -149`. -/
def fround (x : ℚ) : ℚ :=
  if x = 0 then 0
  else (round_even (x / pow2 (max (qlog2 x - 23) (-149))) : ℚ) * pow2 (max (qlog2 x - 23) (-149))

/-- Modelled from the spec: `num.h` of the older implementation is not among
the sources; a number is "a floating-point bit pattern", and `num_hash` in
`src/num.c` handles it as IEEE-754 binary32 (the bias `12582912.0f` is
`1.5 * 2^23` and the mask `0x807fffff` keeps the sign bit and the 23 fraction
bits).  A value is a finite binary32 number, an infinity or a NaN; the sign of
a zero is not kept. -/
inductive num_t where
  | fin (q : ℚ)
  | inf (neg : Bool)
  | nan
deriving DecidableEq

/-- The binary32 result of an operation whose exact result is `x`: rounded,
and infinite when the rounded magnitude reaches `2 ^ 128`. -/
def num_round (x : ℚ) : num_t :=
  if (2 : ℚ) ^ 128 ≤ |fround x| then .inf (decide (x < 0)) else .fin (fround x)

/-- The sum `a + b` of two `num_t` operands. -/
def num_add : num_t → num_t → num_t
  | .fin a, .fin b => num_round (a + b)
  | .fin _, .inf s => .inf s
  | .inf s, .fin _ => .inf s
  | .inf s, .inf r => if s = r then .inf s else .nan
  | _, _ => .nan

/-- The product `a * b` of two `num_t` operands. -/
def num_mul : num_t → num_t → num_t
  | .fin a, .fin b => num_round (a * b)
  | .fin a, .inf s => if a = 0 then .nan else .inf (s != decide (a < 0))
  | .inf s, .fin a => if a = 0 then .nan else .inf (s != decide (a < 0))
  | .inf s, .inf r => .inf (s != r)
  | _, _ => .nan

/-- The quotient `a / b` of two `num_t` operands. -/
def num_div : num_t → num_t → num_t
  | .fin a, .fin b =>
    if b = 0 then (if a = 0 then .nan else .inf (decide (a < 0))) else num_round (a / b)
  | .fin _, .inf _ => .fin 0
  | .inf s, .fin b => .inf (s != decide (b < 0))
  | _, _ => .nan

/-- The value `(num_t)pow(b, e)` of the C library for a base `b > 1`; the
exponent that `num_parse` passes is a whole number. -/
def num_pow (b : ℚ) : num_t → num_t
  | .fin e => if e.den = 1 then num_round (b ^ e.num) else .nan
  | .inf s => if s then .fin 0 else .inf false
  | .nan => .nan

/-- Modelled from the spec: `num.h` of the older implementation is not among
the sources; `num_val` gives the value of a digit character ("integer digits
of that base"), here of `0-9`, `a-f` and `A-F`, and a value above every radix
for any other character. -/
def num_val (c : Nat) : Nat :=
  if 48 ≤ c ∧ c ≤ 57 then c - 48
  else if 97 ≤ c ∧ c ≤ 102 then c - 97 + 10
  else if 65 ≤ c ∧ c ≤ 70 then c - 65 + 10
  else 255

/-- Modelled from the spec: `num.h` of the older implementation is not among
the sources; `num_ascii` gives the character of a digit value ("emitting
digits"), `0-9` below ten and letters from `a` above, as one byte. -/
def num_ascii (i : Int) : Nat := ((if i < 10 then 48 + i else 97 + (i - 10)) % 256).toNat

/-- The local `struct base` of `num_parse`. -/
structure base where
  radix : ℚ
  exp : ℚ
  expc : Nat
  expC : Nat

/-- The first step of `num_parse`, "determine the base": the base and the
number of characters skipped.  The text `s` is `str .. end`. -/
def num_parse_base (s : List Nat) : base × Nat :=
  if s.length > 2 ∧ s.getD 0 0 = 48 then
    if s.getD 1 0 = 98 ∨ s.getD 1 0 = 66 then (⟨2, 2, 112, 80⟩, 2)
    else if s.getD 1 0 = 111 ∨ s.getD 1 0 = 79 then (⟨8, 2, 112, 80⟩, 2)
    else if s.getD 1 0 = 120 ∨ s.getD 1 0 = 88 then (⟨16, 2, 112, 80⟩, 2)
    else (⟨10, 10, 101, 69⟩, 0)
  else (⟨10, 10, 101, 69⟩, 0)

/-- The loop under the label `exp` of `num_parse`, on the text from `str` on;
`pos` is `str - *off`.  When the text ends the loop falls through to `done`
without scaling the result. -/
def num_parse_exp_loop (val : Nat → Nat) (b : base) (sign : num_t) :
    List Nat → num_t → num_t → Nat → num_t × Nat
  | [], res, _, pos => (res, pos)
  | c :: cs, res, scale, pos =>
    if (val c : ℚ) ≥ b.radix then
      (num_mul res (num_pow b.radix (num_mul sign scale)), pos)
    else
      num_parse_exp_loop val b sign cs res
        (num_add (num_mul scale (.fin b.radix)) (.fin (val c))) (pos + 1)

/-- The code under the label `exp` of `num_parse`, entered by `goto exp` with
`str` on the character that was just examined. -/
def num_parse_exp (val : Nat → Nat) (b : base) (s : List Nat) (res : num_t) (pos : Nat) :
    num_t × Nat :=
  if s.length > 1 ∧ s.getD 0 0 = 43 then
    num_parse_exp_loop val b (.fin 1) (s.drop 1) res (.fin 0) (pos + 1)
  else if s.length > 1 ∧ s.getD 0 0 = 45 then
    num_parse_exp_loop val b (.fin (-1)) (s.drop 1) res (.fin 0) (pos + 1)
  else num_parse_exp_loop val b (.fin 1) s res (.fin 0) pos

/-- The loop under the label `fraction` of `num_parse`, entered by
`goto fraction` with `str` on the character that was just examined. -/
def num_parse_fraction (val : Nat → Nat) (b : base) :
    List Nat → num_t → num_t → Nat → num_t × Nat
  | [], res, _, pos => (res, pos)
  | c :: cs, res, scale, pos =>
    if (val c : ℚ) ≥ b.radix then
      if c = b.expc ∨ c = b.expC then num_parse_exp val b (c :: cs) res pos
      else (res, pos)
    else
      num_parse_fraction val b cs
        (num_add res (num_mul (num_div scale (.fin b.radix)) (.fin (val c))))
        (num_div scale (.fin b.radix)) (pos + 1)

/-- The loop of `num_parse` that reads the integer component. -/
def num_parse_int (val : Nat → Nat) (b : base) : List Nat → num_t → Nat → num_t × Nat
  | [], res, pos => (res, pos)
  | c :: cs, res, pos =>
    if (val c : ℚ) ≥ b.radix then
      if c = 46 then num_parse_fraction val b (c :: cs) res (.fin 1) pos
      else if c = b.expc ∨ c = b.expC then num_parse_exp val b (c :: cs) res pos
      else (res, pos)
    else
      num_parse_int val b cs (num_add (num_mul res (.fin b.radix)) (.fin (val c))) (pos + 1)

/-- `num_parse` on the text `*off .. end`, given `num_val`: the number
returned and the distance by which `*off` has advanced. -/
def num_parse (val : Nat → Nat) (s : List Nat) : num_t × Nat :=
  num_parse_int val (num_parse_base s).1 (s.drop (num_parse_base s).2) (.fin 0)
    (num_parse_base s).2

/-- The value that the multiply-add loop computes in exact arithmetic from the
digit characters `ds` in base `R`, starting from `acc`. -/
def digits_value (val : Nat → Nat) (R : Nat) (ds : List Nat) (acc : Nat) : Nat :=
  ds.foldl (fun a c => a * R + val c) acc

/-- The number that the multiply-add loop of `num_parse` computes from the
digit characters `ds`, starting from `res`: `res *= radix; res += n` in
binary32 for each of them. -/
def num_digits (val : Nat → Nat) (radix : ℚ) (ds : List Nat) (res : num_t) : num_t :=
  ds.foldl (fun a c => num_add (num_mul a (.fin radix)) (.fin (val c))) res

/-- `MU_NUMLEN`. -/
def MU_NUMLEN : Nat := 12

/-- The number of decimal digits of `n` after the first, found by dividing. -/
def nlog10_go : Nat → Nat → Nat
  | 0, _ => 0
  | f + 1, n => if n < 10 then 0 else nlog10_go f (n / 10) + 1

/-- The decimal exponent of a positive natural number. -/
def nlog10 (n : Nat) : Nat := nlog10_go n n

/-- The value `floor(log10(x))` for a positive `x`: the decimal exponent, the
integer `e` with `10 ^ e ≤ x < 10 ^ (e + 1)`. -/
def qlog10 (x : ℚ) : Int :=
  if 1 ≤ x then (nlog10 ⌊x⌋.toNat : Int)
  else if x * (10 : ℚ) ^ nlog10 ⌊1 / x⌋.toNat = 1 then -(nlog10 ⌊1 / x⌋.toNat : Int)
  else -(nlog10 ⌊1 / x⌋.toNat : Int) - 1

/-- The digit loop of `num_repr`, `for (; len >= 0; len--)`, with `k` the
number of iterations left (`len + 1`) and `out` the bytes written so far.
Every operation on `num_t` operands is rounded to binary32; none of them
overflows, the operands being bounded by the number printed. -/
def num_repr_loop : Nat → ℚ → ℚ → List Nat → List Nat
  | 0, _, _, out => out
  | k + 1, n, digit, out =>
    if n ≤ 0 ∧ digit < 1 then out
    else
      num_repr_loop k (fround (n - fround ((⌊fround (n / digit)⌋ : ℚ) * digit)))
        (fround (digit / 10))
        ((if digit < 1 / 2 ∧ digit > 1 / 20 then out ++ [46] else out)
          ++ [num_ascii ⌊fround (n / digit)⌋])

/-- `num_repr` for a finite number `n` (a binary32 value): the bytes written
to the buffer `m->data`, `m->len` being their number.  `floor(log10(n))` and
`pow(10.0, exp)` of the C library are taken exactly, the power rounded to
binary32 on assignment. -/
def num_repr (n : ℚ) : List Nat :=
  if n = 0 then [48]
  else
    let out := if n < 0 then [45] else []
    let n := if n < 0 then -n else n
    let exp := qlog10 n
    let digit := fround ((10 : ℚ) ^ exp)
    let isexp := exp > (MU_NUMLEN : Int) - 2 ∨ exp < -((MU_NUMLEN : Int) - 3)
    let out := num_repr_loop (if isexp then MU_NUMLEN - 6 + 1 else MU_NUMLEN - 1 + 1)
      (if isexp then fround (n / digit) else n)
      (if isexp then 1 else if digit < 1 then 1 else digit) out
    if isexp then
      (if |exp| > 100 then
          (if exp < 0 then out ++ [101, 45] else out ++ [101]) ++ [num_ascii (|exp| / 100)]
        else (if exp < 0 then out ++ [101, 45] else out ++ [101]))
        ++ [num_ascii (|exp| / 10 % 10), num_ascii (|exp| % 10)]
    else out

/-- The radix marks of `num_parse` and their bases: none for base 10, `0b` or
`0B` for base 2, `0o` or `0O` for base 8, `0x` or `0X` for base 16. -/
def num_radix_mark (R : Nat) (pre : List Nat) : Prop :=
  (R = 10 ∧ pre = []) ∨ (R = 2 ∧ (pre = [48, 98] ∨ pre = [48, 66])) ∨
  (R = 8 ∧ (pre = [48, 111] ∨ pre = [48, 79])) ∨
  (R = 16 ∧ (pre = [48, 120] ∨ pre = [48, 88]))

instance (R : Nat) (pre : List Nat) : Decidable (num_radix_mark R pre) := by
  unfold num_radix_mark; infer_instance

/-! ## Operations on whole tables -/

/-- Modelled from the spec: `tbl.h` is not among the sources; `mu_tbl_getlen`
reads the "live-element count" of the table, the field `len`. -/
def mu_tbl_getlen (t : mtbl) : Nat := t.len

/-- The loop `for (i = 0; mu_tbl_next(a, &i, &k, &v);) mu_tbl_insert(d, k, v)`
of `mu_tbl_concat` and `mu_tbl_or`, `es` being the pairs that `mu_tbl_next`
gives. -/
def mu_tbl_insert_entries (fuel : Nat) (d : mtbl) (es : List (Nat × Nat)) : Res mtbl :=
  es.foldl (fun r kv => r.bind fun s => mu_tbl_insert fuel false s kv.1 kv.2) (.ok d)

/-- The loop of `mu_tbl_xor` and `mu_tbl_diff` over the pairs `es` of one
operand: a pair is inserted in `d` when `mu_tbl_lookup` finds nil under its
key in the other operand `o`, a table without a tail.  A lookup that never
returns leaves the operation hanging. -/
def mu_tbl_insert_absent (fuel : Nat) (o : mtbl) (d : Res mtbl) (es : List (Nat × Nat)) :
    Res mtbl :=
  es.foldl
    (fun r kv => r.bind fun s =>
      match mu_tbl_lookup (.ref false o .null) kv.1 with
      | none => .hang
      | some w => if w = 0 then mu_tbl_insert fuel false s kv.1 kv.2 else .ok s)
    d

/-- `mu_tbl_or` on two tables without tails: the table `d` returned. -/
def mu_tbl_or (fuel : Nat) (a b : mtbl) : Res mtbl :=
  (mu_tbl_insert_entries fuel (mu_tbl_create (mlen (mu_tbl_getlen a + mu_tbl_getlen b)))
    (mu_tbl_entries b)).bind
    fun d => mu_tbl_insert_entries fuel d (mu_tbl_entries a)

/-- `mu_tbl_xor` on two tables without tails: the table `d` returned. -/
def mu_tbl_xor (fuel : Nat) (a b : mtbl) : Res mtbl :=
  mu_tbl_insert_absent fuel a
    (mu_tbl_insert_absent fuel b
      (.ok (mu_tbl_create
        (if mu_tbl_getlen a > mu_tbl_getlen b then mu_tbl_getlen a else mu_tbl_getlen b)))
      (mu_tbl_entries a))
    (mu_tbl_entries b)

/-- `mu_tbl_concat` on two tables without tails; `offset` is nil or a number.
`num_add` and `num_cmp` are `mu_num_add` and `mu_num_cmp`, whose definitions
are not among the sources. -/
def mu_tbl_concat (num_add : Nat → Nat → Nat) (num_cmp : Nat → Nat → Int) (fuel : Nat)
    (a b : mtbl) (offset : Nat) : Res mtbl :=
  (mu_tbl_insert_entries fuel (mu_tbl_create (mlen (mu_tbl_getlen a + mu_tbl_getlen b)))
    (mu_tbl_entries a)).bind
    fun d => mu_tbl_insert_entries fuel d
      ((mu_tbl_entries b).map fun kv =>
        (if mu_isnum kv.1 then
            num_add kv.1
              (if offset = 0 then mu_num_fromuint (mu_tbl_getlen a)
               else if num_cmp offset (mu_num_fromuint 0) < 0 then
                 num_add offset (mu_num_fromuint (mu_tbl_getlen a))
               else offset)
          else kv.1, kv.2))

/-- The pairs-mode table holding the one entry `8003 ↦ 8011`. -/
def ex_xy : mtbl := ⟨1, 1, 1, 0, [1, 0, 8003, 8011]⟩

/-- The pairs that iteration gives for a dense list of the values `vs` whose
first key is `i`. -/
def dense_entries : Nat → List Nat → List (Nat × Nat)
  | _, [] => []
  | i, v :: vs => (mu_num_fromuint i, v) :: dense_entries (i + 1) vs

/-- An instance of `mu_num_add` on whole numbers: the number of the sum. -/
def ex_num_add (a b : Nat) : Nat := mu_num_fromuint (mu_num_getuint a + mu_num_getuint b)

/-- An instance of `mu_num_cmp` on whole numbers: the sign of the difference. -/
def ex_num_cmp (a b : Nat) : Int := (mu_num_getuint a : Int) - (mu_num_getuint b : Int)

/-- The list-mode table holding the one entry `0 ↦ 4131`. -/
def ex_list1b : mtbl := ⟨2, 0, 1, 0, [4131, 0, 0, 0]⟩

/-- `mu_tbl_repr_nested` with the depth as a word: `mu_num_cmp` and
`mu_num_sub` are not among the sources and are parameters.  The recursion
budget `fuel` bounds the nesting of the calls; `none` when it is used up. -/
def mu_tbl_repr_nested_num (F : ReprEnv) (num_cmp : Nat → Nat → Int)
    (num_sub : Nat → Nat → Nat) : Nat → Nat → List Nat → Nat → Option (List Nat)
  | 0, _, _, _ => none
  | fuel + 1, tw, buf, depth =>
    if num_cmp depth (mu_num_fromuint 0) ≤ 0 then some (buf ++ F.fmt_t tw)
    else
      let t := F.heap tw
      let linear := mu_tbl_linear t
      let body := (mu_tbl_entries t).foldl
        (fun (b : Option (List Nat)) (kv : Nat × Nat) =>
          b.bind fun b =>
            let b1 := if linear then b else b ++ F.fmt_r kv.1 ++ [58, 32]
            let b2 := if F.istbl kv.2 then
                mu_tbl_repr_nested_num F num_cmp num_sub fuel kv.2 b1
                  (num_sub depth (mu_num_fromuint 1))
              else some (b1 ++ F.fmt_r kv.2)
            b2.map fun b2 => b2 ++ [44, 32])
        (some (buf ++ [91]))
      body.map fun body => (if t.len > 0 then body.take (body.length - 2) else body) ++ [93]

/-- `mu_tbl_repr` with the depth as a word (`0` is nil). -/
def mu_tbl_repr_num (F : ReprEnv) (num_cmp : Nat → Nat → Int) (num_sub : Nat → Nat → Nat)
    (fuel : Nat) (tw : Nat) (depth : Nat) : Option (List Nat) :=
  if depth ≠ 0 ∧ depth = mu_num_fromuint 0 then some (F.fmt_addr tw)
  else mu_tbl_repr_nested_num F num_cmp num_sub fuel tw []
    (if depth = 0 then mu_num_fromuint 1 else depth)

/-- The table words at nesting level `j` below the table word `tw`: `tw`
itself at level 0, and at level `j + 1` the words at level `j` below the
table values of the entries of `tw`. -/
def mu_tbl_nested_at (F : ReprEnv) : Nat → Nat → List Nat
  | 0, tw => [tw]
  | j + 1, tw =>
    ((mu_tbl_entries (F.heap tw)).filter fun kv => F.istbl kv.2).flatMap
      fun kv => mu_tbl_nested_at F j kv.2

/-- A table that holds itself: the list whose value under key 0 is the table
word 16. -/
def ex_cyclic : mtbl := ⟨2, 0, 1, 0, [16, 0, 0, 0]⟩

/-- A formatting context in which the word 16 is a table and points to
`ex_cyclic`, so that the table graph has a cycle. -/
def ex_repr_cyclic : ReprEnv :=
  { istbl := fun w => w == 16
    heap := fun _ => ex_cyclic
    fmt_r := fun v => [v]
    fmt_t := fun _ => [60, 62]
    fmt_addr := fun _ => [60, 62] }

/-- Subtraction of the numbers made by `mu_num_fromuint`. -/
def ex_num_sub (a b : Nat) : Nat := mu_num_fromuint (mu_num_getuint a - mu_num_getuint b)

/-- What `mu_tbl_parsen` takes from files that are not among the sources
(`mu.c`, `num.c`), as parameters: `mu_parsen`, which reads one value of the
text `s` (whose end is `s.length`) at the cursor and gives the value, nil when
the parse fails, and the cursor after it; and `mu_num_add`. -/
structure ParseEnv where
  parsen : List Nat → Nat → Nat × Nat
  num_add : Nat → Nat → Nat

/-- The `while` loop of `mu_tbl_parsen` on the text `s`, from the table `t`,
the index `i` and the cursor `pos`: `none` when the function returns 0 inside
the loop, otherwise the table and the cursor at the exit of the loop.  `fuel`
bounds the number of iterations and `ifuel` the recursion of
`mu_tbl_insert`. -/
def mu_tbl_parsen_loop (P : ParseEnv) (ifuel : Nat) (s : List Nat) :
    Nat → mtbl → Nat → Nat → Res (Option (mtbl × Nat))
  | 0, _, _, _ => .nofuel
  | fuel + 1, t, i, pos =>
    if pos < s.length ∧ s.getD pos 0 ≠ 93 then
      if (P.parsen s pos).1 = 0 then .ok none
      else if (P.parsen s pos).2 < s.length ∧ s.getD (P.parsen s pos).2 0 = 58 then
        if (P.parsen s ((P.parsen s pos).2 + 1)).1 = 0 then .ok none
        else
          match mu_tbl_insert ifuel false t (P.parsen s pos).1
              (P.parsen s ((P.parsen s pos).2 + 1)).1 with
          | .ok t1 =>
            if (P.parsen s ((P.parsen s pos).2 + 1)).2 = s.length ∨
                s.getD (P.parsen s ((P.parsen s pos).2 + 1)).2 0 ≠ 44 then
              .ok (some (t1, (P.parsen s ((P.parsen s pos).2 + 1)).2))
            else
              mu_tbl_parsen_loop P ifuel s fuel t1 i ((P.parsen s ((P.parsen s pos).2 + 1)).2 + 1)
          | .error e t1 => .error e (some (t1, (P.parsen s ((P.parsen s pos).2 + 1)).2))
          | .hang => .hang
          | .nofuel => .nofuel
      else
        match mu_tbl_insert ifuel false t i (P.parsen s pos).1 with
        | .ok t1 =>
          if (P.parsen s pos).2 = s.length ∨ s.getD (P.parsen s pos).2 0 ≠ 44 then
            .ok (some (t1, (P.parsen s pos).2))
          else
            mu_tbl_parsen_loop P ifuel s fuel t1 (P.num_add i (mu_num_fromuint 1))
              ((P.parsen s pos).2 + 1)
        | .error e t1 => .error e (some (t1, (P.parsen s pos).2))
        | .hang => .hang
        | .nofuel => .nofuel
    else .ok (some (t, pos))

/-- `mu_tbl_parsen` on the text `s` with the cursor `*ppos = pos`: the value
returned (`none` for 0) and the cursor `*ppos` on return.  The first byte is
read without a test against the end; beyond the end the model reads 0. -/
def mu_tbl_parsen (P : ParseEnv) (ifuel fuel : Nat) (s : List Nat) (pos : Nat) :
    Res (Option mtbl × Nat) :=
  if s.getD pos 0 ≠ 91 then .ok (none, pos)
  else
    match mu_tbl_parsen_loop P ifuel s fuel (mu_tbl_create 0) (mu_num_fromuint 0) (pos + 1) with
    | .ok none => .ok (none, pos)
    | .ok (some (t, p)) =>
      if p = s.length ∨ s.getD p 0 ≠ 93 then .ok (none, pos) else .ok (some t, p + 1)
    | .error e x => .error e (x.map Prod.fst, pos)
    | .hang => .hang
    | .nofuel => .nofuel

/-- `mu_tbl_parse(s, n)` on the `n` bytes `s`. -/
def mu_tbl_parse (P : ParseEnv) (ifuel fuel : Nat) (s : List Nat) : Res (Option mtbl) :=
  match mu_tbl_parsen P ifuel fuel s 0 with
  | .ok (t, p) => if p ≠ s.length then .ok none else .ok t
  | .error e (t, _) => .error e t
  | .hang => .hang
  | .nofuel => .nofuel

/-- A small instance of `mu_parsen`: a digit is the number it denotes, a
lower-case letter `c` is the word `8 c + 3`, which is not a number, and
nothing else is a value. -/
def ex_parse_env : ParseEnv :=
  { parsen := fun s pos =>
      if 48 ≤ s.getD pos 0 ∧ s.getD pos 0 ≤ 57 then (mu_num_fromuint (s.getD pos 0 - 48), pos + 1)
      else if 97 ≤ s.getD pos 0 ∧ s.getD pos 0 ≤ 122 then (8 * s.getD pos 0 + 3, pos + 1)
      else (0, pos)
    num_add := ex_num_add }

/-- An item of a table literal: the text and the value of the explicit key,
if there is one, and the text and the value of the element. -/
structure lit_item where
  key : Option (List Nat × Nat)
  txt : List Nat
  val : Nat

/-- The text of an item: `element` or `key:value`. -/
def lit_item.text (x : lit_item) : List Nat :=
  match x.key with
  | none => x.txt
  | some kt => kt.1 ++ [58] ++ x.txt

/-- The texts of the items separated by commas. -/
def lit_body : List lit_item → List Nat
  | [] => []
  | [x] => x.text
  | x :: y :: r => x.text ++ [44] ++ lit_body (y :: r)

/-- The literal `[item,item,..]`, with a comma before the closing bracket when
`trailing`. -/
def lit_text (items : List lit_item) (trailing : Bool) : List Nat :=
  [91] ++ lit_body items ++ (if trailing then [44] else []) ++ [93]

/-- The text `txt` is read by `mu_parsen` as the non-nil value `v`: it does
not start with `]`, and wherever it stands before the end of the text, a
colon, a comma or a closing bracket, `mu_parsen` returns `v` and moves the
cursor to its end. -/
def parses_as (P : ParseEnv) (txt : List Nat) (v : Nat) : Prop :=
  v ≠ 0 ∧ (∃ c r, txt = c :: r ∧ c ≠ 93) ∧
  ∀ pre suf : List Nat, (suf = [] ∨ ∃ c r, suf = c :: r ∧ (c = 58 ∨ c = 44 ∨ c = 93)) →
    P.parsen (pre ++ txt ++ suf) pre.length = (v, pre.length + txt.length)

/-- Every text of the item is read by `mu_parsen` as its value. -/
def lit_item.parses (P : ParseEnv) (x : lit_item) : Prop :=
  parses_as P x.txt x.val ∧ ∀ kt, x.key = some kt → parses_as P kt.1 kt.2

/-- The insertions that a literal stands for: an element goes under the
index `i`, which is then advanced by `mu_num_add(i, 1)`, and a pair under its
own key, in the order of the items. -/
def mu_tbl_insert_items (P : ParseEnv) (ifuel : Nat) : List lit_item → mtbl → Nat → Res (mtbl × Nat)
  | [], t, i => .ok (t, i)
  | x :: r, t, i =>
    match x.key with
    | none =>
      match mu_tbl_insert ifuel false t i x.val with
      | .ok t1 => mu_tbl_insert_items P ifuel r t1 (P.num_add i (mu_num_fromuint 1))
      | .error e t1 => .error e (t1, i)
      | .hang => .hang
      | .nofuel => .nofuel
    | some kt =>
      match mu_tbl_insert ifuel false t kt.2 x.val with
      | .ok t1 => mu_tbl_insert_items P ifuel r t1 i
      | .error e t1 => .error e (t1, i)
      | .hang => .hang
      | .nofuel => .nofuel

/-- The items of the literal `[a,a, .. ,a,x:y]`: 239 elements `a` and the
pair `x: y`, as `ex_parse_env` reads them. -/
def ex_items240 : List lit_item :=
  List.replicate 239 ⟨none, [97], 779⟩ ++ [⟨some ([120], 963), [121], 971⟩]

/-- The items of the literal `[1,a:b]`. -/
def ex_items2 : List lit_item :=
  [⟨none, [49], mu_num_fromuint 1⟩, ⟨some ([97], 779), [98], 787⟩]

/-- The test at the end of an iteration of the loop and the next
iteration. -/
def parsen_cont (P : ParseEnv) (ifuel : Nat) (s : List Nat) (fuel : Nat) (t : mtbl) (i p : Nat) :
    Res (Option (mtbl × Nat)) :=
  if p = s.length ∨ s.getD p 0 ≠ 44 then .ok (some (t, p))
  else mu_tbl_parsen_loop P ifuel s fuel t i (p + 1)

/-- The two builds of `src/mu/num.h`.  `types.h` is not among the sources;
`mfloat_t` is an IEEE-754 binary format with `mant` fraction bits and `ebits`
exponent bits, and `muint_t`, `mint_t` and `mu_t` are as wide as `mfloat_t`
(the union in `mu_num_fromuint` overlays them). -/
structure Build where
  mant : Nat
  ebits : Nat
deriving DecidableEq, Repr

/-- The build with 32-bit words: `mfloat_t` is binary32. -/
def build32 : Build := ⟨23, 8⟩

/-- The build with 64-bit words (`MU64`): `mfloat_t` is binary64. -/
def build64 : Build := ⟨52, 11⟩

/-- The width of a word in bits. -/
def Build.bits (B : Build) : Nat := 1 + B.ebits + B.mant

/-- The exponent bias of `mfloat_t`. -/
def Build.bias (B : Build) : Nat := 2 ^ (B.ebits - 1) - 1

/-- The bit pattern of `(mfloat_t)n` for an unsigned `n` (round to nearest,
ties to even). -/
def Build.float_of_uint (B : Build) (n : Nat) : Nat :=
  if n = 0 then 0
  else
    let e := nlog2 n
    if e ≤ B.mant then (e + B.bias) * 2 ^ B.mant + (n * 2 ^ (B.mant - e) - 2 ^ B.mant)
    else
      let s := e - B.mant
      let q := n / 2 ^ s
      let r := n % 2 ^ s
      let h := 2 ^ (s - 1)
      let q1 := if h < r ∨ (r = h ∧ q % 2 = 1) then q + 1 else q
      (e + B.bias) * 2 ^ B.mant + (q1 - 2 ^ B.mant)

/-- The bit pattern of `(mfloat_t)n` for a signed `n`: the sign bit and the
pattern of the magnitude. -/
def Build.float_of_int (B : Build) (n : Int) : Nat :=
  (if n < 0 then 2 ^ (B.bits - 1) else 0) + B.float_of_uint n.natAbs

/-- The value `(muint_t)x` of the float with bit pattern `u`, truncated toward
zero.  Where C leaves the conversion undefined (negative below `-1`, not
finite, `2 ^ bits` or more) the model returns `0`. -/
def Build.uint_of_float (B : Build) (u : Nat) : Nat :=
  let ex := u / 2 ^ B.mant % 2 ^ B.ebits
  let fr := u % 2 ^ B.mant
  if u / 2 ^ (B.bits - 1) % 2 = 1 then 0
  else if ex = 0 ∨ ex = 2 ^ B.ebits - 1 then 0
  else if ex < B.bias + B.mant then (2 ^ B.mant + fr) / 2 ^ (B.bias + B.mant - ex)
  else if ex < B.bias + B.bits then (2 ^ B.mant + fr) * 2 ^ (ex - (B.bias + B.mant))
  else 0

/-- The value `(mint_t)x` of the float with bit pattern `u`, truncated toward
zero.  Where C leaves the conversion undefined (not finite, magnitude
`2 ^ (bits - 1)` or more) the model returns `0`. -/
def Build.int_of_float (B : Build) (u : Nat) : Int :=
  let ex := u / 2 ^ B.mant % 2 ^ B.ebits
  let fr := u % 2 ^ B.mant
  let mag : Nat :=
    if ex = 0 ∨ ex = 2 ^ B.ebits - 1 then 0
    else if ex < B.bias + B.mant then (2 ^ B.mant + fr) / 2 ^ (B.bias + B.mant - ex)
    else if ex < B.bias + B.bits - 1 then (2 ^ B.mant + fr) * 2 ^ (ex - (B.bias + B.mant))
    else 0
  if u / 2 ^ (B.bits - 1) % 2 = 1 then -(mag : Int) else (mag : Int)

/-- `mu_num_fromuint` in the build `B`: the float bit pattern with the three
low bits cleared (`~7 & u`), plus the tag. -/
def Build.mu_num_fromuint (B : Build) (n : Nat) : Nat :=
  MTNUM + (B.float_of_uint n - B.float_of_uint n % 8)

/-- `mu_num_fromint` in the build `B`. -/
def Build.mu_num_fromint (B : Build) (n : Int) : Nat :=
  MTNUM + (B.float_of_int n - B.float_of_int n % 8)

/-- `mu_num_getfloat` in the build `B`: the bit pattern of the float returned,
the word minus the tag in the arithmetic of `muint_t`. -/
def Build.mu_num_getfloat (B : Build) (m : Nat) : Nat :=
  (m + 2 ^ B.bits - MTNUM) % 2 ^ B.bits

/-- `mu_num_getuint` in the build `B`. -/
def Build.mu_num_getuint (B : Build) (m : Nat) : Nat :=
  B.uint_of_float (B.mu_num_getfloat m)

/-- `mu_num_getint` in the build `B`. -/
def Build.mu_num_getint (B : Build) (m : Nat) : Int :=
  B.int_of_float (B.mu_num_getfloat m)

/-- The probe loop of `tbl_assignnil` and of the chain walk of
`tbl_assignval`: `miss` at the first slot with a nil key and at a pair whose
key equals `key` and whose value is nil (both `break`), `hit` at a pair whose
key equals `key` and whose value is not nil. -/
def tbl_assign_probe (E : VarEnv) (t : tbl_t) (key : Nat) : Nat → Nat → Probe
  | 0, _ => .hang
  | n + 1, i =>
    let mi := i &&& (2 ^ t.npw2 - 1)
    if t.array.getD (2 * mi) 0 = 0 then .miss mi
    else if E.mu_equals key (t.array.getD (2 * mi) 0) then
      if t.array.getD (2 * mi + 1) 0 = 0 then .miss mi else .hit mi
    else tbl_assign_probe E t key n (tbl_next i)

/-- `tbl_assignnil`: the loop `for (; t && !tbl_isro(t); t = t->tail)`; the
result is the chain after the call, `none` when a probe loop never stops. -/
def tbl_assignnil (E : VarEnv) (key : Nat) : TblPtr → Option TblPtr
  | .null => some .null
  | .ref ro t tail =>
    let probe := fun (t1 : tbl_t) =>
      match tbl_assign_probe E t1 key (2 ^ t1.npw2) (E.mu_hash key) with
      | .hang => none
      | .miss _ => (tbl_assignnil E key tail).map fun tl => .ref ro t1 tl
      | .hit mi =>
        some (.ref ro { t1 with array := t1.array.set (2 * mi + 1) 0, nils := t1.nils + 1,
                                len := t1.len - 1 } tail)
    if ro then some (.ref ro t tail)
    else if t.stride < 2 then
      if ¬ E.ishash key ∨ E.mu_hash key ≥ t.len then
        (tbl_assignnil E key tail).map fun tl => .ref ro t tl
      else if E.mu_hash key = t.len - 1 then some (.ref ro { t with len := t.len - 1 } tail)
      else probe (tbl_realizekeys E t)
    else probe t

/-- The first loop of `tbl_assignval`, `for (; t && tbl_isro(t); t = t->tail)`:
`some (some c)` when a table of the chain was written and the function
returned, with the chain `c` after the write; `some none` when the loop ended
without a write; `none` when a probe loop never stops. -/
def tbl_assignval_walk (E : VarEnv) (key val : Nat) : TblPtr → Option (Option TblPtr)
  | .null => some none
  | .ref ro t tail =>
    if ¬ ro then some none
    else if t.stride < 2 then
      if ¬ E.ishash key ∨ E.mu_hash key ≥ t.len then
        (tbl_assignval_walk E key val tail).map fun r => r.map fun tl => .ref ro t tl
      else if t.stride = 0 then
        if E.ishash val ∧ E.getuint val = hash_t (E.mu_hash key + t.offset) then
          some (some (.ref ro t tail))
        else
          some (some (.ref ro { tbl_realizevals E t with
            array := (tbl_realizevals E t).array.set (E.mu_hash key) val } tail))
      else some (some (.ref ro { t with array := t.array.set (E.mu_hash key) val } tail))
    else
      match tbl_assign_probe E t key (2 ^ t.npw2) (E.mu_hash key) with
      | .hang => none
      | .miss _ => (tbl_assignval_walk E key val tail).map fun r => r.map fun tl => .ref ro t tl
      | .hit mi => some (some (.ref ro { t with array := t.array.set (2 * mi + 1) val } tail))

/-- The last loop of `tbl_assignval`: `miss` at the first slot with a nil key,
`hit` at the first pair whose key equals `key` and whose value is nil. -/
def tbl_assignval_probe (E : VarEnv) (t : tbl_t) (key : Nat) : Nat → Nat → Probe
  | 0, _ => .hang
  | n + 1, i =>
    let mi := i &&& (2 ^ t.npw2 - 1)
    if t.array.getD (2 * mi) 0 = 0 then .miss mi
    else if E.mu_equals key (t.array.getD (2 * mi) 0) ∧ t.array.getD (2 * mi + 1) 0 = 0 then
      .hit mi
    else tbl_assignval_probe E t key n (tbl_next i)

/-- The part of `tbl_assignval` after `t = tbl_write(head, eh)`: the insertion
into the head; `none` when a probe loop never stops. -/
def tbl_assignval_head (E : VarEnv) (t : tbl_t) (key val : Nat) : Option tbl_t :=
  let probe := fun (t : tbl_t) =>
    match tbl_assignval_probe E t key (2 ^ t.npw2) (E.mu_hash key) with
    | .hang => none
    | .miss mi =>
      some { t with array := (t.array.set (2 * mi) key).set (2 * mi + 1) val, len := t.len + 1 }
    | .hit mi =>
      some { t with array := t.array.set (2 * mi + 1) val, nils := t.nils - 1, len := t.len + 1 }
  (if tbl_ncap (t.len + t.nils + 1) > 2 ^ t.npw2 then tbl_resize E t (t.len + 1) else some t).bind
    fun t =>
      if t.stride < 2 then
        if E.ishash key ∧ E.mu_hash key = t.len then
          if t.stride = 0 then
            let t1 := if E.ishash val ∧ t.len = 0 then { t with offset := E.getuint val } else t
            if E.ishash val ∧ E.getuint val = hash_t (E.mu_hash key + t1.offset) then
              some { t1 with len := t1.len + 1 }
            else
              some { tbl_realizevals E t1 with
                array := (tbl_realizevals E t1).array.set (E.mu_hash key) val
                len := t1.len + 1 }
          else some { t with array := t.array.set (E.mu_hash key) val, len := t.len + 1 }
        else probe (tbl_realizekeys E t)
      else probe t

/-- `tbl_assignval` on the chain `head`: the walk over the read-only tables,
then `tbl_write(head, eh)`, which raises the error for a read-only head, and
the insertion into the head. -/
def tbl_assignval (E : VarEnv) (head : TblPtr) (key val : Nat) : Res TblPtr :=
  match tbl_assignval_walk E key val head with
  | none => .hang
  | some (some c) => .ok c
  | some none =>
    match head with
    | .null => .ok .null
    | .ref ro t tail =>
      if ro then .error .constViolation head
      else
        match tbl_assignval_head E t key val with
        | some s => .ok (.ref ro s tail)
        | none => .hang

/-- `tbl_assign`. -/
def tbl_assign (E : VarEnv) (t : TblPtr) (key val : Nat) : Res TblPtr :=
  if key = 0 then .ok t
  else if val = 0 then
    match tbl_assignnil E key t with
    | some c => .ok c
    | none => .hang
  else tbl_assignval E t key val

/-- The stride table in LIST mode that holds the value `5` (the number 2 of
`ex_env`) under the key 0. -/
def ex_tail_b : tbl_t := ⟨2, 1, 0, 1, 0, [5, 0, 0, 0]⟩

/-- The number of slots among the first `cap` of a hashed array whose key is
not nil. -/
def tbl_used (array : List Nat) (cap : Nat) : Nat :=
  ((Finset.range cap).filter fun m => array.getD (2 * m) 0 ≠ 0).card

/-- The difference `a - b` of two `num_t` operands. -/
def num_sub : num_t → num_t → num_t
  | .fin a, .fin b => num_round (a - b)
  | .fin _, .inf s => .inf (!s)
  | .inf s, .fin _ => .inf s
  | .inf s, .inf r => if s = r then .nan else .inf s
  | _, _ => .nan

/-- Modelled from the spec: `var.h` of the older implementation is not among
the sources; the member `bits` of the union `mu_t` overlays the member `num`,
"a floating-point bit pattern", so it is the IEEE-754 binary32 encoding of the
number: sign, eight bits of biased exponent, 23 bits of fraction.  A zero is
encoded as `+0` and a NaN as the quiet NaN `0x7fc00000`. -/
def num_bits : num_t → Nat
  | .fin x =>
    if x = 0 then 0
    else
      (if x < 0 then 2 ^ 31 else 0) +
        (if qlog2 x < -126 then ⌊|x| / pow2 (-149)⌋.toNat
         else (qlog2 x + 127).toNat * 2 ^ 23 + (⌊|x| / pow2 (qlog2 x - 23)⌋.toNat - 2 ^ 23))
  | .inf neg => (if neg then 2 ^ 31 else 0) + 0x7f800000
  | .nan => 0x7fc00000

/-- `num_hash`. -/
def num_hash (n : num_t) : Nat :=
  let ipart := num_add n (.fin 12582912)
  let fpart := num_sub n (num_sub ipart (.fin 12582912))
  0x807fffff &&& (num_bits ipart ^^^ num_bits fpart)

/-- The calls `tbl_insert(t, k, v)` for the pairs `(k, v)` of `ops`, in order;
a nil value deletes. -/
def tbl_insert_seq (E : VarEnv) (t : tbl_t) (ops : List (Nat × Nat)) : Res tbl_t :=
  ops.foldl (fun r kv => r.bind fun s => tbl_insert E false s kv.1 kv.2) (.ok t)

/-- The number of pairs with a key and a value other than nil among the first
`cap` pairs of a hashed array. -/
def pairs_live (array : List Nat) (cap : Nat) : Nat :=
  ((List.range cap).filter fun j =>
    ¬ (array.getD (2 * j) 0 = 0 ∨ array.getD (2 * j + 1) 0 = 0)).length

/-- What the calls of `tbl_insert` keep true of a stride table: the load
`tbl_ncap(len + nils)` is within the capacity, a range or list has no
tombstone, and in a hashed table `len` bounds the live pairs and `len + nils`
the slots with a key. -/
def tbl_load_inv (t : tbl_t) : Prop :=
  tbl_ncap (t.len + t.nils) ≤ 2 ^ t.npw2 ∧
  (t.stride < 2 → t.nils = 0) ∧
  (¬ t.stride < 2 → pairs_live t.array (2 ^ t.npw2) ≤ t.len ∧
    tbl_used t.array (2 ^ t.npw2) ≤ t.len + t.nils)

/-- The hashed table of one slot reached from `tbl_create(0)` by three
insertions each followed by its deletion and a fourth insertion: the slot
holds the key `14`. -/
def ex_full : tbl_t := ⟨0, 1, 0, 2, 0, [14, 5]⟩

/-- `mu_tbl_pairsnpw2` for a build in which `sizeof(mu_t)` is `w` bytes, so
that `psize = 2 * w`: `w = 8` in the 64-bit build, `w = 4` in the 32-bit
build.  `MU_MINALLOC / psize` is `MU_MINPAIRS` in both. -/
def mu_tbl_pairsnpw2_w (w len : Nat) : Nat × Nat :=
  let psize := 2 * w
  let isize := mu_tbl_isize len
  let indices := (psize * len + psize - 1) / (psize - isize)
  (mu_npw2 (if indices < MU_MINPAIRS then MU_MINPAIRS else indices), isize)

/-- `mu_tbl_off` for a table of `1 << npw2` slots with indices of `isize`
bytes, in the build with `sizeof(mu_t) = w`. -/
def mu_tbl_off_w (w npw2 isize : Nat) : Nat := (isize * 2 ^ npw2 + 2 * w - 1) / (2 * w)

/-- The table that `mu_tbl_pairsexpand(t, 240)` starts from: 512 slots with
one-byte indices, the index area of 32 pairs at the start of the array. -/
def ex_pairs240 : mtbl := ⟨9, 1, 0, 0, List.replicate 1024 0⟩

/-- The list reached from `mu_tbl_create(0)` by inserting under the keys 0, 1
and 4, deleting the key 0 and inserting it again: five words are in use but
`len + nils` is 4. -/
def ex_lost : mtbl := ⟨3, 0, 3, 1, [4099, 4107, 0, 0, 4123, 0, 0, 0]⟩

/-- A pairs table of four slots that holds the number 1 under the key 0 and
`787` under the key `779`; one pair is free. -/
def ex_pairs2 : mtbl := ⟨2, 1, 2, 0, [66048, 0, 1, 4607182418800017409, 779, 787, 0, 0]⟩

/-! # Theorems -/

/-! ## Numbers: conversion round trip -/

theorem ulog2_go_eq (f : Nat) : ∀ n, n < 2 ^ f → ulog2_go f n = Nat.log2 n := by
  induction f with
  | zero =>
    intro n hn
    have : n = 0 := by simpa using hn
    subst this
    rw [Nat.log2]; rfl
  | succ f ih =>
    intro n hn
    rw [ulog2_go, Nat.log2]
    by_cases h : n < 2
    · rw [if_pos h, if_neg (by omega)]
    · rw [if_neg h, if_pos (by omega), ih (n / 2) (by rw [Nat.pow_succ] at hn; omega)]

theorem ulog2_eq (n : Nat) (h : n < 2 ^ 64) : ulog2 n = Nat.log2 n := ulog2_go_eq 64 n h

theorem float_of_uint_small (n : Nat) (h0 : n ≠ 0) (hn : n < 2 ^ 50) :
    ∃ e m, e ≤ 49 ∧ 2 ^ 52 ≤ m ∧ m < 2 ^ 53 ∧ m % 8 = 0 ∧ m = n * 2 ^ (52 - e) ∧
      float_of_uint n = (e + 1023) * 2 ^ 52 + (m - 2 ^ 52) := by
  have he : Nat.log2 n < 50 := (Nat.log2_lt h0).2 hn
  have hlo : 2 ^ Nat.log2 n ≤ n := Nat.log2_self_le h0
  have hhi : n < 2 ^ (Nat.log2 n + 1) := Nat.lt_log2_self
  refine ⟨Nat.log2 n, n * 2 ^ (52 - Nat.log2 n), by omega, ?_, ?_, ?_, rfl, ?_⟩
  · calc 2 ^ 52 = 2 ^ Nat.log2 n * 2 ^ (52 - Nat.log2 n) := by
          rw [← Nat.pow_add]; congr 1; omega
      _ ≤ n * 2 ^ (52 - Nat.log2 n) := Nat.mul_le_mul_right _ hlo
  · calc n * 2 ^ (52 - Nat.log2 n) < 2 ^ (Nat.log2 n + 1) * 2 ^ (52 - Nat.log2 n) :=
          Nat.mul_lt_mul_of_pos_right hhi (Nat.two_pow_pos _)
      _ = 2 ^ 53 := by rw [← Nat.pow_add]; congr 1; omega
  · have : 2 ^ (52 - Nat.log2 n) = 2 ^ (52 - Nat.log2 n - 3) * 8 := by
      rw [show (8 : Nat) = 2 ^ 3 by norm_num, ← Nat.pow_add]; congr 1; omega
    rw [this, ← Nat.mul_assoc]; exact Nat.mul_mod_left _ _
  · unfold float_of_uint
    simp only [h0, if_false]
    rw [ulog2_eq n (by omega), if_pos (by omega)]

theorem mu_num_getuint_fromuint (n : Nat) (hn : n < 2 ^ 50) :
    mu_num_getuint (mu_num_fromuint n) = n := by
  by_cases h0 : n = 0
  · subst h0; decide
  · obtain ⟨e, m, he, hm1, hm2, hm8, hm, hf⟩ := float_of_uint_small n h0 hn
    have hpos : 0 < 2 ^ (52 - e) := Nat.two_pow_pos _
    unfold mu_num_getuint mu_num_fromuint uint_of_float MTNUM
    rw [hf]
    have h8 : ((e + 1023) * 2 ^ 52 + (m - 2 ^ 52)) % 8 = 0 := by omega
    rw [h8]
    have hu : (1 + ((e + 1023) * 2 ^ 52 + (m - 2 ^ 52) - 0) + 2 ^ 64 - 1) % 2 ^ 64
        = (e + 1023) * 2 ^ 52 + (m - 2 ^ 52) := by omega
    rw [hu]
    have hex : ((e + 1023) * 2 ^ 52 + (m - 2 ^ 52)) / 2 ^ 52 % 2 ^ 11 = e + 1023 := by omega
    have hfr : ((e + 1023) * 2 ^ 52 + (m - 2 ^ 52)) % 2 ^ 52 = m - 2 ^ 52 := by omega
    have hsg : ¬ ((e + 1023) * 2 ^ 52 + (m - 2 ^ 52)) / 2 ^ 63 % 2 = 1 := by omega
    simp only [hex, hfr, hsg, if_false]
    rw [if_neg (by omega), if_pos (by omega)]
    have h1 : 2 ^ 52 + (m - 2 ^ 52) = n * 2 ^ (52 - e) := by omega
    have h2 : 1075 - (e + 1023) = 52 - e := by omega
    rw [h1, h2]
    exact Nat.mul_div_cancel n hpos

theorem mu_num_fromuint_ne_zero (n : Nat) : mu_num_fromuint n ≠ 0 := by
  unfold mu_num_fromuint MTNUM; omega

theorem mu_num_fromuint_inj (a b : Nat) (ha : a < 2 ^ 50) (hb : b < 2 ^ 50)
    (h : mu_num_fromuint a = mu_num_fromuint b) : a = b := by
  have := congrArg mu_num_getuint h
  rwa [mu_num_getuint_fromuint a ha, mu_num_getuint_fromuint b hb] at this

theorem mask_eq_mod (t : mtbl) (i : Nat) :
    i &&& (mu_tbl_size t - 1) = i % mu_tbl_size t :=
  Nat.and_pow_two_sub_one_eq_mod i t.npw2

theorem mu_tbl_size_pos (t : mtbl) : 0 < mu_tbl_size t := Nat.two_pow_pos _

/-! ## Probe sequences -/

theorem probe_cover (S : Nat) (hS : 0 < S) (h e : Nat) (he : e < S) :
    ∃ n < S, (h + n) % S = e := by
  refine ⟨(e + S - h % S) % S, Nat.mod_lt _ hS, ?_⟩
  rw [Nat.add_mod_mod]
  have hh : h % S < S := Nat.mod_lt _ hS
  have hd := Nat.div_add_mod h S
  have : h + (e + S - h % S) = e + S * (h / S + 1) := by
    rw [Nat.mul_add, Nat.mul_one]; omega
  rw [this, Nat.add_mul_mod_self_left]; exact Nat.mod_eq_of_lt he

theorem mu_tbl_off_pos (t : mtbl) (hw : mu_tbl_wf_pairs t) : 0 < mu_tbl_off t := by
  obtain ⟨hi, -⟩ := hw
  have hs := mu_tbl_size_pos t
  unfold mu_tbl_off
  rcases hi with h | h | h | h <;> rw [h] <;> omega

theorem getD_set_ne (l : List Nat) (i j v : Nat) (h : i ≠ j) :
    (l.set i v).getD j 0 = l.getD j 0 := by
  simp [List.getD_eq_getElem?_getD, List.getElem?_set, h]

theorem getD_set_eq (l : List Nat) (i v : Nat) (h : i < l.length) :
    (l.set i v).getD i 0 = v := by
  simp [List.getD_eq_getElem?_getD, List.getElem?_set, h]

theorem mu_tbl_size_le (t : mtbl) (h : t.npw2 ≤ 30) : mu_tbl_size t ≤ 2 ^ 30 :=
  Nat.pow_le_pow_right (by norm_num) h

theorem mlen_add_wrap (n : Nat) (h : n < 2 ^ 32) : mlen (n + 2 ^ 32) = n := by
  unfold mlen; omega

/-- An index slot lies in the words before the pair area. -/
theorem mu_tbl_getpair_word_lt (t : mtbl)
    (hi : t.isize = 1 ∨ t.isize = 2 ∨ t.isize = 4 ∨ t.isize = 8) (i : Nat)
    (h : i < mu_tbl_size t) : i / (8 / t.isize) < 2 * mu_tbl_off t := by
  unfold mu_tbl_off
  rcases hi with h1 | h1 | h1 | h1 <;> rw [h1] <;> norm_num <;> omega

/-- The index slots do not change when a word of the pair area is written. -/
theorem mu_tbl_getpair_set (t : mtbl) (q v len nils : Nat) (hq : 2 * mu_tbl_off t ≤ q) (i : Nat)
    (h : i < mu_tbl_size t) :
    mu_tbl_getpair { t with array := t.array.set q v, len := len, nils := nils } i
      = mu_tbl_getpair t i := by
  unfold mu_tbl_getpair
  by_cases hi : t.isize = 1 ∨ t.isize = 2 ∨ t.isize = 4 ∨ t.isize = 8
  · have := mu_tbl_getpair_word_lt t hi i h
    simp only [hi, if_true]
    rw [getD_set_ne _ _ _ _ (by omega)]
  · simp only [hi, if_false]

/-- In a list-mode table the slot computed for the key `i` is `i`. -/
theorem mu_tbl_list_slot (t : mtbl) (hn : t.npw2 ≤ 30) (i : Nat) (hi : i < mu_tbl_size t) :
    mu_num_getuint (mu_num_fromuint i) &&& (mu_tbl_size t - 1) = i := by
  have := mu_tbl_size_le t hn
  rw [mu_num_getuint_fromuint i (by omega), mask_eq_mod, Nat.mod_eq_of_lt hi]

theorem mu_tbl_probe_hit_aux (t : mtbl) (hw : mu_tbl_wf_pairs t) (k j : Nat)
    (hj : j < mu_tbl_count t) (hkey : t.array.getD (2 * (mu_tbl_off t + j)) 0 = k) :
    ∀ n i fuel, n < fuel → mu_tbl_getpair t ((i + n) % mu_tbl_size t) = mu_tbl_off t + j →
      (∀ m < n, mu_tbl_getpair t ((i + m) % mu_tbl_size t) ≠ 0) →
      mu_tbl_probe t k fuel i = .hit (mu_tbl_off t + j) := by
  have hoff := mu_tbl_off_pos t hw
  obtain ⟨-, -, -, -, -, hrange, -, -, huniq⟩ := hw
  intro n
  induction n with
  | zero =>
    intro i fuel hf hp _
    obtain ⟨f, rfl⟩ : ∃ f, fuel = f + 1 := ⟨fuel - 1, by omega⟩
    simp only [Nat.add_zero] at hp
    simp only [mu_tbl_probe, mask_eq_mod, hp]
    rw [if_pos ⟨by omega, hkey⟩]
  | succ n ih =>
    intro i fuel hf hp hne
    obtain ⟨f, rfl⟩ : ∃ f, fuel = f + 1 := ⟨fuel - 1, by omega⟩
    have h0 := hne 0 (by omega)
    simp only [Nat.add_zero] at h0
    simp only [mu_tbl_probe, mask_eq_mod]
    split
    · next hc =>
      rcases hrange _ (Nat.mod_lt i (mu_tbl_size_pos t)) with h | ⟨h1, h2⟩
      · exact absurd h h0
      · have := huniq (mu_tbl_getpair t (i % mu_tbl_size t) - mu_tbl_off t) (by omega) j hj
          (by rw [show mu_tbl_off t + (mu_tbl_getpair t (i % mu_tbl_size t) - mu_tbl_off t)
                = mu_tbl_getpair t (i % mu_tbl_size t) by omega, hc.2, hkey])
        congr 1; omega
    · apply ih (i + 1) f (by omega)
      · rw [show i + 1 + n = i + (n + 1) by omega]; exact hp
      · intro m hm; rw [show i + 1 + m = i + (m + 1) by omega]; exact hne (m + 1) (by omega)

theorem mu_tbl_probe_hit (t : mtbl) (hw : mu_tbl_wf_pairs t) (k j : Nat)
    (hj : j < mu_tbl_count t) (hkey : t.array.getD (2 * (mu_tbl_off t + j)) 0 = k) :
    mu_tbl_probe t k (mu_tbl_size t) (mu_tbl_hash t k) = .hit (mu_tbl_off t + j) := by
  obtain ⟨-, n, hn, hp, hne⟩ := hw.2.2.2.2.2.2.2.1 j hj
  rw [hkey] at hp hne
  exact mu_tbl_probe_hit_aux t hw k j hj hkey n _ _ hn hp hne

/-- C1 (code defect): `mu_tbl_lookup` returns from the head of the chain as
soon as the key addresses one of its slots, whether or not that slot holds a
value, and never reaches the tail.  The empty list-mode table with the tail
`ex_list1`, which holds `0 ↦ 4099`, answers nil for the key `0`; the
pairs-mode table `ex_deleted`, which held the key `4123` and deleted it,
answers nil for `4123` although its tail `ex_pairs1` holds `4123 ↦ 4139`. -/
theorem mu_tbl_lookup_head_hides_tail :
    mu_tbl_insert 1 false ex_empty (mu_num_fromuint 0) 4099 = .ok ex_list1 ∧
    (∀ u, ¬ mu_tbl_holds ex_empty (mu_num_fromuint 0) u) ∧
    mu_tbl_holds ex_list1 (mu_num_fromuint 0) 4099 ∧
    mu_tbl_lookup (.ref false ex_list1 .null) (mu_num_fromuint 0) = some 4099 ∧
    mu_tbl_lookup (.ref false ex_empty (.ref false ex_list1 .null)) (mu_num_fromuint 0)
      = some 0 ∧
    mu_tbl_insert 2 false ex_empty 4123 4139 = .ok ex_pairs1 ∧
    (mu_tbl_insert 2 false ex_empty 4123 4131).bind
      (fun t => mu_tbl_insert 2 false t 4123 0) = .ok ex_deleted ∧
    (∀ u, ¬ mu_tbl_holds ex_deleted 4123 u) ∧
    mu_tbl_holds ex_pairs1 4123 4139 ∧
    mu_tbl_lookup (.ref false ex_deleted (.ref false ex_pairs1 .null)) 4123 = some 0 := by
  refine ⟨by decide!, ?_, by decide!, by decide!, by decide!, by decide!, by decide!, ?_,
    by decide!, by decide!⟩
  · rintro u ⟨-, h⟩
    rw [if_pos (show ex_empty.isize = 0 from rfl)] at h
    obtain ⟨i, hi, -⟩ := h
    have : i < 0 := hi
    omega
  · rintro u ⟨hu, h⟩
    rw [if_neg (show ¬ ex_deleted.isize = 0 by decide)] at h
    obtain ⟨j, hj, -, hv⟩ := h
    have hj0 : j = 0 := by
      have : j < 1 := hj
      omega
    subst hj0
    exact hu hv.symm

/-! ## Mutation of a frozen table -/

/-- C4: on a read-only reference `mu_tbl_insert`, `mu_tbl_push` and
`mu_tbl_pop` raise the const error whatever their arguments (nil key and nil
value included), and the table is what it was before the call. -/
theorem mu_tbl_frozen_insert_push_pop (num_add num_sub : Nat → Nat → Nat) (fuel : Nat)
    (t : mtbl) (k v p : Nat) (i : Int) :
    mu_tbl_insert fuel true t k v = .error .constViolation t ∧
    mu_tbl_push num_add fuel true t p i = .error .constViolation t ∧
    mu_tbl_pop num_sub fuel true t i = .error .constViolation (t, 0) := by
  refine ⟨?_, ?_, ?_⟩
  · unfold mu_tbl_insert; rfl
  · unfold mu_tbl_push; rfl
  · unfold mu_tbl_pop; rfl

/-! ## Assignment through the tail chain -/

/-- C7 (code defect): from `mu_tbl_create(0)`, whose capacity is 4, the two
calls `mu_tbl_insert(t, 1, 4107)` and `mu_tbl_insert(t, 3, 4123)` leave
`len = 2` and `nils = 3`: `len + nils = 5` exceeds the capacity `2^npw2 = 4`,
which has not changed. -/
theorem mu_tbl_insert_count_exceeds_size :
    (mu_tbl_insert 1 false (mu_tbl_create 0) (mu_num_fromuint 1) 4107).bind
      (fun t => mu_tbl_insert 1 false t (mu_num_fromuint 3) 4123) = .ok ex_holes ∧
    mu_tbl_count ex_holes = 5 ∧ mu_tbl_size ex_holes = 4 ∧
    ¬ (ex_holes.len + ex_holes.nils ≤ 2 ^ ex_holes.npw2) := by
  refine ⟨by decide!, by decide, by decide, by decide⟩

/-! ## Dense lists -/

theorem getD_append_zeros (vs : List Nat) (m q : Nat) :
    (vs ++ List.replicate m 0).getD q 0 = vs.getD q 0 := by
  by_cases h : q < vs.length
  · exact List.getD_append _ _ _ _ h
  · rw [List.getD_append_right _ _ _ _ (by omega), List.getD_eq_default vs 0 (by omega)]
    simp only [List.getD_eq_getElem?_getD, List.getElem?_replicate]
    split <;> rfl

theorem set_append_zeros (vs : List Nat) (m v : Nat) :
    (vs ++ List.replicate (m + 1) 0).set vs.length v = (vs ++ [v]) ++ List.replicate m 0 := by
  induction vs with
  | nil => simp [List.replicate_succ]
  | cons a l ih => simp [ih]

theorem range_map_zeros (vs : List Nat) (m k : Nat) (h : vs.length ≤ k) :
    (List.range k).map (fun i => if i < vs.length then (vs ++ List.replicate m 0).getD i 0 else 0)
      = vs ++ List.replicate (k - vs.length) 0 := by
  apply List.ext_getElem
  · simp; omega
  · intro i h1 h2
    simp only [List.getElem_map, List.getElem_range]
    by_cases hi : i < vs.length
    · rw [if_pos hi, List.getD_append _ _ _ _ hi, List.getD_eq_getElem _ _ hi,
        List.getElem_append_left hi]
    · rw [if_neg hi, List.getElem_append_right (by omega)]
      simp

theorem mu_npw2_two_pow_succ (p : Nat) (hp : p < 64) : mu_npw2 (2 ^ p + 1) = p + 1 := by
  unfold mu_npw2
  have := Nat.two_pow_pos p
  have hlt : 2 ^ p < 2 ^ 64 := Nat.pow_lt_pow_right (by norm_num) hp
  rw [if_neg (by omega), Nat.add_sub_cancel, ulog2_eq _ hlt]
  simp [Nat.log2_two_pow]

theorem mu_npw2_le (i : Nat) (hi : i ≤ 2 ^ 64) : i ≤ 2 ^ mu_npw2 i := by
  unfold mu_npw2
  split
  · simp; omega
  · rw [ulog2_eq _ (by omega)]
    have := @Nat.lt_log2_self (i - 1)
    omega

theorem mu_npw2_bound (i p : Nat) (h : i ≤ 2 ^ p) (hp : p ≤ 64) : mu_npw2 i ≤ p := by
  unfold mu_npw2
  have hle : 2 ^ p ≤ 2 ^ 64 := Nat.pow_le_pow_right (by norm_num) hp
  split
  · omega
  · have h1 : i - 1 ≠ 0 := by omega
    rw [ulog2_eq _ (by omega)]
    have := (Nat.log2_lt h1).2 (show i - 1 < 2 ^ p by omega)
    omega

theorem mu_npw2_ge_two (i : Nat) (h : 4 ≤ i) (hi : i ≤ 2 ^ 64) : 2 ≤ mu_npw2 i := by
  unfold mu_npw2
  rw [if_neg (by omega), ulog2_eq _ (by omega)]
  have h1 : i - 1 ≠ 0 := by omega
  have : ¬ Nat.log2 (i - 1) < 1 := by
    rw [Nat.log2_lt h1]; omega
  omega

theorem mu_tbl_dense_getD (t : mtbl) (vs : List Nat) (hd : mu_tbl_dense t vs) (q : Nat) :
    t.array.getD q 0 = vs.getD q 0 := by
  obtain ⟨-, -, -, -, -, -, -, ha⟩ := hd
  rw [ha]; exact getD_append_zeros vs _ q

/-- Appending to a dense list that has a free slot: the value is stored in
place. -/
theorem mu_tbl_insert_dense_fits (fuel : Nat) (t : mtbl) (vs : List Nat) (v : Nat)
    (hd : mu_tbl_dense t vs) (hv : v ≠ 0) (hlt : vs.length < 2 ^ t.npw2) :
    ∃ s, mu_tbl_insert (fuel + 1) false t (mu_num_fromuint vs.length) v = .ok s ∧
      mu_tbl_dense s (vs ++ [v]) ∧ s.npw2 = t.npw2 := by
  have hg := mu_tbl_dense_getD t vs hd vs.length
  obtain ⟨h1, h2, h3, h4, h5, h6, h7, h8⟩ := hd
  have hsz : vs.length < mu_tbl_size t := hlt
  have hsl := mu_tbl_size_le t h3
  have hslot := mu_tbl_list_slot t h3 vs.length hsz
  have hb : mu_tbl_islist t = true := by unfold mu_tbl_islist; simp [h1]
  have hz : t.array.getD vs.length 0 = 0 := by
    rw [hg]; exact List.getD_eq_default _ _ (le_refl _)
  have hk := mu_num_fromuint_ne_zero vs.length
  refine ⟨{ t with array := t.array.set vs.length v, len := vs.length + 1, nils := 0 }, ?_, ?_, rfl⟩
  · unfold mu_tbl_insert
    simp only [Bool.false_eq_true, if_false, hk, hb, if_true, hslot, hz, ne_eq,
      not_true_eq_false, and_false, hv, not_false_eq_true, MU_MAXLEN]
    rw [if_neg (by omega)]
    have e1 : mlen (t.len + 1) = vs.length + 1 := by unfold mlen; omega
    have e2 : mlen (t.nils + vs.length + (2 ^ 32 - (vs.length + 1 - 1))) = 0 := by
      unfold mlen; omega
    rw [e1, e2]
  · refine ⟨h1, h2, h3, by simp, rfl, by simp; omega, ?_, ?_⟩
    · intro u hu
      rcases List.mem_append.1 hu with h | h
      · exact h7 u h
      · simp at h; rw [h]; exact hv
    · show t.array.set vs.length v = _
      rw [h8]
      obtain ⟨m, hm⟩ : ∃ m, 2 ^ t.npw2 - vs.length = m + 1 := ⟨2 ^ t.npw2 - vs.length - 1, by omega⟩
      rw [hm, set_append_zeros]
      congr 2
      simp; omega

/-- `mu_tbl_listexpand` of a dense list to a larger size is the same dense
list. -/
theorem mu_tbl_listexpand_dense (t : mtbl) (vs : List Nat) (q : Nat)
    (hd : mu_tbl_dense t vs) (hq1 : 2 ≤ mu_tbl_listnpw2 q) (hq2 : mu_tbl_listnpw2 q ≤ 30)
    (hq3 : vs.length ≤ 2 ^ mu_tbl_listnpw2 q) :
    mu_tbl_dense (mu_tbl_listexpand t q) vs ∧
      (mu_tbl_listexpand t q).npw2 = mu_tbl_listnpw2 q := by
  obtain ⟨h1, h2, h3, h4, h5, h6, h7, h8⟩ := hd
  refine ⟨⟨h1, hq1, hq2, h4, h5, hq3, h7, ?_⟩, rfl⟩
  show (List.range (2 ^ mu_tbl_listnpw2 q)).map _ = _
  have hc : mu_tbl_count t = vs.length := by unfold mu_tbl_count; omega
  rw [hc, h8]
  exact range_map_zeros vs _ _ hq3

/-- Appending the next value to a dense list keeps it a dense list. -/
theorem mu_tbl_insert_dense_append (fuel : Nat) (t : mtbl) (vs : List Nat) (v : Nat)
    (hd : mu_tbl_dense t vs) (hv : v ≠ 0) (hn : vs.length < 2 ^ 30) :
    ∃ s, mu_tbl_insert (fuel + 2) false t (mu_num_fromuint vs.length) v = .ok s ∧
      mu_tbl_dense s (vs ++ [v]) := by
  by_cases hlt : vs.length < 2 ^ t.npw2
  · obtain ⟨s, hs, hds, -⟩ := mu_tbl_insert_dense_fits (fuel + 1) t vs v hd hv hlt
    exact ⟨s, hs, hds⟩
  · have hd' := hd
    obtain ⟨h1, h2, h3, h4, h5, h6, h7, h8⟩ := hd
    have heq : vs.length = 2 ^ t.npw2 := by omega
    have hp : t.npw2 < 30 := by
      by_contra hge
      have : 2 ^ 30 ≤ 2 ^ t.npw2 := Nat.pow_le_pow_right (by norm_num) (by omega)
      omega
    have h4le : 4 ≤ 2 ^ t.npw2 := by
      have : 2 ^ 2 ≤ 2 ^ t.npw2 := Nat.pow_le_pow_right (by norm_num) h2
      omega
    have hnp : mu_tbl_listnpw2 (mlen (vs.length + 1)) = t.npw2 + 1 := by
      have : mlen (vs.length + 1) = 2 ^ t.npw2 + 1 := by unfold mlen; omega
      rw [this]
      unfold mu_tbl_listnpw2 MU_MINLIST
      rw [if_neg (by omega)]
      exact mu_npw2_two_pow_succ _ (by omega)
    have hpow : 2 ^ (t.npw2 + 1) = 2 * 2 ^ t.npw2 := by rw [Nat.pow_succ]; omega
    obtain ⟨hde, hne⟩ := mu_tbl_listexpand_dense t vs (mlen (vs.length + 1)) hd'
      (by rw [hnp]; omega) (by rw [hnp]; omega) (by rw [hnp, hpow]; omega)
    obtain ⟨s, hs, hds, -⟩ := mu_tbl_insert_dense_fits fuel _ vs v hde hv
      (by rw [hne, hnp, hpow]; omega)
    refine ⟨s, ?_, hds⟩
    rw [← hs]
    have hb : mu_tbl_islist t = true := by unfold mu_tbl_islist; simp [h1]
    have hk := mu_num_fromuint_ne_zero vs.length
    have hslot : mu_num_getuint (mu_num_fromuint vs.length) &&& (mu_tbl_size t - 1) = 0 := by
      rw [mu_num_getuint_fromuint _ (by omega), mask_eq_mod]
      unfold mu_tbl_size; rw [heq]; exact Nat.mod_self _
    have hslot2 : mu_num_getuint (mu_num_fromuint vs.length) &&& (2 * (mu_tbl_size t - 1) + 1)
        = vs.length := by
      rw [mu_num_getuint_fromuint _ (by omega)]
      have : 2 * (mu_tbl_size t - 1) + 1 = 2 ^ (t.npw2 + 1) - 1 := by
        unfold mu_tbl_size; omega
      rw [this, Nat.and_pow_two_sub_one_eq_mod]
      exact Nat.mod_eq_of_lt (by omega)
    have hne0 : ¬ mu_num_fromuint vs.length = mu_num_fromuint 0 := by
      intro h
      have := mu_num_fromuint_inj _ _ (by omega) (by norm_num) h
      omega
    conv_lhs => unfold mu_tbl_insert
    simp only [Bool.false_eq_true, if_false, hk, hb, if_true, hslot, hne0, false_and, hv,
      ne_eq, not_false_eq_true, hslot2, MU_MAXLEN]
    rw [if_neg (by omega)]

theorem mu_tbl_create_dense (c : Nat) (hc : c ≤ 2 ^ 30) : mu_tbl_dense (mu_tbl_create c) [] := by
  have hm : mlen c = c := by unfold mlen; omega
  have h2 : 2 ≤ mu_tbl_listnpw2 c := by
    unfold mu_tbl_listnpw2 MU_MINLIST
    split
    · exact mu_npw2_ge_two 4 (le_refl _) (by norm_num)
    · exact mu_npw2_ge_two c (by omega) (by omega)
  have h3 : mu_tbl_listnpw2 c ≤ 30 := by
    unfold mu_tbl_listnpw2 MU_MINLIST
    split
    · exact mu_npw2_bound 4 30 (by norm_num) (by norm_num)
    · exact mu_npw2_bound c 30 hc (by norm_num)
  unfold mu_tbl_create
  rw [hm]
  exact ⟨rfl, h2, h3, rfl, rfl, Nat.zero_le _, by simp, by simp⟩

/-- Looking up an integer key below the capacity of a dense list gives the
value at that position (nil beyond the values). -/
theorem mu_tbl_dense_lookup (r : Bool) (t : mtbl) (tail : Tbl) (vs : List Nat)
    (hd : mu_tbl_dense t vs) (i : Nat) (hi : i < 2 ^ t.npw2) :
    mu_tbl_lookup (.ref r t tail) (mu_num_fromuint i) = some (vs.getD i 0) := by
  have hg := mu_tbl_dense_getD t vs hd i
  obtain ⟨h1, h2, h3, -⟩ := hd
  have hb : mu_tbl_islist t = true := by unfold mu_tbl_islist; simp [h1]
  have hslot := mu_tbl_list_slot t h3 i hi
  unfold mu_tbl_lookup
  rw [if_neg (mu_num_fromuint_ne_zero i)]
  simp only [mu_tbl_lookup_chain, hb, if_true, hslot, hg]

/-! ## `mu_tbl_push` on a dense list -/

theorem list_ext_getD (a b : List Nat) (hl : a.length = b.length)
    (h : ∀ q < a.length, a.getD q 0 = b.getD q 0) : a = b := by
  apply List.ext_getElem hl
  intro q h1 h2
  have := h q h1
  rwa [List.getD_eq_getElem _ _ h1, List.getD_eq_getElem _ _ h2] at this

theorem memmove_words_length (a : List Nat) (d s n : Nat) :
    (memmove_words a d s n).length = a.length := by
  simp [memmove_words]

theorem memmove_words_getD (a : List Nat) (d s n q : Nat) (hq : q < a.length) :
    (memmove_words a d s n).getD q 0
      = if d ≤ q ∧ q < d + n then a.getD (s + (q - d)) 0 else a.getD q 0 := by
  have h1 : q < (memmove_words a d s n).length := by rw [memmove_words_length]; exact hq
  rw [List.getD_eq_getElem _ _ h1]
  simp [memmove_words]

theorem getD_take_cons_drop (vs : List Nat) (i p q : Nat) (hi : i ≤ vs.length) :
    (vs.take i ++ p :: vs.drop i).getD q 0
      = if q < i then vs.getD q 0 else if q = i then p else vs.getD (q - 1) 0 := by
  have hl : (vs.take i).length = i := by simp; omega
  by_cases h1 : q < i
  · rw [if_pos h1, List.getD_append _ _ _ _ (by omega)]
    simp [List.getD_eq_getElem?_getD, List.getElem?_take, h1]
  · rw [if_neg h1, List.getD_append_right _ _ _ _ (by omega), hl]
    by_cases h2 : q = i
    · subst h2; simp
    · rw [if_neg h2]
      obtain ⟨m, hm⟩ : ∃ m, q - i = m + 1 := ⟨q - i - 1, by omega⟩
      rw [hm]
      simp only [List.getD_eq_getElem?_getD, List.getElem?_cons_succ, List.getElem?_drop]
      congr 2; omega

theorem mu_tbl_index_nat (t : mtbl) (i : Nat) (h : i ≤ t.len) :
    mu_tbl_index t (i : Int) = i := by
  unfold mu_tbl_index
  have h0 : (i : Int) ≥ 0 := Int.ofNat_nonneg i
  simp only [h0, if_true]
  rw [if_neg (by omega), if_neg (by omega)]
  simp

/-- The list branch of `mu_tbl_push` on a dense list with a free slot. -/
theorem mu_tbl_push_array (t : mtbl) (vs : List Nat) (p i : Nat) (hd : mu_tbl_dense t vs)
    (hi : i ≤ vs.length) (hfree : vs.length + 1 ≤ 2 ^ t.npw2) :
    (memmove_words t.array (i + 1) i (mu_tbl_size t - (i + 1))).set i p
      = (vs.take i ++ p :: vs.drop i) ++ List.replicate (2 ^ t.npw2 - (vs.length + 1)) 0 := by
  have hg := mu_tbl_dense_getD t vs hd
  obtain ⟨h1, h2, h3, h4, h5, h6, h7, h8⟩ := hd
  have hlen : t.array.length = 2 ^ t.npw2 := by rw [h8]; simp; omega
  apply list_ext_getD
  · simp [memmove_words_length, hlen]; omega
  · intro q hq
    rw [List.length_set, memmove_words_length, hlen] at hq
    rw [getD_append_zeros, getD_take_cons_drop vs i p q hi]
    by_cases h : q = i
    · subst h
      rw [getD_set_eq _ _ _ (by rw [memmove_words_length, hlen]; exact hq)]
      simp
    · rw [getD_set_ne _ _ _ _ (by omega), memmove_words_getD _ _ _ _ _ (by rw [hlen]; exact hq)]
      unfold mu_tbl_size
      by_cases h' : q < i
      · rw [if_neg (by omega), if_pos h', hg]
      · rw [if_pos (by omega), if_neg h', if_neg h, hg]
        congr 1; omega

/-- The table written by the list branch of `mu_tbl_push` is the dense list
with the value inserted. -/
theorem mu_tbl_push_list_dense (t : mtbl) (vs : List Nat) (p i : Nat) (hd : mu_tbl_dense t vs)
    (hp : p ≠ 0) (hi : i ≤ vs.length) (hfree : vs.length + 1 ≤ 2 ^ t.npw2) :
    mu_tbl_dense
      { t with
        array := (memmove_words t.array (i + 1) i (mu_tbl_size t - (i + 1))).set i p
        len := mlen (t.len + (if p ≠ 0 then 1 else 0)) }
      (vs.take i ++ p :: vs.drop i) := by
  have ha := mu_tbl_push_array t vs p i hd hi hfree
  obtain ⟨h1, h2, h3, h4, h5, h6, h7, h8⟩ := hd
  have hl : (vs.take i ++ p :: vs.drop i).length = vs.length + 1 := by
    simp; omega
  have h30 : 2 ^ t.npw2 ≤ 2 ^ 30 := Nat.pow_le_pow_right (by norm_num) h3
  refine ⟨h1, h2, h3, ?_, h5, by rw [hl]; exact hfree, ?_, by rw [hl]; exact ha⟩
  · show mlen (t.len + (if p ≠ 0 then 1 else 0)) = _
    rw [hl, if_pos hp, h4]; unfold mlen; omega
  · intro u hu
    rcases List.mem_append.1 hu with h | h
    · exact h7 u (List.mem_of_mem_take h)
    · rcases List.mem_cons.1 h with h | h
      · rw [h]; exact hp
      · exact h7 u (List.mem_of_mem_drop h)

/-- C10: on a dense list of `n` values `vs`, `mu_tbl_push(t, p, i)` with
`0 ≤ i ≤ n` and a non-nil `p` returns the dense list of the `n+1` values
`v_0 .. v_{i-1}, p, v_i .. v_{n-1}`: `len = n+1`, key `i` holds `p`, the keys
below `i` keep their values and key `j+1` holds the value formerly at `j` for
`i ≤ j < n`. -/
theorem mu_tbl_push_dense (num_add : Nat → Nat → Nat) (fuel : Nat) (t : mtbl) (vs : List Nat)
    (p i : Nat) (hd : mu_tbl_dense t vs) (hp : p ≠ 0) (hi : i ≤ vs.length)
    (hn : vs.length < 2 ^ 30) :
    ∃ s, mu_tbl_push num_add fuel false t p (i : Int) = .ok s ∧
      mu_tbl_dense s (vs.take i ++ p :: vs.drop i) ∧
      s.len = vs.length + 1 ∧
      mu_tbl_lookup (.ref false s .null) (mu_num_fromuint i) = some p ∧
      (∀ j < i, mu_tbl_lookup (.ref false s .null) (mu_num_fromuint j) = some (vs.getD j 0)) ∧
      (∀ j, i ≤ j → j < vs.length →
        mu_tbl_lookup (.ref false s .null) (mu_num_fromuint (j + 1)) = some (vs.getD j 0)) := by
  have hd0 := hd
  obtain ⟨h1, h2, h3, h4, h5, h6, h7, h8⟩ := hd
  have hidx : mu_tbl_index t (i : Int) = i := mu_tbl_index_nat t i (by omega)
  have hcnt : mu_tbl_count t = vs.length := by unfold mu_tbl_count; omega
  -- the table after the optional expansion
  obtain ⟨t1, ht1, hd1, hfree⟩ : ∃ t1,
      (if mu_tbl_count t + 1 ≥ mu_tbl_size t then
        if ¬ (t.len + 1 ≤ MU_MAXLEN) then Res.error Err.lengthOverflow t
        else if mu_tbl_islist t then Res.ok (mu_tbl_listexpand t (mlen (mu_tbl_count t + 1)))
        else mu_tbl_pairsexpand (mu_tbl_insert fuel false) t (mlen (mu_tbl_count t + 1))
       else Res.ok t) = Res.ok t1 ∧ mu_tbl_dense t1 vs ∧ vs.length + 1 ≤ 2 ^ t1.npw2 := by
    by_cases hc : mu_tbl_count t + 1 ≥ mu_tbl_size t
    · have hb : mu_tbl_islist t = true := by unfold mu_tbl_islist; simp [h1]
      have hm : mlen (mu_tbl_count t + 1) = vs.length + 1 := by
        rw [hcnt]; unfold mlen; omega
      have hge : vs.length + 1 ≤ 2 ^ mu_tbl_listnpw2 (vs.length + 1) := by
        unfold mu_tbl_listnpw2 MU_MINLIST
        split
        · have := mu_npw2_le 4 (by norm_num); omega
        · exact mu_npw2_le _ (by omega)
      have h2' : 2 ≤ mu_tbl_listnpw2 (vs.length + 1) := by
        unfold mu_tbl_listnpw2 MU_MINLIST
        split
        · exact mu_npw2_ge_two 4 (le_refl _) (by norm_num)
        · exact mu_npw2_ge_two _ (by omega) (by omega)
      have h3' : mu_tbl_listnpw2 (vs.length + 1) ≤ 30 := by
        unfold mu_tbl_listnpw2 MU_MINLIST
        split
        · exact mu_npw2_bound 4 30 (by norm_num) (by norm_num)
        · exact mu_npw2_bound _ 30 (by omega) (by norm_num)
      obtain ⟨hde, hne⟩ := mu_tbl_listexpand_dense t vs (vs.length + 1) hd0 h2' h3' (by omega)
      refine ⟨mu_tbl_listexpand t (vs.length + 1), ?_, hde, by rw [hne]; exact hge⟩
      rw [if_pos hc, if_neg (by unfold MU_MAXLEN; omega), if_pos hb, hm]
    · refine ⟨t, by rw [if_neg hc], hd0, ?_⟩
      unfold mu_tbl_size at hc; omega
  have hds := mu_tbl_push_list_dense t1 vs p i hd1 hp hi hfree
  have hb1 : mu_tbl_islist t1 = true := by unfold mu_tbl_islist; simp [hd1.1]
  refine ⟨_, ?_, hds, ?_, ?_, ?_, ?_⟩
  · unfold mu_tbl_push
    simp only [Bool.false_eq_true, if_false, hidx]
    rw [ht1]
    simp only [Res.bind, hb1, if_true]
  · rw [hds.2.2.2.1]; simp; omega
  · have := mu_tbl_dense_lookup false _ .null _ hds i (by
      show i < 2 ^ t1.npw2
      omega)
    rw [this, getD_take_cons_drop vs i p i hi]; simp
  · intro j hj
    have := mu_tbl_dense_lookup false _ .null _ hds j (by
      show j < 2 ^ t1.npw2
      omega)
    rw [this, getD_take_cons_drop vs i p j hi, if_pos hj]
  · intro j hj1 hj2
    have := mu_tbl_dense_lookup false _ .null _ hds (j + 1) (by
      show j + 1 < 2 ^ t1.npw2
      omega)
    rw [this, getD_take_cons_drop vs i p (j + 1) hi, if_neg (by omega), if_neg (by omega)]
    simp

/-- The statement of `mu_tbl_push_dense` for `push(1, 4139)` on the list
`[4099, 4107, 4115]`. -/
theorem mu_tbl_push_dense_witness :
    ∃ s, mu_tbl_push (fun a _ => a) 0 false ex_abc 4139 (1 : Nat) = .ok s ∧
      mu_tbl_dense s ([4099, 4107, 4115].take 1 ++ 4139 :: [4099, 4107, 4115].drop 1) ∧
      s.len = [4099, 4107, 4115].length + 1 ∧
      mu_tbl_lookup (.ref false s .null) (mu_num_fromuint 1) = some 4139 ∧
      (∀ j < 1, mu_tbl_lookup (.ref false s .null) (mu_num_fromuint j)
        = some ([4099, 4107, 4115].getD j 0)) ∧
      (∀ j, 1 ≤ j → j < [4099, 4107, 4115].length →
        mu_tbl_lookup (.ref false s .null) (mu_num_fromuint (j + 1))
          = some ([4099, 4107, 4115].getD j 0)) :=
  mu_tbl_push_dense (fun a _ => a) 0 ex_abc [4099, 4107, 4115] 4139 1 (by decide) (by decide)
    (by decide) (by decide)

/-! ## The stride table: keys inserted in order -/

theorem tbl_ncap_eq (s : Nat) (h : s ≤ 2 ^ 29) : tbl_ncap s = s + s / 2 := by
  unfold tbl_ncap hash_t; omega

theorem ex_list239_reached : mu_tbl_fromlist 2 ex_vals239 = .ok ex_list239 := by decide!

theorem ex_list239_dense : mu_tbl_dense ex_list239 ex_vals239 := by decide!

theorem ex_list239_lookup_224 :
    mu_tbl_lookup (.ref false ex_list239 .null) (mu_num_fromuint 224) = some 5891 := by decide!

theorem ex_list239_insert_shape :
    (mu_tbl_insert 3 false ex_list239 8003 8011).map
      (fun s => (s.npw2, s.isize, s.len, s.nils)) = .ok (9, 1, 240, 0) := by decide!

theorem ex_list239_insert_lookups :
    (mu_tbl_insert 3 false ex_list239 8003 8011).map
      (fun s => (mu_tbl_lookup (.ref false s .null) (mu_num_fromuint 224),
        mu_tbl_lookup (.ref false s .null) 8003))
      = .ok (some 0, some 0) := by decide!

/-- C9 (code defect): inserting the non-numeric key `8003` into the dense list
`ex_list239` of 239 values, as `mu_tbl_fromlist` builds it, switches it to
pairs mode with `len = 240`, but the keys `224` and `8003` are then not found
any more, although `224` was found before the insertion.
`mu_tbl_pairsnpw2(240)` gives one-byte indices (`isize = 1`) for a table of
512 slots whose pairs start at index 32, so the pairs from index 256 on are
stored under indices that do not fit a byte. -/
theorem mu_tbl_insert_pairs_240_loses_keys :
    mu_tbl_fromlist 2 ex_vals239 = .ok ex_list239 ∧
    mu_tbl_dense ex_list239 ex_vals239 ∧
    mu_tbl_lookup (.ref false ex_list239 .null) (mu_num_fromuint 224) = some 5891 ∧
    mu_tbl_pairsnpw2 240 = (9, 1) ∧
    (mu_tbl_insert 3 false ex_list239 8003 8011).map
      (fun s => (s.npw2, s.isize, s.len, s.nils)) = .ok (9, 1, 240, 0) ∧
    (mu_tbl_insert 3 false ex_list239 8003 8011).map
      (fun s => (mu_tbl_lookup (.ref false s .null) (mu_num_fromuint 224),
        mu_tbl_lookup (.ref false s .null) 8003))
      = .ok (some 0, some 0) :=
  ⟨ex_list239_reached, ex_list239_dense, ex_list239_lookup_224, by decide,
    ex_list239_insert_shape, ex_list239_insert_lookups⟩

/-! ## Formatting and parsing back -/

theorem ex_skipped_reached :
    (mu_tbl_fromlist 2 [4099, 4107, 4115, 4123]).bind (fun t =>
      (mu_tbl_insert 2 false t (mu_num_fromuint 0) 0).bind (fun t =>
        (mu_tbl_insert 2 false t (mu_num_fromuint 1) 0).bind (fun t =>
          mu_tbl_insert 2 false t (mu_num_fromuint 0) 4099))) = .ok ex_skipped := by decide!

theorem ex_gap_reached :
    (mu_tbl_insert 2 false (mu_tbl_create 0) (mu_num_fromuint 0) 4099).bind (fun t =>
      mu_tbl_insert 2 false t (mu_num_fromuint 2) 4115) = .ok ex_gap := by decide!

theorem ex_skipped_entries :
    mu_tbl_entries ex_skipped = mu_tbl_entries ex_gap := by decide!

theorem ex_skipped_lookup :
    mu_tbl_lookup (.ref false ex_skipped .null) (mu_num_fromuint 3) = some 4123 ∧
    mu_tbl_lookup (.ref false ex_gap .null) (mu_num_fromuint 3) = some 0 := by decide!

/-- The text of a table depends on the table only through its entries as
`mu_tbl_next` visits them, the flag `linear` and whether `len` is 0. -/
theorem mu_tbl_repr_nested_congr (F : ReprEnv) (d w1 w2 : Nat) (buf : List Nat)
    (he : mu_tbl_entries (F.heap w1) = mu_tbl_entries (F.heap w2))
    (hl : mu_tbl_linear (F.heap w1) = mu_tbl_linear (F.heap w2))
    (hn : ((F.heap w1).len > 0) = ((F.heap w2).len > 0)) :
    mu_tbl_repr_nested F (d + 1) w1 buf = mu_tbl_repr_nested F (d + 1) w2 buf := by
  simp only [mu_tbl_repr_nested, he, hl, hn]

/-- C6 (code defect): the tables `ex_skipped` and `ex_gap`, both reached from
`mu_tbl_create` by calls of `mu_tbl_insert`, have the same text under
`mu_tbl_repr` at every depth `d + 1`, whatever the formatting of the values,
because `mu_tbl_next` stops at `len + nils = 3` and never visits the value
that `ex_skipped` holds under key 3.  But key 3 looks up `4123` in the one and
nil in the other, and their `len` is 3 and 2: whatever function parses the
text, the round trip fails for one of them. -/
theorem mu_tbl_repr_skips_live_entry (F : ReprEnv) (w1 w2 d : Nat)
    (h1 : F.heap w1 = ex_skipped) (h2 : F.heap w2 = ex_gap) :
    (mu_tbl_fromlist 2 [4099, 4107, 4115, 4123]).bind (fun t =>
      (mu_tbl_insert 2 false t (mu_num_fromuint 0) 0).bind (fun t =>
        (mu_tbl_insert 2 false t (mu_num_fromuint 1) 0).bind (fun t =>
          mu_tbl_insert 2 false t (mu_num_fromuint 0) 4099))) = .ok ex_skipped ∧
    (mu_tbl_insert 2 false (mu_tbl_create 0) (mu_num_fromuint 0) 4099).bind (fun t =>
      mu_tbl_insert 2 false t (mu_num_fromuint 2) 4115) = .ok ex_gap ∧
    mu_tbl_repr F w1 (some (d + 1)) = mu_tbl_repr F w2 (some (d + 1)) ∧
    mu_tbl_lookup (.ref false ex_skipped .null) (mu_num_fromuint 3) = some 4123 ∧
    mu_tbl_lookup (.ref false ex_gap .null) (mu_num_fromuint 3) = some 0 ∧
    ∀ parse : List Nat → Option mtbl,
      ¬ (mu_tbl_roundtrip F parse w1 (d + 1) ∧ mu_tbl_roundtrip F parse w2 (d + 1)) := by
  have hr : mu_tbl_repr F w1 (some (d + 1)) = mu_tbl_repr F w2 (some (d + 1)) := by
    show mu_tbl_repr_nested F (d + 1) w1 [] = mu_tbl_repr_nested F (d + 1) w2 []
    apply mu_tbl_repr_nested_congr
    · rw [h1, h2]; exact ex_skipped_entries
    · rw [h1, h2]; decide
    · rw [h1, h2]; decide
  refine ⟨ex_skipped_reached, ex_gap_reached, hr, ex_skipped_lookup.1, ex_skipped_lookup.2, ?_⟩
  rintro parse ⟨⟨u1, hp1, hk1, -⟩, ⟨u2, hp2, hk2, -⟩⟩
  rw [hr, hp2] at hp1
  have hu : u2 = u1 := Option.some.inj hp1
  subst hu
  have e1 := hk1 (mu_num_fromuint 3)
  have e2 := hk2 (mu_num_fromuint 3)
  rw [h1, ex_skipped_lookup.1] at e1
  rw [h2, ex_skipped_lookup.2] at e2
  rw [e1] at e2
  exact absurd e2 (by decide)

/-- The statement of `mu_tbl_repr_skips_live_entry` for the formatting context
`ex_repr_env`, at depth 1. -/
theorem mu_tbl_repr_skips_live_entry_witness :
    mu_tbl_repr ex_repr_env 8 (some 1) = mu_tbl_repr ex_repr_env 16 (some 1) ∧
    ∀ parse : List Nat → Option mtbl,
      ¬ (mu_tbl_roundtrip ex_repr_env parse 8 1 ∧ mu_tbl_roundtrip ex_repr_env parse 16 1) :=
  ⟨(mu_tbl_repr_skips_live_entry ex_repr_env 8 16 0 rfl rfl).2.2.1,
   (mu_tbl_repr_skips_live_entry ex_repr_env 8 16 0 rfl rfl).2.2.2.2.2⟩

/-! ## `mu_tbl_pop` on a dense list -/

/-- In list mode, looking up an integer key below the capacity reads the word
at that position, whatever `len` and `nils` are. -/
theorem mu_tbl_list_lookup (r : Bool) (t : mtbl) (tail : Tbl) (hl : t.isize = 0)
    (hn : t.npw2 ≤ 30) (i : Nat) (hi : i < 2 ^ t.npw2) :
    mu_tbl_lookup (.ref r t tail) (mu_num_fromuint i) = some (t.array.getD i 0) := by
  have hb : mu_tbl_islist t = true := by unfold mu_tbl_islist; simp [hl]
  have hslot := mu_tbl_list_slot t hn i hi
  unfold mu_tbl_lookup
  rw [if_neg (mu_num_fromuint_ne_zero i)]
  simp only [mu_tbl_lookup_chain, hb, if_true, hslot]

theorem getD_take_drop_succ (vs : List Nat) (i q : Nat) (hi : i < vs.length) :
    (vs.take i ++ vs.drop (i + 1)).getD q 0
      = if q < i then vs.getD q 0 else vs.getD (q + 1) 0 := by
  have hl : (vs.take i).length = i := by simp; omega
  by_cases h1 : q < i
  · rw [if_pos h1, List.getD_append _ _ _ _ (by omega)]
    simp [List.getD_eq_getElem?_getD, List.getElem?_take, h1]
  · rw [if_neg h1, List.getD_append_right _ _ _ _ (by omega), hl]
    simp only [List.getD_eq_getElem?_getD, List.getElem?_drop]
    congr 2; omega

/-- The array left by the list branch of `mu_tbl_pop` on a dense list: the
words from `i+1` on move down by one and the last word of the array stays. -/
theorem mu_tbl_pop_array (t : mtbl) (vs : List Nat) (i q : Nat) (hd : mu_tbl_dense t vs)
    (hi : i < vs.length) (hq : q < 2 ^ t.npw2) :
    (memmove_words t.array i (i + 1) (mu_tbl_size t - (i + 1))).getD q 0
      = if q + 1 < 2 ^ t.npw2 then (vs.take i ++ vs.drop (i + 1)).getD q 0
        else vs.getD q 0 := by
  have hg := mu_tbl_dense_getD t vs hd
  obtain ⟨h1, h2, h3, h4, h5, h6, h7, h8⟩ := hd
  have hlen : t.array.length = 2 ^ t.npw2 := by rw [h8]; simp; omega
  rw [memmove_words_getD _ _ _ _ _ (by rw [hlen]; exact hq), getD_take_drop_succ vs i q hi]
  unfold mu_tbl_size
  by_cases ha : q + 1 < 2 ^ t.npw2
  · rw [if_pos ha]
    by_cases hb : q < i
    · rw [if_neg (by omega), if_pos hb, hg]
    · rw [if_pos (by omega), if_neg hb, hg]
      congr 1; omega
  · rw [if_neg ha, if_neg (by omega), hg]


theorem ex_avbc_reached :
    (mu_tbl_fromlist 2 [4099, 4107, 4115]).bind
      (fun t => mu_tbl_push (fun a _ => a) 2 false t 4139 1) = .ok ex_avbc := by decide!

/-- C11 (code defect): on a dense list of the `n` values `vs`,
`mu_tbl_pop(t, i)` with `0 ≤ i < n` returns `v_i`, sets `len = n-1`, keeps the
keys below `i` and moves the values above `i` down by one.  When the list
does not fill its array the result is the dense list without `v_i` and the key
`n-1` is nil.  When the list fills its array exactly (as the list
`[a, v, b, c]` made by `mu_tbl_fromlist` of three values and `push(1, v)`
does), the last word of the array is not cleared: the key `n-1` still looks up
the non-nil value `v_{n-1}`, and inserting a value under it replaces that word
and leaves `len = n-1`. -/
theorem mu_tbl_pop_full_list_keeps_last (num_sub : Nat → Nat → Nat) (fuel : Nat) (t : mtbl)
    (vs : List Nat) (i : Nat) (hd : mu_tbl_dense t vs) (hi : i < vs.length) :
    (mu_tbl_fromlist 2 [4099, 4107, 4115]).bind
      (fun t => mu_tbl_push (fun a _ => a) 2 false t 4139 1) = .ok ex_avbc ∧
    ∃ s, mu_tbl_pop num_sub fuel false t (i : Int) = .ok (s, vs.getD i 0) ∧
      s.len = vs.length - 1 ∧ s.nils = 0 ∧ s.isize = 0 ∧ s.npw2 = t.npw2 ∧
      (∀ j < i, mu_tbl_lookup (.ref false s .null) (mu_num_fromuint j) = some (vs.getD j 0)) ∧
      (∀ j, i ≤ j → j + 1 < vs.length →
        mu_tbl_lookup (.ref false s .null) (mu_num_fromuint j) = some (vs.getD (j + 1) 0)) ∧
      (vs.length < 2 ^ t.npw2 →
        mu_tbl_dense s (vs.take i ++ vs.drop (i + 1)) ∧
        mu_tbl_lookup (.ref false s .null) (mu_num_fromuint (vs.length - 1)) = some 0) ∧
      (vs.length = 2 ^ t.npw2 →
        mu_tbl_lookup (.ref false s .null) (mu_num_fromuint (vs.length - 1))
          = some (vs.getD (vs.length - 1) 0) ∧
        vs.getD (vs.length - 1) 0 ≠ 0 ∧
        ∀ w, w ≠ 0 → ∃ s2,
          mu_tbl_insert (fuel + 1) false s (mu_num_fromuint (vs.length - 1)) w = .ok s2 ∧
          s2.len = vs.length - 1) := by
  refine ⟨ex_avbc_reached, ?_⟩
  have hd0 := hd
  have hg := mu_tbl_dense_getD t vs hd
  have harr := fun q => mu_tbl_pop_array t vs i q hd hi
  obtain ⟨h1, h2, h3, h4, h5, h6, h7, h8⟩ := hd
  have hidx : mu_tbl_index t (i : Int) = i := mu_tbl_index_nat t i (by omega)
  have hb : mu_tbl_islist t = true := by unfold mu_tbl_islist; simp [h1]
  have hlen : t.array.length = 2 ^ t.npw2 := by rw [h8]; simp; omega
  have h30 : 2 ^ t.npw2 ≤ 2 ^ 30 := Nat.pow_le_pow_right (by norm_num) h3
  have hvi : vs.getD i 0 ≠ 0 := by
    rw [List.getD_eq_getElem _ _ hi]; exact h7 _ (List.getElem_mem _)
  have hvl : vs.getD (vs.length - 1) 0 ≠ 0 := by
    rw [List.getD_eq_getElem _ _ (by omega : vs.length - 1 < vs.length)]
    exact h7 _ (List.getElem_mem _)
  -- the table written by the list branch
  obtain ⟨s, hs⟩ : ∃ s : mtbl, s =
      { t with
        array := memmove_words t.array i (i + 1) (mu_tbl_size t - (i + 1))
        len := mlen (t.len + 2 ^ 32 - (if t.array.getD i 0 ≠ 0 then 1 else 0)) } := ⟨_, rfl⟩
  have hsi : s.isize = 0 := by rw [hs]; exact h1
  have hsn : s.npw2 = t.npw2 := by rw [hs]
  have hsa : s.array = memmove_words t.array i (i + 1) (mu_tbl_size t - (i + 1)) := by rw [hs]
  have hsl : s.len = vs.length - 1 := by
    rw [hs]
    show mlen (t.len + 2 ^ 32 - (if t.array.getD i 0 ≠ 0 then 1 else 0)) = _
    rw [hg, if_pos hvi, h4]; unfold mlen; omega
  have hlook : ∀ q, q < 2 ^ t.npw2 →
      mu_tbl_lookup (.ref false s .null) (mu_num_fromuint q)
        = some (if q + 1 < 2 ^ t.npw2 then (vs.take i ++ vs.drop (i + 1)).getD q 0
                else vs.getD q 0) := by
    intro q hq
    rw [mu_tbl_list_lookup false s .null hsi (by rw [hsn]; exact h3) q (by rw [hsn]; exact hq),
      hsa, harr q hq]
  refine ⟨s, ?_, hsl, by rw [hs]; exact h5, hsi, hsn, ?_, ?_, ?_, ?_⟩
  · unfold mu_tbl_pop
    simp only [Bool.false_eq_true, if_false, hidx, hb, if_true]
    rw [hs, hg]
  · intro j hj
    rw [hlook j (by omega), getD_take_drop_succ vs i j hi, if_pos hj]
    split
    · rfl
    · rfl
  · intro j hj1 hj2
    rw [hlook j (by omega), if_pos (by omega), getD_take_drop_succ vs i j hi, if_neg (by omega)]
  · intro hlt
    have hl2 : (vs.take i ++ vs.drop (i + 1)).length = vs.length - 1 := by
      simp; omega
    refine ⟨⟨hsi, by rw [hsn]; exact h2, by rw [hsn]; exact h3, by rw [hsl, hl2],
      by rw [hs]; exact h5, by rw [hsn, hl2]; omega, ?_, ?_⟩, ?_⟩
    · intro u hu
      rcases List.mem_append.1 hu with h | h
      · exact h7 u (List.mem_of_mem_take h)
      · exact h7 u (List.mem_of_mem_drop h)
    · rw [hsa, hsn, hl2]
      apply list_ext_getD
      · rw [memmove_words_length, hlen]; simp; omega
      · intro q hq
        rw [memmove_words_length, hlen] at hq
        rw [harr q hq, getD_append_zeros]
        split
        · rfl
        · rw [getD_take_drop_succ vs i q hi, if_neg (by omega)]
          rw [List.getD_eq_default _ _ (by omega), List.getD_eq_default _ _ (by omega)]
    · rw [hlook _ (by omega), if_pos (by omega), getD_take_drop_succ vs i _ hi]
      split
      · omega
      · rw [List.getD_eq_default _ _ (by omega)]
  · intro hfull
    have hlk := hlook (vs.length - 1) (by omega)
    rw [if_neg (by omega)] at hlk
    refine ⟨hlk, hvl, ?_⟩
    intro w hw
    have hslot := mu_tbl_list_slot s (by rw [hsn]; exact h3) (vs.length - 1)
      (by unfold mu_tbl_size; rw [hsn]; omega)
    have hbs : mu_tbl_islist s = true := by unfold mu_tbl_islist; simp [hsi]
    have hword : s.array.getD (vs.length - 1) 0 ≠ 0 := by
      rw [hsa, harr _ (by omega), if_neg (by omega)]; exact hvl
    refine ⟨{ s with
        array := s.array.set (vs.length - 1) w
        len := mlen (s.len + (if w ≠ 0 then 1 else 0) + 2 ^ 32 - 1)
        nils := mlen (s.nils + (if w = 0 then 1 else 0)) }, ?_, ?_⟩
    · unfold mu_tbl_insert
      simp only [Bool.false_eq_true, if_false]
      rw [if_neg (mu_num_fromuint_ne_zero _)]
      simp only [hbs, if_true, hslot]
      rw [if_pos ⟨trivial, hword⟩]
    · show mlen (s.len + (if w ≠ 0 then 1 else 0) + 2 ^ 32 - 1) = _
      rw [if_pos hw, hsl]; unfold mlen; omega

/-- The statement of `mu_tbl_pop_full_list_keeps_last` for `pop(0)` on the
list `[4099, 4139, 4107, 4115]`, which fills its array: the value `4099` is
returned, `len` is 3 and the key 3 still looks up `4115`. -/
theorem mu_tbl_pop_full_list_keeps_last_witness :
    ∃ s, mu_tbl_pop (fun a _ => a) 0 false ex_avbc (0 : Nat) = .ok (s, 4099) ∧
      s.len = 3 ∧
      mu_tbl_lookup (.ref false s .null) (mu_num_fromuint 3) = some 4115 ∧
      ∃ s2, mu_tbl_insert 1 false s (mu_num_fromuint 3) 4147 = .ok s2 ∧ s2.len = 3 := by
  obtain ⟨s, h1, h2, -, -, -, -, -, -, h3⟩ :=
    (mu_tbl_pop_full_list_keeps_last (fun a _ => a) 0 ex_avbc [4099, 4139, 4107, 4115] 0
      (by decide) (by decide)).2
  obtain ⟨h4, -, h5⟩ := h3 (by decide)
  exact ⟨s, h1, h2, h4, h5 4147 (by decide)⟩

/-! ## Deletion: `mu_tbl_insert` with a nil value -/

/-- The probe loop reads only the index slots and the key words. -/
theorem mu_tbl_probe_congr (t s : mtbl) (k : Nat) (hn : s.npw2 = t.npw2)
    (hgp : ∀ i < mu_tbl_size t, mu_tbl_getpair s i = mu_tbl_getpair t i)
    (hk : ∀ p, s.array.getD (2 * p) 0 = t.array.getD (2 * p) 0) :
    ∀ fuel i, mu_tbl_probe s k fuel i = mu_tbl_probe t k fuel i := by
  have hsz : mu_tbl_size s = mu_tbl_size t := by unfold mu_tbl_size; rw [hn]
  intro fuel
  induction fuel with
  | zero => intro i; rfl
  | succ f ih =>
    intro i
    simp only [mu_tbl_probe, mask_eq_mod, hsz]
    rw [hgp _ (Nat.mod_lt _ (mu_tbl_size_pos t)), hk, ih]

/-- A probe loop that meets an empty slot within its budget stops. -/
theorem mu_tbl_probe_stops_aux (t : mtbl) (k : Nat) :
    ∀ n i fuel, n < fuel → mu_tbl_getpair t ((i + n) % mu_tbl_size t) = 0 →
      mu_tbl_probe t k fuel i ≠ .hang := by
  intro n
  induction n with
  | zero =>
    intro i fuel hf hp
    obtain ⟨f, rfl⟩ : ∃ f, fuel = f + 1 := ⟨fuel - 1, by omega⟩
    simp only [Nat.add_zero] at hp
    simp only [mu_tbl_probe, mask_eq_mod, hp]
    simp
  | succ n ih =>
    intro i fuel hf hp
    obtain ⟨f, rfl⟩ : ∃ f, fuel = f + 1 := ⟨fuel - 1, by omega⟩
    simp only [mu_tbl_probe, mask_eq_mod]
    split
    · simp
    · split
      · simp
      · apply ih (i + 1) f (by omega)
        rw [show i + 1 + n = i + (n + 1) by omega]; exact hp

/-- In a table that satisfies the pairs invariant every probe loop stops. -/
theorem mu_tbl_probe_stops (t : mtbl) (hw : mu_tbl_wf_pairs t) (k : Nat) :
    mu_tbl_probe t k (mu_tbl_size t) (mu_tbl_hash t k) ≠ .hang := by
  obtain ⟨e, he, hz⟩ := hw.2.2.2.2.2.2.1
  obtain ⟨n, hn, hne⟩ := probe_cover _ (mu_tbl_size_pos t) (mu_tbl_hash t k) e he
  exact mu_tbl_probe_stops_aux t k n _ _ hn (by rw [hne]; exact hz)

/-- A hit of the probe loop is a non-null index stored in a slot, and the key
of the pair it points to is the key looked for. -/
theorem mu_tbl_probe_hit_inv (t : mtbl) (k p : Nat) :
    ∀ fuel i, mu_tbl_probe t k fuel i = .hit p →
      p ≠ 0 ∧ t.array.getD (2 * p) 0 = k ∧ ∃ e < mu_tbl_size t, mu_tbl_getpair t e = p := by
  intro fuel
  induction fuel with
  | zero => intro i h; simp [mu_tbl_probe] at h
  | succ f ih =>
    intro i h
    simp only [mu_tbl_probe, mask_eq_mod] at h
    split at h
    · next hc =>
      have hp : mu_tbl_getpair t (i % mu_tbl_size t) = p := by
        simpa using h
      rw [hp] at hc
      exact ⟨hc.1, hc.2, _, Nat.mod_lt _ (mu_tbl_size_pos t), hp⟩
    · split at h
      · simp at h
      · exact ih _ h

theorem mu_tbl_lookup_list_eq (r : Bool) (t : mtbl) (k : Nat) (hl : t.isize = 0) (hk : k ≠ 0) :
    mu_tbl_lookup (.ref r t .null) k
      = if k = mu_num_fromuint (mu_num_getuint k &&& (mu_tbl_size t - 1))
        then some (t.array.getD (mu_num_getuint k &&& (mu_tbl_size t - 1)) 0) else some 0 := by
  have hb : mu_tbl_islist t = true := by unfold mu_tbl_islist; simp [hl]
  unfold mu_tbl_lookup
  rw [if_neg hk]
  simp only [mu_tbl_lookup_chain, hb, if_true]

theorem mu_tbl_lookup_pairs_eq (r : Bool) (t : mtbl) (k : Nat) (hl : t.isize ≠ 0) (hk : k ≠ 0) :
    mu_tbl_lookup (.ref r t .null) k
      = match mu_tbl_probe t k (mu_tbl_size t) (mu_tbl_hash t k) with
        | .hit p => some (t.array.getD (2 * p + 1) 0)
        | .miss _ => some 0
        | .hang => none := by
  have hb : mu_tbl_islist t = false := by unfold mu_tbl_islist; simp [hl]
  unfold mu_tbl_lookup
  rw [if_neg hk]
  simp only [mu_tbl_lookup_chain, hb]
  rfl

theorem nlog2_eq (n : Nat) : nlog2 n = Nat.log2 n :=
  ulog2_go_eq n n (Nat.lt_two_pow n)


theorem round_even_intCast (m : Int) : round_even (m : ℚ) = m := by
  unfold round_even
  simp

theorem qlog2_natCast (n : Nat) (h : 0 < n) : qlog2 (n : ℚ) = (Nat.log2 n : Int) := by
  unfold qlog2
  have h1 : nlog2 1 = 0 := by decide
  simp only [Rat.num_natCast, Rat.den_natCast, Int.natAbs_ofNat, h1, nlog2_eq]
  rw [if_pos]
  · simp
  · have := Nat.log2_self_le (by omega : n ≠ 0)
    unfold pow2
    simp only [Nat.cast_zero, sub_zero, Nat.cast_nonneg, if_true, Int.toNat_ofNat, Nat.cast_one,
      one_mul]
    exact_mod_cast this

/-- A natural number below `2 ^ 24` is a binary32 value: rounding leaves it as
it is. -/
theorem fround_natCast (n : Nat) (h : n < 2 ^ 24) : fround (n : ℚ) = n := by
  by_cases h0 : n = 0
  · subst h0; simp [fround]
  · have hpos : 0 < n := by omega
    have hl : Nat.log2 n < 24 := (Nat.log2_lt h0).2 h
    unfold fround
    rw [if_neg (by exact_mod_cast h0), qlog2_natCast n hpos]
    have hmax : max ((Nat.log2 n : Int) - 23) (-149) = -((23 - Nat.log2 n : Nat) : Int) := by
      omega
    rw [hmax]
    have hp : pow2 (-((23 - Nat.log2 n : Nat) : Int)) = 1 / (2 : ℚ) ^ (23 - Nat.log2 n) := by
      unfold pow2
      split
      · next hc =>
        have : 23 - Nat.log2 n = 0 := by omega
        rw [this]; simp
      · simp
    rw [hp]
    have hq : (n : ℚ) / (1 / (2 : ℚ) ^ (23 - Nat.log2 n))
        = ((n * 2 ^ (23 - Nat.log2 n) : Nat) : Int) := by
      push_cast; field_simp
    rw [hq, round_even_intCast]
    push_cast; field_simp

theorem num_round_natCast (n : Nat) (h : n < 2 ^ 24) : num_round (n : ℚ) = .fin n := by
  unfold num_round
  rw [fround_natCast n h, if_neg]
  rw [abs_of_nonneg (by positivity)]
  have : (n : ℚ) < 2 ^ 24 := by exact_mod_cast h
  have : (2 : ℚ) ^ 24 ≤ 2 ^ 128 := by norm_num
  linarith


/-! ## `num_parse`: the integer component -/

theorem digits_value_ge (val : Nat → Nat) (R : Nat) (hR : 1 ≤ R) :
    ∀ (ds : List Nat) (acc : Nat), acc ≤ digits_value val R ds acc := by
  intro ds
  induction ds with
  | nil => intro acc; exact le_refl _
  | cons c ds ih =>
    intro acc
    have h1 := ih (acc * R + val c)
    have h2 : acc ≤ acc * R := Nat.le_mul_of_pos_right acc hR
    show acc ≤ digits_value val R ds (acc * R + val c)
    omega

/-- The multiply-add loop computes the number whose digits, most significant
first, are the values of the characters. -/
theorem digits_value_eq (val : Nat → Nat) (R : Nat) :
    ∀ (ds : List Nat) (acc : Nat),
      digits_value val R ds acc = acc * R ^ ds.length + Nat.ofDigits R (ds.map val).reverse := by
  intro ds
  induction ds with
  | nil => intro acc; simp [digits_value]
  | cons c ds ih =>
    intro acc
    show digits_value val R ds (acc * R + val c) = _
    rw [ih]
    simp only [List.map_cons, List.reverse_cons, Nat.ofDigits_append, Nat.ofDigits_singleton,
      List.length_reverse, List.length_map, List.length_cons]
    ring

/-- The integer loop of `num_parse` runs through a text of digits. -/
theorem num_parse_int_run (val : Nat → Nat) (b : base) (R : Nat) (hR : b.radix = R) :
    ∀ (ds tl : List Nat) (res : num_t) (pos : Nat), (∀ c ∈ ds, val c < R) →
      num_parse_int val b (ds ++ tl) res pos
        = num_parse_int val b tl (num_digits val b.radix ds res) (pos + ds.length) := by
  intro ds
  induction ds with
  | nil => intro tl res pos _; rfl
  | cons c ds ih =>
    intro tl res pos hd
    have hc : val c < R := hd c (List.mem_cons_self _ _)
    show num_parse_int val b (c :: (ds ++ tl)) res pos = _
    rw [num_parse_int, if_neg (by rw [hR]; exact_mod_cast (by omega : ¬ val c ≥ R)),
      ih tl _ (pos + 1) (fun x hx => hd x (List.mem_cons_of_mem _ hx))]
    show _ = num_parse_int val b tl
      (num_digits val b.radix ds (num_add (num_mul res (.fin b.radix)) (.fin (val c)))) _
    rw [List.length_cons]
    congr 1
    omega

/-- On digits whose number is below `2 ^ 24` every multiply-add is exact. -/
theorem num_digits_exact (val : Nat → Nat) (R : Nat) (hR1 : 1 ≤ R) :
    ∀ (ds : List Nat) (acc : Nat), digits_value val R ds acc < 2 ^ 24 →
      num_digits val (R : ℚ) ds (.fin acc) = .fin (digits_value val R ds acc) := by
  intro ds
  induction ds with
  | nil => intro acc _; rfl
  | cons c ds ih =>
    intro acc hv
    have hv' : digits_value val R ds (acc * R + val c) < 2 ^ 24 := hv
    have hge := digits_value_ge val R hR1 ds (acc * R + val c)
    have h1 : num_mul (.fin acc) (.fin (R : ℚ)) = .fin ((acc * R : Nat) : ℚ) := by
      show num_round ((acc : ℚ) * (R : ℚ)) = _
      rw [← Nat.cast_mul]
      exact num_round_natCast _ (by omega)
    have h2 : num_add (.fin ((acc * R : Nat) : ℚ)) (.fin (val c))
        = .fin ((acc * R + val c : Nat) : ℚ) := by
      show num_round (((acc * R : Nat) : ℚ) + (val c : ℚ)) = _
      rw [← Nat.cast_add]
      exact num_round_natCast _ (by omega)
    show num_digits val (R : ℚ) ds (num_add (num_mul (.fin acc) (.fin (R : ℚ))) (.fin (val c))) = _
    rw [h1, h2, ih _ hv']
    rfl

/-- The integer loop of `num_parse` on digits whose number is below `2 ^ 24`. -/
theorem num_parse_int_digits (val : Nat → Nat) (b : base) (R : Nat) (hR : b.radix = R)
    (hR1 : 1 ≤ R) (ds tl : List Nat) (acc pos : Nat) (hd : ∀ c ∈ ds, val c < R)
    (hv : digits_value val R ds acc < 2 ^ 24) :
    num_parse_int val b (ds ++ tl) (.fin acc) pos
      = num_parse_int val b tl (.fin (digits_value val R ds acc)) (pos + ds.length) := by
  rw [num_parse_int_run val b R hR ds tl _ pos hd, hR, num_digits_exact val R hR1 ds acc hv]

/-- The base that `num_parse` determines for a text with the radix mark `pre`
of the base `R`, the rest `t` of a marked text not being empty and an unmarked
text not starting with a mark. -/
theorem num_parse_base_eq (R : Nat) (pre t : List Nat) (hm : num_radix_mark R pre)
    (h10 : R = 10 → ¬ (t.length > 2 ∧ t.getD 0 0 = 48 ∧
      (t.getD 1 0 = 98 ∨ t.getD 1 0 = 66 ∨ t.getD 1 0 = 111 ∨ t.getD 1 0 = 79 ∨
        t.getD 1 0 = 120 ∨ t.getD 1 0 = 88)))
    (hne : R ≠ 10 → t ≠ []) :
    ∃ b : base, num_parse_base (pre ++ t) = (b, pre.length) ∧ b.radix = R ∧ 2 ≤ R ∧
      ((R = 10 ∧ b.expc = 101 ∧ b.expC = 69) ∨ (R ≠ 10 ∧ b.expc = 112 ∧ b.expC = 80)) := by
  have hlen : ∀ a c : Nat, (a :: c :: t).length > 2 ↔ t ≠ [] := by
    intro a c
    cases t <;> simp
  unfold num_radix_mark at hm
  rcases hm with ⟨rfl, rfl⟩ | ⟨rfl, rfl | rfl⟩ | ⟨rfl, rfl | rfl⟩ | ⟨rfl, rfl | rfl⟩
  · refine ⟨⟨10, 10, 101, 69⟩, ?_, by norm_num, by norm_num, Or.inl ⟨rfl, rfl, rfl⟩⟩
    have h := h10 rfl
    unfold num_parse_base
    simp only [List.nil_append, List.length_nil]
    by_cases hc : t.length > 2 ∧ t.getD 0 0 = 48
    · rw [if_pos hc]
      have h' : ¬ (t.getD 1 0 = 98 ∨ t.getD 1 0 = 66 ∨ t.getD 1 0 = 111 ∨ t.getD 1 0 = 79 ∨
          t.getD 1 0 = 120 ∨ t.getD 1 0 = 88) := fun hx => h ⟨hc.1, hc.2, hx⟩
      rw [if_neg (fun hx => h' (by tauto)), if_neg (fun hx => h' (by tauto)),
        if_neg (fun hx => h' (by tauto))]
    · rw [if_neg hc]
  · refine ⟨⟨2, 2, 112, 80⟩, ?_, by norm_num, by norm_num, Or.inr ⟨by norm_num, rfl, rfl⟩⟩
    unfold num_parse_base
    rw [if_pos ⟨(hlen _ _).2 (hne (by norm_num)), rfl⟩]
    simp
  · refine ⟨⟨2, 2, 112, 80⟩, ?_, by norm_num, by norm_num, Or.inr ⟨by norm_num, rfl, rfl⟩⟩
    unfold num_parse_base
    rw [if_pos ⟨(hlen _ _).2 (hne (by norm_num)), rfl⟩]
    simp
  · refine ⟨⟨8, 2, 112, 80⟩, ?_, by norm_num, by norm_num, Or.inr ⟨by norm_num, rfl, rfl⟩⟩
    unfold num_parse_base
    rw [if_pos ⟨(hlen _ _).2 (hne (by norm_num)), rfl⟩]
    simp
  · refine ⟨⟨8, 2, 112, 80⟩, ?_, by norm_num, by norm_num, Or.inr ⟨by norm_num, rfl, rfl⟩⟩
    unfold num_parse_base
    rw [if_pos ⟨(hlen _ _).2 (hne (by norm_num)), rfl⟩]
    simp
  · refine ⟨⟨16, 2, 112, 80⟩, ?_, by norm_num, by norm_num, Or.inr ⟨by norm_num, rfl, rfl⟩⟩
    unfold num_parse_base
    rw [if_pos ⟨(hlen _ _).2 (hne (by norm_num)), rfl⟩]
    simp
  · refine ⟨⟨16, 2, 112, 80⟩, ?_, by norm_num, by norm_num, Or.inr ⟨by norm_num, rfl, rfl⟩⟩
    unfold num_parse_base
    rw [if_pos ⟨(hlen _ _).2 (hne (by norm_num)), rfl⟩]
    simp


/-- A text of decimal digits does not start with a radix mark: the letters of
the marks are not decimal digits. -/
theorem num_digits_unmarked (val : Nat → Nat) (ds tl : List Nat)
    (hl : ∀ c ∈ [98, 66, 111, 79, 120, 88], 10 ≤ val c) (hd : ∀ c ∈ ds, val c < 10)
    (htl : ∀ c ∈ tl.head?, c ≠ 48 ∧ c ≠ 98 ∧ c ≠ 66 ∧ c ≠ 111 ∧ c ≠ 79 ∧ c ≠ 120 ∧ c ≠ 88) :
    ¬ ((ds ++ tl).length > 2 ∧ (ds ++ tl).getD 0 0 = 48 ∧
      ((ds ++ tl).getD 1 0 = 98 ∨ (ds ++ tl).getD 1 0 = 66 ∨ (ds ++ tl).getD 1 0 = 111 ∨
        (ds ++ tl).getD 1 0 = 79 ∨ (ds ++ tl).getD 1 0 = 120 ∨ (ds ++ tl).getD 1 0 = 88)) := by
  rintro ⟨h1, h2, h3⟩
  have hnot : ∀ c, val c < 10 →
      ¬ (c = 98 ∨ c = 66 ∨ c = 111 ∨ c = 79 ∨ c = 120 ∨ c = 88) := by
    intro c hc hx
    have := hl c (by simp; tauto)
    omega
  match ds, tl, hd, htl, h1, h2, h3 with
  | [], [], _, _, h1, _, _ => simp at h1
  | [], c :: tl, _, htl, _, h2, _ =>
    have := htl c (by simp)
    simp at h2
    exact this.1 h2
  | [d], [], _, _, h1, _, _ => simp at h1
  | [d], c :: tl, _, htl, _, _, h3 =>
    have := htl c (by simp)
    simp at h3
    omega
  | d :: e :: ds, tl, hd, _, _, _, h3 =>
    have := hnot e (hd e (by simp))
    simp at h3
    exact this h3

/-- C14 (amended): for a base `R` of 10, 2, 8 or 16 with its radix mark `pre`
and a non-empty text `ds` of digits of that base, `num_parse` on the mark
followed by the digits advances the cursor to the end of the text and returns
the binary32 result of the repeated multiply-add; that result is the number
`Σ d_i * R ^ (n - i)` itself when the number is below `2 ^ 24`, every
multiply-add then being exact. -/
theorem num_parse_digits_exact (val : Nat → Nat) (R : Nat) (pre ds : List Nat)
    (hm : num_radix_mark R pre) (hl : ∀ c ∈ [98, 66, 111, 79, 120, 88], 10 ≤ val c)
    (hne : ds ≠ []) (hd : ∀ c ∈ ds, val c < R) :
    num_parse val (pre ++ ds) = (num_digits val (R : ℚ) ds (.fin 0), (pre ++ ds).length) ∧
    (Nat.ofDigits R (ds.map val).reverse < 2 ^ 24 →
      num_parse val (pre ++ ds)
        = (.fin ((Nat.ofDigits R (ds.map val).reverse : Nat) : ℚ), (pre ++ ds).length)) := by
  obtain ⟨b, hb, hR, hR2, -⟩ := num_parse_base_eq R pre ds hm
    (by
      intro h10
      have := num_digits_unmarked val ds [] hl (by rw [← h10]; exact hd) (by simp)
      simpa using this)
    (fun _ => hne)
  have hval := digits_value_eq val R ds 0
  rw [Nat.zero_mul, Nat.zero_add] at hval
  have h := num_parse_int_run val b R hR ds [] (.fin 0) pre.length hd
  rw [List.append_nil, hR] at h
  have hrun : num_parse val (pre ++ ds)
      = (num_digits val (R : ℚ) ds (.fin 0), (pre ++ ds).length) := by
    unfold num_parse
    rw [hb]
    simp only [List.drop_left]
    rw [h, List.length_append]
    rfl
  refine ⟨hrun, ?_⟩
  intro hv
  have hex := num_digits_exact val R (by omega) ds 0 (by rw [hval]; exact hv)
  rw [Nat.cast_zero, hval] at hex
  rw [hrun, hex]

/-- The statement of `num_parse_digits_exact` for the text `0xff` and for the
text `16`. -/
theorem num_parse_digits_exact_witness :
    num_parse num_val [48, 120, 102, 102] = (.fin ((255 : Nat) : ℚ), 4) ∧
    num_parse num_val [49, 54] = (.fin ((16 : Nat) : ℚ), 2) :=
  ⟨(num_parse_digits_exact num_val 16 [48, 120] [102, 102] (by decide) (by decide) (by decide)
      (by decide)).2 (by decide),
   (num_parse_digits_exact num_val 10 [] [49, 54] (by decide) (by decide) (by decide)
      (by decide)).2 (by decide)⟩

/-- C14 (counterexample): the text `16777217` consists of eight decimal digits
and denotes `2 ^ 24 + 1`, but `num_parse` returns `16777216`: the last
multiply-add is rounded to binary32. -/
theorem num_parse_digits_rounded_example :
    (∀ c ∈ [49, 54, 55, 55, 55, 50, 49, 55], num_val c < 10) ∧
    Nat.ofDigits 10 ([49, 54, 55, 55, 55, 50, 49, 55].map num_val).reverse = 16777217 ∧
    num_parse num_val [49, 54, 55, 55, 55, 50, 49, 55] = (.fin 16777216, 8) := by
  decide!


/-! ## `num_parse`: the exponent -/

/-- The scaling that the code under `exp` applies when no exponent digit has
been read: the factor is `pow(radix, 0)`. -/
theorem num_mul_pow_zero (r : ℚ) (n : Nat) (h : n < 2 ^ 24) :
    num_mul (.fin (n : ℚ)) (num_pow r (num_mul (.fin 1) (.fin 0))) = .fin (n : ℚ) := by
  have h0 : num_mul (.fin 1) (.fin 0) = .fin 0 := by
    show num_round (1 * 0) = _
    have := num_round_natCast 0 (by norm_num)
    simpa using this
  have h1 : num_pow r (.fin 0) = .fin 1 := by
    show (if (0 : ℚ).den = 1 then num_round (r ^ (0 : ℚ).num) else .nan) = _
    have := num_round_natCast 1 (by norm_num)
    simpa using this
  rw [h0, h1]
  show num_round ((n : ℚ) * 1) = _
  rw [mul_one]
  exact num_round_natCast n h

/-- C13 (code defect): for a base `R` with its radix mark `pre`, mantissa
digits `ds` denoting a number below `2 ^ 24` and the exponent marker `m` of
the base (`e`/`E` for base 10, `p`/`P` otherwise; not a digit of the base),
whatever text `rest` follows the marker, `num_parse` returns the mantissa
alone and leaves the cursor on the marker.  `goto exp` is taken with `str` on
the marker, so the loop under `exp` examines the marker again, finds no digit
and scales by `pow(radix, 0)`; the sign and the digits of the exponent are
never read. -/
theorem num_parse_exponent_unread (val : Nat → Nat) (R : Nat) (pre ds : List Nat) (m : Nat)
    (rest : List Nat) (hm : num_radix_mark R pre)
    (hl : ∀ c ∈ [98, 66, 111, 79, 120, 88], 10 ≤ val c) (hd : ∀ c ∈ ds, val c < R)
    (hv : Nat.ofDigits R (ds.map val).reverse < 2 ^ 24)
    (hmk : (R = 10 ∧ (m = 101 ∨ m = 69)) ∨ (R ≠ 10 ∧ (m = 112 ∨ m = 80)))
    (hmv : R ≤ val m) :
    num_parse val (pre ++ ds ++ m :: rest)
      = (.fin ((Nat.ofDigits R (ds.map val).reverse : Nat) : ℚ), (pre ++ ds).length) := by
  obtain ⟨b, hb, hR, hR2, hmark⟩ := num_parse_base_eq R pre (ds ++ m :: rest) hm
    (by
      intro h10
      refine num_digits_unmarked val ds (m :: rest) hl (by rw [← h10]; exact hd) ?_
      intro c hc
      have : c = m := by simpa using hc.symm
      rcases hmk with ⟨-, h | h⟩ | ⟨h, -⟩
      · omega
      · omega
      · exact absurd h10 h)
    (fun _ => by simp)
  have hval := digits_value_eq val R ds 0
  rw [Nat.zero_mul, Nat.zero_add] at hval
  have h := num_parse_int_digits val b R hR (by omega) ds (m :: rest) 0 pre.length hd
    (by rw [hval]; exact hv)
  have hmc : m = b.expc ∨ m = b.expC := by
    rcases hmk with ⟨h10, h | h⟩ | ⟨h10, h | h⟩ <;>
      rcases hmark with ⟨h10', e1, e2⟩ | ⟨h10', e1, e2⟩ <;>
      first
        | exact absurd h10 h10'
        | exact absurd h10' h10
        | (left; omega)
        | (right; omega)
  have hm46 : m ≠ 46 ∧ m ≠ 43 ∧ m ≠ 45 := by
    rcases hmk with ⟨-, h | h⟩ | ⟨-, h | h⟩ <;> omega
  have hge : (val m : ℚ) ≥ b.radix := by rw [hR]; exact_mod_cast hmv
  unfold num_parse
  rw [List.append_assoc, hb]
  simp only [List.drop_left]
  rw [Nat.cast_zero] at h
  rw [h, hval, List.length_append]
  rw [num_parse_int, if_pos hge, if_neg hm46.1, if_pos hmc]
  unfold num_parse_exp
  rw [if_neg (by simp [hm46.2.1]), if_neg (by simp [hm46.2.2])]
  rw [num_parse_exp_loop, if_pos hge, num_mul_pow_zero _ _ hv]

/-- The statement of `num_parse_exponent_unread` for the text `0x1p4`, with
the digit values of `num_val`: the number returned is 1, not 16, and the
cursor stops after three of the five characters. -/
theorem num_parse_exponent_unread_witness :
    num_parse num_val [48, 120, 49, 112, 52] = (.fin ((1 : Nat) : ℚ), 3) :=
  num_parse_exponent_unread num_val 16 [48, 120] [49] 112 [52] (by decide) (by decide)
    (by decide) (by decide) (by decide) (by decide)


/-! ## `num_repr` -/

theorem num_repr_example_a :
    fround 99999997952 = 99999997952 ∧
    num_repr 99999997952 = [97, 48, 48, 48, 48, 48, 48, 48, 48, 48, 48] := by decide!

theorem num_repr_example_3 :
    fround 30000001024 = 30000001024 ∧
    num_repr 30000001024 = [51, 48, 48, 48, 48, 48, 48, 48, 48, 48, 48] := by decide!

theorem num_repr_example_digits :
    (Nat.digits 10 99999997952).reverse.map (fun d => d + 48)
      = [57, 57, 57, 57, 57, 57, 57, 55, 57, 53, 50] ∧
    (Nat.digits 10 30000001024).reverse.map (fun d => d + 48)
      = [51, 48, 48, 48, 48, 48, 48, 49, 48, 50, 52] := by
  constructor <;> norm_num

/-- C16 (code defect): `num_repr` writes 13 bytes for the binary32 value
`0.75` (`0.75000001490`: twelve digits and the point), 14 bytes for
`-(1 + 2^-12)` (the sign, twelve digits and the point) and 13 bytes for
`-(2^23 + 1) * 2^-93` in exponential form (`-8.470330e-22`), more than the
`MU_NUMLEN = 12` bytes of the buffer. -/
theorem num_repr_exceeds_numlen :
    fround (3 / 4) = 3 / 4 ∧
    num_repr (3 / 4) = [48, 46, 55, 53, 48, 48, 48, 48, 48, 49, 52, 57, 48] ∧
    MU_NUMLEN < (num_repr (3 / 4)).length ∧
    fround (-(1 + 1 / 2 ^ 12)) = -(1 + 1 / 2 ^ 12) ∧
    num_repr (-(1 + 1 / 2 ^ 12))
      = [45, 49, 46, 48, 48, 48, 50, 52, 52, 49, 52, 48, 54, 52] ∧
    MU_NUMLEN < (num_repr (-(1 + 1 / 2 ^ 12))).length ∧
    fround (-((2 ^ 23 + 1) / 2 ^ 93)) = -((2 ^ 23 + 1) / 2 ^ 93) ∧
    num_repr (-((2 ^ 23 + 1) / 2 ^ 93))
      = [45, 56, 46, 52, 55, 48, 51, 51, 48, 101, 45, 50, 50] ∧
    MU_NUMLEN < (num_repr (-((2 ^ 23 + 1) / 2 ^ 93))).length := by
  decide!

/-! ## `num_repr` on whole numbers below `2 ^ 24` -/

theorem pow2_eq_zpow (e : Int) : pow2 e = (2 : ℚ) ^ e := by
  unfold pow2
  split
  · next h =>
    obtain ⟨n, rfl⟩ := Int.eq_ofNat_of_zero_le h
    simp
  · next h =>
    obtain ⟨n, hn⟩ : ∃ n : Nat, e = -(n : Int) := ⟨(-e).toNat, by omega⟩
    subst hn
    simp

theorem pow2_pos (e : Int) : 0 < pow2 e := by
  rw [pow2_eq_zpow]; positivity

/-- The binade of a positive rational number starts at or below it. -/
theorem pow2_qlog2_le (x : ℚ) (hx : 0 < x) : pow2 (qlog2 x) ≤ x := by
  have hnum : 0 < x.num := Rat.num_pos.2 hx
  have hden : (0 : ℚ) < x.den := by exact_mod_cast x.den_pos
  have hna : ((x.num.natAbs : Nat) : ℚ) = (x.num : ℚ) := by
    rw [Nat.cast_natAbs, abs_of_pos hnum]
  have hxe : x = (x.num.natAbs : ℚ) / (x.den : ℚ) := by
    rw [hna]; exact (Rat.num_div_den x).symm
  have hA : x.num.natAbs ≠ 0 := by
    intro h
    rw [h] at hna
    have : (x.num : ℚ) = 0 := by rw [← hna]; simp
    have : x.num = 0 := by exact_mod_cast this
    omega
  have h1 : ((2 : ℚ)) ^ (Nat.log2 x.num.natAbs) ≤ (x.num.natAbs : ℚ) := by
    exact_mod_cast Nat.log2_self_le hA
  have h2 : (x.den : ℚ) ≤ (2 : ℚ) ^ (Nat.log2 x.den + 1) := by
    exact_mod_cast le_of_lt (Nat.lt_log2_self (n := x.den))
  unfold qlog2
  rw [nlog2_eq, nlog2_eq]
  split
  · next hc =>
    conv_rhs => rw [hxe]
    rw [le_div_iff₀ hden, mul_comm]
    exact hc
  · conv_rhs => rw [hxe]
    rw [pow2_eq_zpow]
    have he : ((Nat.log2 x.num.natAbs : Int) - (Nat.log2 x.den : Int) - 1)
        = (Nat.log2 x.num.natAbs : Int) - ((Nat.log2 x.den + 1 : Nat) : Int) := by
      push_cast; ring
    rw [he, zpow_sub₀ (by norm_num : (2 : ℚ) ≠ 0), zpow_natCast, zpow_natCast]
    exact div_le_div₀ (by positivity) h1 hden h2

/-- A positive number below `2 ^ j` lies in a binade below `j`. -/
theorem qlog2_lt (x : ℚ) (hx : 0 < x) (j : Int) (h : x < (2 : ℚ) ^ j) : qlog2 x < j := by
  have h1 := pow2_qlog2_le x hx
  rw [pow2_eq_zpow] at h1
  have h2 : (2 : ℚ) ^ qlog2 x < (2 : ℚ) ^ j := lt_of_le_of_lt h1 h
  exact (zpow_lt_zpow_iff_right₀ (by norm_num : (1 : ℚ) < 2)).1 h2

theorem round_even_le (y : ℚ) : (round_even y : ℚ) ≤ y + 1 / 2 := by
  have h1 : (⌊y⌋ : ℚ) ≤ y := Int.floor_le y
  have h2 : y < ⌊y⌋ + 1 := Int.lt_floor_add_one y
  unfold round_even
  split
  · linarith
  · split
    · push_cast; linarith
    · next h3 h4 =>
      have : y - ⌊y⌋ = 1 / 2 := le_antisymm (not_lt.1 h4) (not_lt.1 h3)
      split
      · linarith
      · push_cast; linarith

theorem le_round_even (y : ℚ) (N : Int) (h : (N : ℚ) ≤ y) : N ≤ round_even y := by
  have h1 : N ≤ ⌊y⌋ := Int.le_floor.2 h
  unfold round_even
  split
  · exact h1
  · split
    · omega
    · split
      · exact h1
      · omega


/-- The quotient of two whole numbers, rounded to binary32, has the whole part
of the exact quotient, when the quotient is below `2 ^ j` and the divisor is
small against the precision left. -/
theorem floor_fround_div (a b j : Nat) (hb : 0 < b) (hj : j ≤ 24)
    (hx : (a : ℚ) / b < 2 ^ j) (hs : b * 2 ^ j < 2 ^ 25) :
    ⌊fround ((a : ℚ) / b)⌋ = ((a / b : Nat) : Int) := by
  have hbq : (0 : ℚ) < b := by exact_mod_cast hb
  by_cases ha : a = 0
  · subst ha; simp [fround]
  have hxpos : (0 : ℚ) < (a : ℚ) / b := by
    have : (0 : ℚ) < a := by exact_mod_cast Nat.pos_of_ne_zero ha
    positivity
  have he : qlog2 ((a : ℚ) / b) < (j : Int) :=
    qlog2_lt _ hxpos j (by rw [zpow_natCast]; exact hx)
  obtain ⟨u, hu⟩ : ∃ u, u = max (qlog2 ((a : ℚ) / b) - 23) (-149) := ⟨_, rfl⟩
  have hu0 : u ≤ (j : Int) - 24 := by omega
  obtain ⟨t, ht⟩ : ∃ t : Nat, u = -(t : Int) := ⟨(-u).toNat, by omega⟩
  have ht24 : 24 ≤ t + j := by omega
  have hp : pow2 u = 1 / (2 : ℚ) ^ t := by
    rw [pow2_eq_zpow, ht, zpow_neg, zpow_natCast, one_div]
  have h2t : (0 : ℚ) < (2 : ℚ) ^ t := by positivity
  have hfr : fround ((a : ℚ) / b)
      = (round_even ((a : ℚ) / b * 2 ^ t) : ℚ) / 2 ^ t := by
    unfold fround
    rw [if_neg (ne_of_gt hxpos), ← hu, hp]
    field_simp
  -- the exact quotient lies between q and q + 1 - 1/b
  have hq1 : ((a / b : Nat) : ℚ) ≤ (a : ℚ) / b := Nat.cast_div_le
  have hq2 : (a : ℚ) / b + 1 / b ≤ ((a / b : Nat) : ℚ) + 1 := by
    have h1 : a + 1 ≤ (a / b + 1) * b := by
      have := Nat.div_add_mod a b
      have := Nat.mod_lt a hb
      nlinarith
    have h2 : (a : ℚ) + 1 ≤ (((a / b : Nat) : ℚ) + 1) * b := by exact_mod_cast h1
    rw [← add_div, div_le_iff₀ hbq]
    exact h2
  -- the divisor is below twice the scale
  have hbt : (b : ℚ) < 2 * 2 ^ t := by
    have h1 : 2 ^ 25 ≤ 2 * 2 ^ t * 2 ^ j := by
      have : 2 ^ 24 ≤ 2 ^ (t + j) := Nat.pow_le_pow_right (by norm_num) ht24
      rw [Nat.pow_add] at this
      nlinarith
    have h2 : b * 2 ^ j < 2 * 2 ^ t * 2 ^ j := lt_of_lt_of_le hs h1
    have h3 : b < 2 * 2 ^ t := Nat.lt_of_mul_lt_mul_right h2
    exact_mod_cast h3
  have hlow : (((a / b * 2 ^ t : Nat) : Int)) ≤ round_even ((a : ℚ) / b * 2 ^ t) := by
    apply le_round_even
    push_cast
    exact mul_le_mul_of_nonneg_right hq1 (le_of_lt h2t)
  have hup := round_even_le ((a : ℚ) / b * 2 ^ t)
  rw [hfr, Int.floor_eq_iff]
  constructor
  · rw [le_div_iff₀ h2t]
    have : (((a / b * 2 ^ t : Nat) : Int) : ℚ) ≤ (round_even ((a : ℚ) / b * 2 ^ t) : ℚ) := by
      exact_mod_cast hlow
    rw [Int.cast_natCast, Nat.cast_mul, Nat.cast_pow, Nat.cast_ofNat] at this
    rw [Int.cast_natCast]
    exact this
  · rw [div_lt_iff₀ h2t]
    have h1 : (1 : ℚ) / 2 < 1 / b * 2 ^ t := by
      rw [one_div, one_div, inv_mul_eq_div, lt_div_iff₀ hbq]
      linarith
    have h2 : ((a : ℚ) / b + 1 / b) * 2 ^ t ≤ (((a / b : Nat) : ℚ) + 1) * 2 ^ t :=
      mul_le_mul_of_nonneg_right hq2 (le_of_lt h2t)
    have h3 : ((a : ℚ) / b + 1 / b) * 2 ^ t = (a : ℚ) / b * 2 ^ t + 1 / b * 2 ^ t := by ring
    rw [Int.cast_natCast]
    linarith


theorem num_ascii_digit (q : Nat) (h : q < 10) : num_ascii (q : Int) = 48 + q := by
  unfold num_ascii
  rw [if_pos (by omega)]
  omega

theorem fround_tenth_lt : fround (1 / 10) < 1 := by decide!

/-- One iteration of the digit loop of `num_repr` on a whole number `a` below
`2 ^ 24` with `digit = 10 ^ k`, `a` having at most `k + 1` digits: the digit
`a / 10 ^ k` is written and `a % 10 ^ k` is left. -/
theorem num_repr_loop_step (f k a : Nat) (out : List Nat) (hk : k ≤ 7) (ha : a < 10 ^ (k + 1))
    (h24 : a < 2 ^ 24) :
    num_repr_loop (f + 1) (a : ℚ) ((10 ^ k : Nat) : ℚ) out
      = num_repr_loop f ((a % 10 ^ k : Nat) : ℚ) (fround (((10 ^ k : Nat) : ℚ) / 10))
          (out ++ [48 + a / 10 ^ k]) := by
  have hpos : 0 < 10 ^ k := Nat.pos_pow_of_pos k (by norm_num)
  have hpk : 10 ^ k ≤ 10 ^ 7 := Nat.pow_le_pow_right (by norm_num) hk
  have hq10 : a / 10 ^ k < 10 := by
    rw [Nat.div_lt_iff_lt_mul hpos]
    rw [Nat.pow_succ] at ha
    omega
  have hd1 : ¬ (((10 ^ k : Nat) : ℚ) < 1) := by
    have : (1 : ℚ) ≤ ((10 ^ k : Nat) : ℚ) := by exact_mod_cast hpos
    linarith
  have hd2 : ¬ (((10 ^ k : Nat) : ℚ) < 1 / 2 ∧ ((10 ^ k : Nat) : ℚ) > 1 / 20) := by
    have : (1 : ℚ) ≤ ((10 ^ k : Nat) : ℚ) := by exact_mod_cast hpos
    intro h
    linarith [h.1]
  have hfl : ⌊fround ((a : ℚ) / ((10 ^ k : Nat) : ℚ))⌋ = ((a / 10 ^ k : Nat) : Int) := by
    by_cases h6 : k ≤ 6
    · have hp6 : 10 ^ k ≤ 10 ^ 6 := Nat.pow_le_pow_right (by norm_num) h6
      refine floor_fround_div a (10 ^ k) 4 hpos (by norm_num) ?_ (by omega)
      rw [div_lt_iff₀ (by exact_mod_cast hpos)]
      have : a < 2 ^ 4 * 10 ^ k := by
        rw [Nat.pow_succ] at ha
        omega
      exact_mod_cast this
    · have hk7 : k = 7 := by omega
      subst hk7
      refine floor_fround_div a (10 ^ 7) 1 hpos (by norm_num) ?_ (by norm_num)
      rw [div_lt_iff₀ (by exact_mod_cast hpos)]
      have : a < 2 ^ 1 * 10 ^ 7 := by omega
      exact_mod_cast this
  have hmul : fround ((((a / 10 ^ k : Nat) : Int) : ℚ) * ((10 ^ k : Nat) : ℚ))
      = ((a / 10 ^ k * 10 ^ k : Nat) : ℚ) := by
    rw [Int.cast_natCast, ← Nat.cast_mul]
    exact fround_natCast _ (by
      have := Nat.div_mul_le_self a (10 ^ k)
      omega)
  have hsub : fround ((a : ℚ) - ((a / 10 ^ k * 10 ^ k : Nat) : ℚ)) = ((a % 10 ^ k : Nat) : ℚ) := by
    have h1 : a / 10 ^ k * 10 ^ k ≤ a := Nat.div_mul_le_self a (10 ^ k)
    have h2 : a - a / 10 ^ k * 10 ^ k = a % 10 ^ k := by
      have := Nat.div_add_mod a (10 ^ k)
      rw [Nat.mul_comm] at this
      omega
    rw [← Nat.cast_sub h1, h2]
    exact fround_natCast _ (by
      have := Nat.mod_le a (10 ^ k)
      omega)
  rw [num_repr_loop, if_neg (fun h => hd1 h.2), if_neg hd2, hfl, hmul, hsub,
    num_ascii_digit _ hq10]


/-- The digit loop of `num_repr` on a whole number below `2 ^ 24` writes its
`k + 1` decimal digits, the most significant first, and stops. -/
theorem num_repr_loop_digits :
    ∀ (k f a : Nat) (out : List Nat), k ≤ 7 → a < 10 ^ (k + 1) → a < 2 ^ 24 → k + 2 ≤ f →
      num_repr_loop f (a : ℚ) ((10 ^ k : Nat) : ℚ) out
        = out ++ ((List.range (k + 1)).map (fun j => 48 + a / 10 ^ j % 10)).reverse := by
  intro k
  induction k with
  | zero =>
    intro f a out _ ha h24 hf
    obtain ⟨g, rfl⟩ : ∃ g, f = g + 2 := ⟨f - 2, by omega⟩
    have ha10 : a < 10 := by simpa using ha
    rw [num_repr_loop_step (g + 1) 0 a out (by norm_num) ha h24]
    have h0 : ((a % 10 ^ 0 : Nat) : ℚ) = 0 := by
      rw [Nat.pow_zero, Nat.mod_one]; rfl
    have h1 : (((10 ^ 0 : Nat) : ℚ) / 10) = 1 / 10 := by norm_num
    rw [h0, h1, num_repr_loop, if_pos ⟨le_refl _, fround_tenth_lt⟩]
    simp [List.range_succ, Nat.mod_eq_of_lt ha10]
  | succ k ih =>
    intro f a out hk ha h24 hf
    obtain ⟨g, rfl⟩ : ∃ g, f = g + 1 := ⟨f - 1, by omega⟩
    have hpos : 0 < 10 ^ (k + 1) := Nat.pos_pow_of_pos _ (by norm_num)
    have hpk : 10 ^ k ≤ 10 ^ 7 := Nat.pow_le_pow_right (by norm_num) (by omega)
    have hq10 : a / 10 ^ (k + 1) < 10 := by
      rw [Nat.div_lt_iff_lt_mul hpos]
      rw [Nat.pow_succ] at ha
      omega
    have hdig : fround (((10 ^ (k + 1) : Nat) : ℚ) / 10) = ((10 ^ k : Nat) : ℚ) := by
      have : (((10 ^ (k + 1) : Nat) : ℚ) / 10) = ((10 ^ k : Nat) : ℚ) := by
        push_cast
        rw [pow_succ]
        field_simp
      rw [this]
      exact fround_natCast _ (by omega)
    rw [num_repr_loop_step g (k + 1) a out hk ha h24, hdig,
      ih g (a % 10 ^ (k + 1)) _ (by omega) (Nat.mod_lt _ hpos)
        (lt_of_le_of_lt (Nat.mod_le _ _) h24) (by omega)]
    rw [List.range_succ (n := k + 1), List.map_append, List.reverse_append, List.append_assoc]
    congr 1
    simp only [List.map_cons, List.map_nil, List.reverse_cons, List.reverse_nil, List.nil_append,
      List.singleton_append]
    rw [Nat.mod_eq_of_lt hq10]
    congr 2
    apply List.map_congr_left
    intro j hj
    have hj' : j < k + 1 := List.mem_range.1 hj
    obtain ⟨m, hm⟩ : ∃ m, k + 1 = j + (m + 1) := ⟨k - j, by omega⟩
    rw [hm, Nat.pow_add, Nat.mod_mul_right_div_self, Nat.pow_succ,
      Nat.mod_mul_left_mod]


theorem nlog10_go_eq : ∀ f n, n ≤ f → nlog10_go f n = Nat.log 10 n := by
  intro f
  induction f with
  | zero =>
    intro n hn
    have : n = 0 := by omega
    subst this
    simp [nlog10_go]
  | succ f ih =>
    intro n hn
    rw [nlog10_go]
    split
    · next h => rw [Nat.log_of_lt h]
    · next h =>
      have h10 : 10 ≤ n := by omega
      have hle : n / 10 ≤ f := by omega
      rw [ih (n / 10) hle]
      exact (Nat.log_of_one_lt_of_le (by norm_num) h10).symm

theorem nlog10_eq (n : Nat) : nlog10 n = Nat.log 10 n := nlog10_go_eq n n (le_refl _)

theorem digits_eq_range (n : Nat) (hn : n ≠ 0) :
    Nat.digits 10 n = (List.range (Nat.log 10 n + 1)).map (fun j => n / 10 ^ j % 10) := by
  induction n using Nat.strong_induction_on with
  | _ n ih =>
    by_cases h : n < 10
    · rw [Nat.digits_of_lt 10 n hn h, Nat.log_of_lt h]
      simp [List.range_succ, Nat.mod_eq_of_lt h]
    · have h10 : 10 ≤ n := by omega
      have hd0 : n / 10 ≠ 0 := by omega
      rw [Nat.digits_eq_cons_digits_div (by norm_num) hn, ih (n / 10) (by omega) hd0,
        Nat.log_of_one_lt_of_le (by norm_num) h10,
        List.range_succ_eq_map (Nat.log 10 (n / 10) + 1), List.map_cons, List.map_map]
      congr 1
      · simp
      · apply List.map_congr_left
        intro j _
        simp only [Function.comp_apply, Nat.pow_succ, Nat.div_div_eq_div_mul]
        rw [Nat.mul_comm]

/-- For a whole number `n` with `1 ≤ n < 2 ^ 24` (every such number is a
binary32 value), `num_repr` writes the decimal digits of `n`. -/
theorem num_repr_whole (n : Nat) (h1 : 1 ≤ n) (h2 : n < 2 ^ 24) :
    num_repr (n : ℚ) = (Nat.digits 10 n).reverse.map (fun d => d + 48) := by
  have hn0 : n ≠ 0 := by omega
  have hq0 : (n : ℚ) ≠ 0 := by exact_mod_cast hn0
  have hneg : ¬ ((n : ℚ) < 0) := by
    have : (0 : ℚ) ≤ n := Nat.cast_nonneg n
    linarith
  have hge1 : (1 : ℚ) ≤ n := by exact_mod_cast h1
  obtain ⟨k, hk⟩ : ∃ k, k = Nat.log 10 n := ⟨_, rfl⟩
  have hlo : 10 ^ k ≤ n := by rw [hk]; exact Nat.pow_log_le_self 10 hn0
  have hhi : n < 10 ^ (k + 1) := by rw [hk]; exact Nat.lt_pow_succ_log_self (by norm_num) n
  have hk7 : k ≤ 7 := by
    by_contra hc
    have : 10 ^ 8 ≤ 10 ^ k := Nat.pow_le_pow_right (by norm_num) (by omega)
    omega
  have hexp : qlog10 (n : ℚ) = (k : Int) := by
    unfold qlog10
    rw [if_pos hge1, Int.floor_natCast, Int.toNat_ofNat, nlog10_eq, hk]
  have hdig : fround ((10 : ℚ) ^ (k : Int)) = ((10 ^ k : Nat) : ℚ) := by
    have : (10 : ℚ) ^ (k : Int) = ((10 ^ k : Nat) : ℚ) := by
      rw [zpow_natCast]; push_cast; rfl
    rw [this]
    exact fround_natCast _ (lt_of_le_of_lt hlo h2)
  have hd1 : ¬ (((10 ^ k : Nat) : ℚ) < 1) := by
    have : (1 : ℚ) ≤ ((10 ^ k : Nat) : ℚ) := by
      exact_mod_cast Nat.pos_pow_of_pos k (by norm_num)
    linarith
  have hisexp : ¬ ((k : Int) > (MU_NUMLEN : Int) - 2 ∨ (k : Int) < -((MU_NUMLEN : Int) - 3)) := by
    unfold MU_NUMLEN
    omega
  unfold num_repr
  rw [if_neg hq0]
  simp only [if_neg hneg, hexp, hdig, if_neg hisexp, if_neg hd1, if_false]
  rw [num_repr_loop_digits k _ n [] hk7 hhi h2 (by unfold MU_NUMLEN; omega), List.nil_append,
    digits_eq_range n hn0, ← hk, List.map_reverse, List.map_map]
  congr 1
  apply List.map_congr_left
  intro j _
  simp [Nat.add_comm]


/-- C15 (code defect): for a whole number `n` with `1 ≤ n < 2 ^ 24`
`num_repr` writes exactly the decimal digits of `n`.  The integers
`99999997952` and `30000001024` are binary32 values between 1 and `10 ^ 11`,
but `num_repr` writes `a0000000000` for the first (`n / digit` is rounded up
to `10.0`, so the first digit value is ten) and `30000000000` for the second
(`d * digit` is rounded to the number itself, so the rest is zero), not their
decimal digits. -/
theorem num_repr_integer_wrong_digits (n : Nat) (h1 : 1 ≤ n) (h2 : n < 2 ^ 24) :
    num_repr (n : ℚ) = (Nat.digits 10 n).reverse.map (fun d => d + 48) ∧
    fround 99999997952 = 99999997952 ∧ (1 : ℚ) ≤ 99999997952 ∧ (99999997952 : ℚ) < 10 ^ 11 ∧
    num_repr 99999997952 = [97, 48, 48, 48, 48, 48, 48, 48, 48, 48, 48] ∧
    (Nat.digits 10 99999997952).reverse.map (fun d => d + 48)
      = [57, 57, 57, 57, 57, 57, 57, 55, 57, 53, 50] ∧
    fround 30000001024 = 30000001024 ∧ (1 : ℚ) ≤ 30000001024 ∧ (30000001024 : ℚ) < 10 ^ 11 ∧
    num_repr 30000001024 = [51, 48, 48, 48, 48, 48, 48, 48, 48, 48, 48] ∧
    (Nat.digits 10 30000001024).reverse.map (fun d => d + 48)
      = [51, 48, 48, 48, 48, 48, 48, 49, 48, 50, 52] :=
  ⟨num_repr_whole n h1 h2, num_repr_example_a.1, by norm_num, by norm_num,
    num_repr_example_a.2, num_repr_example_digits.1, num_repr_example_3.1, by norm_num,
    by norm_num, num_repr_example_3.2, num_repr_example_digits.2⟩

/-- The statement of `num_repr_integer_wrong_digits` for 16: `num_repr(16)` is
the text `16`. -/
theorem num_repr_integer_wrong_digits_witness :
    num_repr ((16 : Nat) : ℚ) = (Nat.digits 10 16).reverse.map (fun d => d + 48) ∧
    (Nat.digits 10 16).reverse.map (fun d => d + 48) = [49, 54] :=
  ⟨(num_repr_integer_wrong_digits 16 (by decide) (by decide)).1, by norm_num⟩

/-! ## The set operations and `mu_tbl_concat` on a list of 239 values -/

theorem ex_xy_reached : mu_tbl_insert 2 false (mu_tbl_create 0) 8003 8011 = .ok ex_xy := by
  decide!

theorem ex_xy_entries : mu_tbl_entries ex_xy = [(8003, 8011)] := by decide!

theorem ex_list239_entries_inserted :
    mu_tbl_insert_entries 3 (mu_tbl_create 240) (mu_tbl_entries ex_list239) = .ok ex_list239 := by
  decide!

theorem ex_list239_absent_inserted :
    mu_tbl_insert_absent 3 ex_xy (.ok (mu_tbl_create 239)) (mu_tbl_entries ex_list239)
      = .ok ex_list239 := by
  decide!


theorem ex_list239_lookup_x :
    mu_tbl_lookup (.ref false ex_list239 .null) 8003 = some 0 := by decide!

theorem ex_list239_wf : mu_tbl_wf ex_list239 := by decide!

theorem mu_tbl_insert_entries_one (fuel : Nat) (d : mtbl) (k v : Nat) :
    mu_tbl_insert_entries fuel d [(k, v)] = mu_tbl_insert fuel false d k v := rfl

theorem mu_tbl_insert_absent_one (fuel : Nat) (o d : mtbl) (k v : Nat)
    (h : mu_tbl_lookup (.ref false o .null) k = some 0) :
    mu_tbl_insert_absent fuel o (.ok d) [(k, v)] = mu_tbl_insert fuel false d k v := by
  simp only [mu_tbl_insert_absent, List.foldl, Res.bind, h, if_true]

/-- `mu_tbl_or` once the pairs of `b` have been inserted. -/
theorem mu_tbl_or_eq (fuel : Nat) (a b d : mtbl) (n : Nat)
    (hn : mlen (mu_tbl_getlen a + mu_tbl_getlen b) = n)
    (h : mu_tbl_insert_entries fuel (mu_tbl_create n) (mu_tbl_entries b) = .ok d) :
    mu_tbl_or fuel a b = mu_tbl_insert_entries fuel d (mu_tbl_entries a) := by
  unfold mu_tbl_or
  rw [hn, h]
  rfl

/-- `mu_tbl_xor` once the pairs of `a` have been inserted. -/
theorem mu_tbl_xor_eq (fuel : Nat) (a b d : mtbl) (n : Nat)
    (hn : (if mu_tbl_getlen a > mu_tbl_getlen b then mu_tbl_getlen a else mu_tbl_getlen b) = n)
    (h : mu_tbl_insert_absent fuel b (.ok (mu_tbl_create n)) (mu_tbl_entries a) = .ok d) :
    mu_tbl_xor fuel a b = mu_tbl_insert_absent fuel a (.ok d) (mu_tbl_entries b) := by
  unfold mu_tbl_xor
  rw [hn, h]

/-- C17 (code defect): for the table `a = ex_xy`, which holds `8003 ↦ 8011`,
and the dense list `b = ex_list239` of 239 values, both satisfying the
representation invariant, `d = mu_tbl_or(a, b)` looks up nil under the key
`8003`, which `a` holds, and under the key `224`, which `b` holds.  After the
239 pairs of `b` the pair of `a` makes `mu_tbl_insert` convert the list to
pairs mode for 240 entries, with one-byte indices in a table of 512 slots. -/
theorem mu_tbl_or_240_loses_keys :
    mu_tbl_wf ex_xy ∧ mu_tbl_wf ex_list239 ∧
    mu_tbl_lookup (.ref false ex_xy .null) 8003 = some 8011 ∧
    mu_tbl_lookup (.ref false ex_list239 .null) (mu_num_fromuint 224) = some 5891 ∧
    mu_tbl_or 3 ex_xy ex_list239 = mu_tbl_insert 3 false ex_list239 8003 8011 ∧
    (mu_tbl_or 3 ex_xy ex_list239).map
      (fun d => (mu_tbl_lookup (.ref false d .null) (mu_num_fromuint 224),
        mu_tbl_lookup (.ref false d .null) 8003))
      = .ok (some 0, some 0) := by
  have h2 : mu_tbl_or 3 ex_xy ex_list239 = mu_tbl_insert 3 false ex_list239 8003 8011 := by
    rw [mu_tbl_or_eq 3 ex_xy ex_list239 ex_list239 240 (by decide) ex_list239_entries_inserted,
      ex_xy_entries, mu_tbl_insert_entries_one]
  refine ⟨by decide!, ex_list239_wf, by decide!, ex_list239_lookup_224, h2, ?_⟩
  rw [h2]
  exact ex_list239_insert_lookups

/-- C18 (code defect): for the dense list `a = ex_list239` of 239 values and
the table `b = ex_xy`, which holds `8003 ↦ 8011`, no key is held by both, but
`d = mu_tbl_xor(a, b)` looks up nil under the key `224` of `a` and under the
key `8003` of `b`: the 240th insertion converts the list to pairs mode for 240
entries, with one-byte indices in a table of 512 slots. -/
theorem mu_tbl_xor_240_loses_keys :
    mu_tbl_wf ex_list239 ∧ mu_tbl_wf ex_xy ∧
    mu_tbl_lookup (.ref false ex_list239 .null) (mu_num_fromuint 224) = some 5891 ∧
    mu_tbl_lookup (.ref false ex_xy .null) (mu_num_fromuint 224) = some 0 ∧
    mu_tbl_lookup (.ref false ex_xy .null) 8003 = some 8011 ∧
    mu_tbl_lookup (.ref false ex_list239 .null) 8003 = some 0 ∧
    mu_tbl_xor 3 ex_list239 ex_xy = mu_tbl_insert 3 false ex_list239 8003 8011 ∧
    (mu_tbl_xor 3 ex_list239 ex_xy).map
      (fun d => (mu_tbl_lookup (.ref false d .null) (mu_num_fromuint 224),
        mu_tbl_lookup (.ref false d .null) 8003))
      = .ok (some 0, some 0) := by
  have h2 : mu_tbl_xor 3 ex_list239 ex_xy = mu_tbl_insert 3 false ex_list239 8003 8011 := by
    rw [mu_tbl_xor_eq 3 ex_list239 ex_xy ex_list239 239 (by decide) ex_list239_absent_inserted,
      ex_xy_entries, mu_tbl_insert_absent_one 3 ex_list239 ex_list239 8003 8011 ex_list239_lookup_x]
  refine ⟨ex_list239_wf, by decide!, ex_list239_lookup_224, by decide!, by decide!,
    ex_list239_lookup_x, h2, ?_⟩
  rw [h2]
  exact ex_list239_insert_lookups


/-! ## `mu_tbl_concat` -/

theorem mu_isnum_fromuint (i : Nat) : mu_isnum (mu_num_fromuint i) = true := by
  unfold mu_isnum mu_num_fromuint MTNUM
  have h1 := Nat.mod_lt (float_of_uint i) (by norm_num : 0 < 8)
  have h2 := Nat.div_add_mod (float_of_uint i) 8
  have : (1 + (float_of_uint i - float_of_uint i % 8)) % 8 = 1 := by omega
  simp [this]

/-- `mu_tbl_next` on a dense list: the entry at the position, while there is
one. -/
theorem mu_tbl_next_dense (t : mtbl) (vs : List Nat) (hd : mu_tbl_dense t vs) (i : Nat) :
    mu_tbl_next t i
      = if i < vs.length then some (i + 1, mu_num_fromuint i, vs.getD i 0) else none := by
  have hg := mu_tbl_dense_getD t vs hd
  obtain ⟨h1, h2, h3, h4, h5, h6, h7, h8⟩ := hd
  have hb : mu_tbl_islist t = true := by unfold mu_tbl_islist; simp [h1]
  have hc : mu_tbl_count t = vs.length := by unfold mu_tbl_count; omega
  unfold mu_tbl_next
  rw [hc]
  by_cases hi : i < vs.length
  · rw [if_pos hi]
    obtain ⟨m, hm⟩ : ∃ m, vs.length - i = m + 1 := ⟨vs.length - i - 1, by omega⟩
    rw [hm, mu_tbl_next_loop, hc, if_neg (by omega)]
    simp only [hb, if_true, hg]
    rw [if_pos]
    rw [List.getD_eq_getElem _ _ hi]
    exact h7 _ (List.getElem_mem _)
  · rw [if_neg hi]
    have : vs.length - i = 0 := by omega
    rw [this]
    rfl

/-- The pairs that iteration gives for a dense list. -/
theorem mu_tbl_entries_from_dense (t : mtbl) (vs : List Nat) (hd : mu_tbl_dense t vs) :
    ∀ fuel i, i ≤ vs.length → vs.length - i < fuel →
      mu_tbl_entries_from t fuel i = dense_entries i (vs.drop i) := by
  intro fuel
  induction fuel with
  | zero => intro i _ h; omega
  | succ f ih =>
    intro i hi hf
    rw [mu_tbl_entries_from, mu_tbl_next_dense t vs hd i]
    by_cases hlt : i < vs.length
    · rw [if_pos hlt]
      show (mu_num_fromuint i, vs.getD i 0) :: mu_tbl_entries_from t f (i + 1) = _
      rw [ih (i + 1) (by omega) (by omega), List.drop_eq_getElem_cons hlt,
        List.getD_eq_getElem _ _ hlt]
      rfl
    · rw [if_neg hlt, List.drop_eq_nil_of_le (by omega)]
      rfl

theorem mu_tbl_entries_dense (t : mtbl) (vs : List Nat) (hd : mu_tbl_dense t vs) :
    mu_tbl_entries t = dense_entries 0 vs := by
  have hc : mu_tbl_count t = vs.length := by
    obtain ⟨h1, h2, h3, h4, h5, h6, h7, h8⟩ := hd
    unfold mu_tbl_count; omega
  unfold mu_tbl_entries
  rw [mu_tbl_entries_from_dense t vs hd _ 0 (by omega) (by omega)]
  rfl

theorem mu_tbl_insert_entries_cons (fuel : Nat) (d s : mtbl) (k v : Nat)
    (es : List (Nat × Nat)) (h : mu_tbl_insert fuel false d k v = .ok s) :
    mu_tbl_insert_entries fuel d ((k, v) :: es) = mu_tbl_insert_entries fuel s es := by
  unfold mu_tbl_insert_entries
  rw [List.foldl_cons]
  simp only [Res.bind]
  rw [h]

/-- Inserting the pairs of a dense list after the values of a dense list
appends its values. -/
theorem mu_tbl_insert_entries_dense (fuel : Nat) :
    ∀ (ws : List Nat) (t : mtbl) (vs : List Nat), mu_tbl_dense t vs → (∀ w ∈ ws, w ≠ 0) →
      vs.length + ws.length ≤ 2 ^ 30 →
      ∃ s, mu_tbl_insert_entries (fuel + 2) t (dense_entries vs.length ws) = .ok s ∧
        mu_tbl_dense s (vs ++ ws) := by
  intro ws
  induction ws with
  | nil =>
    intro t vs hd _ _
    exact ⟨t, rfl, by rw [List.append_nil]; exact hd⟩
  | cons w ws ih =>
    intro t vs hd hw hn
    rw [List.length_cons] at hn
    obtain ⟨s1, hs1, hd1⟩ := mu_tbl_insert_dense_append fuel t vs w hd
      (hw w (List.mem_cons_self _ _)) (by omega)
    obtain ⟨s, hs, hds⟩ := ih s1 (vs ++ [w]) hd1 (fun x hx => hw x (List.mem_cons_of_mem _ hx))
      (by rw [List.length_append]; simp; omega)
    refine ⟨s, ?_, by rw [List.append_cons]; exact hds⟩
    rw [List.length_append, List.length_singleton] at hs
    rw [← hs]
    exact mu_tbl_insert_entries_cons (fuel + 2) t s1 _ w _ hs1

/-- The keys of a dense list, moved by `num_add` to the end of a list of `n`
values. -/
theorem dense_entries_map_add (num_add : Nat → Nat → Nat) (off n : Nat) :
    ∀ (ws : List Nat) (i : Nat),
      (∀ j < ws.length, num_add (mu_num_fromuint (i + j)) off = mu_num_fromuint (n + i + j)) →
      (dense_entries i ws).map
          (fun kv => (if mu_isnum kv.1 then num_add kv.1 off else kv.1, kv.2))
        = dense_entries (n + i) ws := by
  intro ws
  induction ws with
  | nil => intro i _; rfl
  | cons w ws ih =>
    intro i h
    have h0 := h 0 (by simp)
    rw [Nat.add_zero, Nat.add_zero] at h0
    show (if mu_isnum (mu_num_fromuint i) then num_add (mu_num_fromuint i) off
        else mu_num_fromuint i, w) :: (dense_entries (i + 1) ws).map _ = _
    rw [mu_isnum_fromuint, if_pos rfl, h0, ih (i + 1) (by
      intro j hj
      have := h (j + 1) (by simp; omega)
      rw [show i + 1 + j = i + (j + 1) by omega, show n + (i + 1) + j = n + i + (j + 1) by omega]
      exact this)]
    rfl

/-- `mu_tbl_concat` once the pairs of `a` have been inserted. -/
theorem mu_tbl_concat_eq (num_add : Nat → Nat → Nat) (num_cmp : Nat → Nat → Int) (fuel : Nat)
    (a b d : mtbl) (offset n : Nat) (hn : mlen (mu_tbl_getlen a + mu_tbl_getlen b) = n)
    (h : mu_tbl_insert_entries fuel (mu_tbl_create n) (mu_tbl_entries a) = .ok d) :
    mu_tbl_concat num_add num_cmp fuel a b offset
      = mu_tbl_insert_entries fuel d
          ((mu_tbl_entries b).map fun kv =>
            (if mu_isnum kv.1 then
                num_add kv.1
                  (if offset = 0 then mu_num_fromuint (mu_tbl_getlen a)
                   else if num_cmp offset (mu_num_fromuint 0) < 0 then
                     num_add offset (mu_num_fromuint (mu_tbl_getlen a))
                   else offset)
              else kv.1, kv.2)) := by
  unfold mu_tbl_concat
  rw [hn, h]
  rfl


theorem ex_list1b_entries : mu_tbl_entries ex_list1b = [(mu_num_fromuint 0, 4131)] := by decide!

theorem ex_list239_insert_1000 :
    (mu_tbl_insert 3 false ex_list239 (mu_num_fromuint 1000) 4131).map
      (fun d => (d.isize, d.len, mu_tbl_lookup (.ref false d .null) (mu_num_fromuint 1000)))
      = .ok (1, 240, some 0) := by decide!

/-- C19 (code defect), in three parts.  For dense lists `a` of `n` values and
`b` of `m` values, with `mu_num_add` adding `n` to the keys of `b`,
`mu_tbl_concat(a, b, nil)` is the dense list of the `n + m` values.  With an
explicit offset the second sentence fails at 240 entries, where
`mu_tbl_insert` converts the list to pairs mode with one-byte indices in a
table of 512 slots: after the list `ex_list239` of 239 values the
non-numeric key `8003` of `ex_xy` is not found in the result, whatever the
offset; and with the offset 1000 the key `0` of the list `ex_list1b` is not
found under `1000`. -/
theorem mu_tbl_concat_dense_and_240 (num_add : Nat → Nat → Nat) (num_cmp : Nat → Nat → Int)
    (fuel : Nat) (a b : mtbl) (va vb : List Nat) (hda : mu_tbl_dense a va)
    (hdb : mu_tbl_dense b vb) (hn : va.length + vb.length ≤ 2 ^ 30)
    (hadd : ∀ j < vb.length,
      num_add (mu_num_fromuint j) (mu_num_fromuint va.length) = mu_num_fromuint (va.length + j)) :
    (∃ d, mu_tbl_concat num_add num_cmp (fuel + 2) a b 0 = .ok d ∧
      mu_tbl_dense d (va ++ vb) ∧ d.len = va.length + vb.length ∧
      (∀ i < va.length,
        mu_tbl_lookup (.ref false d .null) (mu_num_fromuint i) = some (va.getD i 0)) ∧
      (∀ i, va.length ≤ i → i < va.length + vb.length →
        mu_tbl_lookup (.ref false d .null) (mu_num_fromuint i)
          = some (vb.getD (i - va.length) 0))) ∧
    (∀ offset, (mu_tbl_concat num_add num_cmp 3 ex_list239 ex_xy offset).map
      (fun d => (mu_tbl_lookup (.ref false d .null) (mu_num_fromuint 224),
        mu_tbl_lookup (.ref false d .null) 8003))
      = .ok (some 0, some 0)) ∧
    (num_add (mu_num_fromuint 0) (mu_num_fromuint 1000) = mu_num_fromuint 1000 →
      ¬ num_cmp (mu_num_fromuint 1000) (mu_num_fromuint 0) < 0 →
      (mu_tbl_concat num_add num_cmp 3 ex_list239 ex_list1b (mu_num_fromuint 1000)).map
        (fun d => (d.isize, d.len, mu_tbl_lookup (.ref false d .null) (mu_num_fromuint 1000)))
        = .ok (1, 240, some 0)) := by
  refine ⟨?_, ?_, ?_⟩
  · have hla : mu_tbl_getlen a = va.length := hda.2.2.2.1
    have hlb : mu_tbl_getlen b = vb.length := hdb.2.2.2.1
    have hm : mlen (mu_tbl_getlen a + mu_tbl_getlen b) = va.length + vb.length := by
      rw [hla, hlb]; unfold mlen; omega
    have hc := mu_tbl_create_dense (va.length + vb.length) hn
    obtain ⟨d1, hd1, hdd1⟩ := mu_tbl_insert_entries_dense fuel va _ [] hc hda.2.2.2.2.2.2.1
      (by simp; omega)
    rw [List.length_nil, ← mu_tbl_entries_dense a va hda] at hd1
    rw [List.nil_append] at hdd1
    obtain ⟨d, hd, hdd⟩ := mu_tbl_insert_entries_dense fuel vb d1 va hdd1 hdb.2.2.2.2.2.2.1 hn
    have hmap := dense_entries_map_add num_add (mu_num_fromuint va.length) va.length vb 0 (by
      intro j hj
      rw [Nat.zero_add, Nat.add_zero]
      exact hadd j hj)
    rw [Nat.add_zero, ← mu_tbl_entries_dense b vb hdb] at hmap
    refine ⟨d, ?_, hdd, ?_, ?_, ?_⟩
    · rw [mu_tbl_concat_eq num_add num_cmp (fuel + 2) a b d1 0 _ hm hd1]
      simp only [if_true, hla]
      rw [hmap]
      exact hd
    · rw [hdd.2.2.2.1, List.length_append]
    · intro i hi
      have hcap : va.length + vb.length ≤ 2 ^ d.npw2 := by
        have := hdd.2.2.2.2.2.1
        rwa [List.length_append] at this
      rw [mu_tbl_dense_lookup false d .null _ hdd i (by omega),
        List.getD_append _ _ _ _ hi]
    · intro i h1 h2
      have hcap : va.length + vb.length ≤ 2 ^ d.npw2 := by
        have := hdd.2.2.2.2.2.1
        rwa [List.length_append] at this
      rw [mu_tbl_dense_lookup false d .null _ hdd i (by omega),
        List.getD_append_right _ _ _ _ h1]
  · intro offset
    have h2 : mu_tbl_concat num_add num_cmp 3 ex_list239 ex_xy offset
        = mu_tbl_insert 3 false ex_list239 8003 8011 := by
      rw [mu_tbl_concat_eq num_add num_cmp 3 ex_list239 ex_xy ex_list239 offset 240 (by decide)
        ex_list239_entries_inserted, ex_xy_entries]
      exact mu_tbl_insert_entries_one _ _ _ _
    rw [h2]
    exact ex_list239_insert_lookups
  · intro hadd1 hcmp
    have h2 : mu_tbl_concat num_add num_cmp 3 ex_list239 ex_list1b (mu_num_fromuint 1000)
        = mu_tbl_insert 3 false ex_list239 (mu_num_fromuint 1000) 4131 := by
      rw [mu_tbl_concat_eq num_add num_cmp 3 ex_list239 ex_list1b ex_list239 _ 240 (by decide)
        ex_list239_entries_inserted, ex_list1b_entries]
      simp only [List.map, mu_isnum_fromuint, if_true]
      rw [if_neg (mu_num_fromuint_ne_zero 1000), if_neg hcmp, hadd1]
      exact mu_tbl_insert_entries_one _ _ _ _
    rw [h2]
    exact ex_list239_insert_1000

/-- The statement of `mu_tbl_concat_dense_and_240` for the lists
`[4099, 4107, 4115]` and `[4131]`, with addition and comparison of whole
numbers. -/
theorem mu_tbl_concat_dense_and_240_witness :
    (∃ d, mu_tbl_concat ex_num_add ex_num_cmp 2 ex_abc ex_list1b 0 = .ok d ∧
      mu_tbl_dense d ([4099, 4107, 4115] ++ [4131])) ∧
    (mu_tbl_concat ex_num_add ex_num_cmp 3 ex_list239 ex_list1b (mu_num_fromuint 1000)).map
      (fun d => (d.isize, d.len, mu_tbl_lookup (.ref false d .null) (mu_num_fromuint 1000)))
      = .ok (1, 240, some 0) := by
  have h := mu_tbl_concat_dense_and_240 ex_num_add ex_num_cmp 0 ex_abc ex_list1b
    [4099, 4107, 4115] [4131] (by decide) (by decide) (by decide) (by decide!)
  obtain ⟨⟨d, h1, h2, -⟩, -, h3⟩ := h
  exact ⟨⟨d, h1, h2⟩, h3 (by decide!) (by decide!)⟩


/-! ## Iteration with `mu_tbl_next` -/

theorem mu_tbl_next_loop_inv (t : mtbl) (i2 k v : Nat) :
    ∀ n i, mu_tbl_next_loop t n i = some (i2, k, v) →
      i < i2 ∧ i2 ≤ mu_tbl_count t ∧ v ≠ 0 := by
  intro n
  induction n with
  | zero => intro i h; simp [mu_tbl_next_loop] at h
  | succ n ih =>
    intro i h
    rw [mu_tbl_next_loop] at h
    by_cases hc : i ≥ mu_tbl_count t
    · rw [if_pos hc] at h; simp at h
    · rw [if_neg hc] at h
      dsimp only at h
      by_cases hv : (if mu_tbl_islist t then t.array.getD i 0
          else t.array.getD (2 * (i + mu_tbl_off t) + 1) 0) ≠ 0
      · rw [if_pos hv] at h
        simp only [Option.some.injEq, Prod.mk.injEq] at h
        obtain ⟨h1, -, h3⟩ := h
        rw [h3] at hv
        exact ⟨by omega, by omega, hv⟩
      · rw [if_neg hv] at h
        have := ih (i + 1) h
        omega

theorem ex_skipped_next :
    mu_tbl_next ex_skipped 0 = some (1, mu_num_fromuint 0, 4099) ∧
    mu_tbl_next ex_skipped 1 = some (3, mu_num_fromuint 2, 4115) ∧
    mu_tbl_next ex_skipped 3 = none ∧
    mu_tbl_entries ex_skipped = [(mu_num_fromuint 0, 4099), (mu_num_fromuint 2, 4115)] := by
  decide!

/-- C20 (code defect): the table `ex_skipped` is obtained from
`mu_tbl_create(4)` by `mu_tbl_insert` calls alone (the four values of a list,
the deletion of the keys 0 and 1, the key 0 again); it has `len = 3` and the
key 3 looks up the non-nil value `4123`, but calling `mu_tbl_next` from
position 0 until it returns false yields two pairs, for the keys 0 and 2: the
insertion that fills a hole lowers `nils`, so that `len + nils = 3` and the
loop stops before slot 3.  What does hold for every table is that a call
which returns true moves the position forward, not beyond `len + nils`, and
gives a non-nil value. -/
theorem mu_tbl_next_misses_live_entry (t : mtbl) (i i2 k v : Nat) :
    (mu_tbl_fromlist 2 [4099, 4107, 4115, 4123]).bind (fun t =>
      (mu_tbl_insert 2 false t (mu_num_fromuint 0) 0).bind (fun t =>
        (mu_tbl_insert 2 false t (mu_num_fromuint 1) 0).bind (fun t =>
          mu_tbl_insert 2 false t (mu_num_fromuint 0) 4099))) = .ok ex_skipped ∧
    ex_skipped.len = 3 ∧
    mu_tbl_next ex_skipped 0 = some (1, mu_num_fromuint 0, 4099) ∧
    mu_tbl_next ex_skipped 1 = some (3, mu_num_fromuint 2, 4115) ∧
    mu_tbl_next ex_skipped 3 = none ∧
    mu_tbl_entries ex_skipped = [(mu_num_fromuint 0, 4099), (mu_num_fromuint 2, 4115)] ∧
    mu_tbl_lookup (.ref false ex_skipped .null) (mu_num_fromuint 3) = some 4123 ∧
    (mu_tbl_next t i = some (i2, k, v) → i < i2 ∧ i2 ≤ mu_tbl_count t ∧ v ≠ 0) :=
  ⟨ex_skipped_reached, rfl, ex_skipped_next.1, ex_skipped_next.2.1, ex_skipped_next.2.2.1,
    ex_skipped_next.2.2.2, ex_skipped_lookup.1,
    fun h => mu_tbl_next_loop_inv t i2 k v _ i h⟩

/-- The last part of `mu_tbl_next_misses_live_entry` for the second call on
`ex_skipped`. -/
theorem mu_tbl_next_misses_live_entry_witness :
    1 < 3 ∧ 3 ≤ mu_tbl_count ex_skipped ∧ 4115 ≠ 0 :=
  (mu_tbl_next_misses_live_entry ex_skipped 1 3 (mu_num_fromuint 2) 4115).2.2.2.2.2.2.2
    (by decide!)

/-! ## The text written by `mu_tbl_repr` -/

theorem option_foldl_some {α β : Type} (f : β → α → Option β) (g : β → α → β) (es : List α)
    (h : ∀ b, ∀ e ∈ es, f b e = some (g b e)) : ∀ b,
    es.foldl (fun (r : Option β) e => r.bind fun b => f b e) (some b) = some (es.foldl g b) := by
  induction es with
  | nil => intro b; rfl
  | cons e r ih =>
    intro b
    rw [List.foldl_cons, List.foldl_cons]
    have : (some b).bind (fun b => f b e) = some (g b e) := h b e (List.mem_cons_self _ _)
    rw [this]
    exact ih (fun b e he => h b e (List.mem_cons_of_mem _ he)) _

/-- With `mu_num_cmp` and `mu_num_sub` counting the depth `d` down, a budget
of `d + 1` nested calls is enough, whatever the table graph. -/
theorem mu_tbl_repr_nested_num_eq (F : ReprEnv) (num_cmp : Nat → Nat → Int)
    (num_sub : Nat → Nat → Nat)
    (h0 : num_cmp (mu_num_fromuint 0) (mu_num_fromuint 0) ≤ 0) :
    ∀ d, (∀ n < d, 0 < num_cmp (mu_num_fromuint (n + 1)) (mu_num_fromuint 0) ∧
        num_sub (mu_num_fromuint (n + 1)) (mu_num_fromuint 1) = mu_num_fromuint n) →
      ∀ fuel, d < fuel → ∀ tw buf,
        mu_tbl_repr_nested_num F num_cmp num_sub fuel tw buf (mu_num_fromuint d)
          = some (mu_tbl_repr_nested F d tw buf) := by
  intro d
  induction d with
  | zero =>
    intro _ fuel hf tw buf
    obtain ⟨f, rfl⟩ : ∃ f, fuel = f + 1 := ⟨fuel - 1, by omega⟩
    simp only [mu_tbl_repr_nested_num, mu_tbl_repr_nested]
    rw [if_pos h0]
  | succ d ih =>
    intro hl fuel hf tw buf
    obtain ⟨f, rfl⟩ : ∃ f, fuel = f + 1 := ⟨fuel - 1, by omega⟩
    obtain ⟨hc, hs⟩ := hl d (by omega)
    have ih' := ih (fun n hn => hl n (by omega)) f (by omega)
    simp only [mu_tbl_repr_nested_num, mu_tbl_repr_nested]
    rw [if_neg (by omega), hs]
    rw [option_foldl_some _
      (fun (b : List Nat) (kv : Nat × Nat) =>
        (if F.istbl kv.2 then
            mu_tbl_repr_nested F d kv.2
              (if mu_tbl_linear (F.heap tw) then b else b ++ F.fmt_r kv.1 ++ [58, 32])
          else (if mu_tbl_linear (F.heap tw) then b else b ++ F.fmt_r kv.1 ++ [58, 32])
            ++ F.fmt_r kv.2) ++ [44, 32])]
    · rfl
    · intro b kv _
      by_cases hi : F.istbl kv.2 = true
      · simp only [hi, if_true, ih', Option.map_some']
      · simp only [hi, Option.map_some']
        rfl

/-- The text at depth `d` depends on the tables only down to nesting level
`d - 1`: a table at level `d` is written with `"%t"`, without a look at its
struct, and no table below that level is reached. -/
theorem mu_tbl_repr_nested_level (F G : ReprEnv) (hi : G.istbl = F.istbl)
    (hr : G.fmt_r = F.fmt_r) (ht : G.fmt_t = F.fmt_t) :
    ∀ d tw buf, (∀ j < d, ∀ w ∈ mu_tbl_nested_at F j tw, G.heap w = F.heap w) →
      mu_tbl_repr_nested G d tw buf = mu_tbl_repr_nested F d tw buf := by
  intro d
  induction d with
  | zero => intro tw buf _; simp only [mu_tbl_repr_nested, ht]
  | succ d ih =>
    intro tw buf h
    have hw : G.heap tw = F.heap tw := h 0 (by omega) tw (by simp [mu_tbl_nested_at])
    have hfold : (mu_tbl_entries (F.heap tw)).foldl
        (fun (b : List Nat) (kv : Nat × Nat) =>
          (if F.istbl kv.2 = true then
              mu_tbl_repr_nested G d kv.2
                (if mu_tbl_linear (F.heap tw) = true then b else b ++ F.fmt_r kv.1 ++ [58, 32])
            else (if mu_tbl_linear (F.heap tw) = true then b else b ++ F.fmt_r kv.1 ++ [58, 32])
              ++ F.fmt_r kv.2) ++ [44, 32]) (buf ++ [91])
        = (mu_tbl_entries (F.heap tw)).foldl
        (fun (b : List Nat) (kv : Nat × Nat) =>
          (if F.istbl kv.2 = true then
              mu_tbl_repr_nested F d kv.2
                (if mu_tbl_linear (F.heap tw) = true then b else b ++ F.fmt_r kv.1 ++ [58, 32])
            else (if mu_tbl_linear (F.heap tw) = true then b else b ++ F.fmt_r kv.1 ++ [58, 32])
              ++ F.fmt_r kv.2) ++ [44, 32]) (buf ++ [91]) := by
      apply List.foldl_ext
      intro b kv hkv
      by_cases hv : F.istbl kv.2 = true
      · simp only [hv, if_true]
        rw [ih]
        intro j hj w hwj
        apply h (j + 1) (by omega)
        simp only [mu_tbl_nested_at, List.mem_flatMap, List.mem_filter]
        exact ⟨kv, ⟨hkv, by simpa using hv⟩, hwj⟩
      · rw [if_neg hv, if_neg hv]
    simp only [mu_tbl_repr_nested, hw, hi, hr]
    rw [hfold]

theorem ex_cyclic_step (d : Nat) (buf : List Nat) :
    mu_tbl_repr_nested ex_repr_cyclic (d + 1) 16 buf
      = mu_tbl_repr_nested ex_repr_cyclic d 16 (buf ++ [91]) ++ [93] := by
  have he : mu_tbl_entries ex_cyclic = [(mu_num_fromuint 0, 16)] := by decide!
  have hl : mu_tbl_linear ex_cyclic = true := by decide!
  show (if ex_cyclic.len > 0 then _ else _) ++ [93] = _
  rw [if_pos (by decide)]
  simp only [show ex_repr_cyclic.heap 16 = ex_cyclic from rfl, he, hl, List.foldl_cons,
    List.foldl_nil, if_true, show ex_repr_cyclic.istbl 16 = true from rfl]
  rw [List.length_append]
  simp

/-- The text of the table that holds itself, at depth `d`: `d` opening
brackets, the placeholder, `d` closing brackets. -/
theorem ex_cyclic_text : ∀ d buf, mu_tbl_repr_nested ex_repr_cyclic d 16 buf
    = buf ++ List.replicate d 91 ++ [60, 62] ++ List.replicate d 93 := by
  intro d
  induction d with
  | zero => intro buf; simp [mu_tbl_repr_nested, ex_repr_cyclic]
  | succ d ih =>
    intro buf
    rw [ex_cyclic_step, ih]
    simp only [List.replicate_succ, List.append_assoc, List.singleton_append]
    congr 3
    rw [← List.replicate_succ, List.replicate_succ']

/-- C22: `mu_tbl_repr` returns for every table graph, cycles included, and
every depth `d` that `mu_num_cmp` and `mu_num_sub` count down.  At depth 0 it
returns the text of `"<tbl 0x%wx>"` and at a depth `d ≥ 1` a budget of `d + 1`
nested calls of `mu_tbl_repr_nested` is enough; the text does not depend on
the struct of any table nested at level `d` or deeper, such a table being
written as the placeholder of `"%t"`. -/
theorem mu_tbl_repr_depth_bounded (F : ReprEnv) (num_cmp : Nat → Nat → Int)
    (num_sub : Nat → Nat → Nat) (d tw : Nat)
    (h0 : num_cmp (mu_num_fromuint 0) (mu_num_fromuint 0) ≤ 0)
    (hl : ∀ n < d, 0 < num_cmp (mu_num_fromuint (n + 1)) (mu_num_fromuint 0) ∧
      num_sub (mu_num_fromuint (n + 1)) (mu_num_fromuint 1) = mu_num_fromuint n) :
    (∀ fuel, mu_tbl_repr_num F num_cmp num_sub fuel tw (mu_num_fromuint 0)
      = some (F.fmt_addr tw)) ∧
    (0 < d → mu_tbl_repr_num F num_cmp num_sub (d + 1) tw (mu_num_fromuint d)
      = some (mu_tbl_repr F tw (some d))) ∧
    (∀ buf, mu_tbl_repr_nested F 0 tw buf = buf ++ F.fmt_t tw) ∧
    (∀ G : ReprEnv, G.istbl = F.istbl → G.fmt_r = F.fmt_r → G.fmt_t = F.fmt_t →
      G.fmt_addr = F.fmt_addr →
      (∀ j < d, ∀ w ∈ mu_tbl_nested_at F j tw, G.heap w = F.heap w) →
      mu_tbl_repr G tw (some d) = mu_tbl_repr F tw (some d)) := by
  refine ⟨?_, ?_, ?_, ?_⟩
  · intro fuel
    unfold mu_tbl_repr_num
    rw [if_pos ⟨mu_num_fromuint_ne_zero 0, rfl⟩]
  · intro hd
    obtain ⟨n, rfl⟩ : ∃ n, d = n + 1 := ⟨d - 1, by omega⟩
    have hne : mu_num_fromuint (n + 1) ≠ mu_num_fromuint 0 := by
      intro h
      have := (hl n (by omega)).1
      rw [h] at this
      omega
    unfold mu_tbl_repr_num
    rw [if_neg (fun h => hne h.2), if_neg (mu_num_fromuint_ne_zero _),
      mu_tbl_repr_nested_num_eq F num_cmp num_sub h0 (n + 1) hl (n + 1 + 1) (by omega)]
    rfl
  · intro buf; rfl
  · intro G hi hr ht ha h
    cases d with
    | zero => show G.fmt_addr tw = F.fmt_addr tw; rw [ha]
    | succ n => exact mu_tbl_repr_nested_level F G hi hr ht (n + 1) tw [] h

theorem mu_tbl_repr_depth_bounded_witness :
    mu_tbl_repr_num ex_repr_cyclic ex_num_cmp ex_num_sub (2 + 1) 16 (mu_num_fromuint 2)
      = some (mu_tbl_repr ex_repr_cyclic 16 (some 2)) :=
  (mu_tbl_repr_depth_bounded ex_repr_cyclic ex_num_cmp ex_num_sub 2 16 (by decide!)
    (by decide!)).2.1 (by decide)

/-! ## `mu_tbl_parsen` on a literal -/

theorem getD_append_cons (pre suf : List Nat) (c : Nat) :
    (pre ++ c :: suf).getD pre.length 0 = c := by
  rw [List.getD_append_right _ _ _ _ (le_refl _)]
  simp

theorem lit_body_cons (x : lit_item) (r : List lit_item) (hr : r ≠ []) :
    lit_body (x :: r) = x.text ++ [44] ++ lit_body r := by
  cases r with
  | nil => exact absurd rfl hr
  | cons y r => rfl

/-- One iteration of the loop on an item that `mu_parsen` reads. -/
theorem mu_tbl_parsen_loop_item (P : ParseEnv) (ifuel : Nat) (x : lit_item) (hx : x.parses P)
    (pre suf : List Nat) (hsuf : suf = [] ∨ ∃ c r, suf = c :: r ∧ (c = 44 ∨ c = 93))
    (fuel : Nat) (t : mtbl) (i : Nat) :
    mu_tbl_parsen_loop P ifuel (pre ++ x.text ++ suf) (fuel + 1) t i pre.length =
      match x.key with
      | none =>
        match mu_tbl_insert ifuel false t i x.val with
        | .ok t1 => parsen_cont P ifuel (pre ++ x.text ++ suf) fuel t1
            (P.num_add i (mu_num_fromuint 1)) (pre ++ x.text).length
        | .error e t1 => .error e (some (t1, (pre ++ x.text).length))
        | .hang => .hang
        | .nofuel => .nofuel
      | some kt =>
        match mu_tbl_insert ifuel false t kt.2 x.val with
        | .ok t1 => parsen_cont P ifuel (pre ++ x.text ++ suf) fuel t1 i (pre ++ x.text).length
        | .error e t1 => .error e (some (t1, (pre ++ x.text).length))
        | .hang => .hang
        | .nofuel => .nofuel := by
  obtain ⟨⟨hv0, ⟨c, r, hc, hc93⟩, hv⟩, hk⟩ := hx
  have hsuf58 : suf = [] ∨ ∃ c r, suf = c :: r ∧ (c = 58 ∨ c = 44 ∨ c = 93) := by
    rcases hsuf with h | ⟨c, r, h, h2⟩
    · exact Or.inl h
    · exact Or.inr ⟨c, r, h, Or.inr h2⟩
  have hsufne : ∀ q, q = (pre ++ x.text).length →
      ¬ (q < (pre ++ x.text ++ suf).length ∧ (pre ++ x.text ++ suf).getD q 0 = 58) := by
    intro q hq ⟨h1, h2⟩
    subst hq
    rcases hsuf with h | ⟨c, r, h, h3⟩
    · subst h; simp at h1
    · subst h
      rw [getD_append_cons] at h2
      omega
  cases hkey : x.key with
  | none =>
    have htext : x.text = x.txt := by unfold lit_item.text; rw [hkey]
    simp only [htext] at hsufne ⊢
    have hp := hv pre suf hsuf58
    have hlt : pre.length < (pre ++ x.txt ++ suf).length := by
      rw [hc]; simp
    have hg : (pre ++ x.txt ++ suf).getD pre.length 0 ≠ 93 := by
      rw [hc, List.append_assoc, List.cons_append, getD_append_cons]; exact hc93
    have hlen : (pre ++ x.txt).length = pre.length + x.txt.length := List.length_append _ _
    unfold mu_tbl_parsen_loop
    rw [if_pos ⟨hlt, hg⟩, hp]
    simp only []
    rw [if_neg hv0, if_neg (hsufne _ hlen.symm)]
    unfold parsen_cont
    rw [hlen]
  | some kt =>
    obtain ⟨hkv0, ⟨kc, kr, hkc, hkc93⟩, hkp⟩ := hk kt hkey
    have htext : x.text = kt.1 ++ [58] ++ x.txt := by unfold lit_item.text; rw [hkey]
    simp only [htext] at hsufne ⊢
    have hs1 : pre ++ (kt.1 ++ [58] ++ x.txt) ++ suf = pre ++ kt.1 ++ (58 :: (x.txt ++ suf)) := by
      simp
    have hs2 : pre ++ (kt.1 ++ [58] ++ x.txt) ++ suf = (pre ++ kt.1 ++ [58]) ++ x.txt ++ suf := by
      simp
    have hp1 : P.parsen (pre ++ (kt.1 ++ [58] ++ x.txt) ++ suf) pre.length
        = (kt.2, pre.length + kt.1.length) := by
      rw [hs1]
      exact hkp pre _ (Or.inr ⟨58, _, rfl, Or.inl rfl⟩)
    have hp2 : P.parsen (pre ++ (kt.1 ++ [58] ++ x.txt) ++ suf) (pre.length + kt.1.length + 1)
        = (x.val, pre.length + kt.1.length + 1 + x.txt.length) := by
      have := hv (pre ++ kt.1 ++ [58]) suf hsuf58
      rw [hs2]
      simpa using this
    have hlt : pre.length < (pre ++ (kt.1 ++ [58] ++ x.txt) ++ suf).length := by
      rw [hkc]; simp
    have hg : (pre ++ (kt.1 ++ [58] ++ x.txt) ++ suf).getD pre.length 0 ≠ 93 := by
      rw [hkc]
      simp only [List.append_assoc, List.cons_append]
      rw [getD_append_cons]; exact hkc93
    have hcolon : pre.length + kt.1.length < (pre ++ (kt.1 ++ [58] ++ x.txt) ++ suf).length ∧
        (pre ++ (kt.1 ++ [58] ++ x.txt) ++ suf).getD (pre.length + kt.1.length) 0 = 58 := by
      constructor
      · simp
      · rw [hs1, ← List.length_append, getD_append_cons]
    have hlen : (pre ++ (kt.1 ++ [58] ++ x.txt)).length
        = pre.length + kt.1.length + 1 + x.txt.length := by
      simp; omega
    unfold mu_tbl_parsen_loop
    rw [if_pos ⟨hlt, hg⟩, hp1]
    simp only []
    rw [if_neg hkv0, if_pos hcolon, hp2]
    simp only []
    rw [if_neg hv0]
    unfold parsen_cont
    rw [hlen]

/-- The loop on the items of a literal: the insertions of the items, then
what the loop does after the last item, `K`. -/
theorem mu_tbl_parsen_loop_items (P : ParseEnv) (ifuel : Nat) (s tl : List Nat)
    (htl : tl = [] ∨ ∃ c r, tl = c :: r ∧ (c = 44 ∨ c = 93))
    (K : mtbl → Res (Option (mtbl × Nat))) :
    ∀ items : List lit_item, items ≠ [] → (∀ x ∈ items, x.parses P) →
      ∀ pre, s = pre ++ lit_body items ++ tl →
      (∀ f t1 i1, 1 ≤ f →
        parsen_cont P ifuel s f t1 i1 (pre ++ lit_body items).length = K t1) →
      ∀ fuel t i T j, items.length + 1 ≤ fuel →
        mu_tbl_insert_items P ifuel items t i = .ok (T, j) →
        mu_tbl_parsen_loop P ifuel s fuel t i pre.length = K T := by
  intro items
  induction items with
  | nil => intro h; exact absurd rfl h
  | cons x r ih =>
    intro _ hok pre hs hend fuel t i T j hfuel hfold
    obtain ⟨f, rfl⟩ : ∃ f, fuel = f + 1 := ⟨fuel - 1, by rw [List.length_cons] at hfuel; omega⟩
    rw [List.length_cons] at hfuel
    have hx := hok x (List.mem_cons_self _ _)
    by_cases hr : r = []
    · subst hr
      have hb : lit_body [x] = x.text := rfl
      rw [hb] at hs hend
      rw [hs, mu_tbl_parsen_loop_item P ifuel x hx pre tl htl f t i]
      rw [← hs]
      unfold mu_tbl_insert_items at hfold
      cases hkey : x.key with
      | none =>
        simp only [hkey] at hfold ⊢
        cases hins : mu_tbl_insert ifuel false t i x.val with
        | ok t1 =>
          simp only [hins, mu_tbl_insert_items] at hfold ⊢
          have hT : t1 = T := by
            have := Res.ok.inj hfold
            exact (Prod.mk.inj this).1
          rw [← hT]
          exact hend f t1 _ (by simpa using hfuel)
        | error e t1 => simp [hins] at hfold
        | hang => simp [hins] at hfold
        | nofuel => simp [hins] at hfold
      | some kt =>
        simp only [hkey] at hfold ⊢
        cases hins : mu_tbl_insert ifuel false t kt.2 x.val with
        | ok t1 =>
          simp only [hins, mu_tbl_insert_items] at hfold ⊢
          have hT : t1 = T := by
            have := Res.ok.inj hfold
            exact (Prod.mk.inj this).1
          rw [← hT]
          exact hend f t1 _ (by simpa using hfuel)
        | error e t1 => simp [hins] at hfold
        | hang => simp [hins] at hfold
        | nofuel => simp [hins] at hfold
    · have hb : lit_body (x :: r) = x.text ++ [44] ++ lit_body r := lit_body_cons x r hr
      rw [hb] at hs hend
      have hs1 : s = pre ++ x.text ++ (44 :: (lit_body r ++ tl)) := by rw [hs]; simp
      have hs2 : s = (pre ++ x.text ++ [44]) ++ lit_body r ++ tl := by rw [hs]; simp
      have hcont : ∀ t1 i1, parsen_cont P ifuel s f t1 i1 (pre ++ x.text).length
          = mu_tbl_parsen_loop P ifuel s f t1 i1 (pre ++ x.text ++ [44]).length := by
        intro t1 i1
        unfold parsen_cont
        have h1 : (pre ++ x.text).length ≠ s.length := by
          rw [hs1]; simp
        have h2 : s.getD (pre ++ x.text).length 0 = 44 := by
          rw [hs1, getD_append_cons]
        rw [if_neg (by rw [h2]; exact fun h => h.elim h1 (fun h' => h' rfl))]
        have h3 : (pre ++ x.text ++ [44]).length = (pre ++ x.text).length + 1 := by
          rw [List.length_append (pre ++ x.text)]; rfl
        rw [h3]
      have hih := fun t1 i1 => ih hr (fun y hy => hok y (List.mem_cons_of_mem _ hy))
        (pre ++ x.text ++ [44]) hs2
        (by
          intro f1 t2 i2 hf1
          have := hend f1 t2 i2 hf1
          have hl : (pre ++ x.text ++ [44] ++ lit_body r).length
              = (pre ++ (x.text ++ [44] ++ lit_body r)).length := by simp
          rw [hl]; exact this)
        f t1 i1 T j (by omega)
      rw [hs1, mu_tbl_parsen_loop_item P ifuel x hx pre _ (Or.inr ⟨44, _, rfl, Or.inl rfl⟩) f t i]
      rw [← hs1]
      unfold mu_tbl_insert_items at hfold
      cases hkey : x.key with
      | none =>
        simp only [hkey] at hfold ⊢
        cases hins : mu_tbl_insert ifuel false t i x.val with
        | ok t1 =>
          simp only [hins] at hfold ⊢
          rw [hcont]
          exact hih t1 _ hfold
        | error e t1 => simp [hins] at hfold
        | hang => simp [hins] at hfold
        | nofuel => simp [hins] at hfold
      | some kt =>
        simp only [hkey] at hfold ⊢
        cases hins : mu_tbl_insert ifuel false t kt.2 x.val with
        | ok t1 =>
          simp only [hins] at hfold ⊢
          rw [hcont]
          exact hih t1 _ hfold
        | error e t1 => simp [hins] at hfold
        | hang => simp [hins] at hfold
        | nofuel => simp [hins] at hfold

theorem lit_text_eq (items : List lit_item) (b : Bool) (extra : List Nat) :
    lit_text items b ++ extra
      = [91] ++ lit_body items ++ ((if b then [44, 93] else [93]) ++ extra) := by
  unfold lit_text
  cases b <;> simp

theorem lit_text_length (items : List lit_item) (b : Bool) :
    (lit_text items b).length = (lit_body items).length + (if b then 3 else 2) := by
  unfold lit_text
  cases b <;> simp

/-- `mu_tbl_parsen` on a literal with at least one item, followed by any
bytes: it returns the table of the insertions and leaves the cursor after the
closing bracket, whether or not a comma precedes the bracket. -/
theorem mu_tbl_parsen_literal (P : ParseEnv) (ifuel : Nat) (items : List lit_item)
    (hne : items ≠ []) (hok : ∀ x ∈ items, x.parses P) (b : Bool) (extra : List Nat)
    (T : mtbl) (j fuel : Nat) (hfuel : items.length + 1 ≤ fuel)
    (hfold : mu_tbl_insert_items P ifuel items (mu_tbl_create 0) (mu_num_fromuint 0) = .ok (T, j)) :
    mu_tbl_parsen P ifuel fuel (lit_text items b ++ extra) 0
      = .ok (some T, (lit_text items b).length) := by
  have hs := lit_text_eq items b extra
  have hlen := lit_text_length items b
  have htl : ((if b then [44, 93] else [93]) ++ extra) = []
      ∨ ∃ c r, ((if b then [44, 93] else [93]) ++ extra) = c :: r ∧ (c = 44 ∨ c = 93) := by
    cases b
    · exact Or.inr ⟨93, extra, rfl, Or.inr rfl⟩
    · exact Or.inr ⟨44, 93 :: extra, rfl, Or.inl rfl⟩
  have hbr : (lit_text items b ++ extra).getD ((lit_text items b).length - 1) 0 = 93 ∧
      (lit_text items b).length - 1 ≠ (lit_text items b ++ extra).length := by
    have h1 : lit_text items b ++ extra
        = ([91] ++ lit_body items ++ (if b then [44] else [])) ++ 93 :: extra := by
      unfold lit_text; simp
    have h2 : ([91] ++ lit_body items ++ (if b then [44] else [])).length
        = (lit_text items b).length - 1 := by
      rw [hlen]; cases b <;> simp
    constructor
    · rw [h1, ← h2, getD_append_cons]
    · rw [List.length_append, hlen]; cases b <;> simp <;> omega
  have hloop := mu_tbl_parsen_loop_items P ifuel (lit_text items b ++ extra) _ htl
    (fun t1 => .ok (some (t1, (lit_text items b).length - 1))) items hne hok [91] hs
    (by
      intro f t1 i1 hf
      unfold parsen_cont
      cases b
      · have h1 : (lit_text items false ++ extra).getD ([91] ++ lit_body items).length 0 = 93 := by
          rw [hs]; exact getD_append_cons _ _ _
        rw [if_pos (Or.inr (by rw [h1]; decide))]
        rw [hlen]; simp
      · have h1 : (lit_text items true ++ extra).getD ([91] ++ lit_body items).length 0 = 44 := by
          rw [hs]; exact getD_append_cons _ _ _
        have h2 : ([91] ++ lit_body items).length ≠ (lit_text items true ++ extra).length := by
          rw [hs]; simp
        rw [if_neg (by rw [h1]; exact fun h => h.elim h2 (fun h' => h' rfl))]
        obtain ⟨f, rfl⟩ : ∃ g, f = g + 1 := ⟨f - 1, by omega⟩
        have h3 : (lit_text items true ++ extra).getD (([91] ++ lit_body items).length + 1) 0
            = 93 := by
          have : lit_text items true ++ extra
              = ([91] ++ lit_body items ++ [44]) ++ 93 :: extra := by
            unfold lit_text; simp
          have hl : ([91] ++ lit_body items ++ [44]).length
              = ([91] ++ lit_body items).length + 1 := by simp
          rw [this, ← hl, getD_append_cons]
        unfold mu_tbl_parsen_loop
        rw [if_neg (by rw [h3]; exact fun h => h.2 rfl)]
        rw [hlen]; simp)
    fuel (mu_tbl_create 0) (mu_num_fromuint 0) T j hfuel hfold
  have h0 : (lit_text items b ++ extra).getD 0 0 = 91 := by
    unfold lit_text; simp
  unfold mu_tbl_parsen
  rw [if_neg (by rw [h0]; simp)]
  have hloop' : mu_tbl_parsen_loop P ifuel (lit_text items b ++ extra) fuel (mu_tbl_create 0)
      (mu_num_fromuint 0) (0 + 1)
      = .ok (some (T, (lit_text items b).length - 1)) := hloop
  rw [hloop']
  simp only []
  rw [if_neg (by rw [hbr.1]; exact fun h => h.elim hbr.2 (fun h' => h' rfl))]
  have : (lit_text items b).length - 1 + 1 = (lit_text items b).length := by
    rw [hlen]; cases b <;> simp
  rw [this]

theorem ex_parse_env_letter (c : Nat) (h1 : 97 ≤ c) (h2 : c ≤ 122) :
    parses_as ex_parse_env [c] (8 * c + 3) := by
  refine ⟨by omega, ⟨c, [], rfl, by omega⟩, ?_⟩
  intro pre suf _
  show (if 48 ≤ (pre ++ [c] ++ suf).getD pre.length 0 ∧ (pre ++ [c] ++ suf).getD pre.length 0 ≤ 57
    then _ else _) = _
  have : (pre ++ [c] ++ suf).getD pre.length 0 = c := by
    rw [List.append_assoc]; exact getD_append_cons _ _ _
  rw [this, if_neg (by omega), if_pos ⟨h1, h2⟩]
  rfl

theorem ex_parse_env_digit (c : Nat) (h1 : 48 ≤ c) (h2 : c ≤ 57) :
    parses_as ex_parse_env [c] (mu_num_fromuint (c - 48)) := by
  refine ⟨mu_num_fromuint_ne_zero _, ⟨c, [], rfl, by omega⟩, ?_⟩
  intro pre suf _
  show (if 48 ≤ (pre ++ [c] ++ suf).getD pre.length 0 ∧ (pre ++ [c] ++ suf).getD pre.length 0 ≤ 57
    then _ else _) = _
  have : (pre ++ [c] ++ suf).getD pre.length 0 = c := by
    rw [List.append_assoc]; exact getD_append_cons _ _ _
  rw [this, if_pos ⟨h1, h2⟩]
  rfl

theorem ex_items240_parse : ∀ x ∈ ex_items240, x.parses ex_parse_env := by
  intro x hx
  unfold ex_items240 at hx
  rw [List.mem_append] at hx
  rcases hx with hx | hx
  · have := List.eq_of_mem_replicate hx
    subst this
    exact ⟨ex_parse_env_letter 97 (by decide) (by decide), fun kt h => by cases h⟩
  · rw [List.mem_singleton] at hx
    subst hx
    refine ⟨ex_parse_env_letter 121 (by decide) (by decide), ?_⟩
    intro kt h
    have : kt = ([120], 963) := (Option.some.inj h).symm
    subst this
    exact ex_parse_env_letter 120 (by decide) (by decide)

theorem ex_items2_parse : ∀ x ∈ ex_items2, x.parses ex_parse_env := by
  intro x hx
  unfold ex_items2 at hx
  simp only [List.mem_cons, List.mem_singleton, List.not_mem_nil, or_false] at hx
  rcases hx with rfl | rfl
  · exact ⟨ex_parse_env_digit 49 (by decide) (by decide), fun kt h => by cases h⟩
  · refine ⟨ex_parse_env_letter 98 (by decide) (by decide), ?_⟩
    intro kt h
    have : kt = ([97], 779) := (Option.some.inj h).symm
    subst this
    exact ex_parse_env_letter 97 (by decide) (by decide)

theorem ex_items2_ne : ex_items2 ≠ [] := List.cons_ne_nil _ _

theorem ex_items240_ne : ex_items240 ≠ [] :=
  List.append_ne_nil_of_right_ne_nil _ (List.cons_ne_nil _ _)

theorem ex_items240_length : ex_items240.length + 1 ≤ 241 ∧
    (lit_text ex_items240 false).length = 483 := by decide!

theorem ex_items240_inserted :
    (mu_tbl_insert_items ex_parse_env 3 ex_items240 (mu_tbl_create 0) (mu_num_fromuint 0)).map
      (fun r => (r.1.isize, r.1.len, mu_tbl_lookup (.ref false r.1 .null) 963,
        mu_tbl_lookup (.ref false r.1 .null) (mu_num_fromuint 224)))
      = .ok (1, 240, some 0, some 0) := by decide!

/-! ## Inputs that `mu_tbl_parse` rejects -/

/-- When `mu_tbl_parsen` returns no value it leaves the cursor where it
was. -/
theorem mu_tbl_parsen_none_cursor (P : ParseEnv) (ifuel fuel : Nat) (s : List Nat) (pos p : Nat)
    (h : mu_tbl_parsen P ifuel fuel s pos = .ok (none, p)) : p = pos := by
  unfold mu_tbl_parsen at h
  by_cases h0 : s.getD pos 0 ≠ 91
  · rw [if_pos h0] at h
    exact ((Prod.mk.inj (Res.ok.inj h)).2).symm
  · rw [if_neg h0] at h
    cases hl : mu_tbl_parsen_loop P ifuel s fuel (mu_tbl_create 0) (mu_num_fromuint 0) (pos + 1) with
    | ok r =>
      rw [hl] at h
      cases r with
      | none => exact ((Prod.mk.inj (Res.ok.inj h)).2).symm
      | some tp =>
        obtain ⟨t, q⟩ := tp
        simp only [] at h
        by_cases hq : q = s.length ∨ s.getD q 0 ≠ 93
        · rw [if_pos hq] at h
          exact ((Prod.mk.inj (Res.ok.inj h)).2).symm
        · rw [if_neg hq] at h
          have := (Prod.mk.inj (Res.ok.inj h)).1
          cases this
    | error e x => rw [hl] at h; cases h
    | hang => rw [hl] at h; cases h
    | nofuel => rw [hl] at h; cases h

/-- When `mu_tbl_parsen` returns a table, the byte at the cursor was `[`, the
loop ended on a `]`, and the cursor is left after that `]`. -/
theorem mu_tbl_parsen_some (P : ParseEnv) (ifuel fuel : Nat) (s : List Nat) (pos p : Nat)
    (t : mtbl) (h : mu_tbl_parsen P ifuel fuel s pos = .ok (some t, p)) :
    s.getD pos 0 = 91 ∧ 1 ≤ p ∧ p ≤ s.length ∧ s.getD (p - 1) 0 = 93 ∧ p - 1 ≠ pos := by
  unfold mu_tbl_parsen at h
  by_cases h0 : s.getD pos 0 ≠ 91
  · rw [if_pos h0] at h
    have := (Prod.mk.inj (Res.ok.inj h)).1
    cases this
  · rw [if_neg h0] at h
    have h91 : s.getD pos 0 = 91 := by
      by_contra hc; exact h0 hc
    cases hl : mu_tbl_parsen_loop P ifuel s fuel (mu_tbl_create 0) (mu_num_fromuint 0) (pos + 1) with
    | ok r =>
      rw [hl] at h
      cases r with
      | none =>
        have := (Prod.mk.inj (Res.ok.inj h)).1
        cases this
      | some tp =>
        obtain ⟨t1, q⟩ := tp
        simp only [] at h
        by_cases hq : q = s.length ∨ s.getD q 0 ≠ 93
        · rw [if_pos hq] at h
          have := (Prod.mk.inj (Res.ok.inj h)).1
          cases this
        · rw [if_neg hq] at h
          have hp : q + 1 = p := (Prod.mk.inj (Res.ok.inj h)).2
          have hq1 : q ≠ s.length := fun hc => hq (Or.inl hc)
          have hq2 : s.getD q 0 = 93 := by
            by_contra hc; exact hq (Or.inr hc)
          have hlt : q < s.length := by
            by_contra hc
            rw [List.getD_eq_default _ _ (by omega)] at hq2
            cases hq2
          subst hp
          refine ⟨h91, by omega, by omega, by simpa using hq2, ?_⟩
          intro hc
          have : q = pos := by omega
          rw [this, h91] at hq2
          cases hq2
    | error e x => rw [hl] at h; cases h
    | hang => rw [hl] at h; cases h
    | nofuel => rw [hl] at h; cases h

/-- `mu_tbl_parse` returns a table only for a text that starts with `[`,
ends with `]` and is consumed to its end by `mu_tbl_parsen`. -/
theorem mu_tbl_parse_some (P : ParseEnv) (ifuel fuel : Nat) (s : List Nat) (t : mtbl)
    (h : mu_tbl_parse P ifuel fuel s = .ok (some t)) :
    s.getD 0 0 = 91 ∧ 2 ≤ s.length ∧ s.getD (s.length - 1) 0 = 93 ∧
      mu_tbl_parsen P ifuel fuel s 0 = .ok (some t, s.length) := by
  unfold mu_tbl_parse at h
  cases hp : mu_tbl_parsen P ifuel fuel s 0 with
  | ok r =>
    obtain ⟨t1, p⟩ := r
    rw [hp] at h
    simp only [] at h
    by_cases hpl : p ≠ s.length
    · rw [if_pos hpl] at h
      cases Res.ok.inj h
    · rw [if_neg hpl] at h
      have hp1 : p = s.length := by
        by_contra hc; exact hpl hc
      have ht : t1 = some t := Res.ok.inj h
      subst hp1 ht
      obtain ⟨h1, h2, h3, h4, h5⟩ := mu_tbl_parsen_some P ifuel fuel s 0 s.length t hp
      exact ⟨h1, by omega, h4, rfl⟩
  | error e x => obtain ⟨x1, x2⟩ := x; rw [hp] at h; cases h
  | hang => rw [hp] at h; cases h
  | nofuel => rw [hp] at h; cases h

/-- A text that does not start with `[` is rejected. -/
theorem mu_tbl_parse_no_bracket (P : ParseEnv) (ifuel fuel : Nat) (s : List Nat)
    (h : s.getD 0 0 ≠ 91) :
    mu_tbl_parsen P ifuel fuel s 0 = .ok (none, 0) ∧ mu_tbl_parse P ifuel fuel s = .ok none := by
  have hp : mu_tbl_parsen P ifuel fuel s 0 = .ok (none, 0) := by
    unfold mu_tbl_parsen; rw [if_pos h]
  refine ⟨hp, ?_⟩
  unfold mu_tbl_parse
  rw [hp]
  simp only []
  split <;> rfl

/-- An item that `mu_parsen` does not read ends the loop with no value: the
element or key fails, or the value after the colon fails. -/
theorem mu_tbl_parsen_loop_fails (P : ParseEnv) (ifuel : Nat) (s : List Nat) (fuel : Nat)
    (t : mtbl) (i pos : Nat) (h1 : pos < s.length) (h2 : s.getD pos 0 ≠ 93)
    (h3 : (P.parsen s pos).1 = 0 ∨
      ((P.parsen s pos).2 < s.length ∧ s.getD (P.parsen s pos).2 0 = 58 ∧
        (P.parsen s ((P.parsen s pos).2 + 1)).1 = 0)) :
    mu_tbl_parsen_loop P ifuel s (fuel + 1) t i pos = .ok none := by
  unfold mu_tbl_parsen_loop
  rw [if_pos ⟨h1, h2⟩]
  by_cases hk : (P.parsen s pos).1 = 0
  · rw [if_pos hk]
  · rw [if_neg hk]
    rcases h3 with h3 | ⟨h4, h5, h6⟩
    · exact absurd h3 hk
    · rw [if_pos ⟨h4, h5⟩, if_pos h6]

/-- After the items of a literal: the text ends (with or without a comma), or
an item follows that `mu_parsen` does not read.  `mu_tbl_parsen` returns no
value, and so does `mu_tbl_parse`. -/
theorem mu_tbl_parsen_rejects (P : ParseEnv) (ifuel : Nat) (items : List lit_item)
    (hne : items ≠ []) (hok : ∀ x ∈ items, x.parses P) (tl : List Nat)
    (T : mtbl) (j fuel : Nat) (hfuel : items.length + 1 ≤ fuel)
    (hfold : mu_tbl_insert_items P ifuel items (mu_tbl_create 0) (mu_num_fromuint 0) = .ok (T, j))
    (htl : tl = [] ∨ tl = [44] ∨ ∃ c r, tl = 44 :: c :: r ∧ c ≠ 93 ∧
      ((P.parsen ([91] ++ lit_body items ++ tl) (([91] ++ lit_body items).length + 1)).1 = 0 ∨
        ((P.parsen ([91] ++ lit_body items ++ tl) (([91] ++ lit_body items).length + 1)).2
            < ([91] ++ lit_body items ++ tl).length ∧
          ([91] ++ lit_body items ++ tl).getD
            (P.parsen ([91] ++ lit_body items ++ tl) (([91] ++ lit_body items).length + 1)).2 0
            = 58 ∧
          (P.parsen ([91] ++ lit_body items ++ tl)
            ((P.parsen ([91] ++ lit_body items ++ tl)
              (([91] ++ lit_body items).length + 1)).2 + 1)).1 = 0))) :
    mu_tbl_parsen P ifuel fuel ([91] ++ lit_body items ++ tl) 0 = .ok (none, 0) ∧
      mu_tbl_parse P ifuel fuel ([91] ++ lit_body items ++ tl) = .ok none := by
  have hdel : tl = [] ∨ ∃ c r, tl = c :: r ∧ (c = 44 ∨ c = 93) := by
    rcases htl with h | h | ⟨c, r, h, -⟩
    · exact Or.inl h
    · exact Or.inr ⟨44, [], h, Or.inl rfl⟩
    · exact Or.inr ⟨44, c :: r, h, Or.inl rfl⟩
  have h0 : ([91] ++ lit_body items ++ tl).getD 0 0 = 91 := by simp
  have hparsen : mu_tbl_parsen P ifuel fuel ([91] ++ lit_body items ++ tl) 0 = .ok (none, 0) := by
    rcases htl with h | h | ⟨c, r, h, hc, hf⟩
    · -- the text ends after the last item
      have hloop := mu_tbl_parsen_loop_items P ifuel ([91] ++ lit_body items ++ tl) tl hdel
        (fun t1 => .ok (some (t1, ([91] ++ lit_body items ++ tl).length))) items hne hok [91] rfl
        (by
          intro f t1 i1 _
          unfold parsen_cont
          subst h
          rw [if_pos (Or.inl (by simp))]
          simp)
        fuel (mu_tbl_create 0) (mu_num_fromuint 0) T j hfuel hfold
      have hloop' : mu_tbl_parsen_loop P ifuel ([91] ++ lit_body items ++ tl) fuel
          (mu_tbl_create 0) (mu_num_fromuint 0) (0 + 1)
          = .ok (some (T, ([91] ++ lit_body items ++ tl).length)) := hloop
      unfold mu_tbl_parsen
      rw [if_neg (by rw [h0]; simp), hloop']
      simp
    · -- the text ends after a comma
      subst h
      have hloop := mu_tbl_parsen_loop_items P ifuel ([91] ++ lit_body items ++ [44]) [44] hdel
        (fun t1 => .ok (some (t1, ([91] ++ lit_body items ++ [44]).length))) items hne hok [91] rfl
        (by
          intro f t1 i1 hf
          unfold parsen_cont
          have h1 : ([91] ++ lit_body items ++ [44]).getD ([91] ++ lit_body items).length 0
              = 44 := getD_append_cons _ _ _
          have h2 : ([91] ++ lit_body items).length ≠ ([91] ++ lit_body items ++ [44]).length := by
            simp
          rw [if_neg (by rw [h1]; exact fun h => h.elim h2 (fun h' => h' rfl))]
          obtain ⟨f, rfl⟩ : ∃ g, f = g + 1 := ⟨f - 1, by omega⟩
          unfold mu_tbl_parsen_loop
          rw [if_neg (by simp)]
          simp)
        fuel (mu_tbl_create 0) (mu_num_fromuint 0) T j hfuel hfold
      have hloop' : mu_tbl_parsen_loop P ifuel ([91] ++ lit_body items ++ [44]) fuel
          (mu_tbl_create 0) (mu_num_fromuint 0) (0 + 1)
          = .ok (some (T, ([91] ++ lit_body items ++ [44]).length)) := hloop
      unfold mu_tbl_parsen
      rw [if_neg (by rw [h0]; simp), hloop']
      simp
    · -- an item that is not read
      have hloop := mu_tbl_parsen_loop_items P ifuel ([91] ++ lit_body items ++ tl) tl hdel
        (fun _ => .ok none) items hne hok [91] rfl
        (by
          intro f t1 i1 hf1
          unfold parsen_cont
          have h1 : ([91] ++ lit_body items ++ tl).getD ([91] ++ lit_body items).length 0
              = 44 := by rw [h]; exact getD_append_cons _ _ _
          have h2 : ([91] ++ lit_body items).length ≠ ([91] ++ lit_body items ++ tl).length := by
            rw [h]; simp
          rw [if_neg (by rw [h1]; exact fun h => h.elim h2 (fun h' => h' rfl))]
          obtain ⟨f, rfl⟩ : ∃ g, f = g + 1 := ⟨f - 1, by omega⟩
          apply mu_tbl_parsen_loop_fails
          · rw [h]; simp
          · have : [91] ++ lit_body items ++ tl = ([91] ++ lit_body items ++ [44]) ++ c :: r := by
              rw [h]; simp
            have hl : ([91] ++ lit_body items ++ [44]).length
                = ([91] ++ lit_body items).length + 1 := by simp
            rw [this, ← hl, getD_append_cons]
            exact hc
          · exact hf)
        fuel (mu_tbl_create 0) (mu_num_fromuint 0) T j hfuel hfold
      have hloop' : mu_tbl_parsen_loop P ifuel ([91] ++ lit_body items ++ tl) fuel
          (mu_tbl_create 0) (mu_num_fromuint 0) (0 + 1) = .ok none := hloop
      unfold mu_tbl_parsen
      rw [if_neg (by rw [h0]; simp), hloop']
  refine ⟨hparsen, ?_⟩
  unfold mu_tbl_parse
  rw [hparsen]
  simp only []
  split <;> rfl

/-! ## The claims about `mu_tbl_parsen` and `mu_tbl_parse` -/

theorem lit_text_append_nil (items : List lit_item) (b : Bool) :
    lit_text items b ++ [] = lit_text items b := List.append_nil _

/-- `mu_tbl_parse` on a literal with at least one item: the table of the
insertions. -/
theorem mu_tbl_parse_literal (P : ParseEnv) (ifuel : Nat) (items : List lit_item)
    (hne : items ≠ []) (hok : ∀ x ∈ items, x.parses P) (b : Bool)
    (T : mtbl) (j fuel : Nat) (hfuel : items.length + 1 ≤ fuel)
    (hfold : mu_tbl_insert_items P ifuel items (mu_tbl_create 0) (mu_num_fromuint 0) = .ok (T, j)) :
    mu_tbl_parse P ifuel fuel (lit_text items b) = .ok (some T) := by
  have h := mu_tbl_parsen_literal P ifuel items hne hok b [] T j fuel hfuel hfold
  rw [lit_text_append_nil] at h
  unfold mu_tbl_parse
  rw [h]
  simp

/-- The literal `[]`: an empty table, the cursor after the bracket. -/
theorem mu_tbl_parsen_empty (P : ParseEnv) (ifuel fuel : Nat) :
    mu_tbl_parsen P ifuel (fuel + 1) [91, 93] 0 = .ok (some (mu_tbl_create 0), 2) := by
  unfold mu_tbl_parsen mu_tbl_parsen_loop
  simp

/-- The elements of a literal without explicit keys are appended one by one
to a dense list, when `mu_num_add` counts the index up. -/
theorem mu_tbl_insert_items_bare (P : ParseEnv) (fuel : Nat)
    (hadd : ∀ k < 2 ^ 30,
      P.num_add (mu_num_fromuint k) (mu_num_fromuint 1) = mu_num_fromuint (k + 1)) :
    ∀ (items : List lit_item), (∀ x ∈ items, x.key = none ∧ x.val ≠ 0) →
      ∀ (t : mtbl) (ws : List Nat), mu_tbl_dense t ws → ws.length + items.length ≤ 2 ^ 30 →
      ∃ s, mu_tbl_insert_items P (fuel + 2) items t (mu_num_fromuint ws.length)
          = .ok (s, mu_num_fromuint (ws.length + items.length)) ∧
        mu_tbl_dense s (ws ++ items.map (fun x => x.val)) := by
  intro items
  induction items with
  | nil =>
    intro _ t ws hd _
    exact ⟨t, rfl, by simpa using hd⟩
  | cons x r ih =>
    intro hx t ws hd hn
    rw [List.length_cons] at hn
    obtain ⟨hk, hv⟩ := hx x (List.mem_cons_self _ _)
    obtain ⟨s1, hs1, hd1⟩ := mu_tbl_insert_dense_append fuel t ws x.val hd hv (by omega)
    obtain ⟨s, hs, hds⟩ := ih (fun y hy => hx y (List.mem_cons_of_mem _ hy)) s1 (ws ++ [x.val]) hd1
      (by simp; omega)
    refine ⟨s, ?_, by simpa using hds⟩
    unfold mu_tbl_insert_items
    simp only [hk, hs1]
    rw [hadd ws.length (by omega)]
    have hl : (ws ++ [x.val]).length = ws.length + 1 := by simp
    rw [hl] at hs
    rw [hs]
    congr 3
    simp; omega

/-- C23 (code defect), in three parts.  `mu_tbl_parsen` on a literal
`[item,..,item]` whose items `mu_parsen` reads returns the table made by the
insertions of the items in order, an element under the running index and a
pair under its own key, and leaves the cursor after the closing bracket; `[]`
gives the empty table.  But the insertions do not always store what they are
given: for the literal `[a,a,..,a,x:y]` with 239 elements and one pair, the
table returned has `len = 240` and neither the key `x` nor the key 224 is
found in it, because `mu_tbl_insert` converts the list of 239 values to pairs
mode with one-byte indices in a table of 512 slots. -/
theorem mu_tbl_parsen_literal_loses_keys (P : ParseEnv) (ifuel : Nat) (items : List lit_item)
    (hne : items ≠ []) (hok : ∀ x ∈ items, x.parses P)
    (T : mtbl) (j fuel : Nat) (hfuel : items.length + 1 ≤ fuel)
    (hfold : mu_tbl_insert_items P ifuel items (mu_tbl_create 0) (mu_num_fromuint 0) = .ok (T, j)) :
    mu_tbl_parsen P ifuel fuel (lit_text items false) 0
      = .ok (some T, (lit_text items false).length) ∧
    (mu_tbl_parsen P ifuel fuel [91, 93] 0 = .ok (some (mu_tbl_create 0), 2) ∧
      (mu_tbl_create 0).len = 0) ∧
    ∃ T2, mu_tbl_parsen ex_parse_env 3 241 (lit_text ex_items240 false) 0 = .ok (some T2, 483) ∧
      T2.len = 240 ∧ T2.isize = 1 ∧
      mu_tbl_lookup (.ref false T2 .null) 963 = some 0 ∧
      mu_tbl_lookup (.ref false T2 .null) (mu_num_fromuint 224) = some 0 := by
  refine ⟨?_, ⟨?_, rfl⟩, ?_⟩
  · have h := mu_tbl_parsen_literal P ifuel items hne hok false [] T j fuel hfuel hfold
    rwa [lit_text_append_nil] at h
  · obtain ⟨g, rfl⟩ : ∃ g, fuel = g + 1 := ⟨fuel - 1, by omega⟩
    exact mu_tbl_parsen_empty P ifuel g
  · have he := ex_items240_inserted
    cases hf : mu_tbl_insert_items ex_parse_env 3 ex_items240 (mu_tbl_create 0)
        (mu_num_fromuint 0) with
    | ok r =>
      obtain ⟨T2, j2⟩ := r
      rw [hf] at he
      have he' := Res.ok.inj he
      simp only [Prod.mk.injEq] at he'
      obtain ⟨h1, h2, h3, h4⟩ := he'
      have hp := mu_tbl_parsen_literal ex_parse_env 3 ex_items240 ex_items240_ne
        ex_items240_parse false [] T2 j2 241 ex_items240_length.1 hf
      rw [lit_text_append_nil, ex_items240_length.2] at hp
      exact ⟨T2, hp, h2, h1, h3, h4⟩
    | error e x => rw [hf] at he; cases he
    | hang => rw [hf] at he; cases he
    | nofuel => rw [hf] at he; cases he

theorem mu_tbl_parsen_literal_loses_keys_witness :
    mu_tbl_parsen ex_parse_env 3 3 (lit_text ex_items2 false) 0
      = .ok (some ⟨2, 1, 2, 0, [66048, 0, 1, 4607182418800017409, 779, 787, 0, 0]⟩,
          (lit_text ex_items2 false).length) :=
  (mu_tbl_parsen_literal_loses_keys ex_parse_env 3 ex_items2 ex_items2_ne ex_items2_parse
    ⟨2, 1, 2, 0, [66048, 0, 1, 4607182418800017409, 779, 787, 0, 0]⟩ 4607182418800017409 3
    (by decide) (by decide!)).1

/-- C24: `mu_tbl_parse` returns a table only when the text starts with `[`,
ends with `]` and `mu_tbl_parsen` consumes it to its end.  It returns no value
for a text that does not start with `[`, for a literal followed by more bytes,
for a text that ends after an item or after a comma, and when `mu_parsen`
does not read an item (the element or key, or the value after the colon); and
`mu_tbl_parsen` leaves the cursor unchanged whenever it returns no value. -/
theorem mu_tbl_parse_only_complete_literal (P : ParseEnv) (ifuel fuel : Nat) (s : List Nat) :
    (∀ t, mu_tbl_parse P ifuel fuel s = .ok (some t) →
      s.getD 0 0 = 91 ∧ 2 ≤ s.length ∧ s.getD (s.length - 1) 0 = 93 ∧
        mu_tbl_parsen P ifuel fuel s 0 = .ok (some t, s.length)) ∧
    (s.getD 0 0 ≠ 91 → mu_tbl_parse P ifuel fuel s = .ok none) ∧
    (∀ pos p, mu_tbl_parsen P ifuel fuel s pos = .ok (none, p) → p = pos) ∧
    (∀ (items : List lit_item) (b : Bool) (extra : List Nat) (T : mtbl) (j : Nat),
      items ≠ [] → (∀ x ∈ items, x.parses P) → items.length + 1 ≤ fuel →
      mu_tbl_insert_items P ifuel items (mu_tbl_create 0) (mu_num_fromuint 0) = .ok (T, j) →
      s = lit_text items b ++ extra → extra ≠ [] → mu_tbl_parse P ifuel fuel s = .ok none) ∧
    (∀ (items : List lit_item) (tl : List Nat) (T : mtbl) (j : Nat),
      items ≠ [] → (∀ x ∈ items, x.parses P) → items.length + 1 ≤ fuel →
      mu_tbl_insert_items P ifuel items (mu_tbl_create 0) (mu_num_fromuint 0) = .ok (T, j) →
      s = [91] ++ lit_body items ++ tl →
      (tl = [] ∨ tl = [44] ∨ ∃ c r, tl = 44 :: c :: r ∧ c ≠ 93 ∧
        ((P.parsen s (([91] ++ lit_body items).length + 1)).1 = 0 ∨
          ((P.parsen s (([91] ++ lit_body items).length + 1)).2 < s.length ∧
            s.getD (P.parsen s (([91] ++ lit_body items).length + 1)).2 0 = 58 ∧
            (P.parsen s ((P.parsen s (([91] ++ lit_body items).length + 1)).2 + 1)).1 = 0))) →
      mu_tbl_parsen P ifuel fuel s 0 = .ok (none, 0) ∧ mu_tbl_parse P ifuel fuel s = .ok none) ∧
    (1 ≤ fuel → s.getD 0 0 = 91 → 1 < s.length → s.getD 1 0 ≠ 93 →
      ((P.parsen s 1).1 = 0 ∨
        ((P.parsen s 1).2 < s.length ∧ s.getD (P.parsen s 1).2 0 = 58 ∧
          (P.parsen s ((P.parsen s 1).2 + 1)).1 = 0)) →
      mu_tbl_parsen P ifuel fuel s 0 = .ok (none, 0) ∧ mu_tbl_parse P ifuel fuel s = .ok none) := by
  refine ⟨fun t h => mu_tbl_parse_some P ifuel fuel s t h,
    fun h => (mu_tbl_parse_no_bracket P ifuel fuel s h).2,
    fun pos p h => mu_tbl_parsen_none_cursor P ifuel fuel s pos p h, ?_, ?_, ?_⟩
  · intro items b extra T j hne hok hfuel hfold hs hex
    subst hs
    unfold mu_tbl_parse
    rw [mu_tbl_parsen_literal P ifuel items hne hok b extra T j fuel hfuel hfold]
    simp only []
    rw [if_pos]
    rw [List.length_append]
    have : 0 < extra.length := List.length_pos.2 hex
    omega
  · intro items tl T j hne hok hfuel hfold hs htl
    subst hs
    exact mu_tbl_parsen_rejects P ifuel items hne hok tl T j fuel hfuel hfold htl
  · intro hf h0 h1 h2 h3
    obtain ⟨g, rfl⟩ : ∃ g, fuel = g + 1 := ⟨fuel - 1, by omega⟩
    have hp : mu_tbl_parsen P ifuel (g + 1) s 0 = .ok (none, 0) := by
      unfold mu_tbl_parsen
      rw [if_neg (by rw [h0]; simp),
        mu_tbl_parsen_loop_fails P ifuel s g _ _ (0 + 1) h1 h2 h3]
    refine ⟨hp, ?_⟩
    unfold mu_tbl_parse
    rw [hp]
    simp only []
    split <;> rfl

theorem mu_tbl_parse_only_complete_literal_witness :
    mu_tbl_parse ex_parse_env 3 3 [49, 93] = .ok none ∧
    mu_tbl_parse ex_parse_env 3 3 (lit_text ex_items2 false ++ [93]) = .ok none :=
  ⟨(mu_tbl_parse_only_complete_literal ex_parse_env 3 3 [49, 93]).2.1 (by decide),
   (mu_tbl_parse_only_complete_literal ex_parse_env 3 3 (lit_text ex_items2 false ++ [93])).2.2.2.1
      ex_items2 false [93] ⟨2, 1, 2, 0, [66048, 0, 1, 4607182418800017409, 779, 787, 0, 0]⟩
      4607182418800017409 ex_items2_ne ex_items2_parse (by decide) (by decide!) rfl (by decide)⟩

/-- C25, counterexample: the literal `[1,]` is accepted; `mu_tbl_parsen`
returns the list that holds the number 1 under the key 0 and leaves the
cursor after the bracket, and so `mu_tbl_parse` returns that table. -/
theorem mu_tbl_parsen_trailing_comma_example :
    mu_tbl_parsen ex_parse_env 3 3 [91, 49, 44, 93] 0
      = .ok (some ⟨2, 0, 1, 0, [mu_num_fromuint 1, 0, 0, 0]⟩, 4) ∧
    mu_tbl_parse ex_parse_env 3 3 [91, 49, 44, 93]
      = .ok (some ⟨2, 0, 1, 0, [mu_num_fromuint 1, 0, 0, 0]⟩) := by
  constructor <;> decide!

/-- C25 (amended): a comma before the closing bracket is accepted.  For every
literal with at least one item, `mu_tbl_parsen` on the literal with the comma
returns the same table as on the literal without it, the cursor after the
bracket: the `while` of the loop tests for the closing bracket after each
comma. -/
theorem mu_tbl_parsen_trailing_comma (P : ParseEnv) (ifuel : Nat) (items : List lit_item)
    (hne : items ≠ []) (hok : ∀ x ∈ items, x.parses P)
    (T : mtbl) (j fuel : Nat) (hfuel : items.length + 1 ≤ fuel)
    (hfold : mu_tbl_insert_items P ifuel items (mu_tbl_create 0) (mu_num_fromuint 0) = .ok (T, j)) :
    mu_tbl_parsen P ifuel fuel (lit_text items true) 0
      = .ok (some T, (lit_text items true).length) ∧
    mu_tbl_parsen P ifuel fuel (lit_text items false) 0
      = .ok (some T, (lit_text items false).length) ∧
    mu_tbl_parse P ifuel fuel (lit_text items true) = .ok (some T) := by
  have h1 := mu_tbl_parsen_literal P ifuel items hne hok true [] T j fuel hfuel hfold
  have h2 := mu_tbl_parsen_literal P ifuel items hne hok false [] T j fuel hfuel hfold
  rw [lit_text_append_nil] at h1 h2
  exact ⟨h1, h2, mu_tbl_parse_literal P ifuel items hne hok true T j fuel hfuel hfold⟩

theorem mu_tbl_parsen_trailing_comma_witness :
    mu_tbl_parse ex_parse_env 3 3 (lit_text ex_items2 true)
      = .ok (some ⟨2, 1, 2, 0, [66048, 0, 1, 4607182418800017409, 779, 787, 0, 0]⟩) :=
  (mu_tbl_parsen_trailing_comma ex_parse_env 3 ex_items2 ex_items2_ne ex_items2_parse
    ⟨2, 1, 2, 0, [66048, 0, 1, 4607182418800017409, 779, 787, 0, 0]⟩ 4607182418800017409 3
    (by decide) (by decide!)).2.2

/-! ## Numbers: the round trip in both builds -/

/-- The shape of the bit pattern of `(mfloat_t)n`: the exponent field holds
`log2 n + bias` and the significand `m` lies in `[2 ^ mant, 2 ^ (mant + 1)]`. -/
theorem float_of_uint_shape (B : Build) (n : Nat) (h0 : n ≠ 0) :
    ∃ m, 2 ^ B.mant ≤ m ∧ m ≤ 2 ^ (B.mant + 1) ∧
      B.float_of_uint n = (Nat.log2 n + B.bias) * 2 ^ B.mant + (m - 2 ^ B.mant) ∧
      (Nat.log2 n ≤ B.mant → m = n * 2 ^ (B.mant - Nat.log2 n) ∧ m < 2 ^ (B.mant + 1)) := by
  have hlo : 2 ^ Nat.log2 n ≤ n := Nat.log2_self_le h0
  have hhi : n < 2 ^ (Nat.log2 n + 1) := Nat.lt_log2_self
  by_cases he : Nat.log2 n ≤ B.mant
  · have h1 : 2 ^ B.mant ≤ n * 2 ^ (B.mant - Nat.log2 n) := by
      calc 2 ^ B.mant = 2 ^ Nat.log2 n * 2 ^ (B.mant - Nat.log2 n) := by
            rw [← Nat.pow_add]; congr 1; omega
        _ ≤ n * 2 ^ (B.mant - Nat.log2 n) := Nat.mul_le_mul_right _ hlo
    have h2 : n * 2 ^ (B.mant - Nat.log2 n) < 2 ^ (B.mant + 1) := by
      calc n * 2 ^ (B.mant - Nat.log2 n)
          < 2 ^ (Nat.log2 n + 1) * 2 ^ (B.mant - Nat.log2 n) :=
            Nat.mul_lt_mul_of_pos_right hhi (Nat.two_pow_pos _)
        _ = 2 ^ (B.mant + 1) := by rw [← Nat.pow_add]; congr 1; omega
    refine ⟨n * 2 ^ (B.mant - Nat.log2 n), h1, Nat.le_of_lt h2, ?_, fun _ => ⟨rfl, h2⟩⟩
    unfold Build.float_of_uint
    simp only [h0, if_false, nlog2_eq]
    rw [if_pos he]
  · have hs : 0 < 2 ^ (Nat.log2 n - B.mant) := Nat.two_pow_pos _
    have h1 : 2 ^ B.mant ≤ n / 2 ^ (Nat.log2 n - B.mant) := by
      rw [Nat.le_div_iff_mul_le hs, ← Nat.pow_add]
      calc 2 ^ (B.mant + (Nat.log2 n - B.mant)) = 2 ^ Nat.log2 n := by congr 1; omega
        _ ≤ n := hlo
    have h2 : n / 2 ^ (Nat.log2 n - B.mant) < 2 ^ (B.mant + 1) := by
      rw [Nat.div_lt_iff_lt_mul hs, ← Nat.pow_add]
      calc n < 2 ^ (Nat.log2 n + 1) := hhi
        _ = 2 ^ (B.mant + 1 + (Nat.log2 n - B.mant)) := by congr 1; omega
    refine ⟨if 2 ^ (Nat.log2 n - B.mant - 1) < n % 2 ^ (Nat.log2 n - B.mant) ∨
        (n % 2 ^ (Nat.log2 n - B.mant) = 2 ^ (Nat.log2 n - B.mant - 1) ∧
          n / 2 ^ (Nat.log2 n - B.mant) % 2 = 1)
        then n / 2 ^ (Nat.log2 n - B.mant) + 1 else n / 2 ^ (Nat.log2 n - B.mant),
      ?_, ?_, ?_, fun h => absurd h he⟩
    · split <;> omega
    · split <;> omega
    · unfold Build.float_of_uint
      simp only [h0, if_false, nlog2_eq]
      rw [if_neg he]

theorem log2_lt_bits (n w : Nat) (h0 : n ≠ 0) (h : n < 2 ^ w) : Nat.log2 n < w :=
  (Nat.log2_lt h0).2 h

/-- The bit pattern of `(mfloat_t)n` has the sign bit clear. -/
theorem float_of_uint_lt (B : Build) (hB : B = build32 ∨ B = build64) (n : Nat)
    (h : n < 2 ^ B.bits) : B.float_of_uint n < 2 ^ (B.bits - 1) := by
  by_cases h0 : n = 0
  · subst h0
    have : B.float_of_uint 0 = 0 := by simp [Build.float_of_uint]
    rw [this]; exact Nat.two_pow_pos _
  · obtain ⟨m, hm1, hm2, hf, -⟩ := float_of_uint_shape B n h0
    have he := log2_lt_bits n _ h0 h
    rw [hf]
    rcases hB with rfl | rfl
    · simp only [build32, Build.bits, Build.bias] at *
      omega
    · simp only [build64, Build.bits, Build.bias] at *
      omega

/-- What `mu_num_getfloat` reads from the word made by `mu_num_fromuint`. -/
theorem mu_num_getfloat_fromuint (B : Build) (hB : B = build32 ∨ B = build64) (n : Nat)
    (h : n < 2 ^ B.bits) :
    B.mu_num_fromuint n % 8 = MTNUM ∧
      B.mu_num_getfloat (B.mu_num_fromuint n) = B.float_of_uint n - B.float_of_uint n % 8 := by
  have hlt := float_of_uint_lt B hB n h
  unfold Build.mu_num_getfloat Build.mu_num_fromuint MTNUM
  rcases hB with rfl | rfl
  · simp only [build32, Build.bits] at *
    omega
  · simp only [build64, Build.bits] at *
    omega

/-- An unsigned integer with at most `mant - 2` bits is represented exactly,
and the three low bits of its pattern are zero. -/
theorem float_of_uint_small_exact (B : Build) (hB : B = build32 ∨ B = build64) (n : Nat)
    (h : n < 2 ^ (B.mant - 2)) :
    B.uint_of_float (B.float_of_uint n) = n ∧ B.float_of_uint n % 8 = 0 := by
  by_cases h0 : n = 0
  · subst h0
    have : B.float_of_uint 0 = 0 := by simp [Build.float_of_uint]
    rw [this]
    rcases hB with rfl | rfl <;> decide
  · obtain ⟨m, hm1, hm2, hf, hm⟩ := float_of_uint_shape B n h0
    have he : Nat.log2 n < B.mant - 2 := log2_lt_bits n _ h0 h
    obtain ⟨hmn, hm3⟩ := hm (by omega)
    have hpos : 0 < 2 ^ (B.mant - Nat.log2 n) := Nat.two_pow_pos _
    have h8 : m % 8 = 0 := by
      have : 2 ^ (B.mant - Nat.log2 n) = 2 ^ (B.mant - Nat.log2 n - 3) * 8 := by
        rw [show (8 : Nat) = 2 ^ 3 by norm_num, ← Nat.pow_add]; congr 1; omega
      rw [hmn, this, ← Nat.mul_assoc]; exact Nat.mul_mod_left _ _
    have hdiv : m / 2 ^ (B.mant - Nat.log2 n) = n := by
      rw [hmn]; exact Nat.mul_div_cancel n hpos
    rw [hf]
    unfold Build.uint_of_float
    rcases hB with rfl | rfl
    · simp only [build32, Build.bits, Build.bias] at *
      have hex : ((Nat.log2 n + (2 ^ (8 - 1) - 1)) * 2 ^ 23 + (m - 2 ^ 23)) / 2 ^ 23 % 2 ^ 8
          = Nat.log2 n + 127 := by omega
      have hfr : ((Nat.log2 n + (2 ^ (8 - 1) - 1)) * 2 ^ 23 + (m - 2 ^ 23)) % 2 ^ 23
          = m - 2 ^ 23 := by omega
      have hsg : ¬ ((Nat.log2 n + (2 ^ (8 - 1) - 1)) * 2 ^ 23 + (m - 2 ^ 23)) /
          2 ^ (1 + 8 + 23 - 1) % 2 = 1 := by omega
      simp only [hex, hfr, hsg, if_false]
      rw [if_neg (by omega), if_pos (by omega)]
      have h1 : 2 ^ 23 + (m - 2 ^ 23) = m := by omega
      have h2 : 2 ^ (8 - 1) - 1 + 23 - (Nat.log2 n + 127) = 23 - Nat.log2 n := by omega
      rw [h1, h2]
      exact ⟨hdiv, by omega⟩
    · simp only [build64, Build.bits, Build.bias] at *
      have hex : ((Nat.log2 n + (2 ^ (11 - 1) - 1)) * 2 ^ 52 + (m - 2 ^ 52)) / 2 ^ 52 % 2 ^ 11
          = Nat.log2 n + 1023 := by omega
      have hfr : ((Nat.log2 n + (2 ^ (11 - 1) - 1)) * 2 ^ 52 + (m - 2 ^ 52)) % 2 ^ 52
          = m - 2 ^ 52 := by omega
      have hsg : ¬ ((Nat.log2 n + (2 ^ (11 - 1) - 1)) * 2 ^ 52 + (m - 2 ^ 52)) /
          2 ^ (1 + 11 + 52 - 1) % 2 = 1 := by omega
      simp only [hex, hfr, hsg, if_false]
      rw [if_neg (by omega), if_pos (by omega)]
      have h1 : 2 ^ 52 + (m - 2 ^ 52) = m := by omega
      have h2 : 2 ^ (11 - 1) - 1 + 52 - (Nat.log2 n + 1023) = 52 - Nat.log2 n := by omega
      rw [h1, h2]
      exact ⟨hdiv, by omega⟩

/-- The bit pattern of `(mfloat_t)n` for a signed `n` fits the word. -/
theorem float_of_int_lt (B : Build) (hB : B = build32 ∨ B = build64) (n : Int)
    (h : n.natAbs ≤ 2 ^ (B.bits - 1)) : B.float_of_int n < 2 ^ B.bits := by
  have hlt : B.float_of_uint n.natAbs < 2 ^ (B.bits - 1) := by
    apply float_of_uint_lt B hB
    calc n.natAbs ≤ 2 ^ (B.bits - 1) := h
      _ < 2 ^ B.bits := Nat.pow_lt_pow_right (by decide) (by
          rcases hB with rfl | rfl <;> decide)
  unfold Build.float_of_int
  rcases hB with rfl | rfl
  · simp only [build32, Build.bits] at *
    split <;> omega
  · simp only [build64, Build.bits] at *
    split <;> omega

/-- What `mu_num_getfloat` reads from the word made by `mu_num_fromint`. -/
theorem mu_num_getfloat_fromint (B : Build) (hB : B = build32 ∨ B = build64) (n : Int)
    (h : n.natAbs ≤ 2 ^ (B.bits - 1)) :
    B.mu_num_fromint n % 8 = MTNUM ∧
      B.mu_num_getfloat (B.mu_num_fromint n) = B.float_of_int n - B.float_of_int n % 8 := by
  have hlt := float_of_int_lt B hB n h
  unfold Build.mu_num_getfloat Build.mu_num_fromint MTNUM
  rcases hB with rfl | rfl
  · simp only [build32, Build.bits] at *
    omega
  · simp only [build64, Build.bits] at *
    omega

/-- A signed integer whose magnitude has at most `mant - 2` bits is
represented exactly, and the three low bits of its pattern are zero. -/
theorem float_of_int_small_exact (B : Build) (hB : B = build32 ∨ B = build64) (n : Int)
    (h : n.natAbs < 2 ^ (B.mant - 2)) :
    B.int_of_float (B.float_of_int n) = n ∧ B.float_of_int n % 8 = 0 := by
  by_cases h0 : n.natAbs = 0
  · have hn : n = 0 := Int.natAbs_eq_zero.1 h0
    subst hn
    have : B.float_of_int 0 = 0 := by simp [Build.float_of_int, Build.float_of_uint]
    rw [this]
    rcases hB with rfl | rfl <;> decide
  · obtain ⟨m, hm1, hm2, hf, hm⟩ := float_of_uint_shape B n.natAbs h0
    have he : Nat.log2 n.natAbs < B.mant - 2 := log2_lt_bits _ _ h0 h
    obtain ⟨hmn, hm3⟩ := hm (by omega)
    have hpos : 0 < 2 ^ (B.mant - Nat.log2 n.natAbs) := Nat.two_pow_pos _
    have h8 : m % 8 = 0 := by
      have : 2 ^ (B.mant - Nat.log2 n.natAbs) = 2 ^ (B.mant - Nat.log2 n.natAbs - 3) * 8 := by
        rw [show (8 : Nat) = 2 ^ 3 by norm_num, ← Nat.pow_add]; congr 1; omega
      rw [hmn, this, ← Nat.mul_assoc]; exact Nat.mul_mod_left _ _
    have hdiv : m / 2 ^ (B.mant - Nat.log2 n.natAbs) = n.natAbs := by
      rw [hmn]; exact Nat.mul_div_cancel _ hpos
    unfold Build.float_of_int
    rw [hf]
    unfold Build.int_of_float
    rcases hB with rfl | rfl
    · simp only [build32, Build.bits, Build.bias] at *
      by_cases hs : n < 0
      · rw [if_pos hs]
        have hex : (2 ^ (1 + 8 + 23 - 1) + ((Nat.log2 n.natAbs + (2 ^ (8 - 1) - 1)) * 2 ^ 23
            + (m - 2 ^ 23))) / 2 ^ 23 % 2 ^ 8 = Nat.log2 n.natAbs + 127 := by omega
        have hfr : (2 ^ (1 + 8 + 23 - 1) + ((Nat.log2 n.natAbs + (2 ^ (8 - 1) - 1)) * 2 ^ 23
            + (m - 2 ^ 23))) % 2 ^ 23 = m - 2 ^ 23 := by omega
        have hsg : (2 ^ (1 + 8 + 23 - 1) + ((Nat.log2 n.natAbs + (2 ^ (8 - 1) - 1)) * 2 ^ 23
            + (m - 2 ^ 23))) / 2 ^ (1 + 8 + 23 - 1) % 2 = 1 := by omega
        simp only [hex, hfr, hsg, if_true]
        rw [if_neg (by omega), if_pos (by omega)]
        have h1 : 2 ^ 23 + (m - 2 ^ 23) = m := by omega
        have h2 : 2 ^ (8 - 1) - 1 + 23 - (Nat.log2 n.natAbs + 127) = 23 - Nat.log2 n.natAbs := by
          omega
        rw [h1, h2, hdiv]
        exact ⟨by omega, by omega⟩
      · rw [if_neg hs]
        have hex : (0 + ((Nat.log2 n.natAbs + (2 ^ (8 - 1) - 1)) * 2 ^ 23
            + (m - 2 ^ 23))) / 2 ^ 23 % 2 ^ 8 = Nat.log2 n.natAbs + 127 := by omega
        have hfr : (0 + ((Nat.log2 n.natAbs + (2 ^ (8 - 1) - 1)) * 2 ^ 23
            + (m - 2 ^ 23))) % 2 ^ 23 = m - 2 ^ 23 := by omega
        have hsg : ¬ (0 + ((Nat.log2 n.natAbs + (2 ^ (8 - 1) - 1)) * 2 ^ 23
            + (m - 2 ^ 23))) / 2 ^ (1 + 8 + 23 - 1) % 2 = 1 := by omega
        simp only [hex, hfr, hsg, if_false]
        rw [if_neg (by omega), if_pos (by omega)]
        have h1 : 2 ^ 23 + (m - 2 ^ 23) = m := by omega
        have h2 : 2 ^ (8 - 1) - 1 + 23 - (Nat.log2 n.natAbs + 127) = 23 - Nat.log2 n.natAbs := by
          omega
        rw [h1, h2, hdiv]
        exact ⟨by omega, by omega⟩
    · simp only [build64, Build.bits, Build.bias] at *
      by_cases hs : n < 0
      · rw [if_pos hs]
        have hex : (2 ^ (1 + 11 + 52 - 1) + ((Nat.log2 n.natAbs + (2 ^ (11 - 1) - 1)) * 2 ^ 52
            + (m - 2 ^ 52))) / 2 ^ 52 % 2 ^ 11 = Nat.log2 n.natAbs + 1023 := by omega
        have hfr : (2 ^ (1 + 11 + 52 - 1) + ((Nat.log2 n.natAbs + (2 ^ (11 - 1) - 1)) * 2 ^ 52
            + (m - 2 ^ 52))) % 2 ^ 52 = m - 2 ^ 52 := by omega
        have hsg : (2 ^ (1 + 11 + 52 - 1) + ((Nat.log2 n.natAbs + (2 ^ (11 - 1) - 1)) * 2 ^ 52
            + (m - 2 ^ 52))) / 2 ^ (1 + 11 + 52 - 1) % 2 = 1 := by omega
        simp only [hex, hfr, hsg, if_true]
        rw [if_neg (by omega), if_pos (by omega)]
        have h1 : 2 ^ 52 + (m - 2 ^ 52) = m := by omega
        have h2 : 2 ^ (11 - 1) - 1 + 52 - (Nat.log2 n.natAbs + 1023)
            = 52 - Nat.log2 n.natAbs := by omega
        rw [h1, h2, hdiv]
        exact ⟨by omega, by omega⟩
      · rw [if_neg hs]
        have hex : (0 + ((Nat.log2 n.natAbs + (2 ^ (11 - 1) - 1)) * 2 ^ 52
            + (m - 2 ^ 52))) / 2 ^ 52 % 2 ^ 11 = Nat.log2 n.natAbs + 1023 := by omega
        have hfr : (0 + ((Nat.log2 n.natAbs + (2 ^ (11 - 1) - 1)) * 2 ^ 52
            + (m - 2 ^ 52))) % 2 ^ 52 = m - 2 ^ 52 := by omega
        have hsg : ¬ (0 + ((Nat.log2 n.natAbs + (2 ^ (11 - 1) - 1)) * 2 ^ 52
            + (m - 2 ^ 52))) / 2 ^ (1 + 11 + 52 - 1) % 2 = 1 := by omega
        simp only [hex, hfr, hsg, if_false]
        rw [if_neg (by omega), if_pos (by omega)]
        have h1 : 2 ^ 52 + (m - 2 ^ 52) = m := by omega
        have h2 : 2 ^ (11 - 1) - 1 + 52 - (Nat.log2 n.natAbs + 1023)
            = 52 - Nat.log2 n.natAbs := by omega
        rw [h1, h2, hdiv]
        exact ⟨by omega, by omega⟩

/-- The functions of the 64-bit build are the ones used by the table model. -/
theorem mu_num_fromuint_build64 (n : Nat) (h : n < 2 ^ 64) :
    mu_num_fromuint n = build64.mu_num_fromuint n := by
  have : float_of_uint n = build64.float_of_uint n := by
    unfold float_of_uint Build.float_of_uint
    rw [ulog2_eq n h, nlog2_eq]
    rfl
  unfold mu_num_fromuint Build.mu_num_fromuint
  rw [this]

theorem mu_num_getuint_build64 (m : Nat) : mu_num_getuint m = build64.mu_num_getuint m := rfl

/-- C26, counterexample: an unsigned integer that the float type does not
hold: the pattern of `(mfloat_t)n` has its three low bits zero, yet the round
trip gives the neighbour `2 ^ 53` (64-bit build) or `2 ^ 24` (32-bit build). -/
theorem mu_num_roundtrip_inexact_example :
    (build64.float_of_uint (2 ^ 53 + 1) % 8 = 0 ∧
      build64.mu_num_getuint (build64.mu_num_fromuint (2 ^ 53 + 1)) = 2 ^ 53 ∧
      mu_num_getuint (mu_num_fromuint (2 ^ 53 + 1)) = 2 ^ 53) ∧
    (build32.float_of_uint (2 ^ 24 + 1) % 8 = 0 ∧
      build32.mu_num_getuint (build32.mu_num_fromuint (2 ^ 24 + 1)) = 2 ^ 24) := by
  decide!

/-- C26 (amended): in both builds, an unsigned integer that `mfloat_t`
represents exactly and whose pattern has the three low bits zero survives
`mu_num_getuint (mu_num_fromuint n)`, in particular every `n < 2 ^ (mant - 2)`
(`2 ^ 21` with 32-bit floats, `2 ^ 50` with 64-bit floats); likewise for signed
integers with `mu_num_getint (mu_num_fromint n)`; and for every `n` the word
made has the tag `MTNUM` in its three low bits and `mu_num_getfloat` reads from
it the pattern of `(mfloat_t)n` with the three low bits cleared. -/
theorem mu_num_roundtrip_exact (B : Build) (hB : B = build32 ∨ B = build64) :
    (∀ n, n < 2 ^ B.bits → B.uint_of_float (B.float_of_uint n) = n →
      B.float_of_uint n % 8 = 0 → B.mu_num_getuint (B.mu_num_fromuint n) = n) ∧
    (∀ n, n < 2 ^ (B.mant - 2) →
      B.uint_of_float (B.float_of_uint n) = n ∧ B.float_of_uint n % 8 = 0 ∧
        B.mu_num_getuint (B.mu_num_fromuint n) = n) ∧
    (∀ n : Int, n.natAbs ≤ 2 ^ (B.bits - 1) → B.int_of_float (B.float_of_int n) = n →
      B.float_of_int n % 8 = 0 → B.mu_num_getint (B.mu_num_fromint n) = n) ∧
    (∀ n : Int, n.natAbs < 2 ^ (B.mant - 2) →
      B.int_of_float (B.float_of_int n) = n ∧ B.float_of_int n % 8 = 0 ∧
        B.mu_num_getint (B.mu_num_fromint n) = n) ∧
    (∀ n, n < 2 ^ B.bits → B.mu_num_fromuint n % 8 = MTNUM ∧
      B.mu_num_getfloat (B.mu_num_fromuint n) = B.float_of_uint n - B.float_of_uint n % 8) ∧
    (∀ n : Int, n.natAbs ≤ 2 ^ (B.bits - 1) → B.mu_num_fromint n % 8 = MTNUM ∧
      B.mu_num_getfloat (B.mu_num_fromint n) = B.float_of_int n - B.float_of_int n % 8) := by
  have hu : ∀ n, n < 2 ^ B.bits → B.uint_of_float (B.float_of_uint n) = n →
      B.float_of_uint n % 8 = 0 → B.mu_num_getuint (B.mu_num_fromuint n) = n := by
    intro n hn hex h8
    unfold Build.mu_num_getuint
    rw [(mu_num_getfloat_fromuint B hB n hn).2, h8, Nat.sub_zero, hex]
  have hi : ∀ n : Int, n.natAbs ≤ 2 ^ (B.bits - 1) → B.int_of_float (B.float_of_int n) = n →
      B.float_of_int n % 8 = 0 → B.mu_num_getint (B.mu_num_fromint n) = n := by
    intro n hn hex h8
    unfold Build.mu_num_getint
    rw [(mu_num_getfloat_fromint B hB n hn).2, h8, Nat.sub_zero, hex]
  have hsm : 2 ^ (B.mant - 2) ≤ 2 ^ (B.bits - 1) :=
    Nat.pow_le_pow_right (by decide) (by rcases hB with rfl | rfl <;> decide)
  have hsb : 2 ^ (B.bits - 1) < 2 ^ B.bits :=
    Nat.pow_lt_pow_right (by decide) (by rcases hB with rfl | rfl <;> decide)
  refine ⟨hu, ?_, hi, ?_, mu_num_getfloat_fromuint B hB, mu_num_getfloat_fromint B hB⟩
  · intro n hn
    obtain ⟨h1, h2⟩ := float_of_uint_small_exact B hB n hn
    exact ⟨h1, h2, hu n (by omega) h1 h2⟩
  · intro n hn
    obtain ⟨h1, h2⟩ := float_of_int_small_exact B hB n hn
    exact ⟨h1, h2, hi n (by omega) h1 h2⟩

theorem mu_num_roundtrip_exact_witness :
    (build32 = build32 ∨ build32 = build64) ∧
      build32.mu_num_getuint (build32.mu_num_fromuint 2097151) = 2097151 ∧
      build32.mu_num_getint (build32.mu_num_fromint (-2097151)) = -2097151 :=
  ⟨Or.inl rfl,
    ((mu_num_roundtrip_exact build32 (Or.inl rfl)).2.1 2097151 (by decide)).2.2,
    ((mu_num_roundtrip_exact build32 (Or.inl rfl)).2.2.2.1 (-2097151) (by decide)).2.2⟩

/-! ## `tbl_assign` in the stride table -/

/-- On a writable head `tbl_assignval` never looks at the tail: the loop
`for (; t && tbl_isro(t); t = t->tail)` ends at once, and the value is
inserted into the head. -/
theorem tbl_assign_writable_head (E : VarEnv) (a : tbl_t) (tail : TblPtr) (k v : Nat)
    (hk : k ≠ 0) (hv : v ≠ 0) :
    tbl_assign E (.ref false a tail) k v =
      match tbl_assignval_head E a k v with
      | some s => .ok (.ref false s tail)
      | none => .hang := by
  unfold tbl_assign
  rw [if_neg hk, if_neg hv]
  unfold tbl_assignval tbl_assignval_walk
  simp

/-- C27 (code defect): the first loop of `tbl_assignval` runs
`for (; t && tbl_isro(t); t = t->tail)`, over the read-only tables, where
`tbl_assignnil` has `!tbl_isro(t)`.  On a writable head the loop ends at once:
for every non-nil key and value `tbl_assign` inserts into the head, whatever
the tail holds.  For the empty writable table `A = tbl_create(0)` with the
writable tail `B = ex_tail_b`, which holds `5` under the key `1` (the number
0), `tbl_assign(A, 1, 8)` leaves `B` as it was and stores the pair in `A`,
whose `len` becomes 1 and whose `stride` becomes 1.  And on the read-only
head `B` the call `tbl_assign(B, 1, 8)` overwrites the value of `B`. -/
theorem tbl_assign_ignores_writable_tail (E : VarEnv) (a : tbl_t) (tail : TblPtr) (k v : Nat)
    (hk : k ≠ 0) (hv : v ≠ 0) :
    (tbl_assign E (.ref false a tail) k v =
      match tbl_assignval_head E a k v with
      | some s => .ok (.ref false s tail)
      | none => .hang) ∧
    tbl_lookup ex_env (.ref false (tbl_create ex_env 0) .null) 1 = some 0 ∧
    tbl_lookup ex_env (.ref false ex_tail_b .null) 1 = some 5 ∧
    tbl_assign ex_env (.ref false (tbl_create ex_env 0) (.ref false ex_tail_b .null)) 1 8
      = .ok (.ref false ⟨2, 1, 0, 1, 0, [8, 0, 0, 0]⟩ (.ref false ex_tail_b .null)) ∧
    (tbl_create ex_env 0).len = 0 ∧ (tbl_create ex_env 0).stride = 0 ∧
    tbl_assign ex_env (.ref true ex_tail_b .null) 1 8
      = .ok (.ref true ⟨2, 1, 0, 1, 0, [8, 0, 0, 0]⟩ .null) := by
  refine ⟨tbl_assign_writable_head E a tail k v hk hv, by decide, by decide, by decide, rfl, rfl,
    by decide⟩

theorem tbl_assign_ignores_writable_tail_witness :
    (tbl_assign ex_env (.ref false (tbl_create ex_env 0) (.ref false ex_tail_b .null)) 1 8 =
      match tbl_assignval_head ex_env (tbl_create ex_env 0) 1 8 with
      | some s => .ok (.ref false s (.ref false ex_tail_b .null))
      | none => .hang) ∧
    tbl_assignval_head ex_env (tbl_create ex_env 0) 1 8 = some ⟨2, 1, 0, 1, 0, [8, 0, 0, 0]⟩ :=
  ⟨(tbl_assign_ignores_writable_tail ex_env (tbl_create ex_env 0) (.ref false ex_tail_b .null)
      1 8 (by decide) (by decide)).1, by decide⟩

/-! ## Index slots: `mu_tbl_setpair` and `mu_tbl_getpair` -/

theorem field_update8 (W j f g : Nat) (hj : j < 2 ^ 8) (hf : f < 8) (hg : g < 8) :
    ((W - (W / 2 ^ (8 * f) % 2 ^ 8) * 2 ^ (8 * f) + j * 2 ^ (8 * f)) / 2 ^ (8 * g)) % 2 ^ 8
      = if g = f then j else W / 2 ^ (8 * g) % 2 ^ 8 := by
  interval_cases f <;> interval_cases g <;> norm_num <;> omega

theorem field_update16 (W j f g : Nat) (hj : j < 2 ^ 16) (hf : f < 4) (hg : g < 4) :
    ((W - (W / 2 ^ (16 * f) % 2 ^ 16) * 2 ^ (16 * f) + j * 2 ^ (16 * f)) / 2 ^ (16 * g)) % 2 ^ 16
      = if g = f then j else W / 2 ^ (16 * g) % 2 ^ 16 := by
  interval_cases f <;> interval_cases g <;> norm_num <;> omega

theorem field_update32 (W j f g : Nat) (hj : j < 2 ^ 32) (hf : f < 2) (hg : g < 2) :
    ((W - (W / 2 ^ (32 * f) % 2 ^ 32) * 2 ^ (32 * f) + j * 2 ^ (32 * f)) / 2 ^ (32 * g)) % 2 ^ 32
      = if g = f then j else W / 2 ^ (32 * g) % 2 ^ 32 := by
  interval_cases f <;> interval_cases g <;> norm_num <;> omega

theorem field_update64 (W j : Nat) (hj : j < 2 ^ 64) :
    ((W - (W / 2 ^ (64 * 0) % 2 ^ 64) * 2 ^ (64 * 0) + j * 2 ^ (64 * 0)) / 2 ^ (64 * 0)) % 2 ^ 64
      = j := by
  norm_num; omega

/-- After `mu_tbl_setpair(t, i, p)` the slot `i` holds the index `j` of the
pair, when `j` fits the width of an index, and every other slot holds what it
held. -/
theorem mu_tbl_getpair_setpair (t : mtbl)
    (hi : t.isize = 1 ∨ t.isize = 2 ∨ t.isize = 4 ∨ t.isize = 8) (i j : Nat)
    (hj : j < 2 ^ (8 * t.isize)) (hl : i / (8 / t.isize) < t.array.length) (i2 : Nat) :
    mu_tbl_getpair (mu_tbl_setpair t i j) i2 = if i2 = i then j else mu_tbl_getpair t i2 := by
  obtain ⟨npw2, isize, len, nils, array⟩ := t
  simp only at hi hj hl
  unfold mu_tbl_getpair mu_tbl_setpair
  simp only [hi, if_true]
  rw [Nat.mod_eq_of_lt hj]
  by_cases hw : i2 / (8 / isize) = i / (8 / isize)
  · rw [hw, getD_set_eq _ _ _ hl]
    rcases hi with h | h | h | h <;> subst h
    · have hf : i % 8 < 8 := Nat.mod_lt _ (by norm_num)
      have hg : i2 % 8 < 8 := Nat.mod_lt _ (by norm_num)
      have := field_update8 (array.getD (i / (8 / 1)) 0) j (i % 8) (i2 % 8) hj hf hg
      norm_num at this hw ⊢
      rw [this]
      by_cases he : i2 = i
      · subst he; simp
      · rw [if_neg he, if_neg (by omega)]
    · have hf : i % 4 < 4 := Nat.mod_lt _ (by norm_num)
      have hg : i2 % 4 < 4 := Nat.mod_lt _ (by norm_num)
      have := field_update16 (array.getD (i / (8 / 2)) 0) j (i % 4) (i2 % 4) hj hf hg
      norm_num at this hw ⊢
      rw [this]
      by_cases he : i2 = i
      · subst he; simp
      · rw [if_neg he, if_neg (by omega)]
    · have hf : i % 2 < 2 := Nat.mod_lt _ (by norm_num)
      have hg : i2 % 2 < 2 := Nat.mod_lt _ (by norm_num)
      have := field_update32 (array.getD (i / (8 / 4)) 0) j (i % 2) (i2 % 2) hj hf hg
      norm_num at this hw ⊢
      rw [this]
      by_cases he : i2 = i
      · subst he; simp
      · rw [if_neg he, if_neg (by omega)]
    · have := field_update64 (array.getD (i / (8 / 8)) 0) j hj
      norm_num at this hw ⊢
      subst hw
      simp only [Nat.mod_one, Nat.mul_zero, Nat.pow_zero, Nat.div_one, Nat.mul_one, if_true]
      omega
  · rw [getD_set_ne _ _ _ _ (Ne.symm hw)]
    rw [if_neg (by intro h; exact hw (by rw [h]))]

/-- `mu_tbl_setpair` writes one word of the index area and nothing else. -/
theorem mu_tbl_setpair_fields (t : mtbl)
    (hi : t.isize = 1 ∨ t.isize = 2 ∨ t.isize = 4 ∨ t.isize = 8) (i j : Nat)
    (hs : i < mu_tbl_size t) :
    (mu_tbl_setpair t i j).npw2 = t.npw2 ∧ (mu_tbl_setpair t i j).isize = t.isize ∧
    (mu_tbl_setpair t i j).len = t.len ∧ (mu_tbl_setpair t i j).nils = t.nils ∧
    (mu_tbl_setpair t i j).array.length = t.array.length ∧
    ∀ q, 2 * mu_tbl_off t ≤ q → (mu_tbl_setpair t i j).array.getD q 0 = t.array.getD q 0 := by
  have hw := mu_tbl_getpair_word_lt t hi i hs
  unfold mu_tbl_setpair
  simp only [hi, if_true]
  refine ⟨trivial, trivial, trivial, trivial, List.length_set _ _ _, ?_⟩
  intro q hq
  exact getD_set_ne _ _ _ _ (by omega)

/-- A miss of the probe loop is an empty slot. -/
theorem mu_tbl_probe_miss_inv (t : mtbl) (k slot : Nat) :
    ∀ fuel i, mu_tbl_probe t k fuel i = .miss slot →
      slot < mu_tbl_size t ∧ mu_tbl_getpair t slot = 0 := by
  intro fuel
  induction fuel with
  | zero => intro i h; simp [mu_tbl_probe] at h
  | succ f ih =>
    intro i h
    simp only [mu_tbl_probe, mask_eq_mod] at h
    split at h
    · cases h
    · split at h
      · next hz =>
        have : i % mu_tbl_size t = slot := by simpa using h
        rw [← this]
        exact ⟨Nat.mod_lt _ (mu_tbl_size_pos t), hz⟩
      · exact ih _ h

/-- The index slots depend only on the index width and the words of the
index area. -/
theorem mu_tbl_getpair_congr (t s : mtbl) (hi : s.isize = t.isize)
    (hw : ∀ q < 2 * mu_tbl_off t, s.array.getD q 0 = t.array.getD q 0) (i : Nat)
    (h : i < mu_tbl_size t) : mu_tbl_getpair s i = mu_tbl_getpair t i := by
  unfold mu_tbl_getpair
  rw [hi]
  by_cases hok : t.isize = 1 ∨ t.isize = 2 ∨ t.isize = 4 ∨ t.isize = 8
  · have := mu_tbl_getpair_word_lt t hok i h
    simp only [hok, if_true]
    rw [hw _ this]
  · simp only [hok, if_false]

theorem mu_tbl_shape_congr (a b : mtbl) (hi : a.isize = b.isize) (hn : a.npw2 = b.npw2) :
    mu_tbl_size a = mu_tbl_size b ∧ mu_tbl_off a = mu_tbl_off b := by
  have h : mu_tbl_size a = mu_tbl_size b := by unfold mu_tbl_size; rw [hn]
  exact ⟨h, by unfold mu_tbl_off; rw [h, hi]⟩

/-- The new table of `mu_tbl_pairsexpand(t, len)` has room for `len` pairs
after its index area. -/
theorem mu_tbl_pairsnpw2_room (L : Nat) (hL : L < 2 ^ 32) :
    ((mu_tbl_pairsnpw2 L).2 = 1 ∨ (mu_tbl_pairsnpw2 L).2 = 2 ∨ (mu_tbl_pairsnpw2 L).2 = 4 ∨
      (mu_tbl_pairsnpw2 L).2 = 8) ∧ 1 ≤ (mu_tbl_pairsnpw2 L).1 ∧
    ((mu_tbl_pairsnpw2 L).2 * 2 ^ (mu_tbl_pairsnpw2 L).1 + 15) / 16 + L
      ≤ 2 ^ (mu_tbl_pairsnpw2 L).1 := by
  have hnp : ∀ i, 2 ≤ i → 1 ≤ mu_npw2 i := by
    intro i hi; unfold mu_npw2; rw [if_neg (by omega)]; omega
  have key : ∀ c, (c = 1 ∨ c = 2 ∨ c = 4 ∨ c = 8) →
      1 ≤ mu_npw2 (if (16 * L + 15) / (16 - c) < 2 then 2 else (16 * L + 15) / (16 - c)) ∧
      (c * 2 ^ mu_npw2 (if (16 * L + 15) / (16 - c) < 2 then 2 else (16 * L + 15) / (16 - c))
        + 15) / 16 + L
        ≤ 2 ^ mu_npw2 (if (16 * L + 15) / (16 - c) < 2 then 2 else (16 * L + 15) / (16 - c)) := by
    intro c hc
    generalize hm : (if (16 * L + 15) / (16 - c) < 2 then 2 else (16 * L + 15) / (16 - c)) = m
    have h2 : 2 ≤ m ∧ (16 * L + 15) / (16 - c) ≤ m ∧ m ≤ 2 ^ 64 := by
      rw [← hm]
      rcases hc with rfl | rfl | rfl | rfl <;> split <;> omega
    have := mu_npw2_le m h2.2.2
    refine ⟨hnp m h2.1, ?_⟩
    generalize 2 ^ mu_npw2 m = S at this ⊢
    rcases hc with rfl | rfl | rfl | rfl <;> omega
  unfold mu_tbl_pairsnpw2 MU_MINPAIRS
  simp only []
  have hc : mu_tbl_isize L = 1 ∨ mu_tbl_isize L = 2 ∨ mu_tbl_isize L = 4 ∨
      mu_tbl_isize L = 8 := by
    unfold mu_tbl_isize
    split
    · simp
    · split
      · simp
      · split <;> simp
  exact ⟨hc, key _ hc⟩

theorem five_pow_mod_four (e : Nat) : 5 ^ e % 4 = 1 := by
  induction e with
  | zero => rfl
  | succ n ih => rw [pow_succ, Nat.mul_mod, ih]

theorem five_pow_odd_mod_eight (e : Nat) : 5 ^ (2 * e + 1) % 8 = 5 := by
  induction e with
  | zero => rfl
  | succ n ih =>
    have : 5 ^ (2 * (n + 1) + 1) = 5 ^ (2 * n + 1) * 25 := by ring
    rw [this, Nat.mul_mod, ih]

/-- The order of 5 modulo `2 ^ (k + 2)` is `2 ^ k`. -/
theorem five_pow_order (k : Nat) : ∀ d, 2 ^ (k + 2) ∣ 5 ^ d - 1 → 2 ^ k ∣ d := by
  induction k with
  | zero => intro d _; simp
  | succ k ih =>
    intro d h
    rcases Nat.even_or_odd' d with ⟨e, rfl | rfl⟩
    · have h5 := five_pow_mod_four e
      have hpos : 1 ≤ 5 ^ e := Nat.one_le_pow _ _ (by norm_num)
      obtain ⟨w, hw⟩ : ∃ w, 5 ^ e + 1 = 2 * (2 * w + 1) := ⟨(5 ^ e + 1) / 4, by omega⟩
      have hf : 5 ^ (2 * e) - 1 = (5 ^ e + 1) * (5 ^ e - 1) := by
        have : 5 ^ (2 * e) = (5 ^ e) ^ 2 := by rw [← pow_mul, Nat.mul_comm]
        rw [this]
        have := Nat.sq_sub_sq (5 ^ e) 1
        simpa using this
      rw [hf, hw] at h
      have h2 : 2 ^ (k + 1 + 2) = 2 * 2 ^ (k + 2) := by ring
      rw [h2, Nat.mul_assoc] at h
      have h3 := Nat.dvd_of_mul_dvd_mul_left (by norm_num : 0 < 2) h
      have hco : Nat.Coprime (2 ^ (k + 2)) (2 * w + 1) := by
        apply Nat.Coprime.pow_left
        rw [Nat.Prime.coprime_iff_not_dvd Nat.prime_two]
        omega
      have h4 := hco.dvd_of_dvd_mul_left h3
      have := ih e h4
      rw [pow_succ, Nat.mul_comm]
      exact Nat.mul_dvd_mul_left 2 this
    · exfalso
      have h8 : 8 ∣ 5 ^ (2 * e + 1) - 1 :=
        Nat.dvd_trans (by
          have : 2 ^ (k + 1 + 2) = 8 * 2 ^ k := by ring
          rw [this]; exact Nat.dvd_mul_right _ _) h
      have := five_pow_odd_mod_eight e
      have hpos : 1 ≤ 5 ^ (2 * e + 1) := Nat.one_le_pow _ _ (by norm_num)
      generalize 5 ^ (2 * e + 1) = X at *
      omega

/-- The probe sequence `i, tbl_next(i), ..` in closed form: `4 i + 1` is
multiplied by 5 at every step. -/
theorem tbl_next_iterate (p : Nat) (hp : p ≤ 32) (n : Nat) : ∀ i,
    (4 * Nat.iterate tbl_next n i + 1) % 2 ^ (p + 2) = (5 ^ n * (4 * i + 1)) % 2 ^ (p + 2) := by
  have hdvd : 2 ^ (p + 2) ∣ 4 * 2 ^ 32 := by
    have : 4 * 2 ^ 32 = 2 ^ (p + 2) * 2 ^ (32 - p) := by
      rw [← pow_add]
      have : p + 2 + (32 - p) = 34 := by omega
      rw [this]; norm_num
    rw [this]; exact Nat.dvd_mul_right _ _
  induction n with
  | zero => intro i; simp
  | succ n ih =>
    intro i
    rw [Function.iterate_succ_apply, ih (tbl_next i)]
    have h1 : (4 * tbl_next i + 1) % 2 ^ (p + 2) = (5 * (4 * i + 1)) % 2 ^ (p + 2) := by
      unfold tbl_next hash_t
      have h2 : 4 * ((i * 4 + i + 1) % 2 ^ 32) + 1
          = 5 * (4 * i + 1) - 4 * 2 ^ 32 * ((i * 4 + i + 1) / 2 ^ 32) := by
        have := Nat.div_add_mod (i * 4 + i + 1) (2 ^ 32)
        omega
      have h3 : 4 * 2 ^ 32 * ((i * 4 + i + 1) / 2 ^ 32) ≤ 5 * (4 * i + 1) := by
        have := Nat.div_add_mod (i * 4 + i + 1) (2 ^ 32)
        omega
      obtain ⟨c, hc⟩ := hdvd
      rw [h2, hc, Nat.mul_assoc]
      rw [hc, Nat.mul_assoc] at h3
      exact Nat.sub_mul_mod h3
    rw [Nat.mul_mod, h1, ← Nat.mul_mod]
    congr 1
    ring

/-- The probe sequence does not come back to its first slot in fewer than
`1 << p` steps. -/
theorem tbl_next_no_return (p : Nat) (hp : p ≤ 32) (d j : Nat) (hd : 0 < d) (hd2 : d < 2 ^ p) :
    Nat.iterate tbl_next d j % 2 ^ p ≠ j % 2 ^ p := by
  intro h
  have h4 : (4 * Nat.iterate tbl_next d j + 1) % 2 ^ (p + 2) = (4 * j + 1) % 2 ^ (p + 2) := by
    have hM : 2 ^ (p + 2) = 4 * 2 ^ p := by ring
    rw [hM]
    have hpos : 0 < 2 ^ p := Nat.two_pow_pos p
    generalize Nat.iterate tbl_next d j = x at h
    have e1 : (4 * x + 1) % (4 * 2 ^ p) = 4 * (x % 2 ^ p) + 1 := by
      have := Nat.mul_mod_mul_left 4 x (2 ^ p)
      have hlt := Nat.mod_lt x hpos
      rw [Nat.add_mod, this, Nat.mod_eq_of_lt (a := 1) (by omega), Nat.mod_eq_of_lt (by omega)]
    have e2 : (4 * j + 1) % (4 * 2 ^ p) = 4 * (j % 2 ^ p) + 1 := by
      have := Nat.mul_mod_mul_left 4 j (2 ^ p)
      have hlt := Nat.mod_lt j hpos
      rw [Nat.add_mod, this, Nat.mod_eq_of_lt (a := 1) (by omega), Nat.mod_eq_of_lt (by omega)]
    rw [e1, e2, h]
  rw [tbl_next_iterate p hp d j] at h4
  have hpos : 1 ≤ 5 ^ d := Nat.one_le_pow _ _ (by norm_num)
  have hmod : Nat.ModEq (2 ^ (p + 2)) (1 * (4 * j + 1)) (5 ^ d * (4 * j + 1)) := by
    rw [Nat.one_mul]; exact h4.symm
  have hdiv := (Nat.modEq_iff_dvd' (Nat.mul_le_mul_right _ hpos)).1 hmod
  rw [← Nat.sub_mul] at hdiv
  have hco : Nat.Coprime (2 ^ (p + 2)) (4 * j + 1) := by
    apply Nat.Coprime.pow_left
    rw [Nat.Prime.coprime_iff_not_dvd Nat.prime_two]
    omega
  have h5 := five_pow_order p d (hco.dvd_of_dvd_mul_right hdiv)
  have := Nat.le_of_dvd hd h5
  omega

/-- The probe sequence visits every slot of a table of `1 << p` slots within
its first `1 << p` steps. -/
theorem tbl_next_cover (p : Nat) (hp : p ≤ 32) (i m : Nat) (hm : m < 2 ^ p) :
    ∃ n < 2 ^ p, Nat.iterate tbl_next n i % 2 ^ p = m := by
  have hpos : 0 < 2 ^ p := Nat.two_pow_pos p
  let f : Fin (2 ^ p) → Fin (2 ^ p) :=
    fun n => ⟨Nat.iterate tbl_next n.1 i % 2 ^ p, Nat.mod_lt _ hpos⟩
  have hinj : Function.Injective f := by
    intro a b hab
    have hab2 : Nat.iterate tbl_next a.1 i % 2 ^ p = Nat.iterate tbl_next b.1 i % 2 ^ p :=
      congrArg Fin.val hab
    apply Fin.ext
    by_contra hne
    rcases Nat.lt_or_gt_of_ne hne with hlt | hlt
    · have hb : b.1 = (b.1 - a.1) + a.1 := by omega
      rw [hb, Function.iterate_add_apply] at hab2
      exact tbl_next_no_return p hp (b.1 - a.1) _ (by omega) (by have := b.2; omega) hab2.symm
    · have ha : a.1 = (a.1 - b.1) + b.1 := by omega
      rw [ha, Function.iterate_add_apply] at hab2
      exact tbl_next_no_return p hp (a.1 - b.1) _ (by omega) (by have := a.2; omega) hab2
  obtain ⟨n, hn⟩ := (Finite.injective_iff_surjective.1 hinj) ⟨m, hm⟩
  exact ⟨n.1, n.2, congrArg Fin.val hn⟩

/-- Storing a pair in a slot uses one slot more at most. -/
theorem tbl_used_set (array : List Nat) (cap mi k v : Nat) :
    tbl_used ((array.set (2 * mi) k).set (2 * mi + 1) v) cap ≤ tbl_used array cap + 1 := by
  unfold tbl_used
  have hsub : (Finset.range cap).filter
        (fun m => ((array.set (2 * mi) k).set (2 * mi + 1) v).getD (2 * m) 0 ≠ 0)
      ⊆ insert mi ((Finset.range cap).filter (fun m => array.getD (2 * m) 0 ≠ 0)) := by
    intro m hm
    rw [Finset.mem_filter] at hm
    rw [Finset.mem_insert, Finset.mem_filter]
    by_cases hmi : m = mi
    · exact Or.inl hmi
    · right
      refine ⟨hm.1, ?_⟩
      have := hm.2
      rw [getD_set_ne _ _ _ _ (by omega), getD_set_ne _ _ _ _ (by omega)] at this
      exact this
  exact (Finset.card_le_card hsub).trans (Finset.card_insert_le _ _)

/-- The bit pattern of `n + 12582912` for `n < 2 ^ 22`: exponent field 150,
fraction `2 ^ 22 + n`. -/
theorem num_bits_biased (n : Nat) (h : n < 2 ^ 22) :
    num_bits (.fin ((n + 12582912 : Nat) : ℚ)) = 0x4b400000 + n := by
  have hpos : 0 < n + 12582912 := by omega
  have hlog : Nat.log2 (n + 12582912) = 23 := by
    have h1 : Nat.log2 (n + 12582912) < 24 := (Nat.log2_lt (by omega)).2 (by omega)
    have h2 : ¬ Nat.log2 (n + 12582912) < 23 := by
      rw [Nat.log2_lt (by omega)]; omega
    omega
  simp only [num_bits]
  rw [if_neg (by exact_mod_cast (by omega : n + 12582912 ≠ 0)), qlog2_natCast _ hpos, hlog]
  have hx : ¬ ((n + 12582912 : Nat) : ℚ) < 0 := by
    have : (0 : ℚ) ≤ ((n + 12582912 : Nat) : ℚ) := by positivity
    linarith
  rw [if_neg hx, if_neg (by decide)]
  have hp : pow2 (((23 : Nat) : Int) - 23) = 1 := by decide
  rw [hp, div_one, abs_of_nonneg (by positivity)]
  have hf : ⌊((n + 12582912 : Nat) : ℚ)⌋ = ((n + 12582912 : Nat) : Int) := by
    exact_mod_cast Int.floor_natCast (n + 12582912)
  rw [hf, Int.toNat_natCast]
  have he : (((23 : Nat) : Int) + 127).toNat = 150 := by decide
  rw [he]
  omega

/-- The mask `0x807fffff` keeps the 23 fraction bits, bit 22 included. -/
theorem num_hash_mask (n : Nat) (h : n < 2 ^ 22) :
    0x807fffff &&& (0x4b400000 + n) = 2 ^ 22 + n := by
  have hb : 2 ^ 22 + n < 2 ^ 23 := by omega
  have h1 : 0x807fffff = 2 ^ 23 * 256 + (2 ^ 23 - 1) := by decide
  have h2 : 0x4b400000 + n = 2 ^ 23 * 150 + (2 ^ 22 + n) := by omega
  rw [h1, h2]
  apply Nat.eq_of_testBit_eq
  intro j
  rw [Nat.testBit_and, Nat.testBit_mul_pow_two_add 256 (by decide) j,
    Nat.testBit_mul_pow_two_add 150 hb j]
  by_cases hj : j < 23
  · rw [if_pos hj, if_pos hj, Nat.testBit_two_pow_sub_one]
    simp [hj]
  · rw [if_neg hj, if_neg hj, ← Nat.testBit_and]
    have h0 : 256 &&& 150 = 0 := by decide
    rw [h0, Nat.zero_testBit]
    symm
    apply Nat.testBit_lt_two_pow
    calc 2 ^ 22 + n < 2 ^ 23 := hb
      _ ≤ 2 ^ j := Nat.pow_le_pow_right (by decide) (by omega)

theorem num_hash_small (n : Nat) (h : n < 2 ^ 22) :
    num_hash (.fin (n : ℚ)) = 2 ^ 22 + n := by
  have ha : num_add (.fin (n : ℚ)) (.fin 12582912) = .fin ((n + 12582912 : Nat) : ℚ) := by
    show num_round ((n : ℚ) + 12582912) = _
    have : (n : ℚ) + 12582912 = ((n + 12582912 : Nat) : ℚ) := by push_cast; ring
    rw [this, num_round_natCast _ (by omega)]
  have hs : num_sub (.fin ((n + 12582912 : Nat) : ℚ)) (.fin 12582912) = .fin (n : ℚ) := by
    show num_round (((n + 12582912 : Nat) : ℚ) - 12582912) = _
    have : ((n + 12582912 : Nat) : ℚ) - 12582912 = (n : ℚ) := by push_cast; ring
    rw [this, num_round_natCast _ (by omega)]
  have hf : num_sub (.fin (n : ℚ)) (.fin (n : ℚ)) = .fin 0 := by
    show num_round ((n : ℚ) - n) = _
    rw [sub_self]
    exact_mod_cast num_round_natCast 0 (by decide)
  have hz : num_bits (.fin 0) = 0 := by simp [num_bits]
  unfold num_hash
  simp only [ha, hs, hf, hz, num_bits_biased n h, Nat.xor_zero]
  exact num_hash_mask n h

/-- C29 (code defect): `num_hash` of a small non-negative integer `n < 2 ^ 22` is
`n + 2 ^ 22`, not `n` itself: the bias `12582912.0f` sets bit 22 of the
fraction and the mask `0x807fffff` keeps that bit. -/
theorem num_hash_small_integer_offset (n : Nat) (h : n < 2 ^ 22) :
    num_hash (.fin (n : ℚ)) = n + 4194304 ∧ num_hash (.fin (n : ℚ)) ≠ n := by
  have := num_hash_small n h
  constructor <;> omega

theorem num_hash_small_integer_offset_witness :
    (1 : Nat) < 2 ^ 22 ∧ num_hash (.fin ((1 : Nat) : ℚ)) = 1 + 4194304 ∧
      num_hash (.fin ((1 : Nat) : ℚ)) ≠ 1 :=
  ⟨by decide, num_hash_small_integer_offset 1 (by decide)⟩

/-! ## The stride table in RANGE mode -/

/-- The probe loop of `tbl_lookup` stops when the probe sequence meets a slot
with a nil key. -/
theorem tbl_lookup_probe_stops (E : VarEnv) (t : tbl_t) (key : Nat) : ∀ fuel i,
    (∃ n < fuel,
      t.array.getD (2 * (Nat.iterate tbl_next n i &&& (2 ^ t.npw2 - 1))) 0 = 0) →
    tbl_lookup_probe E t key fuel i ≠ .hang := by
  intro fuel
  induction fuel with
  | zero => intro i ⟨n, hn, _⟩; omega
  | succ fuel ih =>
    intro i ⟨n, hn, h⟩
    rw [tbl_lookup_probe]
    by_cases h0 : t.array.getD (2 * (i &&& (2 ^ t.npw2 - 1))) 0 = 0
    · rw [if_pos h0]; exact fun h => by cases h
    · rw [if_neg h0]
      split
      · exact fun h => by cases h
      · cases n with
        | zero => exact absurd h h0
        | succ n =>
          rw [Function.iterate_succ_apply] at h
          exact ih (tbl_next i) ⟨n, by omega, h⟩

/-- The probe loop of `tbl_insertval` and `tbl_insertnil` stops when the probe
sequence meets a slot with a nil key. -/
theorem tbl_insert_probe_stops (E : VarEnv) (t : tbl_t) (key : Nat) : ∀ fuel i,
    (∃ n < fuel,
      t.array.getD (2 * (Nat.iterate tbl_next n i &&& (2 ^ t.npw2 - 1))) 0 = 0) →
    tbl_insert_probe E t key fuel i ≠ .hang := by
  intro fuel
  induction fuel with
  | zero => intro i ⟨n, hn, _⟩; omega
  | succ fuel ih =>
    intro i ⟨n, hn, h⟩
    rw [tbl_insert_probe]
    by_cases h0 : t.array.getD (2 * (i &&& (2 ^ t.npw2 - 1))) 0 = 0
    · rw [if_pos h0]; exact fun h => by cases h
    · rw [if_neg h0]
      split
      · exact fun h => by cases h
      · cases n with
        | zero => exact absurd h h0
        | succ n =>
          rw [Function.iterate_succ_apply] at h
          exact ih (tbl_next i) ⟨n, by omega, h⟩

/-- A slot with a nil key is met within the first `1 << npw2` steps. -/
theorem tbl_probe_meets_nil (t : tbl_t) (hp : t.npw2 ≤ 32) (m : Nat) (hm : m < 2 ^ t.npw2)
    (h0 : t.array.getD (2 * m) 0 = 0) (i : Nat) :
    ∃ n < 2 ^ t.npw2,
      t.array.getD (2 * (Nat.iterate tbl_next n i &&& (2 ^ t.npw2 - 1))) 0 = 0 := by
  obtain ⟨n, hn, hnm⟩ := tbl_next_cover t.npw2 hp i m hm
  refine ⟨n, hn, ?_⟩
  rw [Nat.and_pow_two_sub_one_eq_mod, hnm]
  exact h0

/-- C34: `tbl_next(i)` is `5 * i + 1` in `hash_t`.  For `k ≤ 32` and every
start `i0` the first `2 ^ k` values of the probe sequence, reduced modulo
`2 ^ k`, are pairwise distinct, and every slot `m < 2 ^ k` is among them.  So
in a table of `2 ^ npw2` slots, `npw2 ≤ 32`, one of which has a nil key, the
probe loops of `tbl_lookup`, of `tbl_insertval` and of `tbl_insertnil` stop
within `2 ^ npw2` steps, from every start and for every key. -/
theorem tbl_next_full_period (k : Nat) (hk : k ≤ 32) (i0 : Nat) :
    (∀ i, tbl_next i = (5 * i + 1) % 2 ^ 32) ∧
    (∀ a b, a < b → b < 2 ^ k →
      Nat.iterate tbl_next a i0 % 2 ^ k ≠ Nat.iterate tbl_next b i0 % 2 ^ k) ∧
    (∀ m < 2 ^ k, ∃ n < 2 ^ k, Nat.iterate tbl_next n i0 % 2 ^ k = m) ∧
    (∀ (E : VarEnv) (t : tbl_t) (key : Nat), t.npw2 = k →
      (∃ m < 2 ^ k, t.array.getD (2 * m) 0 = 0) →
      tbl_lookup_probe E t key (2 ^ k) i0 ≠ .hang ∧
      tbl_insert_probe E t key (2 ^ k) i0 ≠ .hang ∧
      (t.stride = 2 → ∀ ro, ∃ v, tbl_lookup E (.ref ro t .null) key = some v) ∧
      (t.stride = 2 → ∃ s, tbl_insertnil E t key = some s) ∧
      (t.stride = 2 → ¬ tbl_ncap (t.nils + t.len + 1) > 2 ^ t.npw2 →
        ∀ val, ∃ s, tbl_insertval E t key val = some s)) := by
  refine ⟨?_, ?_, ?_, ?_⟩
  · intro i
    unfold tbl_next hash_t
    congr 1
    omega
  · intro a b hab hb h
    have hb2 : b = (b - a) + a := by omega
    rw [hb2, Function.iterate_add_apply] at h
    exact tbl_next_no_return k hk (b - a) _ (by omega) (by omega) h.symm
  · intro m hm
    exact tbl_next_cover k hk i0 m hm
  · intro E t key hn ⟨m, hm, h0⟩
    subst hn
    refine ⟨?_, ?_, ?_, ?_, ?_⟩
    · exact tbl_lookup_probe_stops E t key _ _ (tbl_probe_meets_nil t hk m hm h0 i0)
    · exact tbl_insert_probe_stops E t key _ _ (tbl_probe_meets_nil t hk m hm h0 i0)
    · intro hs ro
      have hp := tbl_lookup_probe_stops E t key _ _
        (tbl_probe_meets_nil t hk m hm h0 (E.mu_hash key))
      unfold tbl_lookup
      split
      · exact ⟨_, rfl⟩
      · unfold tbl_lookup_chain
        rw [if_neg (by omega)]
        split
        · exact ⟨_, rfl⟩
        · exact ⟨_, rfl⟩
        · rename_i hh; exact absurd hh hp
    · intro hs
      have hp := tbl_insert_probe_stops E t key _ _
        (tbl_probe_meets_nil t hk m hm h0 (E.mu_hash key))
      unfold tbl_insertnil
      simp only []
      rw [if_neg (by omega)]
      split
      · rename_i hh; exact absurd hh hp
      · exact ⟨_, rfl⟩
      · split <;> exact ⟨_, rfl⟩
    · intro hs hcap val
      have hp := tbl_insert_probe_stops E t key _ _
        (tbl_probe_meets_nil t hk m hm h0 (E.mu_hash key))
      unfold tbl_insertval
      simp only []
      rw [if_neg hcap]
      simp only [Option.bind]
      rw [if_neg (by omega)]
      split
      · rename_i hh; exact absurd hh hp
      · exact ⟨_, rfl⟩
      · split <;> exact ⟨_, rfl⟩

/-- The table of two slots `[3 ↦ 5, empty]` of `ex_env`. -/
theorem tbl_next_full_period_witness :
    tbl_lookup_probe ex_env ⟨1, 1, 0, 2, 0, [3, 5, 0, 0]⟩ 7 (2 ^ 1) 1 ≠ .hang ∧
    (∃ v, tbl_lookup ex_env (.ref false ⟨1, 1, 0, 2, 0, [3, 5, 0, 0]⟩ .null) 7 = some v) :=
  have h := (tbl_next_full_period 1 (by decide) 1).2.2.2 ex_env ⟨1, 1, 0, 2, 0, [3, 5, 0, 0]⟩ 7 rfl
    ⟨1, by decide, by decide⟩
  ⟨h.1, h.2.2.1 rfl false⟩

/-! ## Representation upgrades of the stride table -/

theorem filter_length_le_succ (p q : Nat → Prop) [DecidablePred p] [DecidablePred q] (m : Nat) :
    ∀ n, (∀ j < n, j ≠ m → p j → q j) →
      ((List.range n).filter fun j => p j).length
        ≤ ((List.range n).filter fun j => q j).length + 1 ∧
      ((m < n → (p m → q m)) →
        ((List.range n).filter fun j => p j).length
          ≤ ((List.range n).filter fun j => q j).length) ∧
      (m < n → q m → ¬ p m →
        ((List.range n).filter fun j => p j).length + 1
          ≤ ((List.range n).filter fun j => q j).length) := by
  intro n
  induction n with
  | zero => intro _; simp
  | succ n ih =>
    intro h
    obtain ⟨ih1, ih2, ih3⟩ := ih (fun j hj => h j (by omega))
    rw [List.range_succ, List.filter_append, List.filter_append, List.length_append,
      List.length_append]
    by_cases hnm : n = m
    · subst hnm
      have hle := ih2 (fun hlt => absurd hlt (Nat.lt_irrefl _))
      refine ⟨?_, ?_, ?_⟩
      · have : ([n].filter fun j => p j).length ≤ 1 := by
          rw [List.filter_cons]; split <;> simp
        omega
      · intro hpq
        by_cases hp : p n
        · have hq := hpq (by omega) hp
          simp [List.filter_cons, hp, hq]
          omega
        · simp [List.filter_cons, hp]
          omega
      · intro _ hq hp
        simp [List.filter_cons, hp, hq]
        omega
    · have hstep : ([n].filter fun j => p j).length ≤ ([n].filter fun j => q j).length := by
        by_cases hp : p n
        · have hq := h n (by omega) hnm hp
          simp [List.filter_cons, hp, hq]
        · simp [List.filter_cons, hp]
      refine ⟨by omega, ?_, ?_⟩
      · intro hpq
        have := ih2 (fun hlt => hpq (by omega))
        omega
      · intro hm hq hp
        have := ih3 (by omega) hq hp
        omega

theorem filter_length_le_bound (p : Nat → Prop) [DecidablePred p] (L : Nat) :
    ∀ n, (∀ j < n, p j → j < L) → ((List.range n).filter fun j => p j).length ≤ L := by
  intro n h
  have hsub : (List.range n).filter (fun j => p j) ⊆ List.range L := by
    intro j hj
    rw [List.mem_filter, List.mem_range] at hj
    rw [List.mem_range]
    exact h j hj.1 (by simpa using hj.2)
  have hnd : ((List.range n).filter fun j => p j).Nodup := (List.nodup_range n).filter _
  have := (List.subperm_of_subset hnd hsub).length_le
  rwa [List.length_range] at this

/-- Storing a pair in a slot adds one live pair at most. -/
theorem pairs_live_set_pair (a : List Nat) (cap mi k v : Nat) :
    pairs_live ((a.set (2 * mi) k).set (2 * mi + 1) v) cap ≤ pairs_live a cap + 1 := by
  unfold pairs_live
  refine (filter_length_le_succ _ _ mi cap ?_).1
  intro j _ hj
  rw [getD_set_ne _ _ _ _ (by omega), getD_set_ne _ _ _ _ (by omega),
    getD_set_ne _ _ _ _ (by omega), getD_set_ne _ _ _ _ (by omega)]
  exact id

/-- Storing a value in a pair that has a key: one live pair more at most; none
more when the pair was live; one less when the pair was live and the value
stored is nil. -/
theorem pairs_live_set_val (a : List Nat) (cap mi v : Nat) :
    pairs_live (a.set (2 * mi + 1) v) cap ≤ pairs_live a cap + 1 ∧
    ((a.getD (2 * mi) 0 ≠ 0 ∧ a.getD (2 * mi + 1) 0 ≠ 0) →
      pairs_live (a.set (2 * mi + 1) v) cap ≤ pairs_live a cap) ∧
    ((a.getD (2 * mi) 0 ≠ 0 ∧ a.getD (2 * mi + 1) 0 ≠ 0) → v = 0 → mi < cap →
      pairs_live (a.set (2 * mi + 1) v) cap + 1 ≤ pairs_live a cap) := by
  unfold pairs_live
  have hoth : ∀ j < cap, j ≠ mi →
      ¬ ((a.set (2 * mi + 1) v).getD (2 * j) 0 = 0 ∨ (a.set (2 * mi + 1) v).getD (2 * j + 1) 0 = 0) →
      ¬ (a.getD (2 * j) 0 = 0 ∨ a.getD (2 * j + 1) 0 = 0) := by
    intro j _ hj
    rw [getD_set_ne _ _ _ _ (by omega), getD_set_ne _ _ _ _ (by omega)]
    exact id
  obtain ⟨h1, h2, h3⟩ := filter_length_le_succ
    (fun j => ¬ ((a.set (2 * mi + 1) v).getD (2 * j) 0 = 0 ∨
      (a.set (2 * mi + 1) v).getD (2 * j + 1) 0 = 0))
    (fun j => ¬ (a.getD (2 * j) 0 = 0 ∨ a.getD (2 * j + 1) 0 = 0)) mi cap hoth
  refine ⟨h1, ?_, ?_⟩
  · intro hlive
    apply h2
    intro _ _ hc
    rcases hc with hc | hc
    · exact hlive.1 hc
    · exact hlive.2 hc
  · intro hlive hv hmi
    apply h3 hmi
    · intro hc
      rcases hc with hc | hc
      · exact hlive.1 hc
      · exact hlive.2 hc
    · intro hc
      apply hc
      right
      have hlt : 2 * mi + 1 < a.length := by
        by_contra hge
        apply hlive.2
        rw [List.getD_eq_getElem?_getD, List.getElem?_eq_none (by omega)]
        rfl
      rw [getD_set_eq _ _ _ hlt, hv]

/-- Storing a value does not change the slots that have a key. -/
theorem tbl_used_set_val (a : List Nat) (cap mi v : Nat) :
    tbl_used (a.set (2 * mi + 1) v) cap = tbl_used a cap := by
  unfold tbl_used
  congr 1
  apply Finset.filter_congr
  intro m _
  rw [getD_set_ne _ _ _ _ (by omega)]

/-- Where the probe loop of `tbl_insertval` and `tbl_insertnil` stops: at a
slot without a key (`miss`) or at a slot of the table with a key (`hit`). -/
theorem tbl_insert_probe_inv (E : VarEnv) (t : tbl_t) (key mi : Nat) : ∀ fuel i,
    (tbl_insert_probe E t key fuel i = .miss mi → t.array.getD (2 * mi) 0 = 0) ∧
    (tbl_insert_probe E t key fuel i = .hit mi →
      t.array.getD (2 * mi) 0 ≠ 0 ∧ mi < 2 ^ t.npw2) := by
  intro fuel
  induction fuel with
  | zero => intro i; rw [tbl_insert_probe]; exact ⟨fun h => (by cases h), fun h => (by cases h)⟩
  | succ fuel ih =>
    intro i
    rw [tbl_insert_probe]
    by_cases h0 : t.array.getD (2 * (i &&& (2 ^ t.npw2 - 1))) 0 = 0
    · rw [if_pos h0]
      refine ⟨fun h => ?_, fun h => (by cases h)⟩
      cases h
      exact h0
    · rw [if_neg h0]
      split
      · refine ⟨fun h => (by cases h), fun h => ?_⟩
        cases h
        refine ⟨h0, ?_⟩
        have := @Nat.and_le_right i (2 ^ t.npw2 - 1)
        have := Nat.two_pow_pos t.npw2
        omega
      · exact ih (tbl_next i)

/-- The hashed part of `tbl_insertval` keeps the bounds on the live pairs and
on the slots with a key, and adds one to `len + nils` at most. -/
theorem tbl_insertval_probe_step (E : VarEnv) (u s : tbl_t) (key val : Nat)
    (hH : pairs_live u.array (2 ^ u.npw2) ≤ u.len ∧
      tbl_used u.array (2 ^ u.npw2) ≤ u.len + u.nils)
    (h : (match tbl_insert_probe E u key (2 ^ u.npw2) (E.mu_hash key) with
        | .hang => none
        | .miss mi =>
          some { u with array := (u.array.set (2 * mi) key).set (2 * mi + 1) val,
                        len := u.len + 1 }
        | .hit mi =>
          if u.array.getD (2 * mi + 1) 0 = 0 then
            some { u with array := u.array.set (2 * mi + 1) val, nils := u.nils - 1,
                          len := u.len + 1 }
          else some { u with array := u.array.set (2 * mi + 1) val }) = some s) :
    (pairs_live s.array (2 ^ s.npw2) ≤ s.len ∧
      tbl_used s.array (2 ^ s.npw2) ≤ s.len + s.nils) ∧
    s.stride = u.stride ∧ s.npw2 = u.npw2 ∧ s.len + s.nils ≤ u.len + u.nils + 1 := by
  split at h
  · cases h
  · rename_i mi _
    have e := Option.some.inj h
    subst e
    refine ⟨⟨?_, ?_⟩, rfl, rfl, ?_⟩
    · have := pairs_live_set_pair u.array (2 ^ u.npw2) mi key val
      show pairs_live ((u.array.set (2 * mi) key).set (2 * mi + 1) val) (2 ^ u.npw2) ≤ u.len + 1
      omega
    · have := tbl_used_set u.array (2 ^ u.npw2) mi key val
      show tbl_used ((u.array.set (2 * mi) key).set (2 * mi + 1) val) (2 ^ u.npw2)
        ≤ u.len + 1 + u.nils
      omega
    · show u.len + 1 + u.nils ≤ u.len + u.nils + 1
      omega
  · rename_i mi hp
    have hk := ((tbl_insert_probe_inv E u key mi _ _).2 hp).1
    split at h
    · have e := Option.some.inj h
      subst e
      refine ⟨⟨?_, ?_⟩, rfl, rfl, ?_⟩
      · have := (pairs_live_set_val u.array (2 ^ u.npw2) mi val).1
        show pairs_live (u.array.set (2 * mi + 1) val) (2 ^ u.npw2) ≤ u.len + 1
        omega
      · show tbl_used (u.array.set (2 * mi + 1) val) (2 ^ u.npw2) ≤ u.len + 1 + (u.nils - 1)
        rw [tbl_used_set_val]
        omega
      · show u.len + 1 + (u.nils - 1) ≤ u.len + u.nils + 1
        omega
    · rename_i hv
      have e := Option.some.inj h
      subst e
      refine ⟨⟨?_, ?_⟩, rfl, rfl, ?_⟩
      · have := (pairs_live_set_val u.array (2 ^ u.npw2) mi val).2.1 ⟨hk, hv⟩
        show pairs_live (u.array.set (2 * mi + 1) val) (2 ^ u.npw2) ≤ u.len
        omega
      · show tbl_used (u.array.set (2 * mi + 1) val) (2 ^ u.npw2) ≤ u.len + u.nils
        rw [tbl_used_set_val]
        exact hH.2
      · show u.len + u.nils ≤ u.len + u.nils + 1
        omega

/-- The hashed part of `tbl_insertnil` keeps the bounds and does not raise
`len + nils`. -/
theorem tbl_insertnil_probe_step (E : VarEnv) (u s : tbl_t) (key : Nat)
    (hH : pairs_live u.array (2 ^ u.npw2) ≤ u.len ∧
      tbl_used u.array (2 ^ u.npw2) ≤ u.len + u.nils)
    (h : (match tbl_insert_probe E u key (2 ^ u.npw2) (E.mu_hash key) with
        | .hang => none
        | .miss _ => some u
        | .hit mi =>
          if u.array.getD (2 * mi + 1) 0 ≠ 0 then
            some { u with array := u.array.set (2 * mi + 1) 0, nils := u.nils + 1,
                          len := u.len - 1 }
          else some u) = some s) :
    (pairs_live s.array (2 ^ s.npw2) ≤ s.len ∧
      tbl_used s.array (2 ^ s.npw2) ≤ s.len + s.nils) ∧
    s.stride = u.stride ∧ s.npw2 = u.npw2 ∧ s.len + s.nils ≤ u.len + u.nils := by
  split at h
  · cases h
  · have e := Option.some.inj h
    subst e
    exact ⟨hH, rfl, rfl, le_refl _⟩
  · rename_i mi hp
    obtain ⟨hk, hmi⟩ := (tbl_insert_probe_inv E u key mi _ _).2 hp
    split at h
    · rename_i hv
      have e := Option.some.inj h
      subst e
      have hl := (pairs_live_set_val u.array (2 ^ u.npw2) mi 0).2.2 ⟨hk, hv⟩ rfl hmi
      refine ⟨⟨?_, ?_⟩, rfl, rfl, ?_⟩
      · show pairs_live (u.array.set (2 * mi + 1) 0) (2 ^ u.npw2) ≤ u.len - 1
        omega
      · show tbl_used (u.array.set (2 * mi + 1) 0) (2 ^ u.npw2) ≤ u.len - 1 + (u.nils + 1)
        rw [tbl_used_set_val]
        omega
      · show u.len - 1 + (u.nils + 1) ≤ u.len + u.nils
        omega
    · have e := Option.some.inj h
      subst e
      exact ⟨hH, rfl, rfl, le_refl _⟩

/-- The array made by `tbl_realizekeys` has keys in its first `len` slots
only. -/
theorem tbl_realizekeys_key_lt (E : VarEnv) (t : tbl_t) (m : Nat)
    (h : (tbl_realizekeys E t).array.getD (2 * m) 0 ≠ 0) : m < t.len := by
  by_contra hm
  apply h
  unfold tbl_realizekeys
  simp only []
  rw [List.getD_eq_getElem?_getD]
  by_cases hq : 2 * m < 2 * 2 ^ t.npw2
  · rw [List.getElem?_map, List.getElem?_range hq]
    simp only [Option.map, Option.getD]
    rw [if_neg (by omega)]
  · rw [List.getElem?_eq_none (by simpa using hq)]
    rfl

theorem tbl_realizekeys_bounds (E : VarEnv) (t : tbl_t) :
    pairs_live (tbl_realizekeys E t).array (2 ^ t.npw2) ≤ t.len ∧
    tbl_used (tbl_realizekeys E t).array (2 ^ t.npw2) ≤ t.len := by
  constructor
  · unfold pairs_live
    apply filter_length_le_bound
    intro j _ hj
    apply tbl_realizekeys_key_lt E t j
    intro h0
    exact hj (Or.inl h0)
  · unfold tbl_used
    have hsub : (Finset.range (2 ^ t.npw2)).filter
        (fun m => (tbl_realizekeys E t).array.getD (2 * m) 0 ≠ 0) ⊆ Finset.range t.len := by
      intro m hm
      rw [Finset.mem_filter] at hm
      rw [Finset.mem_range]
      exact tbl_realizekeys_key_lt E t m hm.2
    have := Finset.card_le_card hsub
    rwa [Finset.card_range] at this

theorem replicate_zero_getD (n q : Nat) : (List.replicate n 0).getD q 0 = 0 := by
  rw [List.getD_eq_getElem?_getD]
  by_cases hlt : q < n
  · rw [List.getElem?_replicate, if_pos hlt]; rfl
  · rw [List.getElem?_eq_none (by simpa using hlt)]; rfl

/-- The rehash loop of `tbl_resize` stores one pair for every live pair of the
old array it visits. -/
theorem tbl_resize_fold_bounds (E : VarEnv) (t : tbl_t) (p : Nat) :
    ∀ (js : List Nat) (array array2 : List Nat),
      js.foldl
        (fun (r : Option (List Nat)) j => r.bind fun array =>
          if t.array.getD (2 * j) 0 = 0 ∨ t.array.getD (2 * j + 1) 0 = 0 then some array
          else
            (tbl_resize_probe array (2 ^ p - 1) (2 ^ p)
                (E.mu_hash (t.array.getD (2 * j) 0))).map
              fun mi => (array.set (2 * mi) (t.array.getD (2 * j) 0)).set (2 * mi + 1)
                (t.array.getD (2 * j + 1) 0))
        (some array) = some array2 →
      pairs_live array2 (2 ^ p) ≤ pairs_live array (2 ^ p) + (js.filter fun j =>
        ¬ (t.array.getD (2 * j) 0 = 0 ∨ t.array.getD (2 * j + 1) 0 = 0)).length ∧
      tbl_used array2 (2 ^ p) ≤ tbl_used array (2 ^ p) + (js.filter fun j =>
        ¬ (t.array.getD (2 * j) 0 = 0 ∨ t.array.getD (2 * j + 1) 0 = 0)).length := by
  intro js
  induction js with
  | nil =>
    intro array array2 h
    cases h
    exact ⟨le_refl _, le_refl _⟩
  | cons j r ih =>
    intro array array2 h
    rw [List.foldl_cons] at h
    by_cases hj : t.array.getD (2 * j) 0 = 0 ∨ t.array.getD (2 * j + 1) 0 = 0
    · rw [List.filter_cons_of_neg (by rw [decide_eq_true_eq]; exact not_not.2 hj)]
      rw [Option.some_bind, if_pos hj] at h
      exact ih array array2 h
    · rw [List.filter_cons_of_pos (by rw [decide_eq_true_eq]; exact hj), List.length_cons]
      rw [Option.some_bind, if_neg hj] at h
      cases hp : tbl_resize_probe array (2 ^ p - 1) (2 ^ p) (E.mu_hash (t.array.getD (2 * j) 0))
      with
      | none =>
        rw [hp, Option.map_none'] at h
        exfalso
        have hnone : ∀ (l : List Nat), l.foldl
            (fun (r : Option (List Nat)) j => r.bind fun array =>
              if t.array.getD (2 * j) 0 = 0 ∨ t.array.getD (2 * j + 1) 0 = 0 then some array
              else
                (tbl_resize_probe array (2 ^ p - 1) (2 ^ p)
                    (E.mu_hash (t.array.getD (2 * j) 0))).map
                  fun mi => (array.set (2 * mi) (t.array.getD (2 * j) 0)).set (2 * mi + 1)
                    (t.array.getD (2 * j + 1) 0))
            none = none := by
          intro l
          induction l with
          | nil => rfl
          | cons x l ihl => rw [List.foldl_cons]; exact ihl
        rw [hnone r] at h
        cases h
      | some mi =>
        rw [hp, Option.map_some'] at h
        obtain ⟨h1, h2⟩ := ih _ array2 h
        have h3 := pairs_live_set_pair array (2 ^ p) mi (t.array.getD (2 * j) 0)
          (t.array.getD (2 * j + 1) 0)
        have h4 := tbl_used_set array (2 ^ p) mi (t.array.getD (2 * j) 0)
          (t.array.getD (2 * j + 1) 0)
        constructor <;> omega

/-- After `tbl_resize` of a hashed table the pairs of the new array are the
live pairs of the old one at most, and no tombstone is counted. -/
theorem tbl_resize_hashed_bounds (E : VarEnv) (t s : tbl_t) (len : Nat) (hs : ¬ t.stride < 2)
    (h : tbl_resize E t len = some s) :
    pairs_live s.array (2 ^ s.npw2) ≤ pairs_live t.array (2 ^ t.npw2) ∧
    tbl_used s.array (2 ^ s.npw2) ≤ pairs_live t.array (2 ^ t.npw2) ∧
    s.len = t.len ∧ s.nils = 0 ∧ s.stride = t.stride ∧
    s.npw2 = tbl_npw2 E (tbl_ncap len) := by
  unfold tbl_resize at h
  simp only [] at h
  rw [if_neg hs, Option.map_eq_some'] at h
  obtain ⟨a, ha, rfl⟩ := h
  obtain ⟨h1, h2⟩ := tbl_resize_fold_bounds E t _ _ _ _ ha
  have hl0 : pairs_live (List.replicate (2 * 2 ^ tbl_npw2 E (tbl_ncap len)) 0)
      (2 ^ tbl_npw2 E (tbl_ncap len)) = 0 := by
    unfold pairs_live
    rw [List.length_eq_zero, List.filter_eq_nil_iff]
    intro j _
    simp [replicate_zero_getD]
  have hu0 : tbl_used (List.replicate (2 * 2 ^ tbl_npw2 E (tbl_ncap len)) 0)
      (2 ^ tbl_npw2 E (tbl_ncap len)) = 0 := by
    unfold tbl_used
    rw [Finset.card_eq_zero, Finset.filter_eq_empty_iff]
    intro m _
    rw [not_not, replicate_zero_getD]
  rw [hl0] at h1
  rw [hu0] at h2
  refine ⟨?_, ?_, rfl, rfl, rfl, rfl⟩
  · show pairs_live a (2 ^ tbl_npw2 E (tbl_ncap len)) ≤ _
    unfold pairs_live at h1 ⊢
    omega
  · show tbl_used a (2 ^ tbl_npw2 E (tbl_ncap len)) ≤ _
    unfold pairs_live
    omega

theorem tbl_ncap_mono (a b : Nat) (hab : a ≤ b) (hb : b ≤ 2 ^ 29) :
    tbl_ncap a ≤ tbl_ncap b := by
  rw [tbl_ncap_eq a (by omega), tbl_ncap_eq b hb]
  omega

theorem tbl_npw2_le (E : VarEnv) (x : Nat) (hx : x ≠ 0) (hx2 : x ≤ 2 ^ 64) :
    x ≤ 2 ^ tbl_npw2 E x := by
  unfold tbl_npw2
  rw [if_neg hx]
  exact mu_npw2_le x hx2

/-- `tbl_resize` of a range or list changes `npw2` (and the array) only. -/
theorem tbl_resize_unhashed_fields (E : VarEnv) (t s : tbl_t) (len : Nat) (hs : t.stride < 2)
    (h : tbl_resize E t len = some s) :
    s.len = t.len ∧ s.nils = t.nils ∧ s.stride = t.stride ∧
    s.npw2 = tbl_npw2 E (tbl_ncap len) := by
  unfold tbl_resize at h
  simp only [] at h
  rw [if_pos hs] at h
  split at h
  · cases h; exact ⟨rfl, rfl, rfl, rfl⟩
  · cases h; exact ⟨rfl, rfl, rfl, rfl⟩

theorem tbl_load_inv_unhashed (u s : tbl_t) (hb : u.len + u.nils < 2 ^ 29)
    (U1 : tbl_ncap (u.len + u.nils + 1) ≤ 2 ^ u.npw2) (U2 : u.nils = 0)
    (F : s.npw2 = u.npw2 ∧ s.nils = u.nils ∧ s.len ≤ u.len + 1 ∧ s.stride < 2) :
    tbl_load_inv s ∧ s.len + s.nils ≤ u.len + u.nils + 1 := by
  obtain ⟨f1, f2, f3, f4⟩ := F
  refine ⟨⟨?_, fun _ => by rw [f2, U2], fun h => absurd f4 h⟩, by omega⟩
  rw [f1]
  exact (tbl_ncap_mono _ _ (by omega) (by omega)).trans U1

theorem tbl_load_inv_hashed (u s : tbl_t) (hb : u.len + u.nils < 2 ^ 29)
    (U1 : tbl_ncap (u.len + u.nils + 1) ≤ 2 ^ u.npw2)
    (Hs : pairs_live s.array (2 ^ s.npw2) ≤ s.len ∧
      tbl_used s.array (2 ^ s.npw2) ≤ s.len + s.nils)
    (hs : ¬ s.stride < 2) (hn : s.npw2 = u.npw2)
    (hsum : s.len + s.nils ≤ u.len + u.nils + 1) : tbl_load_inv s := by
  refine ⟨?_, fun h => absurd h hs, fun _ => Hs⟩
  rw [hn]
  exact (tbl_ncap_mono _ _ hsum (by omega)).trans U1

/-- A call of `tbl_insert` keeps the invariant and adds one to `len + nils` at
most. -/
theorem tbl_insert_load_inv (E : VarEnv) (t s : tbl_t) (key val : Nat)
    (hb : t.len + t.nils < 2 ^ 29) (hI : tbl_load_inv t)
    (h : tbl_insert E false t key val = .ok s) :
    tbl_load_inv s ∧ s.len + s.nils ≤ t.len + t.nils + 1 := by
  obtain ⟨hI1, hI2, hI3⟩ := hI
  have hT1 : tbl_ncap (t.len + t.nils) ≤ tbl_ncap (t.len + t.nils + 1) :=
    tbl_ncap_mono _ _ (by omega) (by omega)
  have hrk : ∀ u : tbl_t, ¬ (tbl_realizekeys E u).stride < 2 := by
    intro u; unfold tbl_realizekeys; simp
  have hrkH : ∀ u : tbl_t, pairs_live (tbl_realizekeys E u).array (2 ^ (tbl_realizekeys E u).npw2)
        ≤ (tbl_realizekeys E u).len ∧
      tbl_used (tbl_realizekeys E u).array (2 ^ (tbl_realizekeys E u).npw2)
        ≤ (tbl_realizekeys E u).len + (tbl_realizekeys E u).nils := by
    intro u
    obtain ⟨h1, h2⟩ := tbl_realizekeys_bounds E u
    refine ⟨h1, ?_⟩
    show tbl_used (tbl_realizekeys E u).array (2 ^ u.npw2) ≤ u.len + u.nils
    omega
  unfold tbl_insert at h
  rw [if_neg (by simp)] at h
  split at h
  · cases h
    exact ⟨⟨hI1, hI2, hI3⟩, by omega⟩
  · split at h
    · rename_i r hr
      cases h
      split at hr
      · -- tbl_insertnil
        have fin : ∀ u : tbl_t, u.npw2 = t.npw2 → u.len + u.nils = t.len + t.nils →
            (pairs_live u.array (2 ^ u.npw2) ≤ u.len ∧
              tbl_used u.array (2 ^ u.npw2) ≤ u.len + u.nils) → ¬ u.stride < 2 →
            (match tbl_insert_probe E u key (2 ^ u.npw2) (E.mu_hash key) with
              | .hang => none
              | .miss _ => some u
              | .hit mi =>
                if u.array.getD (2 * mi + 1) 0 ≠ 0 then
                  some { u with array := u.array.set (2 * mi + 1) 0, nils := u.nils + 1,
                                len := u.len - 1 }
                else some u) = some s →
            tbl_load_inv s ∧ s.len + s.nils ≤ t.len + t.nils + 1 := by
          intro u hun hus hH hst hp
          obtain ⟨Hs, hs1, hs2, hs3⟩ := tbl_insertnil_probe_step E u s key hH hp
          refine ⟨⟨?_, fun hlt => ?_, fun _ => Hs⟩, by omega⟩
          · rw [hs2, hun]
            exact (tbl_ncap_mono _ _ (by omega) (by omega)).trans hI1
          · rw [hs1] at hlt
            exact absurd hlt hst
        unfold tbl_insertnil at hr
        simp only [] at hr
        split at hr
        · rename_i ht
          split at hr
          · cases hr; exact ⟨⟨hI1, hI2, hI3⟩, by omega⟩
          · split at hr
            · cases hr
              refine ⟨⟨?_, hI2, fun hh => absurd ht hh⟩, ?_⟩
              · show tbl_ncap (t.len - 1 + t.nils) ≤ 2 ^ t.npw2
                exact (tbl_ncap_mono _ _ (by omega) (by omega)).trans hI1
              · show t.len - 1 + t.nils ≤ t.len + t.nils + 1
                omega
            · exact fin (tbl_realizekeys E t) rfl rfl (hrkH t) (hrk t) hr
        · rename_i ht
          exact fin t rfl rfl (hI3 ht) ht hr
      · -- tbl_insertval
        unfold tbl_insertval at hr
        simp only [] at hr
        rw [Option.bind_eq_some] at hr
        obtain ⟨u, hu, hr⟩ := hr
        have hU : tbl_ncap (u.len + u.nils + 1) ≤ 2 ^ u.npw2 ∧ (u.stride < 2 → u.nils = 0) ∧
            (¬ u.stride < 2 → pairs_live u.array (2 ^ u.npw2) ≤ u.len ∧
              tbl_used u.array (2 ^ u.npw2) ≤ u.len + u.nils) ∧
            u.len + u.nils ≤ t.len + t.nils := by
          split at hu
          · have hnz : tbl_ncap (t.len + 1) ≠ 0 := by
              rw [tbl_ncap_eq _ (by omega)]; omega
            have hle : tbl_ncap (t.len + 1) ≤ 2 ^ 64 := by
              rw [tbl_ncap_eq _ (by omega)]
              have : (2 : Nat) ^ 29 ≤ 2 ^ 64 := by norm_num
              omega
            have hcap := tbl_npw2_le E _ hnz hle
            by_cases hst : t.stride < 2
            · obtain ⟨e1, e2, e3, e4⟩ := tbl_resize_unhashed_fields E t u _ hst hu
              have hn0 := hI2 hst
              refine ⟨?_, fun _ => by rw [e2]; exact hn0, fun hh => ?_, by omega⟩
              · rw [e1, e2, e4, hn0]; exact hcap
              · rw [e3] at hh; exact absurd hst hh
            · obtain ⟨e1, e2, e3, e4, e5, e6⟩ := tbl_resize_hashed_bounds E t u _ hst hu
              have := hI3 hst
              refine ⟨?_, fun _ => e4, fun _ => ⟨by omega, by omega⟩, by omega⟩
              rw [e3, e4, e6]; exact hcap
          · rename_i hc
            cases hu
            refine ⟨?_, hI2, hI3, le_refl _⟩
            have : t.nils + t.len + 1 = t.len + t.nils + 1 := by omega
            rw [this] at hc
            omega
        obtain ⟨U1, U2, U3, U4⟩ := hU
        have finv : ∀ w : tbl_t, w.npw2 = u.npw2 → w.len + w.nils = u.len + u.nils →
            (pairs_live w.array (2 ^ w.npw2) ≤ w.len ∧
              tbl_used w.array (2 ^ w.npw2) ≤ w.len + w.nils) → ¬ w.stride < 2 →
            (match tbl_insert_probe E w key (2 ^ w.npw2) (E.mu_hash key) with
              | .hang => none
              | .miss mi =>
                some { w with array := (w.array.set (2 * mi) key).set (2 * mi + 1) val,
                              len := w.len + 1 }
              | .hit mi =>
                if w.array.getD (2 * mi + 1) 0 = 0 then
                  some { w with array := w.array.set (2 * mi + 1) val, nils := w.nils - 1,
                                len := w.len + 1 }
                else some { w with array := w.array.set (2 * mi + 1) val }) = some s →
            tbl_load_inv s ∧ s.len + s.nils ≤ t.len + t.nils + 1 := by
          intro w hwn hws hH hst hp
          obtain ⟨Hs, hs1, hs2, hs3⟩ := tbl_insertval_probe_step E w s key val hH hp
          refine ⟨tbl_load_inv_hashed u s (by omega) U1 Hs ?_ (hs2.trans hwn) (by omega),
            by omega⟩
          rw [hs1]; exact hst
        by_cases ht : u.stride < 2
        · rw [if_pos ht] at hr
          have hn := U2 ht
          have fin2 : (s.npw2 = u.npw2 ∧ s.nils = u.nils ∧ s.len ≤ u.len + 1 ∧ s.stride < 2) →
              tbl_load_inv s ∧ s.len + s.nils ≤ t.len + t.nils + 1 := by
            intro F
            obtain ⟨g1, g2⟩ := tbl_load_inv_unhashed u s (by omega) U1 hn F
            exact ⟨g1, by omega⟩
          by_cases c1 : E.ishash key = true ∧ E.mu_hash key = u.len
          · rw [if_pos c1] at hr
            repeat' split at hr
            all_goals
              have e := Option.some.inj hr
              subst e
              apply fin2
              refine ⟨rfl, rfl, le_refl _, ?_⟩
              first
                | exact ht
                | (show 1 < 2; decide)
          · rw [if_neg c1] at hr
            by_cases c2 : E.ishash key = true ∧ E.mu_hash key < u.len
            · rw [if_pos c2] at hr
              repeat' split at hr
              all_goals
                have e := Option.some.inj hr
                subst e
                apply fin2
                refine ⟨rfl, rfl, ?_, ?_⟩
                · first
                    | exact le_refl _
                    | exact Nat.le_succ _
                · first
                    | exact ht
                    | (show 1 < 2; decide)
            · rw [if_neg c2] at hr
              exact finv (tbl_realizekeys E u) rfl rfl (hrkH u) (hrk u) hr
        · rw [if_neg ht] at hr
          exact finv u rfl rfl (U3 ht) ht hr
    · cases h

theorem tbl_create_load_inv (E : VarEnv) (size : Nat) : tbl_load_inv (tbl_create E size) := by
  refine ⟨?_, fun _ => rfl, fun h => absurd (by show (0 : Nat) < 2; decide) h⟩
  show tbl_ncap (0 + 0) ≤ _
  have : tbl_ncap (0 + 0) = 0 := by decide
  rw [this]
  exact Nat.zero_le _

theorem tbl_insert_seq_not_ok (E : VarEnv) (ops : List (Nat × Nat)) (r : Res tbl_t)
    (hr : ∀ s, r ≠ .ok s) (s : tbl_t) :
    ops.foldl (fun r kv => r.bind fun s => tbl_insert E false s kv.1 kv.2) r ≠ .ok s := by
  induction ops generalizing r with
  | nil => exact hr s
  | cons x l ih =>
    rw [List.foldl_cons]
    apply ih
    intro s2
    cases r with
    | ok s0 => exact absurd rfl (hr s0)
    | error e s0 => intro h; cases h
    | hang => intro h; cases h
    | nofuel => intro h; cases h

/-- Every sequence of calls of `tbl_insert` keeps the invariant. -/
theorem tbl_insert_seq_load_inv (E : VarEnv) : ∀ (ops : List (Nat × Nat)) (t s : tbl_t),
    tbl_load_inv t → t.len + t.nils + ops.length ≤ 2 ^ 29 →
    tbl_insert_seq E t ops = .ok s →
    tbl_load_inv s ∧ s.len + s.nils ≤ t.len + t.nils + ops.length := by
  intro ops
  induction ops with
  | nil =>
    intro t s hI _ h
    cases h
    exact ⟨hI, le_refl _⟩
  | cons x l ih =>
    intro t s hI hb h
    rw [List.length_cons] at hb ⊢
    unfold tbl_insert_seq at h
    rw [List.foldl_cons] at h
    cases hx : tbl_insert E false t x.1 x.2 with
    | ok t1 =>
      obtain ⟨hI1, hs1⟩ := tbl_insert_load_inv E t t1 x.1 x.2 (by omega) hI hx
      have h2 : tbl_insert_seq E t1 l = .ok s := by
        unfold tbl_insert_seq
        rw [← h]
        congr 1
        show _ = (Res.ok t).bind _
        rw [← hx]
        rfl
      obtain ⟨g1, g2⟩ := ih t1 s hI1 (by omega) h2
      exact ⟨g1, by omega⟩
    | error e s0 =>
      exfalso
      refine tbl_insert_seq_not_ok E l _ ?_ s h
      intro s2
      show (Res.ok t).bind _ ≠ _
      show tbl_insert E false t x.1 x.2 ≠ _
      rw [hx]; intro h; cases h
    | hang =>
      exfalso
      refine tbl_insert_seq_not_ok E l _ ?_ s h
      intro s2
      show tbl_insert E false t x.1 x.2 ≠ _
      rw [hx]; intro h; cases h
    | nofuel =>
      exfalso
      refine tbl_insert_seq_not_ok E l _ ?_ s h
      intro s2
      show tbl_insert E false t x.1 x.2 ≠ _
      rw [hx]; intro h; cases h

/-- A hashed array with fewer keys than slots has a slot with a nil key. -/
theorem tbl_used_lt_free (array : List Nat) (cap : Nat) (h : tbl_used array cap < cap) :
    ∃ m < cap, array.getD (2 * m) 0 = 0 := by
  by_contra hno
  have : (Finset.range cap).filter (fun m => array.getD (2 * m) 0 ≠ 0) = Finset.range cap := by
    apply Finset.filter_true_of_mem
    intro m hm
    rw [Finset.mem_range] at hm
    intro h0
    exact hno ⟨m, hm, h0⟩
  unfold tbl_used at h
  rw [this, Finset.card_range] at h
  omega

theorem ex_full_reached :
    tbl_insert_seq ex_env (tbl_create ex_env 0)
      [(8, 5), (8, 0), (10, 5), (10, 0), (12, 5), (12, 0), (14, 5)] = .ok ex_full := by
  decide

/-- C31 (code defect), in two parts.  For every table made by `tbl_create`
and a sequence of calls of `tbl_insert` (at most `2 ^ 29` of them, so that
`hash_t` does not wrap), `tbl_ncap(len + nils) = (len + nils) + (len + nils) / 2`
is at most the capacity `2 ^ npw2`, and when the capacity is at least 2 this
gives `len + nils < 2 ^ npw2` and, in a hashed table, a slot with a nil key.
But `tbl_ncap(1) = 1` admits one entry in a table of capacity 1: `ex_full`,
reached from `tbl_create(0)` by three insertions each followed by its deletion
and a fourth insertion (`tbl_resize(t, 1)` shrinks the table to one slot), and
also from `tbl_create(1)` by one insertion, has `len + nils = 1 = 2 ^ npw2` and
no slot with a nil key, and `tbl_lookup` of a key it does not hold never
returns. -/
theorem tbl_load_within_capacity (E : VarEnv) (size : Nat) (ops : List (Nat × Nat))
    (s : tbl_t) (hn : ops.length ≤ 2 ^ 29)
    (h : tbl_insert_seq E (tbl_create E size) ops = .ok s) :
    (tbl_ncap (s.len + s.nils) ≤ 2 ^ s.npw2 ∧
      tbl_ncap (s.len + s.nils) = (s.len + s.nils) + (s.len + s.nils) / 2 ∧
      s.len + s.nils ≤ 2 ^ s.npw2 ∧
      (1 ≤ s.npw2 → s.len + s.nils < 2 ^ s.npw2 ∧
        (¬ s.stride < 2 → ∃ m < 2 ^ s.npw2, s.array.getD (2 * m) 0 = 0))) ∧
    (tbl_insert_seq ex_env (tbl_create ex_env 0)
        [(8, 5), (8, 0), (10, 5), (10, 0), (12, 5), (12, 0), (14, 5)] = .ok ex_full ∧
      tbl_insert_seq ex_env (tbl_create ex_env 1) [(14, 5)] = .ok ex_full ∧
      ex_full.len + ex_full.nils = 2 ^ ex_full.npw2 ∧
      tbl_ncap (ex_full.len + ex_full.nils) ≤ 2 ^ ex_full.npw2 ∧
      ex_full.stride = 2 ∧
      (∀ m < 2 ^ ex_full.npw2, ex_full.array.getD (2 * m) 0 ≠ 0) ∧
      tbl_lookup ex_env (.ref false ex_full .null) 14 = some 5 ∧
      tbl_lookup ex_env (.ref false ex_full .null) 8 = none ∧
      tbl_insert ex_env false ex_full 8 0 = .hang) := by
  constructor
  · obtain ⟨⟨hI1, hI2, hI3⟩, hsum⟩ := tbl_insert_seq_load_inv E ops (tbl_create E size) s
      (tbl_create_load_inv E size) (by show 0 + 0 + ops.length ≤ 2 ^ 29; omega) h
    have hsum2 : s.len + s.nils ≤ 2 ^ 29 := by
      have : (tbl_create E size).len + (tbl_create E size).nils = 0 := rfl
      omega
    have he := tbl_ncap_eq (s.len + s.nils) hsum2
    refine ⟨hI1, he, by omega, ?_⟩
    intro hp
    have h2 : 2 ^ 1 ≤ 2 ^ s.npw2 := Nat.pow_le_pow_right (by norm_num) hp
    have hlt : s.len + s.nils < 2 ^ s.npw2 := by omega
    refine ⟨hlt, fun hs => ?_⟩
    exact tbl_used_lt_free _ _ (Nat.lt_of_le_of_lt (hI3 hs).2 hlt)
  · refine ⟨ex_full_reached, by decide, by decide, by decide, rfl, by decide, by decide,
      by decide, by decide⟩

theorem tbl_load_within_capacity_witness :
    tbl_ncap (2 + 0) ≤ 2 ^ 2 ∧ 2 + 0 < 2 ^ 2 ∧
    ∃ m < 2 ^ 2, ([8, 5, 10, 5, 0, 0, 0, 0] : List Nat).getD (2 * m) 0 = 0 :=
  have h := (tbl_load_within_capacity ex_env 0 [(8, 5), (10, 5)]
    ⟨2, 2, 0, 2, 0, [8, 5, 10, 5, 0, 0, 0, 0]⟩ (by decide) (by decide)).1
  ⟨h.1, (h.2.2.2 (by decide)).1, (h.2.2.2 (by decide)).2 (by decide)⟩

/-! ## The width of the indices of a pairs table -/

theorem mu_npw2_pow_le_iff (m q : Nat) (hm : m ≤ 2 ^ 64) (hq : q ≤ 64) :
    2 ^ mu_npw2 m ≤ 2 ^ q ↔ m ≤ 2 ^ q := by
  constructor
  · intro h
    exact (mu_npw2_le m hm).trans h
  · intro h
    exact Nat.pow_le_pow_right (by norm_num) (mu_npw2_bound m q h hq)

theorem mu_tbl_pairsnpw2_w_eight (len : Nat) :
    mu_tbl_pairsnpw2_w 8 len = mu_tbl_pairsnpw2 len := rfl

theorem mu_tbl_isize_cases (len : Nat) :
    (len ≤ 240 ∧ mu_tbl_isize len = 1) ∨ (240 < len ∧ len ≤ 57344 ∧ mu_tbl_isize len = 2) ∨
    (57344 < len ∧ len ≤ 3221225472 ∧ mu_tbl_isize len = 4) ∨
    (3221225472 < len ∧ mu_tbl_isize len = 8) := by
  unfold mu_tbl_isize
  split
  · right; right; right; exact ⟨by omega, rfl⟩
  · split
    · right; right; left; exact ⟨by omega, by omega, rfl⟩
    · split
      · right; left; exact ⟨by omega, by omega, rfl⟩
      · left; exact ⟨by omega, rfl⟩

/-- In the 64-bit build the indices are wide enough for the table at every
length but 240, 57344 and 3221225472. -/
theorem mu_tbl_pairsnpw2_fit (len : Nat) (hlen : len < 2 ^ 32) :
    2 ^ (mu_tbl_pairsnpw2 len).1 ≤ 2 ^ (8 * (mu_tbl_pairsnpw2 len).2) ↔
      (len ≠ 240 ∧ len ≠ 57344 ∧ len ≠ 3221225472) := by
  unfold mu_tbl_pairsnpw2 MU_MINPAIRS
  simp only []
  rcases mu_tbl_isize_cases len with ⟨h1, hc⟩ | ⟨h1, h2, hc⟩ | ⟨h1, h2, hc⟩ | ⟨h1, hc⟩ <;>
    rw [hc]
  · generalize hm : (if (16 * len + 15) / (16 - 1) < 2 then 2 else (16 * len + 15) / (16 - 1)) = m
    have h2 : m = 2 ∨ m = (16 * len + 15) / (16 - 1) := by rw [← hm]; split <;> simp
    have h3 : 2 ≤ m := by rw [← hm]; split <;> omega
    have h4 : (16 * len + 15) / (16 - 1) ≤ m := by rw [← hm]; split <;> omega
    rw [mu_npw2_pow_le_iff m (8 * 1) (by rcases h2 with h | h <;> omega) (by norm_num)]
    norm_num at h2 h4 ⊢
    constructor
    · intro h; omega
    · intro h; omega
  · generalize hm : (if (16 * len + 15) / (16 - 2) < 2 then 2 else (16 * len + 15) / (16 - 2)) = m
    have h2 : m = 2 ∨ m = (16 * len + 15) / (16 - 2) := by rw [← hm]; split <;> simp
    have h3 : 2 ≤ m := by rw [← hm]; split <;> omega
    have h4 : (16 * len + 15) / (16 - 2) ≤ m := by rw [← hm]; split <;> omega
    rw [mu_npw2_pow_le_iff m (8 * 2) (by rcases h2 with h | h <;> omega) (by norm_num)]
    norm_num at h2 h4 ⊢
    constructor
    · intro h; omega
    · intro h; omega
  · generalize hm : (if (16 * len + 15) / (16 - 4) < 2 then 2 else (16 * len + 15) / (16 - 4)) = m
    have h2 : m = 2 ∨ m = (16 * len + 15) / (16 - 4) := by rw [← hm]; split <;> simp
    have h3 : 2 ≤ m := by rw [← hm]; split <;> omega
    have h4 : (16 * len + 15) / (16 - 4) ≤ m := by rw [← hm]; split <;> omega
    rw [mu_npw2_pow_le_iff m (8 * 4) (by rcases h2 with h | h <;> omega) (by norm_num)]
    norm_num at h2 h4 ⊢
    constructor
    · intro h; omega
    · intro h; omega
  · generalize hm : (if (16 * len + 15) / (16 - 8) < 2 then 2 else (16 * len + 15) / (16 - 8)) = m
    have h2 : m = 2 ∨ m = (16 * len + 15) / (16 - 8) := by rw [← hm]; split <;> simp
    have h3 : 2 ≤ m := by rw [← hm]; split <;> omega
    have h4 : (16 * len + 15) / (16 - 8) ≤ m := by rw [← hm]; split <;> omega
    rw [mu_npw2_pow_le_iff m (8 * 8) (by rcases h2 with h | h <;> omega) (by norm_num)]
    norm_num at h2 h4 ⊢
    constructor
    · intro h; omega
    · intro h; omega

/-- In the 32-bit build (`psize = 8`) the indices are too narrow for the
lengths 224 to 240 and 49152 to 57344. -/
theorem mu_tbl_pairsnpw2_fit_four (len : Nat) (hlen : len < 2 ^ 29) :
    2 ^ (mu_tbl_pairsnpw2_w 4 len).1 ≤ 2 ^ (8 * (mu_tbl_pairsnpw2_w 4 len).2) ↔
      (¬ (224 ≤ len ∧ len ≤ 240) ∧ ¬ (49152 ≤ len ∧ len ≤ 57344)) := by
  unfold mu_tbl_pairsnpw2_w MU_MINPAIRS
  simp only []
  rcases mu_tbl_isize_cases len with ⟨h1, hc⟩ | ⟨h1, h2, hc⟩ | ⟨h1, h2, hc⟩ | ⟨h1, hc⟩ <;>
    rw [hc]
  · generalize hm : (if (2 * 4 * len + 2 * 4 - 1) / (2 * 4 - 1) < 2 then 2
      else (2 * 4 * len + 2 * 4 - 1) / (2 * 4 - 1)) = m
    have h2 : m = 2 ∨ m = (2 * 4 * len + 2 * 4 - 1) / (2 * 4 - 1) := by
      rw [← hm]; split <;> simp
    have h3 : 2 ≤ m := by rw [← hm]; split <;> omega
    have h4 : (2 * 4 * len + 2 * 4 - 1) / (2 * 4 - 1) ≤ m := by rw [← hm]; split <;> omega
    rw [mu_npw2_pow_le_iff m (8 * 1) (by rcases h2 with h | h <;> omega) (by norm_num)]
    norm_num at h2 h4 ⊢
    constructor
    · intro h; omega
    · intro h; omega
  · generalize hm : (if (2 * 4 * len + 2 * 4 - 1) / (2 * 4 - 2) < 2 then 2
      else (2 * 4 * len + 2 * 4 - 1) / (2 * 4 - 2)) = m
    have h2 : m = 2 ∨ m = (2 * 4 * len + 2 * 4 - 1) / (2 * 4 - 2) := by
      rw [← hm]; split <;> simp
    have h3 : 2 ≤ m := by rw [← hm]; split <;> omega
    have h4 : (2 * 4 * len + 2 * 4 - 1) / (2 * 4 - 2) ≤ m := by rw [← hm]; split <;> omega
    rw [mu_npw2_pow_le_iff m (8 * 2) (by rcases h2 with h | h <;> omega) (by norm_num)]
    norm_num at h2 h4 ⊢
    constructor
    · intro h; omega
    · intro h; omega
  · generalize hm : (if (2 * 4 * len + 2 * 4 - 1) / (2 * 4 - 4) < 2 then 2
      else (2 * 4 * len + 2 * 4 - 1) / (2 * 4 - 4)) = m
    have h2 : m = 2 ∨ m = (2 * 4 * len + 2 * 4 - 1) / (2 * 4 - 4) := by
      rw [← hm]; split <;> simp
    have h3 : 2 ≤ m := by rw [← hm]; split <;> omega
    have h4 : (2 * 4 * len + 2 * 4 - 1) / (2 * 4 - 4) ≤ m := by rw [← hm]; split <;> omega
    rw [mu_npw2_pow_le_iff m (8 * 4) (by rcases h2 with h | h <;> omega) (by norm_num)]
    norm_num at h2 h4 ⊢
    constructor
    · intro h; omega
    · intro h; omega
  · omega

/-- In the 32-bit build the table has room for `len` pairs behind its
indices. -/
theorem mu_tbl_pairsnpw2_room_four (len : Nat) (hlen : len < 2 ^ 29) :
    mu_tbl_off_w 4 (mu_tbl_pairsnpw2_w 4 len).1 (mu_tbl_pairsnpw2_w 4 len).2 + len
      ≤ 2 ^ (mu_tbl_pairsnpw2_w 4 len).1 := by
  unfold mu_tbl_pairsnpw2_w MU_MINPAIRS mu_tbl_off_w
  simp only []
  rcases mu_tbl_isize_cases len with ⟨h1, hc⟩ | ⟨h1, h2, hc⟩ | ⟨h1, h2, hc⟩ | ⟨h1, hc⟩ <;>
    rw [hc]
  · generalize hm : (if (2 * 4 * len + 2 * 4 - 1) / (2 * 4 - 1) < 2 then 2
      else (2 * 4 * len + 2 * 4 - 1) / (2 * 4 - 1)) = m
    have h3 : (2 * 4 * len + 2 * 4 - 1) / (2 * 4 - 1) ≤ m ∧ m ≤ 2 ^ 64 := by
      rw [← hm]; split <;> omega
    have := mu_npw2_le m h3.2
    generalize 2 ^ mu_npw2 m = S at this ⊢
    omega
  · generalize hm : (if (2 * 4 * len + 2 * 4 - 1) / (2 * 4 - 2) < 2 then 2
      else (2 * 4 * len + 2 * 4 - 1) / (2 * 4 - 2)) = m
    have h3 : (2 * 4 * len + 2 * 4 - 1) / (2 * 4 - 2) ≤ m ∧ m ≤ 2 ^ 64 := by
      rw [← hm]; split <;> omega
    have := mu_npw2_le m h3.2
    generalize 2 ^ mu_npw2 m = S at this ⊢
    omega
  · generalize hm : (if (2 * 4 * len + 2 * 4 - 1) / (2 * 4 - 4) < 2 then 2
      else (2 * 4 * len + 2 * 4 - 1) / (2 * 4 - 4)) = m
    have h3 : (2 * 4 * len + 2 * 4 - 1) / (2 * 4 - 4) ≤ m ∧ m ≤ 2 ^ 64 := by
      rw [← hm]; split <;> omega
    have := mu_npw2_le m h3.2
    generalize 2 ^ mu_npw2 m = S at this ⊢
    omega
  · omega

/-- C33 (code defect): `mu_tbl_isize` and `mu_tbl_pairsnpw2` disagree at
the thresholds.  In the 64-bit build (`psize = 16`), for every `len < 2 ^ 32`
the table has room for `len` pairs behind its indices, and the size
`2 ^ npw2` is at most `2 ^ (8 * isize)` exactly when `len` is none of 240,
57344 and 3221225472; in the 32-bit build (`psize = 8`) exactly when `len` is
outside `224 .. 240` and `49152 .. 57344`.  Where the size fits,
`mu_tbl_getpair` after `mu_tbl_setpair` gives back every pair index below the
size.  At `len = 240`, the length that `mu_tbl_insert` passes on the 240th
entry, the table has 512 slots and one-byte indices: the pair index 256 is
read back as 0, an empty slot, and 257 as 1. -/
theorem mu_tbl_index_width (len : Nat) (hlen : len < 2 ^ 32) :
    (2 ^ (mu_tbl_pairsnpw2 len).1 ≤ 2 ^ (8 * (mu_tbl_pairsnpw2 len).2) ↔
      (len ≠ 240 ∧ len ≠ 57344 ∧ len ≠ 3221225472)) ∧
    ((mu_tbl_pairsnpw2 len).2 * 2 ^ (mu_tbl_pairsnpw2 len).1 + 15) / 16 + len
      ≤ 2 ^ (mu_tbl_pairsnpw2 len).1 ∧
    (len < 2 ^ 29 →
      (2 ^ (mu_tbl_pairsnpw2_w 4 len).1 ≤ 2 ^ (8 * (mu_tbl_pairsnpw2_w 4 len).2) ↔
        (¬ (224 ≤ len ∧ len ≤ 240) ∧ ¬ (49152 ≤ len ∧ len ≤ 57344))) ∧
      mu_tbl_off_w 4 (mu_tbl_pairsnpw2_w 4 len).1 (mu_tbl_pairsnpw2_w 4 len).2 + len
        ≤ 2 ^ (mu_tbl_pairsnpw2_w 4 len).1) ∧
    (∀ (t : mtbl) (i j : Nat), t.npw2 = (mu_tbl_pairsnpw2 len).1 →
      t.isize = (mu_tbl_pairsnpw2 len).2 → t.array.length = 2 * mu_tbl_size t →
      2 ^ (mu_tbl_pairsnpw2 len).1 ≤ 2 ^ (8 * (mu_tbl_pairsnpw2 len).2) →
      i < mu_tbl_size t → j < mu_tbl_size t →
      mu_tbl_getpair (mu_tbl_setpair t i j) i = j ∧
      ∀ i2, i2 ≠ i → mu_tbl_getpair (mu_tbl_setpair t i j) i2 = mu_tbl_getpair t i2) ∧
    (mu_tbl_insert 3 false ex_list239 8003 8011).map
      (fun s => (s.npw2, s.isize, s.len, s.nils)) = .ok (9, 1, 240, 0) ∧
    mu_tbl_pairsnpw2 240 = (9, 1) ∧ mu_tbl_pairsnpw2 57344 = (17, 2) ∧
    mu_tbl_pairsnpw2_w 4 224 = (9, 1) ∧
    mu_tbl_off ex_pairs240 = 32 ∧
    mu_tbl_getpair (mu_tbl_setpair ex_pairs240 5 256) 5 = 0 ∧
    mu_tbl_getpair (mu_tbl_setpair ex_pairs240 5 257) 5 = 1 := by
  refine ⟨mu_tbl_pairsnpw2_fit len hlen, (mu_tbl_pairsnpw2_room len hlen).2.2,
    fun h => ⟨mu_tbl_pairsnpw2_fit_four len h, mu_tbl_pairsnpw2_room_four len h⟩, ?_,
    ex_list239_insert_shape, by decide!, by decide!, by decide!, by decide!, by decide!,
    by decide!⟩
  intro t i j hn hi hlen2 hfit hi2 hj
  have hc := (mu_tbl_pairsnpw2_room len hlen).1
  rw [← hi] at hc hfit
  rw [← hn] at hfit
  have hroom := (mu_tbl_pairsnpw2_room len hlen).2.2
  rw [← hi, ← hn] at hroom
  have hw := mu_tbl_getpair_word_lt t hc i hi2
  have hoff : mu_tbl_off t ≤ mu_tbl_size t := by
    unfold mu_tbl_off mu_tbl_size; omega
  have hjw : j < 2 ^ (8 * t.isize) := Nat.lt_of_lt_of_le hj hfit
  have h := mu_tbl_getpair_setpair t hc i j hjw (by omega)
  refine ⟨by rw [h i, if_pos rfl], fun i2 hne => by rw [h i2, if_neg hne]⟩

theorem mu_tbl_index_width_witness :
    (2 ^ (mu_tbl_pairsnpw2 240).1 ≤ 2 ^ (8 * (mu_tbl_pairsnpw2 240).2) ↔
      ((240 : Nat) ≠ 240 ∧ (240 : Nat) ≠ 57344 ∧ (240 : Nat) ≠ 3221225472)) ∧
    (2 ^ (mu_tbl_pairsnpw2 239).1 ≤ 2 ^ (8 * (mu_tbl_pairsnpw2 239).2) ↔
      ((239 : Nat) ≠ 240 ∧ (239 : Nat) ≠ 57344 ∧ (239 : Nat) ≠ 3221225472)) :=
  ⟨(mu_tbl_index_width 240 (by decide)).1, (mu_tbl_index_width 239 (by decide)).1⟩

/-! ## Lookup after insertion -/

theorem ex_lost_reached :
    (mu_tbl_insert 2 false (mu_tbl_create 0) (mu_num_fromuint 0) 4099).bind (fun t =>
      (mu_tbl_insert 2 false t (mu_num_fromuint 1) 4107).bind (fun t =>
        (mu_tbl_insert 2 false t (mu_num_fromuint 4) 4123).bind (fun t =>
          (mu_tbl_insert 2 false t (mu_num_fromuint 0) 0).bind (fun t =>
            mu_tbl_insert 2 false t (mu_num_fromuint 0) 4099)))) = .ok ex_lost := by
  decide!

theorem ex_lost_insert :
    mu_tbl_insert 2 false ex_lost (mu_num_fromuint 8) 4131
      = .ok ⟨4, 0, 4, 6, [4099, 4107, 0, 0, 0, 0, 0, 0, 4131, 0, 0, 0, 0, 0, 0, 0]⟩ := by
  decide!

/-- Insertion in place into a list: the key is the number of a word of the
array.  The value is stored in that word, and nothing else of the array
changes. -/
theorem mu_tbl_insert_list_in_place (fuel : Nat) (t : mtbl) (i v : Nat)
    (hl : t.isize = 0) (hn : t.npw2 ≤ 30) (hi : i < mu_tbl_size t)
    (hlen : t.len + 1 ≤ MU_MAXLEN) (hv : v ≠ 0) :
    ∃ s, mu_tbl_insert (fuel + 1) false t (mu_num_fromuint i) v = .ok s ∧
      s.npw2 = t.npw2 ∧ s.isize = 0 ∧ s.array = t.array.set i v := by
  have hslot := mu_tbl_list_slot t hn i hi
  have hlist : mu_tbl_islist t = true := by unfold mu_tbl_islist; simp [hl]
  unfold mu_tbl_insert
  rw [if_neg (by simp), if_neg (mu_num_fromuint_ne_zero i)]
  simp only [hlist, if_true, hslot]
  split
  · exact ⟨_, rfl, rfl, hl, rfl⟩
  · simp only [hv, hlen, if_false, not_true_eq_false, ne_eq, not_false_eq_true]
    exact ⟨_, rfl, rfl, hl, rfl⟩

/-! ## Insertion into a pairs table without expansion -/

/-- Replacing the value of a key that a pairs table holds: the key then looks
up the value and every other key looks up what it did. -/
theorem mu_tbl_insert_pairs_replace (fuel : Nat) (t : mtbl) (k v p : Nat)
    (hw : mu_tbl_wf_pairs t) (hk : k ≠ 0)
    (hp : mu_tbl_probe t k (mu_tbl_size t) (mu_tbl_hash t k) = .hit p) :
    ∃ s, mu_tbl_insert (fuel + 1) false t k v = .ok s ∧
      mu_tbl_lookup (.ref false s .null) k = some v ∧
      ∀ k2, k2 ≠ k →
        mu_tbl_lookup (.ref false s .null) k2 = mu_tbl_lookup (.ref false t .null) k2 := by
  have hw' := hw
  obtain ⟨hi, h1, h30, hlen, hcap, hrange, _, _, _⟩ := hw
  have hne : t.isize ≠ 0 := by rcases hi with h | h | h | h <;> rw [h] <;> decide
  have hlist : mu_tbl_islist t = false := by
    unfold mu_tbl_islist
    rcases hi with h | h | h | h <;> rw [h] <;> rfl
  obtain ⟨hp0, hpk, e, he, hge⟩ := mu_tbl_probe_hit_inv t k p _ _ hp
  have hpr : mu_tbl_off t ≤ p ∧ p < mu_tbl_off t + mu_tbl_count t := by
    rcases hrange e he with hz | hr
    · rw [hge] at hz; exact absurd hz hp0
    · rwa [hge] at hr
  obtain ⟨s, hs⟩ : ∃ s : mtbl, s = { t with
      array := t.array.set (2 * p + 1) v
      len := mlen (t.len + (if v ≠ 0 then 1 else 0) + 2 ^ 32 -
        (if t.array.getD (2 * p + 1) 0 ≠ 0 then 1 else 0))
      nils := mlen (t.nils + (if v = 0 then 1 else 0) + 2 ^ 32 -
        (if t.array.getD (2 * p + 1) 0 = 0 then 1 else 0)) } := ⟨_, rfl⟩
  have hins : mu_tbl_insert (fuel + 1) false t k v = .ok s := by
    unfold mu_tbl_insert
    simp only [Bool.false_eq_true, if_false, hk, hlist, hp]
    rw [hs]
  have esn : s.npw2 = t.npw2 := by rw [hs]
  have esi : s.isize = t.isize := by rw [hs]
  have esa : s.array = t.array.set (2 * p + 1) v := by rw [hs]
  have esz : mu_tbl_size s = mu_tbl_size t := by unfold mu_tbl_size; rw [esn]
  have ehash : ∀ x, mu_tbl_hash s x = mu_tbl_hash t x := by
    intro x; unfold mu_tbl_hash; rw [esn]
  have hgp : ∀ i < mu_tbl_size t, mu_tbl_getpair s i = mu_tbl_getpair t i := by
    intro i hi'
    rw [hs]
    exact mu_tbl_getpair_set t (2 * p + 1) v _ _ (by omega) i hi'
  have hkeys : ∀ q, s.array.getD (2 * q) 0 = t.array.getD (2 * q) 0 := by
    intro q
    rw [esa, getD_set_ne _ _ _ _ (by omega)]
  have hprobe : ∀ x, mu_tbl_probe s x (mu_tbl_size s) (mu_tbl_hash s x)
      = mu_tbl_probe t x (mu_tbl_size t) (mu_tbl_hash t x) := by
    intro x
    rw [esz, ehash]
    exact mu_tbl_probe_congr t s x esn hgp hkeys _ _
  have hsne : s.isize ≠ 0 := by rw [esi]; exact hne
  refine ⟨s, hins, ?_, ?_⟩
  · rw [mu_tbl_lookup_pairs_eq false s k hsne hk, hprobe, hp]
    simp only []
    rw [esa, getD_set_eq t.array (2 * p + 1) v (by omega)]
  · intro k2 hk2
    by_cases h0 : k2 = 0
    · subst h0; rfl
    · rw [mu_tbl_lookup_pairs_eq false s k2 hsne h0, mu_tbl_lookup_pairs_eq false t k2 hne h0,
        hprobe]
      cases hq : mu_tbl_probe t k2 (mu_tbl_size t) (mu_tbl_hash t k2) with
      | hang => rfl
      | miss e2 => rfl
      | hit p2 =>
        simp only []
        have hp2 := (mu_tbl_probe_hit_inv t k2 p2 _ _ hq).2.1
        have hpp : p2 ≠ p := by
          intro h
          rw [h, hpk] at hp2
          exact hk2 hp2.symm
        rw [esa, getD_set_ne _ _ _ _ (by omega)]

/-- The probe loop after a pair `j` with the key `kk` has been stored and
entered in the slot `slot`, which was empty: a probe that ended before that
slot ends as it did, and the probe for `kk`, which ended at the slot, finds
the pair. -/
theorem mu_tbl_probe_after_append (t s : mtbl) (k2 slot j kk : Nat)
    (hn : s.npw2 = t.npw2)
    (hgp : ∀ i < mu_tbl_size t, mu_tbl_getpair s i = if i = slot then j else mu_tbl_getpair t i)
    (hkeys : ∀ i < mu_tbl_size t, mu_tbl_getpair t i ≠ 0 →
      s.array.getD (2 * mu_tbl_getpair t i) 0 = t.array.getD (2 * mu_tbl_getpair t i) 0)
    (hkj : s.array.getD (2 * j) 0 = kk) (hj0 : j ≠ 0)
    (hslot0 : mu_tbl_getpair t slot = 0) :
    ∀ fuel i,
      (∀ p, mu_tbl_probe t k2 fuel i = .hit p → mu_tbl_probe s k2 fuel i = .hit p) ∧
      (∀ e, mu_tbl_probe t k2 fuel i = .miss e → e ≠ slot →
        mu_tbl_probe s k2 fuel i = .miss e) ∧
      (mu_tbl_probe t k2 fuel i = .miss slot → k2 = kk → mu_tbl_probe s k2 fuel i = .hit j) := by
  have esz : mu_tbl_size s = mu_tbl_size t := by unfold mu_tbl_size; rw [hn]
  intro fuel
  induction fuel with
  | zero =>
    intro i
    rw [mu_tbl_probe]
    exact ⟨fun p h => (by cases h), fun e h => (by cases h), fun h => (by cases h)⟩
  | succ fuel ih =>
    intro i
    have hlt : i &&& (mu_tbl_size t - 1) < mu_tbl_size t := by
      rw [mask_eq_mod]; exact Nat.mod_lt _ (mu_tbl_size_pos t)
    rw [mu_tbl_probe, mu_tbl_probe]
    simp only [esz]
    rw [hgp _ hlt]
    by_cases hz : mu_tbl_getpair t (i &&& (mu_tbl_size t - 1)) = 0
    · -- the probe of `t` ends at an empty slot
      rw [if_neg (fun h => h.1 hz), if_pos hz]
      by_cases hes : i &&& (mu_tbl_size t - 1) = slot
      · rw [if_pos hes]
        refine ⟨fun p h => (by cases h), fun e h hne => ?_, fun _ hk => ?_⟩
        · cases h; exact absurd hes hne
        · rw [if_pos ⟨hj0, by rw [hkj, hk]⟩]
      · rw [if_neg hes, if_neg (fun h => h.1 hz), if_pos hz]
        refine ⟨fun p h => (by cases h), fun e h _ => h, fun h _ => ?_⟩
        cases h
        exact absurd rfl hes
    · have hes : i &&& (mu_tbl_size t - 1) ≠ slot := by
        intro h; rw [h] at hz; exact hz hslot0
      rw [if_neg hes, hkeys _ hlt hz]
      by_cases hk : t.array.getD (2 * mu_tbl_getpair t (i &&& (mu_tbl_size t - 1))) 0 = k2
      · rw [if_pos ⟨hz, hk⟩, if_pos ⟨hz, hk⟩]
        exact ⟨fun p h => h, fun e h => (by cases h), fun h => (by cases h)⟩
      · rw [if_neg (fun h => hk h.2), if_neg hz, if_neg (fun h => hk h.2), if_neg hz]
        exact ih (i + 1)

/-- A pairs table in which no two slots point to the same pair and a pair is
still free has an empty slot besides any given one. -/
theorem mu_tbl_second_empty_slot (t : mtbl) (hw : mu_tbl_wf_pairs t)
    (hinj : ∀ i < mu_tbl_size t, ∀ i2 < mu_tbl_size t, mu_tbl_getpair t i ≠ 0 →
      mu_tbl_getpair t i = mu_tbl_getpair t i2 → i = i2)
    (hroom : mu_tbl_off t + mu_tbl_count t < mu_tbl_size t) (slot : Nat) :
    ∃ e < mu_tbl_size t, e ≠ slot ∧ mu_tbl_getpair t e = 0 := by
  have hoff := mu_tbl_off_pos t hw
  obtain ⟨hi, h1, h30, hlen, hcap, hrange, _, _, _⟩ := hw
  by_contra hno
  have hall : ∀ e < mu_tbl_size t, e ≠ slot → mu_tbl_getpair t e ≠ 0 := by
    intro e he hne hz
    exact hno ⟨e, he, hne, hz⟩
  have hcard : ((Finset.range (mu_tbl_size t)).erase slot).card
      ≤ (Finset.Ico (mu_tbl_off t) (mu_tbl_off t + mu_tbl_count t)).card := by
    apply Finset.card_le_card_of_injOn (fun e => mu_tbl_getpair t e)
    · intro e he
      have he2 := Finset.mem_erase.1 (Finset.mem_coe.1 he)
      have he' : e < mu_tbl_size t := Finset.mem_range.1 he2.2
      rcases hrange e he' with hz | ⟨ha, hb⟩
      · exact absurd hz (hall e he' he2.1)
      · exact Finset.mem_Ico.2 ⟨ha, hb⟩
    · intro a ha b hb hab
      have ha2 := Finset.mem_erase.1 (Finset.mem_coe.1 ha)
      have hb2 := Finset.mem_erase.1 (Finset.mem_coe.1 hb)
      have ha' : a < mu_tbl_size t := Finset.mem_range.1 ha2.2
      have hb' : b < mu_tbl_size t := Finset.mem_range.1 hb2.2
      exact hinj a ha' b hb' (hall a ha' ha2.1) hab
  have hge := Finset.pred_card_le_card_erase (s := Finset.range (mu_tbl_size t)) (a := slot)
  rw [Finset.card_range] at hge
  rw [Nat.card_Ico] at hcard
  omega

/-- Inserting a key that a pairs table does not hold, when a pair is free and
the indices are wide enough for the table: the key then looks up the value and
every other key looks up what it did. -/
theorem mu_tbl_insert_pairs_append (fuel : Nat) (t : mtbl) (k v slot : Nat)
    (hw : mu_tbl_wf_pairs t) (hfit : mu_tbl_size t ≤ 2 ^ (8 * t.isize))
    (hinj : ∀ i < mu_tbl_size t, ∀ i2 < mu_tbl_size t, mu_tbl_getpair t i ≠ 0 →
      mu_tbl_getpair t i = mu_tbl_getpair t i2 → i = i2)
    (hk : k ≠ 0) (hv : v ≠ 0) (hmax : t.len + 1 ≤ MU_MAXLEN)
    (hp : mu_tbl_probe t k (mu_tbl_size t) (mu_tbl_hash t k) = .miss slot)
    (hroom : mu_tbl_off t + mu_tbl_count t < mu_tbl_size t) :
    ∃ s, mu_tbl_insert (fuel + 1) false t k v = .ok s ∧
      mu_tbl_lookup (.ref false s .null) k = some v ∧
      ∀ k2, k2 ≠ k →
        mu_tbl_lookup (.ref false s .null) k2 = mu_tbl_lookup (.ref false t .null) k2 := by
  have hw' := hw
  have hoff := mu_tbl_off_pos t hw
  obtain ⟨e0, he0, he0s, he0z⟩ := mu_tbl_second_empty_slot t hw hinj hroom slot
  obtain ⟨hi, h1, h30, hlen, hcap, hrange, _, hreach, _⟩ := hw
  have hne : t.isize ≠ 0 := by rcases hi with h | h | h | h <;> rw [h] <;> decide
  have hlist : mu_tbl_islist t = false := by
    unfold mu_tbl_islist
    rcases hi with h | h | h | h <;> rw [h] <;> rfl
  obtain ⟨hslot, hsz⟩ := mu_tbl_probe_miss_inv t k slot _ _ hp
  obtain ⟨s1, hs1⟩ : ∃ s1 : mtbl, s1 = { t with
      array := (t.array.set (2 * (mu_tbl_off t + mu_tbl_count t)) k).set
        (2 * (mu_tbl_off t + mu_tbl_count t) + 1) v
      len := mlen (t.len + 1) } := ⟨_, rfl⟩
  have e1 : s1.npw2 = t.npw2 := by rw [hs1]
  have e2 : s1.isize = t.isize := by rw [hs1]
  have e5 : s1.array = (t.array.set (2 * (mu_tbl_off t + mu_tbl_count t)) k).set
      (2 * (mu_tbl_off t + mu_tbl_count t) + 1) v := by rw [hs1]
  obtain ⟨esz, eoff⟩ := mu_tbl_shape_congr s1 t e2 e1
  have hins : mu_tbl_insert (fuel + 1) false t k v
      = .ok (mu_tbl_setpair s1 slot (mu_tbl_off t + mu_tbl_count t)) := by
    unfold mu_tbl_insert
    simp only [Bool.false_eq_true, if_false, hk, hlist, hp, hv]
    rw [if_neg (not_not.2 hmax), if_neg (by omega), hs1]
  have hi1 : s1.isize = 1 ∨ s1.isize = 2 ∨ s1.isize = 4 ∨ s1.isize = 8 := by rw [e2]; exact hi
  have hlen1 : s1.array.length = 2 * mu_tbl_size t := by
    rw [e5, List.length_set, List.length_set]; exact hlen
  have hword := mu_tbl_getpair_word_lt t hi slot hslot
  have hgs := mu_tbl_getpair_setpair s1 hi1 slot (mu_tbl_off t + mu_tbl_count t)
    (by rw [e2]; omega) (by rw [e2, hlen1]; omega)
  obtain ⟨f1, f2, f3, f4, f5, f6⟩ := mu_tbl_setpair_fields s1 hi1 slot
    (mu_tbl_off t + mu_tbl_count t) (by rw [esz]; exact hslot)
  have hg1 : ∀ i < mu_tbl_size t, mu_tbl_getpair s1 i = mu_tbl_getpair t i := by
    intro i hi'
    apply mu_tbl_getpair_congr t s1 e2 _ i hi'
    intro q hq
    rw [e5, getD_set_ne _ _ _ _ (by omega), getD_set_ne _ _ _ _ (by omega)]
  obtain ⟨s, hs⟩ : ∃ s, s = mu_tbl_setpair s1 slot (mu_tbl_off t + mu_tbl_count t) := ⟨_, rfl⟩
  rw [← hs] at hins hgs f1 f2 f5 f6
  have esn : s.npw2 = t.npw2 := by rw [f1, e1]
  have esi : s.isize = t.isize := by rw [f2, e2]
  obtain ⟨gsz, goff⟩ := mu_tbl_shape_congr s t esi esn
  have ehash : ∀ x, mu_tbl_hash s x = mu_tbl_hash t x := by
    intro x; unfold mu_tbl_hash; rw [esn]
  have hsne : s.isize ≠ 0 := by rw [esi]; exact hne
  have hgp : ∀ i < mu_tbl_size t, mu_tbl_getpair s i
      = if i = slot then mu_tbl_off t + mu_tbl_count t else mu_tbl_getpair t i := by
    intro i hi'
    rw [hgs i]
    split
    · rfl
    · exact hg1 i hi'
  have harr : ∀ q, 2 * mu_tbl_off t ≤ q → s.array.getD q 0 = s1.array.getD q 0 := by
    intro q hq
    exact f6 q (by rw [eoff]; exact hq)
  have hpairs : ∀ p, mu_tbl_off t ≤ p → p < mu_tbl_off t + mu_tbl_count t →
      s.array.getD (2 * p) 0 = t.array.getD (2 * p) 0 ∧
      s.array.getD (2 * p + 1) 0 = t.array.getD (2 * p + 1) 0 := by
    intro p hpo hpc
    rw [harr _ (by omega), harr _ (by omega), e5, getD_set_ne _ _ _ _ (by omega),
      getD_set_ne _ _ _ _ (by omega), getD_set_ne _ _ _ _ (by omega),
      getD_set_ne _ _ _ _ (by omega)]
    exact ⟨rfl, rfl⟩
  have hnew : s.array.getD (2 * (mu_tbl_off t + mu_tbl_count t)) 0 = k ∧
      s.array.getD (2 * (mu_tbl_off t + mu_tbl_count t) + 1) 0 = v := by
    rw [harr _ (by omega), harr _ (by omega), e5]
    constructor
    · rw [getD_set_ne _ _ _ _ (by omega),
        getD_set_eq t.array (2 * (mu_tbl_off t + mu_tbl_count t)) k (by omega)]
    · rw [getD_set_eq _ (2 * (mu_tbl_off t + mu_tbl_count t) + 1) v
        (by rw [List.length_set]; omega)]
  have hkeys : ∀ i < mu_tbl_size t, mu_tbl_getpair t i ≠ 0 →
      s.array.getD (2 * mu_tbl_getpair t i) 0 = t.array.getD (2 * mu_tbl_getpair t i) 0 := by
    intro i hi' hnz
    rcases hrange i hi' with hz | ⟨ha, hb⟩
    · exact absurd hz hnz
    · exact (hpairs _ ha hb).1
  have hrel := fun k2 => mu_tbl_probe_after_append t s k2 slot (mu_tbl_off t + mu_tbl_count t) k
    esn hgp hkeys hnew.1 (by omega) hsz (mu_tbl_size t) (mu_tbl_hash t k2)
  refine ⟨s, hins, ?_, ?_⟩
  · rw [mu_tbl_lookup_pairs_eq false s k hsne hk, gsz, ehash, (hrel k).2.2 hp rfl]
    simp only []
    rw [hnew.2]
  · intro k2 hk2
    by_cases h0 : k2 = 0
    · subst h0; rfl
    · rw [mu_tbl_lookup_pairs_eq false s k2 hsne h0, mu_tbl_lookup_pairs_eq false t k2 hne h0,
        gsz, ehash]
      cases hq : mu_tbl_probe t k2 (mu_tbl_size t) (mu_tbl_hash t k2) with
      | hang => exact absurd hq (mu_tbl_probe_stops t hw' k2)
      | hit p2 =>
        rw [(hrel k2).1 p2 hq]
        simp only []
        obtain ⟨hp0, _, e, he, hge⟩ := mu_tbl_probe_hit_inv t k2 p2 _ _ hq
        rcases hrange e he with hz | ⟨ha, hb⟩
        · rw [hge] at hz; exact absurd hz hp0
        · rw [hge] at ha hb
          rw [(hpairs p2 ha hb).2]
      | miss e2 =>
        simp only []
        by_cases hes : e2 = slot
        · subst hes
          -- the probe of `s` goes on past the slot, and ends at an empty slot
          obtain ⟨n, hn, hne0⟩ := probe_cover _ (mu_tbl_size_pos t) (mu_tbl_hash t k2) e0 he0
          have hstop := mu_tbl_probe_stops_aux s k2 n (mu_tbl_hash t k2) (mu_tbl_size t) hn
            (by rw [gsz, hne0, hgp e0 he0, if_neg he0s]; exact he0z)
          cases hqs : mu_tbl_probe s k2 (mu_tbl_size t) (mu_tbl_hash t k2) with
          | hang => exact absurd hqs hstop
          | miss e3 => rfl
          | hit p3 =>
            exfalso
            obtain ⟨hp0, hpk, e, he, hge⟩ := mu_tbl_probe_hit_inv s k2 p3 _ _ hqs
            rw [gsz] at he
            rw [hgp e he] at hge
            by_cases hee : e = e2
            · rw [if_pos hee] at hge
              rw [← hge, hnew.1] at hpk
              exact hk2 hpk.symm
            · rw [if_neg hee] at hge
              rcases hrange e he with hz | ⟨ha, hb⟩
              · rw [hge] at hz; exact hp0 hz
              · rw [hge] at ha hb
                have hkt : t.array.getD (2 * p3) 0 = k2 := by
                  rw [← (hpairs p3 ha hb).1]; exact hpk
                have hj : p3 - mu_tbl_off t < mu_tbl_count t := by omega
                have := mu_tbl_probe_hit t hw' k2 (p3 - mu_tbl_off t) hj
                  (by rw [show mu_tbl_off t + (p3 - mu_tbl_off t) = p3 by omega]; exact hkt)
                rw [hq] at this
                cases this
        · rw [(hrel k2).2.1 e2 hq hes]

/-- C32 (code defect), in two parts.  Where the table is not expanded,
`mu_tbl_insert` on a table without a tail does what the claim says, the key
then looks up the value and every other key looks up what it did: in a list
when the key is the number of a word of the array; in a pairs table that
satisfies the representation invariant when the key is held, and when it is
not held while a pair is free, no two slots point to the same pair and the
indices are wide enough for the size.  But an insertion that expands the list
loses entries: the list `ex_lost`, reached from `mu_tbl_create(0)` by five
calls of `mu_tbl_insert`, holds `4123` under the key 4; after
`mu_tbl_insert(t, 8, 4131)` the key 4 looks up nil.  `mu_tbl_listexpand`
copies `len + nils = 4` words of an array that has five in use, the count
being wrong since the key 0 was inserted again.  And the insertion of the
240th entry, which moves the table to pairs mode, loses the keys from 224
on. -/
theorem mu_tbl_insert_lookup_lost (fuel : Nat) (t : mtbl) (i v : Nat)
    (hl : t.isize = 0) (hn : t.npw2 ≤ 30) (ha : t.array.length = mu_tbl_size t)
    (hi : i < mu_tbl_size t) (hlen : t.len + 1 ≤ MU_MAXLEN) (hv : v ≠ 0) :
    (∃ s, mu_tbl_insert (fuel + 1) false t (mu_num_fromuint i) v = .ok s ∧
      mu_tbl_lookup (.ref false s .null) (mu_num_fromuint i) = some v ∧
      ∀ k2, k2 ≠ mu_num_fromuint i →
        mu_tbl_lookup (.ref false s .null) k2 = mu_tbl_lookup (.ref false t .null) k2) ∧
    (∀ (u : mtbl) (k w p : Nat), mu_tbl_wf_pairs u → k ≠ 0 →
      mu_tbl_probe u k (mu_tbl_size u) (mu_tbl_hash u k) = .hit p →
      ∃ s, mu_tbl_insert (fuel + 1) false u k w = .ok s ∧
        mu_tbl_lookup (.ref false s .null) k = some w ∧
        ∀ k2, k2 ≠ k →
          mu_tbl_lookup (.ref false s .null) k2 = mu_tbl_lookup (.ref false u .null) k2) ∧
    (∀ (u : mtbl) (k w slot : Nat), mu_tbl_wf_pairs u →
      mu_tbl_size u ≤ 2 ^ (8 * u.isize) →
      (∀ a < mu_tbl_size u, ∀ b < mu_tbl_size u, mu_tbl_getpair u a ≠ 0 →
        mu_tbl_getpair u a = mu_tbl_getpair u b → a = b) →
      k ≠ 0 → w ≠ 0 → u.len + 1 ≤ MU_MAXLEN →
      mu_tbl_probe u k (mu_tbl_size u) (mu_tbl_hash u k) = .miss slot →
      mu_tbl_off u + mu_tbl_count u < mu_tbl_size u →
      ∃ s, mu_tbl_insert (fuel + 1) false u k w = .ok s ∧
        mu_tbl_lookup (.ref false s .null) k = some w ∧
        ∀ k2, k2 ≠ k →
          mu_tbl_lookup (.ref false s .null) k2 = mu_tbl_lookup (.ref false u .null) k2) ∧
    ((mu_tbl_insert 2 false (mu_tbl_create 0) (mu_num_fromuint 0) 4099).bind (fun t =>
      (mu_tbl_insert 2 false t (mu_num_fromuint 1) 4107).bind (fun t =>
        (mu_tbl_insert 2 false t (mu_num_fromuint 4) 4123).bind (fun t =>
          (mu_tbl_insert 2 false t (mu_num_fromuint 0) 0).bind (fun t =>
            mu_tbl_insert 2 false t (mu_num_fromuint 0) 4099)))) = .ok ex_lost) ∧
    mu_tbl_lookup (.ref false ex_lost .null) (mu_num_fromuint 4) = some 4123 ∧
    mu_tbl_count ex_lost = 4 ∧
    (mu_tbl_insert 2 false ex_lost (mu_num_fromuint 8) 4131).map
      (fun s => (mu_tbl_lookup (.ref false s .null) (mu_num_fromuint 8),
        mu_tbl_lookup (.ref false s .null) (mu_num_fromuint 4), s.array.length))
      = .ok (some 4131, some 0, 16) ∧
    (mu_tbl_lookup (.ref false ex_list239 .null) (mu_num_fromuint 224) = some 5891 ∧
      (mu_tbl_insert 3 false ex_list239 8003 8011).map
        (fun s => (mu_tbl_lookup (.ref false s .null) (mu_num_fromuint 224),
          mu_tbl_lookup (.ref false s .null) 8003))
        = .ok (some 0, some 0)) := by
  refine ⟨?_, ?_, ?_, ex_lost_reached, by decide!, rfl, ?_, ex_list239_lookup_224,
    ex_list239_insert_lookups⟩
  · obtain ⟨s, hs, hsn, hsi, hsa⟩ := mu_tbl_insert_list_in_place fuel t i v hl hn hi hlen hv
    have hsz : mu_tbl_size s = mu_tbl_size t := by unfold mu_tbl_size; rw [hsn]
    refine ⟨s, hs, ?_, ?_⟩
    · rw [mu_tbl_lookup_list_eq false s _ hsi (mu_num_fromuint_ne_zero i), hsz,
        mu_tbl_list_slot t hn i hi, if_pos rfl, hsa, getD_set_eq _ _ _ (by omega)]
    · intro k2 hk2
      by_cases h0 : k2 = 0
      · subst h0; rfl
      · rw [mu_tbl_lookup_list_eq false s _ hsi h0, mu_tbl_lookup_list_eq false t _ hl h0, hsz]
        split
        · rename_i hk
          rw [hsa, getD_set_ne]
          intro hne
          apply hk2
          rw [hk, ← hne]
        · rfl
  · intro u k w p hw hk hp
    exact mu_tbl_insert_pairs_replace fuel u k w p hw hk hp
  · intro u k w slot hw hfit hinj hk hw0 hmax hp hroom
    exact mu_tbl_insert_pairs_append fuel u k w slot hw hfit hinj hk hw0 hmax hp hroom
  · rw [ex_lost_insert]
    decide!

theorem mu_tbl_insert_lookup_lost_witness :
    (∃ s, mu_tbl_insert (0 + 1) false ex_lost (mu_num_fromuint 2) 4115 = .ok s ∧
      mu_tbl_lookup (.ref false s .null) (mu_num_fromuint 2) = some 4115 ∧
      ∀ k2, k2 ≠ mu_num_fromuint 2 →
        mu_tbl_lookup (.ref false s .null) k2 = mu_tbl_lookup (.ref false ex_lost .null) k2) ∧
    (∃ s, mu_tbl_insert (0 + 1) false ex_pairs2 779 8011 = .ok s ∧
      mu_tbl_lookup (.ref false s .null) 779 = some 8011 ∧
      ∀ k2, k2 ≠ 779 →
        mu_tbl_lookup (.ref false s .null) k2 = mu_tbl_lookup (.ref false ex_pairs2 .null) k2) ∧
    (∃ s, mu_tbl_insert (0 + 1) false ex_pairs2 8003 8011 = .ok s ∧
      mu_tbl_lookup (.ref false s .null) 8003 = some 8011 ∧
      ∀ k2, k2 ≠ 8003 →
        mu_tbl_lookup (.ref false s .null) k2 = mu_tbl_lookup (.ref false ex_pairs2 .null) k2) :=
  have h := mu_tbl_insert_lookup_lost 0 ex_lost 2 4115 rfl (by decide) (by decide) (by decide)
    (by decide) (by decide)
  ⟨h.1, h.2.1 ex_pairs2 779 8011 2 (by decide!) (by decide) (by decide!),
    h.2.2.1 ex_pairs2 8003 8011 0 (by decide!) (by decide!) (by decide!) (by decide) (by decide)
      (by decide) (by decide!) (by decide!)⟩

end MuTbl
